import Mathlib

/-!
# dbf2dff: the block-chain writer, the field trimmer and the record driver

A shallow embedding of `src/dbf2dff.c`.

Conventions of the embedding.

* A C `char` is a `Nat` (its byte value); a C string is a `List Nat` without the
  byte `0`; a character buffer is a `List Nat` that may hold `0` bytes, and every
  byte of memory past the listed ones reads as `0` (`List.getD _ _ 0`).
* A `.dff` file is the list of the character sequences written to it, one entry
  per `fprintf` call (each entry ends with the newline byte `10`).
* A `.dft` file is the list of its rows; `Row.text` renders a row as the
  `fprintf` of the source does.
* Files are keyed by the partition index that `dff_GenDfilename` turns into a
  file name.
* `fopen` and the write calls are taken to succeed (no disk exhaustion).
-/

namespace Dbf2dff

/-! ## Constants -/

def DBASE_MEMO_BLOCK : Nat := 512
def DBASE_MEMO_END : Nat := 26
def DBASE_MAX_MEMO_BLOCKS : Nat := 4
def DBASE_LINE_FEED : Nat := 10
def DBASE_CARRIAGE : Nat := 13
def DBASE_DELETED : Nat := 42
def DBASE_CHARACTER_FLD : Nat := 67
def DBASE_NUMERIC_FLD : Nat := 78
def DBASE_MEMO_FLD : Nat := 77

def DF_FREELIST : Int := 0
def DF_REC_END : Int := -1
def DF_ADDR_WIDTH : Nat := 8
def DF_BLOCK_LEN : Nat := 79
def DF_REC_WIDTH : Nat := DF_BLOCK_LEN - DF_ADDR_WIDTH - 1
def DF_MAX_SPLIT : Nat := 28
def DF_OTHER_FILE : Nat := 26
def DF_NUMBER_FILE : Nat := 27
def DF_NOT_SPLIT : Int := -1
def DF_MAX_MEMO_SIZE : Nat := DBASE_MAX_MEMO_BLOCKS * DBASE_MEMO_BLOCK + 1
def DF_DELIM : Nat := 92
def DF_WRITING_RECORD : Nat := 0
def DF_WRITING_MEMO : Nat := 1
def DF_SUCCESS : Nat := 0
def DF_FAILURE : Nat := 1

/-- The space character. -/
def SPACE : Nat := 32

/-- The newline character that ends every `fprintf` line of the source. -/
def NEWLINE : Nat := 10

/-! ## The C library pieces the source uses -/

/-- The C string held in a buffer: the bytes before the first `0`. -/
def cstr (buf : List Nat) : List Nat := buf.takeWhile (fun c => c != 0)

/-- The value of `strlen` on a buffer. -/
def strlen (buf : List Nat) : Nat := (cstr buf).length

/-- Decimal digits of `n`, most significant first; `fuel` bounds the number of digits. -/
def decDigits : Nat → Nat → List Nat
  | 0, _ => []
  | fuel + 1, n =>
    if n < 10 then [48 + n] else decDigits fuel (n / 10) ++ [48 + n % 10]

/-- The text `printf("%ld", n)` prints for a non-negative `n`. -/
def decimal (n : Nat) : List Nat := decDigits (n + 1) n

/-- The text `printf("%ld", v)` prints. -/
def fmtLong (v : Int) : List Nat :=
  if v < 0 then 45 :: decimal v.natAbs else decimal v.natAbs

/-- The text `printf("%*ld", w, v)` prints: right-justified in `w` columns, and
left-justified in `-w` columns when `w` is negative; never truncated. -/
def fmtStar (w : Int) (v : Int) : List Nat :=
  if 0 ≤ w then List.replicate (w.toNat - (fmtLong v).length) SPACE ++ fmtLong v
  else fmtLong v ++ List.replicate (w.natAbs - (fmtLong v).length) SPACE

/-- The value `atol` reads from the digits at the head of a string. -/
def atolDigits : Nat → List Nat → Nat
  | acc, [] => acc
  | acc, c :: cs => if 48 ≤ c ∧ c ≤ 57 then atolDigits (10 * acc + (c - 48)) cs else acc

/-- Whether `isspace` holds in the C locale. -/
def isspace (c : Nat) : Bool := c == 32 || (9 ≤ c && c ≤ 13)

/-- The C library `atol`: leading white space, an optional sign, then digits. -/
def atol (s : List Nat) : Int :=
  match s.dropWhile isspace with
  | 45 :: cs => - (atolDigits 0 cs : Int)
  | 43 :: cs => (atolDigits 0 cs : Int)
  | cs => (atolDigits 0 cs : Int)

/-- Whether `isascii` holds. -/
def isascii (c : Nat) : Bool := c < 128

/-- Whether `isprint` holds in the C locale. -/
def isprint (c : Nat) : Bool := 32 ≤ c && c ≤ 126

/-- Whether `isdigit` holds. -/
def isdigit (c : Nat) : Bool := 48 ≤ c && c ≤ 57

/-- The C library `tolower` in the C locale. -/
def tolower (c : Nat) : Nat := if 65 ≤ c ∧ c ≤ 90 then c + 32 else c

/-- The result of `strncpy(dst, src, n)`: the first `n` bytes of the C string at
`src`, padded with `0` bytes to `n` bytes. -/
def strncpy (src : List Nat) (n : Nat) : List Nat :=
  cstr (src.take n) ++ List.replicate (n - (cstr (src.take n)).length) 0

/-! ## `dff_StripString` and `dff_TrimText` -/

/-- First loop of `dff_StripString`: `while (len > 0 && (str[len-1] == ' ' ||
str[len-1] == DF_DELIM)) str[--len] = 0`. -/
def dff_StripString.trail : Nat → List Nat → List Nat × Nat
  | 0, buf => (buf, 0)
  | len + 1, buf =>
    if buf.getD len 0 = SPACE ∨ buf.getD len 0 = DF_DELIM then
      dff_StripString.trail len (buf.set len 0)
    else (buf, len + 1)

/-- Second loop of `dff_StripString`: `while (str[0] == ' ') str++`. -/
def dff_StripString.lead : List Nat → List Nat
  | [] => []
  | c :: rest => if c = SPACE then dff_StripString.lead rest else c :: rest

/-- The function `dff_StripString(str, len)`: the buffer seen from the advanced
pointer, and the returned length. -/
def dff_StripString (buf : List Nat) (len : Nat) : List Nat × Nat :=
  let r := dff_StripString.trail len buf
  (dff_StripString.lead r.1, r.2)

/-- The replacement the first loop of `dff_TrimText` makes at one position. -/
def dff_TrimText.translate (c : Nat) : Nat :=
  if c = DBASE_LINE_FEED ∨ c = DBASE_CARRIAGE then DF_DELIM
  else if !isascii c || isspace c || !isprint c then SPACE
  else c

/-- First loop of `dff_TrimText`, from index `i`; returns the final `i` and the buffer. -/
def dff_TrimText.scan : Nat → Nat → List Nat → Nat × List Nat
  | 0, i, buf => (i, buf)
  | fuel + 1, i, buf =>
    if buf.getD i 0 ≠ 0 ∧ buf.getD i 0 ≠ DBASE_MEMO_END ∧
        buf.getD (i + 1) 0 ≠ DBASE_MEMO_END then
      dff_TrimText.scan fuel (i + 1) (buf.set i (dff_TrimText.translate (buf.getD i 0)))
    else (i, buf)

/-- Whether a character is the delimiter or a space. -/
def isDelimOrSpace (c : Nat) : Bool := c == DF_DELIM || c == SPACE

/-- The shift `for (l = i ; l < len ; l++) ptr[l] = ptr[l + 1]`, `n` iterations from `l`. -/
def dff_TrimText.shift : Nat → Nat → List Nat → List Nat
  | 0, _, buf => buf
  | n + 1, l, buf => dff_TrimText.shift n (l + 1) (buf.set l (buf.getD (l + 1) 0))

/-- The `while` of the second loop of `dff_TrimText` at a fixed `i`. -/
def dff_TrimText.squeeze : Nat → Nat → Nat → List Nat → Nat × List Nat
  | 0, _, len, buf => (len, buf)
  | fuel + 1, i, len, buf =>
    if i < len ∧ isDelimOrSpace (buf.getD i 0) = true ∧
        isDelimOrSpace (buf.getD (i + 1) 0) = true then
      dff_TrimText.squeeze fuel i (len - 1) ((dff_TrimText.shift (len - i) i buf).set len 0)
    else (len, buf)

/-- The `for` of the second loop of `dff_TrimText`, from index `i`. -/
def dff_TrimText.collapse : Nat → Nat → Nat → List Nat → List Nat
  | 0, _, _, buf => buf
  | fuel + 1, i, len, buf =>
    if i < len then
      let r := dff_TrimText.squeeze len i len buf
      dff_TrimText.collapse fuel (i + 1) r.1 r.2
    else buf

/-- The function `dff_TrimText(&ptr)`: the buffer seen from the pointer it leaves in `ptr`. -/
def dff_TrimText (buf : List Nat) : List Nat :=
  let s := dff_TrimText.scan (buf.length + 1) 0 buf
  let t := dff_StripString (s.2.set (s.1 + 1) 0) s.1
  dff_TrimText.collapse t.2 0 t.2 t.1

/-! ## The conversion state -/

/-- One row of a `.dft` file: the protection mark, the logical record number and
the starting block of the record. -/
structure Row where
  mark : Nat
  logical : Nat
  addr : Nat
deriving DecidableEq, Repr

/-- The text `fprintf(d->dfa, "%c%ld\t%ld\n", ...)` writes for a row. -/
def Row.text (r : Row) : List Nat :=
  r.mark :: (decimal r.logical ++ [9] ++ decimal r.addr ++ [NEWLINE])

/-- The struct `DF_INFO`, with the files it reads and writes. A file handle is
`none` for `NULL` and `some k` when it is open on the file of partition `k`. -/
structure DF_INFO where
  /-- The value of `model`: the Dfile model name. -/
  model : List Nat
  /-- The value of `out_file`: the basename of the output files. -/
  out_file : List Nat
  /-- The value of `split`: the field to split on, or `DF_NOT_SPLIT`. -/
  split : Int
  /-- The value of `indx`: the current .dff/.dfa file in use. -/
  indx : Nat
  /-- The value of `num_flds`: the number of dBase fields. -/
  num_flds : Nat
  /-- The array `fld_type`: the dBase field types. -/
  fld_type : List Nat
  /-- The array `fld_len`: the dBase field lengths. -/
  fld_len : List Nat
  /-- The value of `bytes`: the bytes in a dBase record. -/
  bytes : Nat
  /-- The flag `flags.protect_recs`. -/
  protect_recs : Bool
  /-- The flag `flags.protect_file`. -/
  protect_file : Bool
  /-- The flag `flags.undel`. -/
  undel : Bool
  /-- The value of `num_records`. -/
  num_records : Int
  /-- The value of `rec_num`: the current dBase record. -/
  rec_num : Int
  /-- The array `logical`. -/
  logical : Nat → Nat
  /-- The array `physical`. -/
  physical : Nat → Nat
  /-- The handle `dff`. -/
  dff : Option Nat
  /-- The handle `dfa`. -/
  dfa : Option Nat
  /-- The value `(int)d->rec_buffer`: the address of the record buffer as an `int`. -/
  rec_buffer : Int
  /-- The .dff files on disk, by partition. -/
  dffFile : Nat → Option (List (List Nat))
  /-- The .dft files on disk, by partition. -/
  dftFile : Nat → Option (List Row)
  /-- The .dfa files on disk, by partition. -/
  dfaFile : Nat → Option (List (List Nat))
  /-- The record area of the .dbf file (the bytes after its header). -/
  dbf : List Nat
  /-- The read position in the record area of the .dbf file. -/
  dbf_pos : Nat
  /-- The .dbt file, when the .dbf header announces memos. -/
  dbt : Option (List Nat)

/-- The first line of a .dff file: `fprintf(d->dff, "Version={%s} Model={%s}%*d\n", ...)`
with the width `(DF_REC_WIDTH - (26 + strlen(d->model))) + DF_ADDR_WIDTH`, taken as
the `int` it is read as (negative for a model name of more than 52 characters). -/
def dff_Open.header (model : List Nat) : List Nat :=
  [86, 101, 114, 115, 105, 111, 110, 61, 123] ++ [68, 102, 105, 108, 101, 48, 49] ++
    [125, 32, 77, 111, 100, 101, 108, 61, 123] ++ model ++ [125] ++
    fmtStar (((DF_REC_WIDTH : Int) - (26 + (model.length : Int))) + (DF_ADDR_WIDTH : Int))
      DF_FREELIST ++ [NEWLINE]

/-- The content a file has right after `fopen(name, mode)`, where the mode is
`"a+"` when `append` holds and `"w"` otherwise. -/
def fopenContent {α : Type} (append : Bool) (old : Option (List α)) : List α :=
  if append then old.getD [] else []

/-- Appends one `fprintf` output to the file a handle is open on. -/
def fappend {α : Type} (h : Option Nat) (files : Nat → Option (List α)) (x : List α) :
    Nat → Option (List α) :=
  match h with
  | some k => Function.update files k (some ((files k).getD [] ++ x))
  | none => files

/-- The function `dff_Open`. -/
def dff_Open (d : DF_INFO) : DF_INFO :=
  let app : Bool := decide (d.logical d.indx > 0)
  let d1 : DF_INFO :=
    { d with
      dff := some d.indx
      dffFile := Function.update d.dffFile d.indx (some (fopenContent app (d.dffFile d.indx))) }
  let d2 : DF_INFO :=
    { d1 with
      dfa := some d.indx
      dftFile := Function.update d1.dftFile d.indx (some (fopenContent app (d.dftFile d.indx))) }
  if d2.logical d2.indx = 0 then
    { d2 with dffFile := fappend d2.dff d2.dffFile [dff_Open.header d2.model] }
  else d2

/-- The `while (len > DF_REC_WIDTH)` loop of `dff_WriteBlocks`: the blocks it
writes, the text left at `ptr`, and the value of `physical[indx]` it leaves. -/
def dff_WriteBlocks.loop : Nat → List Nat → Nat → List (List Nat) × List Nat × Nat
  | 0, ptr, phys => ([], ptr, phys)
  | fuel + 1, ptr, phys =>
    if ptr.length > DF_REC_WIDTH then
      let r := dff_WriteBlocks.loop fuel (ptr.drop DF_REC_WIDTH) (phys + 1)
      ((ptr.take DF_REC_WIDTH ++ fmtStar DF_ADDR_WIDTH (((phys + 1 : Nat) : Int) + 1)
          ++ [NEWLINE]) :: r.1, r.2.1, r.2.2)
    else ([], ptr, phys)

/-- The last block of a chain: `fprintf(d->dff, "%s%*d\n", ptr,
(DF_REC_WIDTH - len) + DF_ADDR_WIDTH, DF_REC_END)`. -/
def dff_WriteBlocks.last (ptr : List Nat) : List Nat :=
  ptr ++ fmtStar (((DF_REC_WIDTH : Int) - (ptr.length : Int)) + (DF_ADDR_WIDTH : Int)) DF_REC_END
    ++ [NEWLINE]

/-- The blocks one call of `dff_WriteBlocks` writes for the text `text` when
`physical[indx]` is `phys` (lines 594 to 612 of the source). -/
def dff_WriteBlocks.chain (phys : Nat) (text : List Nat) : List (List Nat) :=
  let r := dff_WriteBlocks.loop text.length text phys
  r.1 ++ [dff_WriteBlocks.last r.2.1]

/-- The text `dff_WriteBlocks` splits into blocks: the string at `ptr`, after
`dff_TrimText` unless a record is written. -/
def dff_WriteBlocks.text (ptr : List Nat) (which : Nat) : List Nat :=
  if which = DF_WRITING_RECORD then cstr ptr else cstr (dff_TrimText ptr)

/-- The state `dff_WriteBlocks` works on after its first statement: the output
files are opened if they are not open. -/
def dff_WriteBlocks.opened (d : DF_INFO) : DF_INFO :=
  if d.dff = none then dff_Open d else d

/-- The function `dff_WriteBlocks(d, ptr, which)`. -/
def dff_WriteBlocks (d : DF_INFO) (ptr : List Nat) (which : Nat) : DF_INFO :=
  let d1 := dff_WriteBlocks.opened d
  let d2 : DF_INFO :=
    if which = DF_WRITING_RECORD then
      { d1 with
        logical := Function.update d1.logical d1.indx (d1.logical d1.indx + 1)
        dftFile := fappend d1.dfa d1.dftFile
          [{ mark := if d1.protect_recs then 45 else 32
             logical := d1.logical d1.indx + 1
             addr := d1.physical d1.indx + 1 }] }
    else d1
  let text := dff_WriteBlocks.text ptr which
  let r := dff_WriteBlocks.loop text.length text (d2.physical d2.indx)
  { d2 with
    dffFile := fappend d2.dff d2.dffFile (r.1 ++ [dff_WriteBlocks.last r.2.1])
    physical := Function.update d2.physical d2.indx (r.2.2 + 1) }

/-- The function `dff_Init`: every counter is zero, no file is open, nothing is
named yet. The files on disk and the fields `num_flds` and `bytes`, which the
source leaves untouched, are kept. -/
def dff_Init (d : DF_INFO) : DF_INFO :=
  { d with
    model := []
    out_file := []
    split := DF_NOT_SPLIT
    indx := 0
    protect_recs := false
    protect_file := false
    undel := false
    dff := none
    dfa := none
    rec_num := 0
    num_records := 0
    physical := fun _ => 0
    logical := fun _ => 0
    fld_type := []
    fld_len := []
    rec_buffer := 0 }

/-! ## Records and memos -/

/-- The two C library calls on `float` the source makes for a numeric field,
taken as parameters: whether `(float)atof(fld)` is zero, and the text
`sprintf(fld, "%g", (float)atof(fld))` leaves in `fld`. -/
structure Libc where
  atof_zero : List Nat → Bool
  fmt_g : List Nat → List Nat

/-- The function `dBase_ProcessMemo(d, addr)`. The `fseek` fails for a negative
offset only, and `fread` returns the bytes from there to the end of the file, at
most `DF_MAX_MEMO_SIZE` of them (it never returns `-1`); `long` is taken unbounded. -/
def dBase_ProcessMemo (d : DF_INFO) (addr : Int) : DF_INFO :=
  match d.dbt with
  | none => d
  | some dbt =>
    if addr * (DBASE_MEMO_BLOCK : Int) < 0 then d
    else
      let got := (dbt.drop (addr * (DBASE_MEMO_BLOCK : Int)).toNat).take DF_MAX_MEMO_SIZE
      dff_WriteBlocks d (got ++ [0]) DF_WRITING_MEMO

/-- How `dBase_ProcessRecord` leaves: it returns, or it calls `dff_CleanUp` with
a status (which ends the program). -/
inductive Outcome where
  | ret (d : DF_INFO)
  | exit (status : Nat) (d : DF_INFO)

/-- The state a function leaves, whichever way it leaves. -/
def Outcome.state : Outcome → DF_INFO
  | Outcome.ret d => d
  | Outcome.exit _ d => d

/-- The partition `dBase_ProcessRecord` selects from `fld[0]`, the first
character of the split field. -/
def dBase_ProcessRecord.route (c : Nat) : Nat :=
  if isdigit c then DF_NUMBER_FILE
  else if ((tolower c : Nat) : Int) - 97 < 0 ∨ ((tolower c : Nat) : Int) - 97 ≥ (DF_MAX_SPLIT : Int)
    then DF_OTHER_FILE
  else (((tolower c : Nat) : Int) - 97).toNat

/-- The field loop of `dBase_ProcessRecord`, from field `i` with `n` fields to
go; `r` is the record buffer, `off` the offset of `ptr` in it, `out` the string
in `out_buffer`. Left: the early return after a change of partition. Right: the
state and `out_buffer` at the end of the loop. -/
def dBase_ProcessRecord.fields (L : Libc) (r : List Nat) (rec_start : Nat) :
    Nat → Nat → DF_INFO → Nat → List Nat → DF_INFO ⊕ (DF_INFO × List Nat)
  | 0, _, d, _, out => Sum.inr (d, out)
  | n + 1, i, d, off, out =>
    let len := d.fld_len.getD i 0
    let fld := strncpy (r.drop off) len ++ [0]
    let sep := if i + 1 < d.num_flds then [DF_DELIM] else []
    if d.fld_type.getD i 0 = DBASE_NUMERIC_FLD then
      let txt := if L.atof_zero (cstr fld) then [] else L.fmt_g (cstr fld)
      dBase_ProcessRecord.fields L r rec_start n (i + 1) d (off + len) (out ++ txt ++ sep)
    else if d.fld_type.getD i 0 = DBASE_MEMO_FLD then
      let old_start := d.physical d.indx
      let d1 := dBase_ProcessMemo d (atol (cstr fld))
      let txt := fmtLong (if d1.physical d1.indx = old_start then DF_FREELIST
        else ((old_start + 1 : Nat) : Int))
      dBase_ProcessRecord.fields L r rec_start n (i + 1) d1 (off + len) (out ++ txt ++ sep)
    else
      let fld1 := dff_TrimText fld
      if (i : Int) = d.split then
        let last := d.indx
        let d1 : DF_INFO := { d with indx := dBase_ProcessRecord.route (fld1.getD 0 0) }
        if last ≠ d1.indx ∧ d1.dff ≠ none then
          Sum.inl { d1 with rec_num := d1.rec_num - 1, dbf_pos := rec_start,
                            dff := none, dfa := none }
        else
          dBase_ProcessRecord.fields L r rec_start n (i + 1) d1 (off + len)
            (out ++ cstr fld1 ++ sep)
      else
        dBase_ProcessRecord.fields L r rec_start n (i + 1) d (off + len)
          (out ++ cstr fld1 ++ sep)

/-- The function `dBase_ProcessRecord`. The test for a deleted record compares
`(int)ptr`, the address of the record buffer, with `DBASE_DELETED`. -/
def dBase_ProcessRecord (L : Libc) (d : DF_INFO) : Outcome :=
  let rec_start := d.dbf_pos
  let got := (d.dbf.drop d.dbf_pos).take d.bytes
  let d1 : DF_INFO := { d with dbf_pos := d.dbf_pos + got.length }
  if got.length ≠ d.bytes then Outcome.exit DF_FAILURE d1
  else if d1.rec_buffer = (DBASE_DELETED : Int) ∧ d1.undel = false then Outcome.ret d1
  else
    match dBase_ProcessRecord.fields L (got ++ [0]) rec_start d1.num_flds 0 d1 1 [] with
    | Sum.inl d2 => Outcome.ret d2
    | Sum.inr (d2, out) => Outcome.ret (dff_WriteBlocks d2 out DF_WRITING_RECORD)

/-- The record loop of `main` followed by its `dff_CleanUp(&d, DF_SUCCESS)`:
the status and the state with which `dff_CleanUp` is called, or `none` when
`fuel` iterations do not end the loop. -/
def main.loop (L : Libc) : Nat → DF_INFO → Option (Nat × DF_INFO)
  | 0, _ => none
  | fuel + 1, d =>
    if d.rec_num < d.num_records then
      match dBase_ProcessRecord L d with
      | Outcome.ret d1 => main.loop L fuel { d1 with rec_num := d1.rec_num + 1 }
      | Outcome.exit status d1 => some (status, d1)
    else some (DF_SUCCESS, d)

/-- The state after at most `k` iterations of the record loop of `main`: the loop
stops earlier when the records are exhausted or `dff_CleanUp` is called. -/
def main.steps (L : Libc) : Nat → DF_INFO → DF_INFO
  | 0, d => d
  | k + 1, d =>
    if d.rec_num < d.num_records then
      match dBase_ProcessRecord L d with
      | Outcome.ret d1 => main.steps L k { d1 with rec_num := d1.rec_num + 1 }
      | Outcome.exit _ d1 => d1
    else d

/-! ## Notions the statements use -/

/-- The content of the .dff file the handle `d->dff` is open on. -/
def storeOf (d : DF_INFO) : List (List Nat) :=
  match d.dff with
  | some k => (d.dffFile k).getD []
  | none => []

/-- A sequence of calls `dff_WriteBlocks(d, ptr, which)`, one per entry `(ptr, which)`. -/
def writeAll (d : DF_INFO) (calls : List (List Nat × Nat)) : DF_INFO :=
  calls.foldl (fun d c => dff_WriteBlocks d c.1 c.2) d

/-- The part of the state the record loop only reads: the configuration, the
field descriptors and the input files. -/
def DF_INFO.config (d : DF_INFO) :
    Int × Nat × List Nat × List Nat × Nat × Bool × Bool × Int × Int × List Nat × Option (List Nat) :=
  (d.split, d.num_flds, d.fld_type, d.fld_len, d.bytes, d.protect_recs, d.undel,
    d.num_records, d.rec_buffer, d.dbf, d.dbt)

/-- The bytes of record number `j` (from 0) in the record area of the .dbf file. -/
def recordAt (d : DF_INFO) (j : Nat) : List Nat :=
  (d.dbf.drop (j * d.bytes)).take d.bytes

/-- The offset of field `i` in the record buffer: one byte for the deletion
mark, then the fields before it. -/
def fieldOffset (fld_len : List Nat) : Nat → Nat
  | 0 => 1
  | i + 1 => fieldOffset fld_len i + fld_len.getD i 0

/-- The transcoded routing field of a record: what `dff_TrimText` leaves of the
split field of the record. -/
def routingField (d : DF_INFO) (r : List Nat) : List Nat :=
  dff_TrimText (strncpy ((r ++ [0]).drop (fieldOffset d.fld_len d.split.toNat))
    (d.fld_len.getD d.split.toNat 0) ++ [0])

/-- The partition selected by the first character of the transcoded routing
field of a record. -/
def routeOf (d : DF_INFO) (r : List Nat) : Nat :=
  dBase_ProcessRecord.route ((routingField d r).getD 0 0)

/-- The state of the index files that every step of a run keeps: the two
handles are open on the file of the current partition or both closed, a file
just created holds no row, and the rows of a partition with records carry the
logical numbers 1, 2, ... and strictly increasing addresses, none above
`physical`. -/
def IndexInv (d : DF_INFO) : Prop :=
  d.dfa = d.dff ∧
  (∀ h, d.dff = some h → h = d.indx ∧ (d.logical h = 0 → d.dftFile h = some [])) ∧
  ∀ k, 0 < d.logical k → ∃ rows : List Row, d.dftFile k = some rows ∧
    rows.map Row.logical = List.range' 1 (d.logical k) ∧
    rows.Pairwise (fun a b => a.addr < b.addr) ∧
    ∀ r ∈ rows, r.addr ≤ d.physical k

/-- A state with every field empty. -/
def DF_INFO.blank : DF_INFO :=
  { model := [], out_file := [], split := DF_NOT_SPLIT, indx := 0, num_flds := 0, fld_type := [],
    fld_len := [], bytes := 0, protect_recs := false, protect_file := false, undel := false,
    num_records := 0, rec_num := 0, logical := fun _ => 0, physical := fun _ => 0, dff := none,
    dfa := none, rec_buffer := 0, dffFile := fun _ => none, dftFile := fun _ => none,
    dfaFile := fun _ => none, dbf := [], dbf_pos := 0, dbt := none }

/-- A stand-in for the C library calls on `float`: every numeric field reads as zero. -/
def Libc.zero : Libc := { atof_zero := fun _ => true, fmt_g := fun s => s }

/-- An example input, as `dBase_Init` leaves the state for `dbf2dff -s 2 -m m`:
two fields, a memo field of width 10 and a character field of width 1 on which
the file is split; two records, whose routing fields are "b" and "a" and whose
memo fields both name block 1 of the .dbt file, which holds the text "x". -/
def DF_INFO.sample : DF_INFO :=
  { dff_Init DF_INFO.blank with
    model := [109]
    split := 1
    num_flds := 2
    fld_type := [DBASE_MEMO_FLD, DBASE_CHARACTER_FLD]
    fld_len := [10, 1]
    bytes := 12
    num_records := 2
    rec_buffer := 4096
    dbf := [32] ++ List.replicate 9 32 ++ [49] ++ [98] ++ ([32] ++ List.replicate 9 32 ++ [49] ++ [97])
    dbt := some (List.replicate 512 0 ++ [120, 26, 26]) }

/-- The lines of a text file: the character runs between newlines. -/
def splitLines : List Nat → List (List Nat)
  | [] => []
  | c :: cs =>
    if c = NEWLINE then [] :: splitLines cs
    else
      match splitLines cs with
      | [] => [[c]]
      | l :: ls => (c :: l) :: ls

/-! ## File names and the end of the run -/

/-- The characters of a string literal of the source. -/
def txt (s : String) : List Nat := s.toList.map Char.toNat

def DF_VERSION_STRING : List Nat := txt ("Dfile01")
def DF_OTHER_NAME : List Nat := txt ("other")
def DF_NUMBER_NAME : List Nat := txt ("numbers")
def DF_TMP_EXT : List Nat := txt ("dft")
def DF_DF_EXT : List Nat := txt ("dff")
def DF_ADR_EXT : List Nat := txt ("dfa")

/-- The function `dff_FileAndExt`: `sprintf(tmp, "%s.%s", file, ext)`. -/
def dff_FileAndExt (file ext : List Nat) : List Nat := file ++ [46] ++ ext

/-- The function `dff_GenDfilename`; the last case is `sprintf(tmp, "%c.%s", d->indx + 'a', ext)`. -/
def dff_GenDfilename (d : DF_INFO) (ext : List Nat) : List Nat :=
  if d.split = DF_NOT_SPLIT then dff_FileAndExt d.out_file ext
  else if d.indx = DF_NUMBER_FILE then dff_FileAndExt DF_NUMBER_NAME ext
  else if d.indx = DF_OTHER_FILE then dff_FileAndExt DF_OTHER_NAME ext
  else [(d.indx + 97) % 256] ++ [46] ++ ext

/-- The text `Dfile_WriteComment(fp, text)` writes: `fprintf(fp, "#\n#\t%s\n#\n", text)`. -/
def Dfile_WriteComment (text : List Nat) : List Nat :=
  [35, 10, 35, 9] ++ text ++ [10, 35, 10]

/-- The lines `dff_DFTtoDFA` writes to the .dfa file before it copies the .dft
file, one entry per call of `Dfile_WriteComment` or `fprintf`. -/
def dff_DFTtoDFA.header (d : DF_INFO) : List (List Nat) :=
  [ Dfile_WriteComment (txt ("Dfile Version")),
    txt ("char\tVersion\t\x7b") ++ DF_VERSION_STRING ++ txt ("\x7d\n"),
    Dfile_WriteComment (txt ("Dfile Model name")),
    txt ("char\tModel\t\x7b") ++ d.model ++ txt ("\x7d\n"),
    txt ("char\tFileProtected\t\x7b") ++ (if d.protect_file then txt ("yes") else txt ("no")) ++
      txt ("\x7d\n"),
    txt ("long\tNumRecords\t") ++ fmtLong (d.logical d.indx : Nat) ++ [NEWLINE],
    Dfile_WriteComment (txt ("a \x60-\x27 marks a record as protected")),
    txt ("long\tRecordAddresses[") ++ fmtLong ((d.logical d.indx * 2 : Nat) : Int) ++ txt ("]\n") ]

/-- The function `dff_DFTtoDFA(d, status)`. Files are named by `dff_GenDfilename`,
that is by `d->indx`. `adr_fails k` tells whether `fopen(adr_file, "w")` fails for
partition `k`; every other call succeeds. Left: `dff_OutOfSpace(d)` is called in
that state. Right: the state and the value returned. -/
def dff_DFTtoDFA (adr_fails : Nat → Bool) (d : DF_INFO) (status : Nat) :
    DF_INFO ⊕ (DF_INFO × Nat) :=
  if status = DF_SUCCESS ∧ d.logical d.indx > 0 then
    if adr_fails d.indx then Sum.inl d
    else
      Sum.inr
        ({ d with
            dfa := some d.indx
            dfaFile := Function.update d.dfaFile d.indx
              (some (dff_DFTtoDFA.header d ++ ((d.dftFile d.indx).getD []).map Row.text))
            dftFile := Function.update d.dftFile d.indx none },
          d.logical d.indx)
  else
    Sum.inr
      ({ d with
          dftFile := Function.update d.dftFile d.indx none
          dffFile := Function.update d.dffFile d.indx none },
        d.logical d.indx)

/-- The loop of `dff_CleanUp` over the partitions, `n` iterations from `d->indx`,
with the running value of `num_converted`. Left: `dff_OutOfSpace` is called. -/
def dff_CleanUp.loop (adr_fails : Nat → Bool) (status : Nat) :
    Nat → DF_INFO → Nat → DF_INFO ⊕ (DF_INFO × Nat)
  | 0, d, num => Sum.inr (d, num)
  | n + 1, d, num =>
    match dff_DFTtoDFA adr_fails d status with
    | Sum.inl d1 => Sum.inl d1
    | Sum.inr (d1, c) =>
      dff_CleanUp.loop adr_fails status n { d1 with indx := d1.indx + 1 } (num + c)

/-- The number of partitions `dff_CleanUp` goes through. -/
def dff_CleanUp.partitions (d : DF_INFO) : Nat :=
  if d.split = DF_NOT_SPLIT then 1 else DF_MAX_SPLIT

/-- The function `dff_OutOfSpace(d)`, that is `dff_CleanUp(d, DF_FAILURE)`: the
state the program exits in (with status `DF_FAILURE`). With that status
`dff_DFTtoDFA` opens no file, so `dff_OutOfSpace` is not called again. -/
def dff_OutOfSpace (adr_fails : Nat → Bool) (d : DF_INFO) : DF_INFO :=
  match dff_CleanUp.loop adr_fails DF_FAILURE (dff_CleanUp.partitions d) { d with indx := 0 } 0 with
  | Sum.inl d1 => d1
  | Sum.inr (d1, _) => d1

/-- The function `dff_CleanUp(d, status)`: the exit status and the state the
program exits in. The files `fclose` closes keep their content; the .hlp and
.dfh files are not part of the state. -/
def dff_CleanUp (adr_fails : Nat → Bool) (d : DF_INFO) (status : Nat) : Nat × DF_INFO :=
  match dff_CleanUp.loop adr_fails status (dff_CleanUp.partitions d) { d with indx := 0 } 0 with
  | Sum.inl d1 => (DF_FAILURE, dff_OutOfSpace adr_fails d1)
  | Sum.inr (d1, _) => (status, d1)

/-- The function `main` from its record loop on: the exit status and the state
the program exits in, or `none` when `fuel` iterations do not end the record loop. -/
def main.run (adr_fails : Nat → Bool) (L : Libc) (fuel : Nat) (d : DF_INFO) :
    Option (Nat × DF_INFO) :=
  (main.loop L fuel d).map (fun r => dff_CleanUp adr_fails r.2 r.1)

/-- An example input, as `dBase_Init` leaves the state for `dbf2dff -s 1 -m m`:
one character field of width 1 on which the file is split, and three records
whose routing fields are "b", "a" and "b", so the files of partition `b` are
closed after the first record and opened again for the third. -/
def DF_INFO.sampleReopen : DF_INFO :=
  { dff_Init DF_INFO.blank with
    model := [109]
    split := 0
    num_flds := 1
    fld_type := [DBASE_CHARACTER_FLD]
    fld_len := [1]
    bytes := 2
    num_records := 3
    rec_buffer := 4096
    dbf := [32, 98, 32, 97, 32, 98] }

/-- The text of field `j` as the field loop of `dBase_ProcessRecord` appends it
to `out_buffer`, `r` being the record buffer: for a numeric field nothing or
what `%g` prints, for a memo field "0" or the decimal text of a block address,
for any other field what `dff_TrimText` leaves of the field. -/
def FieldText (L : Libc) (fld_type fld_len : List Nat) (r : List Nat) (j : Nat)
    (t : List Nat) : Prop :=
  if fld_type.getD j 0 = DBASE_NUMERIC_FLD then
    t = if L.atof_zero (cstr (strncpy (r.drop (fieldOffset fld_len j)) (fld_len.getD j 0) ++ [0]))
        then []
        else L.fmt_g (cstr (strncpy (r.drop (fieldOffset fld_len j)) (fld_len.getD j 0) ++ [0]))
  else if fld_type.getD j 0 = DBASE_MEMO_FLD then
    t = [48] ∨ ∃ p : Nat, t = decimal (p + 1)
  else
    t = cstr (dff_TrimText (strncpy (r.drop (fieldOffset fld_len j)) (fld_len.getD j 0) ++ [0]))

/-! ## Numeric fields: the C library on integers -/

/-- The natural number `v` rounded to `p` significant bits, to nearest and to
even on a tie: the value a binary floating type with a significand of `p` bits
takes for `v`. -/
def roundBits (p v : Nat) : Nat :=
  if v < 2 ^ p then v
  else
    let k := Nat.log2 v + 1 - p
    let q := v / 2 ^ k
    let r := v % 2 ^ k
    (if 2 ^ k < 2 * r ∨ (2 * r = 2 ^ k ∧ q % 2 = 1) then q + 1 else q) * 2 ^ k

/-- The value of `(float)atof(fld)` when `fld` holds the integer `v`: `atof`
gives the nearest `double`, the cast the nearest `float`. -/
def toFloat (v : Nat) : Nat := roundBits 24 (roundBits 53 v)

/-- The text without its trailing characters `0`. -/
def printf_g.strip (ds : List Nat) : List Nat :=
  (ds.reverse.dropWhile (fun c => c == 48)).reverse

/-- The text `sprintf(fld, "%g", val)` leaves in `fld` for a `float` whose value
is the natural number `v`, with the default precision of six significant
digits: below `10 ^ 6` the digits of `v`; from there on one digit, a point, up
to five more digits without trailing zeros, and the exponent with a sign and at
least two digits, the value being rounded to six digits, to even on a tie. -/
def printf_g (v : Nat) : List Nat :=
  if v < 10 ^ 6 then decimal v
  else
    let x := (decimal v).length - 1
    let scale := 10 ^ (x - 5)
    let q := v / scale
    let r := v % scale
    let m := if scale < 2 * r ∨ (2 * r = scale ∧ q % 2 = 1) then q + 1 else q
    let m1 := if m = 10 ^ 6 then 10 ^ 5 else m
    let x1 := if m = 10 ^ 6 then x + 1 else x
    let frac := printf_g.strip ((decimal m1).drop 1)
    (decimal m1).take 1 ++ (if frac = [] then [] else 46 :: frac) ++ [101, 43] ++
      (if x1 < 10 then [48] else []) ++ decimal x1

/-- The exponent part `strtod` reads at the head of a string: `e` or `E`, an
optional sign and at least one digit; 0 when there is none. -/
def strtod.exponent (s : List Nat) : Int :=
  match s with
  | c :: u =>
    if c = 101 ∨ c = 69 then
      match u with
      | 43 :: v => (atolDigits 0 v : Int)
      | 45 :: v => - (atolDigits 0 v : Int)
      | v => (atolDigits 0 v : Int)
    else 0
  | [] => 0

/-- The decimal number at the head of a string as `strtod`, and with it `atof`,
reads it: white space, an optional sign, digits with an optional point among
them, an optional exponent. The result `(m, e)` stands for the magnitude
`m * 10 ^ e`; it is `(0, 0)` when there is no digit to read (no conversion). -/
def strtod (s : List Nat) : Nat × Int :=
  let t := s.dropWhile isspace
  let t1 := match t with
    | 43 :: u => u
    | 45 :: u => u
    | _ => t
  let ip := t1.takeWhile isdigit
  let r := t1.dropWhile isdigit
  let fp := match r with
    | 46 :: u => u.takeWhile isdigit
    | _ => []
  let r2 := match r with
    | 46 :: u => u.dropWhile isdigit
    | _ => r
  if ip = [] ∧ fp = [] then (0, 0)
  else (atolDigits 0 (ip ++ fp), strtod.exponent r2 - (fp.length : Int))

/-- A stand-in for the C library calls on `float` that is exact on a field
holding an integer, that is blanks followed by digits: such a field is zero
when its digits are all zero, its value is rounded to `float`, and `%g` prints
it (`inf` from `2 ^ 128` on). On any other text the stand-in is not the C
library: it takes the digits `strtod` reads as an integer. -/
def Libc.integers : Libc :=
  { atof_zero := fun s => decide ((strtod s).1 = 0)
    fmt_g := fun s =>
      if toFloat (strtod s).1 < 2 ^ 128 then printf_g (toFloat (strtod s).1)
      else [105, 110, 102] }

/-! ## `dBase_Init` -/

def DBASE_HEADER_SIZE : Nat := 32
def DBASE_COOKIE : Nat := 3
def DBASE_MEMO_COOKIE : Nat := 131
def DBASE_FLD_NAME_LEN : Nat := 11

/-- The function `dff_BytesToLong(byte, bytes)`: the number whose bits are the
bits of the bytes, low byte first. -/
def dff_BytesToLong : List Nat → Nat
  | [] => 0
  | b :: bs => b % 256 + 256 * dff_BytesToLong bs

/-- Where the reads of `dBase_Init` stand: the position in the .dbf file and the
content of the global buffer `tmp_byte`. -/
structure Reader where
  pos : Nat
  tmp : List Nat

/-- The macro `GetByte(f)`, that is `getc(f)`: the byte at the position, or
`EOF` (-1) at the end of the file. -/
def GetByte (file : List Nat) (s : Reader) : Int × Reader :=
  match file[s.pos]? with
  | some b => ((b : Int), { s with pos := s.pos + 1 })
  | none => (-1, s)

/-- The call `fread(tmp_byte, 1, n, f)` followed by `dff_BytesToLong(tmp_byte, n)`.
A short read leaves the rest of `tmp_byte` as it was. -/
def GetBytes (n : Nat) (file : List Nat) (s : Reader) : Nat × Reader :=
  let got := (file.drop s.pos).take n
  let tmp := got ++ s.tmp.drop got.length
  (dff_BytesToLong (tmp.take n), { pos := s.pos + got.length, tmp := tmp })

/-- The macro `GetInt(f)`. -/
def GetInt (file : List Nat) (s : Reader) : Nat × Reader := GetBytes 2 file s

/-- The macro `GetLong(f)`; `long` is taken unbounded. -/
def GetLong (file : List Nat) (s : Reader) : Nat × Reader := GetBytes 4 file s

/-- The loop of `dBase_Init` over the field descriptors, `n` of them from field
`i`, with the types and lengths read so far. A `getc` at the end of the file
gives `EOF`; the test on the type of the split field is made on that value, and
it is stored as 0. The result is `none` when `dff_CleanUp(d, DF_FAILURE)` is
called: the name of a field is not read in full, or the split field is not of
type `C`. -/
def dBase_Init.fields (file : List Nat) (split : Int) :
    Nat → Nat → Reader → List Nat → List Nat → Option (List Nat × List Nat × Reader)
  | 0, _, s, ty, ln => some (ty, ln, s)
  | n + 1, i, s, ty, ln =>
    let name := (file.drop s.pos).take DBASE_FLD_NAME_LEN
    if name.length ≠ DBASE_FLD_NAME_LEN then none
    else
      let t := GetByte file { s with pos := s.pos + name.length }
      let a := GetLong file t.2
      let l := GetByte file a.2
      let c := GetByte file l.2
      let r1 := GetLong file c.2
      let r2 := GetLong file r1.2
      let r3 := GetLong file r2.2
      let r4 := GetInt file r3.2
      if (i : Int) = split ∧ split ≠ DF_NOT_SPLIT ∧ t.1 ≠ (DBASE_CHARACTER_FLD : Int) then none
      else dBase_Init.fields file split n (i + 1) r4.2 (ty ++ [t.1.toNat]) (ln ++ [l.1.toNat])

/-- The function `dBase_Init(d)` for a run without the flags `-g` and `-h`.
`dbfFile` and `dbtFile` are the contents of the files `fopen` finds (`none` when
it fails), `buf` is the address `malloc` returns for `rec_buffer`, and `d->split`
holds the number given with `-s`, or `DF_NOT_SPLIT`. The state returned has the
record area of the .dbf file in `dbf`. `Outcome.exit` stands for a call of
`dff_CleanUp(d, DF_FAILURE)`. The field count is kept as the `int` it is for
the test on `split`, and stored as a natural number. -/
def dBase_Init (d : DF_INFO) (buf : Int) (dbfFile dbtFile : Option (List Nat)) : Outcome :=
  match dbfFile with
  | none => Outcome.exit DF_FAILURE d
  | some file =>
    let c := GetByte file { pos := 0, tmp := [0, 0, 0, 0] }
    let cookie := c.1 % 256
    if cookie = (DBASE_MEMO_COOKIE : Int) ∧ dbtFile = none then Outcome.exit DF_FAILURE d
    else if cookie ≠ (DBASE_MEMO_COOKIE : Int) ∧ cookie ≠ (DBASE_COOKIE : Int) then
      Outcome.exit DF_FAILURE d
    else
      let d1 : DF_INFO :=
        { d with dbt := if cookie = (DBASE_MEMO_COOKIE : Int) then dbtFile else none }
      let s3 := (GetByte file (GetByte file (GetByte file c.2).2).2).2
      let nr := GetLong file s3
      let hs := GetInt file nr.2
      let num_flds : Int := Int.tdiv ((hs.1 : Int) - (DBASE_HEADER_SIZE : Int)) (DBASE_HEADER_SIZE : Int)
      let bt := GetInt file hs.2
      let s4 := (GetLong file (GetLong file (GetLong file (GetLong file (GetLong file bt.2).2).2).2).2).2
      let d2 : DF_INFO :=
        { d1 with
          num_records := (nr.1 : Int)
          num_flds := num_flds.toNat
          bytes := bt.1
          rec_buffer := buf }
      let split : Int := if d2.split ≠ DF_NOT_SPLIT then d2.split - 1 else d2.split
      let d3 : DF_INFO := { d2 with split := split }
      if d2.split ≠ DF_NOT_SPLIT ∧ (split < 0 ∨ split > num_flds) then Outcome.exit DF_FAILURE d3
      else
        match dBase_Init.fields file split num_flds.toNat 0 s4 [] [] with
        | none => Outcome.exit DF_FAILURE d3
        | some (ty, ln, s5) =>
          let e := GetByte file s5
          Outcome.ret
            { d3 with fld_type := ty, fld_len := ln, dbf := file.drop e.2.pos, dbf_pos := 0 }

/-- The function `main` from `dBase_Init` on, `d` being the state `dff_Init` and
`dff_DecodeArgs` leave: the exit status and the state the program exits in, or
`none` when `fuel` iterations do not end the record loop. -/
def main.fromInit (adr_fails : Nat → Bool) (L : Libc) (fuel : Nat) (d : DF_INFO) (buf : Int)
    (dbfFile dbtFile : Option (List Nat)) : Option (Nat × DF_INFO) :=
  match dBase_Init d buf dbfFile dbtFile with
  | Outcome.exit status d1 => some (dff_CleanUp adr_fails d1 status)
  | Outcome.ret d1 => main.run adr_fails L fuel d1

/-- A field descriptor of a .dbf header: the name on 11 bytes, the type, 4
bytes, the length, the decimal count, 14 bytes. -/
def sampleDescriptor (name : List Nat) (type len : Nat) : List Nat :=
  name ++ List.replicate (11 - name.length) 0 ++ [type] ++ [0, 0, 0, 0] ++ [len, 0] ++
    List.replicate 14 0

/-- An example .dbf file: no memos, two records of 13 bytes, three fields, a
character field of width 5, a numeric field of width 4 and a character field of
width 3; the records hold "hello", "  12", "abc" and "wor d", "   0", "xyz". -/
def sampleDbf : List Nat :=
  [3, 92, 12, 15] ++ [2, 0, 0, 0] ++ [129, 0] ++ [13, 0] ++ List.replicate 20 0 ++
    sampleDescriptor (txt ("NAME")) 67 5 ++ sampleDescriptor (txt ("QTY")) 78 4 ++
    sampleDescriptor (txt ("TAG")) 67 3 ++ [13] ++
    txt (" hello  12abc") ++ txt (" wor d   0xyz")

/-- The state `dff_Init` and `dff_DecodeArgs` leave for `dbf2dff -s n m`, with
`n` = `DF_NOT_SPLIT` when there is no `-s`. -/
def DF_INFO.args (split : Int) : DF_INFO :=
  { dff_Init DF_INFO.blank with model := [109], out_file := [109], split := split }

/-- The state `dBase_Init` leaves for `dbf2dff m` on the file `sampleDbf`. -/
def DF_INFO.sampleDefault : DF_INFO :=
  (dBase_Init (DF_INFO.args DF_NOT_SPLIT) 4096 (some sampleDbf) none).state

/-- The number of calls of `dBase_ProcessRecord` the record loop of `main` makes
in its first `k` iterations. -/
def main.calls (L : Libc) : Nat → DF_INFO → Nat
  | 0, _ => 0
  | k + 1, d =>
    if d.rec_num < d.num_records then
      match dBase_ProcessRecord L d with
      | Outcome.ret d1 => main.calls L k { d1 with rec_num := d1.rec_num + 1 } + 1
      | Outcome.exit _ _ => 1
    else 0

/-- The example input `DF_INFO.sample` with a memo of 71 characters `x` in block
1 of the .dbt file, so that the chain of a memo has two blocks. -/
def DF_INFO.sampleLongMemo : DF_INFO :=
  { DF_INFO.sample with
    dbt := some (List.replicate 512 0 ++ List.replicate 71 120 ++ [26, 26]) }

/-- A file holds the chains `cs`, in this order, each as a run of consecutive
blocks; other blocks may stand before, between and after them. -/
def HoldsChains : List (List (List Nat)) → List (List Nat) → Prop
  | [], _ => True
  | c :: cs, file => ∃ pre rest, file = pre ++ c ++ rest ∧ HoldsChains cs rest

/-- The chain `c` is a record chain of record `j`: the blocks `dff_WriteBlocks`
writes in record mode, from some value of the counter, for the field texts of
the record joined by the delimiter. -/
def IsRecordChain (L : Libc) (d : DF_INFO) (j : Nat) (c : List (List Nat)) : Prop :=
  ∃ (p : Nat) (texts : List (List Nat)), texts.length = d.num_flds ∧
    (∀ i, i < d.num_flds →
      FieldText L d.fld_type d.fld_len (recordAt d j ++ [0]) i (texts.getD i [])) ∧
    c = dff_WriteBlocks.chain p
      (dff_WriteBlocks.text (List.intercalate [DF_DELIM] texts) DF_WRITING_RECORD)

/-- The state of the store files that a run on the input of `d0` keeps, when the
records before record `j` are written: a file that is open starts with the
header line, and the file of a partition with records holds, after the header
line, one record chain for each record before `j` that the partition is selected
for, in the order of the records; their number is `logical` of the partition. -/
def StoreInv (L : Libc) (d0 : DF_INFO) (j : Nat) (d : DF_INFO) : Prop :=
  d.model = d0.model ∧
  (∀ h, d.dff = some h → ∃ rest, d.dffFile h = some (dff_Open.header d0.model :: rest)) ∧
  ∀ k, ∃ chains : List (List (List Nat)),
    List.Forall₂ (IsRecordChain L d0)
      ((List.range j).filter (fun i => decide (routeOf d0 (recordAt d0 i) = k))) chains ∧
    chains.length = d.logical k ∧
    (0 < d.logical k → ∃ rest, d.dffFile k = some (dff_Open.header d0.model :: rest) ∧
      HoldsChains chains rest)

/-! ## Numeric fields: the C library on decimal numbers -/

/-- Whether the number `strtod` reads at the head of a string has a minus sign. -/
def strtod.negative (s : List Nat) : Bool :=
  match s.dropWhile isspace with
  | 45 :: _ => true
  | _ => false

/-- The exponent of the highest power of `B` that is not above the positive
number `n`; `fuel` bounds the number of divisions. -/
def floorLog (B : Nat) : Nat → Nat → Nat
  | 0, _ => 0
  | fuel + 1, n => if n < B then 0 else floorLog B fuel (n / B) + 1

/-- The exponent of the highest power of `B` that is not above `N / D`, for
positive `N` and `D`: the difference of the exponents of `N` and `D`, or one
less. -/
def ratLog (B N D : Nat) : Int :=
  if 0 ≤ (floorLog B N N : Int) - (floorLog B D D : Int) then
    (if D * B ^ ((floorLog B N N : Int) - (floorLog B D D : Int)).toNat ≤ N then
      (floorLog B N N : Int) - (floorLog B D D : Int)
     else (floorLog B N N : Int) - (floorLog B D D : Int) - 1)
  else
    (if D ≤ N * B ^ (-((floorLog B N N : Int) - (floorLog B D D : Int))).toNat then
      (floorLog B N N : Int) - (floorLog B D D : Int)
     else (floorLog B N N : Int) - (floorLog B D D : Int) - 1)

/-- The text `%g` prints for six digits `s` and the decimal exponent `x`: with
an exponent part when `x < -4` or `x >= 6` (one digit, the point, the other
digits, `e`, a sign and at least two digits), without one otherwise; trailing
zeros after the point are left out, and the point with them when nothing
follows it. -/
def printf_g.text (s : Nat) (x : Int) : List Nat :=
  if x < -4 ∨ 6 ≤ x then
    (decimal s).take 1 ++
      (if printf_g.strip ((decimal s).drop 1) = [] then []
       else 46 :: printf_g.strip ((decimal s).drop 1)) ++
      [101] ++ (if x < 0 then [45] else [43]) ++
      (if x.natAbs < 10 then [48] else []) ++ decimal x.natAbs
  else if 0 ≤ x then
    (decimal s).take (x.toNat + 1) ++
      (if printf_g.strip ((decimal s).drop (x.toNat + 1)) = [] then []
       else 46 :: printf_g.strip ((decimal s).drop (x.toNat + 1)))
  else
    [48, 46] ++ List.replicate ((-x).toNat - 1) 48 ++ printf_g.strip (decimal s)

end Dbf2dff
namespace Dbf2dff

/-! ## The chain one call writes -/

theorem loop_fuel (f1 : Nat) : ∀ (f2 : Nat) (t : List Nat) (p : Nat),
    t.length ≤ f1 → t.length ≤ f2 →
    dff_WriteBlocks.loop f1 t p = dff_WriteBlocks.loop f2 t p := by
  induction f1 with
  | zero =>
    intro f2 t p h1 _
    have ht : t = [] := List.length_eq_zero.mp (Nat.le_zero.mp h1)
    subst ht
    cases f2 <;> simp [dff_WriteBlocks.loop, DF_REC_WIDTH, DF_BLOCK_LEN, DF_ADDR_WIDTH]
  | succ f1 ih =>
    intro f2 t p h1 h2
    cases f2 with
    | zero =>
      have ht : t = [] := List.length_eq_zero.mp (Nat.le_zero.mp h2)
      subst ht
      simp [dff_WriteBlocks.loop, DF_REC_WIDTH, DF_BLOCK_LEN, DF_ADDR_WIDTH]
    | succ f2 =>
      simp only [dff_WriteBlocks.loop]
      by_cases h : t.length > DF_REC_WIDTH
      · simp only [h, if_true]
        have hw : DF_REC_WIDTH = 70 := rfl
        have hd : (t.drop DF_REC_WIDTH).length ≤ f1 := by
          rw [List.length_drop]; omega
        have hd2 : (t.drop DF_REC_WIDTH).length ≤ f2 := by
          rw [List.length_drop]; omega
        rw [ih f2 _ _ hd hd2]
      · simp only [h, if_false]

theorem chain_unfold (p : Nat) (t : List Nat) :
    dff_WriteBlocks.chain p t =
      if t.length > DF_REC_WIDTH then
        (t.take DF_REC_WIDTH ++ fmtStar DF_ADDR_WIDTH (((p + 1 : Nat) : Int) + 1) ++ [NEWLINE]) ::
          dff_WriteBlocks.chain (p + 1) (t.drop DF_REC_WIDTH)
      else [dff_WriteBlocks.last t] := by
  have hw : DF_REC_WIDTH = 70 := rfl
  by_cases h : t.length > DF_REC_WIDTH
  · simp only [h, if_true]
    unfold dff_WriteBlocks.chain
    obtain ⟨n, hn⟩ : ∃ n, t.length = n + 1 := ⟨t.length - 1, by omega⟩
    rw [hn]
    simp only [dff_WriteBlocks.loop, h, if_true]
    have hd : (t.drop DF_REC_WIDTH).length ≤ n := by rw [List.length_drop]; omega
    rw [loop_fuel n (t.drop DF_REC_WIDTH).length _ _ hd (le_refl _)]
    simp
  · simp only [h, if_false]
    unfold dff_WriteBlocks.chain
    cases hl : t.length with
    | zero => simp [dff_WriteBlocks.loop]
    | succ n =>
      have h2 : ¬ (DF_REC_WIDTH < t.length) := by omega
      simp [dff_WriteBlocks.loop, h2]

theorem rec_width : DF_REC_WIDTH = 70 := rfl

theorem chain_length (p : Nat) (t : List Nat) :
    (dff_WriteBlocks.chain p t).length = (t.length - 1) / DF_REC_WIDTH + 1 := by
  generalize h : t.length = n
  induction n using Nat.strong_induction_on generalizing t p with
  | _ n ih =>
    rw [chain_unfold]
    have hw := rec_width
    by_cases hl : t.length > DF_REC_WIDTH
    · simp only [hl, if_true, List.length_cons]
      have hd : (t.drop DF_REC_WIDTH).length < n := by rw [List.length_drop]; omega
      rw [ih _ hd (p + 1) (t.drop DF_REC_WIDTH) rfl, List.length_drop, h, hw]
      omega
    · simp only [hl, if_false, List.length_singleton]
      rw [h, hw] at *
      have : (n - 1) / 70 = 0 := Nat.div_eq_of_lt (by omega)
      omega

/-! ## Printed numbers -/

theorem fmtLong_neg_one : fmtLong DF_REC_END = [45, 49] := by decide

theorem decDigits_range (f : Nat) : ∀ (n c : Nat), c ∈ decDigits f n → 48 ≤ c ∧ c ≤ 57 := by
  induction f with
  | zero => intro n c h; simp [decDigits] at h
  | succ f ih =>
    intro n c h
    simp only [decDigits] at h
    split at h
    · simp at h; omega
    · rcases List.mem_append.mp h with h1 | h1
      · exact ih _ _ h1
      · simp at h1; omega

theorem fmtLong_range (v : Int) (c : Nat) (h : c ∈ fmtLong v) : c = 45 ∨ (48 ≤ c ∧ c ≤ 57) := by
  unfold fmtLong at h
  split at h
  · rcases List.mem_cons.mp h with h1 | h1
    · exact Or.inl h1
    · exact Or.inr (decDigits_range _ _ _ h1)
  · exact Or.inr (decDigits_range _ _ _ h)

theorem fmtStar_range (w v : Int) (c : Nat) (h : c ∈ fmtStar w v) :
    c = SPACE ∨ c = 45 ∨ (48 ≤ c ∧ c ≤ 57) := by
  unfold fmtStar at h
  split at h
  · rcases List.mem_append.mp h with h1 | h1
    · exact Or.inl (List.eq_of_mem_replicate h1)
    · exact Or.inr (fmtLong_range _ _ h1)
  · rcases List.mem_append.mp h with h1 | h1
    · exact Or.inr (fmtLong_range _ _ h1)
    · exact Or.inl (List.eq_of_mem_replicate h1)

theorem fmtStar_no_newline (w v : Int) : NEWLINE ∉ fmtStar w v := by
  intro h
  rcases fmtStar_range _ _ _ h with h1 | h1 | h1
  · exact absurd h1 (by decide)
  · exact absurd h1 (by decide)
  · have : NEWLINE = 10 := rfl
    omega

theorem decDigits_length_le (f : Nat) : ∀ (n k : Nat), 1 ≤ k → n < 10 ^ k →
    (decDigits f n).length ≤ k := by
  induction f with
  | zero => intro n k _ _; simp [decDigits]
  | succ f ih =>
    intro n k hk hn
    simp only [decDigits]
    split
    · simpa using hk
    · rename_i h10
      obtain ⟨k', rfl⟩ : ∃ k', k = k' + 1 := ⟨k - 1, by omega⟩
      have hk' : 1 ≤ k' := by
        by_contra hc
        have : k' = 0 := by omega
        subst this
        simp at hn
        omega
      have hdiv : n / 10 < 10 ^ k' := by
        rw [Nat.div_lt_iff_lt_mul (by decide)]
        rw [pow_succ] at hn
        exact hn
      have := ih (n / 10) k' hk' hdiv
      simp
      omega

theorem decDigits_length_pos (f n : Nat) : 1 ≤ (decDigits (f + 1) n).length := by
  simp only [decDigits]
  split <;> simp

/-! ## `dff_Open` and `dff_WriteBlocks`, field by field -/

theorem ceil_div_width (L : Nat) :
    ⌈(L : ℚ) / (DF_REC_WIDTH : ℚ)⌉₊ = (L + (DF_REC_WIDTH - 1)) / DF_REC_WIDTH := by
  have hw := rec_width
  rw [hw]
  by_cases h0 : L = 0
  · subst h0; simp
  · have hne : (L + (70 - 1)) / 70 ≠ 0 := by
      have : 1 ≤ (L + (70 - 1)) / 70 := by
        rw [Nat.le_div_iff_mul_le (by decide)]; omega
      omega
    rw [Nat.ceil_eq_iff hne]
    have h1 : ((L + (70 - 1)) / 70 - 1) * 70 < L := by
      have := Nat.div_mul_le_self (L + (70 - 1)) 70
      omega
    have h2 : L ≤ ((L + (70 - 1)) / 70) * 70 := by
      have := Nat.lt_div_mul_add (a := L + (70 - 1)) (b := 70) (by decide)
      omega
    constructor
    · rw [lt_div_iff₀ (by norm_num)]
      exact_mod_cast h1
    · rw [div_le_iff₀ (by norm_num)]
      exact_mod_cast h2

theorem dff_Open_indx (d : DF_INFO) : (dff_Open d).indx = d.indx := by
  simp only [dff_Open]; split <;> rfl

theorem dff_Open_physical (d : DF_INFO) : (dff_Open d).physical = d.physical := by
  simp only [dff_Open]; split <;> rfl

theorem dff_Open_logical (d : DF_INFO) : (dff_Open d).logical = d.logical := by
  simp only [dff_Open]; split <;> rfl

theorem dff_Open_dff (d : DF_INFO) : (dff_Open d).dff = some d.indx := by
  simp only [dff_Open]; split <;> rfl

theorem dff_Open_dfa (d : DF_INFO) : (dff_Open d).dfa = some d.indx := by
  simp only [dff_Open]; split <;> rfl

theorem dff_Open_dffFile (d : DF_INFO) :
    (dff_Open d).dffFile = Function.update d.dffFile d.indx
      (some (if d.logical d.indx = 0 then [dff_Open.header d.model]
        else (d.dffFile d.indx).getD [])) := by
  simp only [dff_Open]
  by_cases h : d.logical d.indx = 0
  · simp [h, fappend, fopenContent]
  · have h2 : d.logical d.indx > 0 := Nat.pos_of_ne_zero h
    simp [h, h2, fopenContent]

theorem dff_Open_dftFile (d : DF_INFO) :
    (dff_Open d).dftFile = Function.update d.dftFile d.indx
      (some (if d.logical d.indx = 0 then [] else (d.dftFile d.indx).getD [])) := by
  simp only [dff_Open]
  by_cases h : d.logical d.indx = 0
  · simp [h, fopenContent]
  · have h2 : d.logical d.indx > 0 := Nat.pos_of_ne_zero h
    simp [h, h2, fopenContent]

theorem opened_dff (d : DF_INFO) :
    (dff_WriteBlocks.opened d).dff = some (d.dff.getD d.indx) := by
  unfold dff_WriteBlocks.opened
  cases h : d.dff with
  | none => simp [dff_Open_dff]
  | some k => simp [h]

theorem opened_indx (d : DF_INFO) : (dff_WriteBlocks.opened d).indx = d.indx := by
  unfold dff_WriteBlocks.opened
  split
  · exact dff_Open_indx d
  · rfl

theorem opened_physical (d : DF_INFO) : (dff_WriteBlocks.opened d).physical = d.physical := by
  unfold dff_WriteBlocks.opened
  split
  · exact dff_Open_physical d
  · rfl

theorem opened_logical (d : DF_INFO) : (dff_WriteBlocks.opened d).logical = d.logical := by
  unfold dff_WriteBlocks.opened
  split
  · exact dff_Open_logical d
  · rfl

theorem dff_WriteBlocks_store (d : DF_INFO) (ptr : List Nat) (which : Nat) :
    storeOf (dff_WriteBlocks d ptr which) =
      storeOf (dff_WriteBlocks.opened d) ++
        dff_WriteBlocks.chain (d.physical d.indx) (dff_WriteBlocks.text ptr which) := by
  have h1 := opened_dff d
  have h2 := opened_indx d
  have h3 := opened_physical d
  unfold dff_WriteBlocks storeOf dff_WriteBlocks.chain
  by_cases hw : which = DF_WRITING_RECORD
  · simp [hw, h1, h2, h3, fappend]
  · simp [hw, h1, h2, h3, fappend]

/-- C1, as stated, fails for the empty text: `dff_WriteBlocks` in record mode
appends one block line (the terminal block) although `ceil(0 / 70) = 0`. -/
theorem dff_WriteBlocks_block_count_empty_text :
    ¬ ∃ blocks : List (List Nat),
        storeOf (dff_WriteBlocks (dff_Init DF_INFO.blank) [] DF_WRITING_RECORD) =
          storeOf (dff_WriteBlocks.opened (dff_Init DF_INFO.blank)) ++ blocks ∧
        blocks.length = ⌈((strlen [] : Nat) : ℚ) / (DF_REC_WIDTH : ℚ)⌉₊ := by
  rintro ⟨blocks, h1, h2⟩
  have h0 : strlen [] = 0 := rfl
  rw [h0] at h2
  simp at h2
  subst h2
  have h3 := congrArg List.length h1
  revert h3
  decide

/-- C1 (amended): in record mode `dff_WriteBlocks` appends to the open .dff file
exactly `ceil(L / 70)` block lines when the text has length `L > 0`, and exactly
one block line when the text is empty. -/
theorem dff_WriteBlocks_block_count (d : DF_INFO) (ptr : List Nat) :
    ∃ blocks : List (List Nat),
      storeOf (dff_WriteBlocks d ptr DF_WRITING_RECORD) =
        storeOf (dff_WriteBlocks.opened d) ++ blocks ∧
      blocks.length =
        if strlen ptr = 0 then 1 else ⌈((strlen ptr : Nat) : ℚ) / (DF_REC_WIDTH : ℚ)⌉₊ := by
  refine ⟨_, dff_WriteBlocks_store d ptr DF_WRITING_RECORD, ?_⟩
  rw [chain_length, ceil_div_width]
  have ht : dff_WriteBlocks.text ptr DF_WRITING_RECORD = cstr ptr := by
    simp [dff_WriteBlocks.text]
  rw [ht]
  have hw := rec_width
  unfold strlen
  rw [hw]
  split
  · rename_i h; rw [h]
  · omega

/-! ## Lines and payloads -/

theorem splitLines_line (l rest : List Nat) (h : NEWLINE ∉ l) :
    splitLines (l ++ NEWLINE :: rest) = l :: splitLines rest := by
  induction l with
  | nil => simp [splitLines]
  | cons c l ih =>
    have hc : c ≠ NEWLINE := fun e => h (by simp [e])
    have hl : NEWLINE ∉ l := fun e => h (by simp [e])
    have h2 : splitLines (l.append (NEWLINE :: rest)) = l :: splitLines rest := ih hl
    simp only [List.cons_append, splitLines, hc, if_false, h2]

theorem last_eq (t : List Nat) (h : t.length ≤ DF_REC_WIDTH) :
    dff_WriteBlocks.last t =
      t ++ List.replicate (DF_REC_WIDTH - t.length + 6) SPACE ++ [45, 49] ++ [NEWLINE] := by
  have hw := rec_width
  unfold dff_WriteBlocks.last fmtStar
  rw [fmtLong_neg_one]
  have h1 : (0 : Int) ≤ ((DF_REC_WIDTH : Int) - (t.length : Int)) + (DF_ADDR_WIDTH : Int) := by
    have : DF_ADDR_WIDTH = 8 := rfl
    rw [hw, this]; rw [hw] at h; push_cast; omega
  have h2 : (((DF_REC_WIDTH : Int) - (t.length : Int)) + (DF_ADDR_WIDTH : Int)).toNat - [45, 49].length
      = DF_REC_WIDTH - t.length + 6 := by
    have : DF_ADDR_WIDTH = 8 := rfl
    rw [hw, this]; rw [hw] at h
    simp only [List.length_cons, List.length_nil]
    omega
  rw [if_pos h1, h2]
  simp

theorem chain_lines (p : Nat) (t : List Nat) (h : NEWLINE ∉ t) :
    splitLines (dff_WriteBlocks.chain p t).flatten = (dff_WriteBlocks.chain p t).map List.dropLast := by
  generalize hn : t.length = n
  induction n using Nat.strong_induction_on generalizing t p with
  | _ n ih =>
    rw [chain_unfold]
    have hw := rec_width
    by_cases hl : t.length > DF_REC_WIDTH
    · simp only [hl, if_true, List.flatten_cons, List.map_cons]
      have hd : (t.drop DF_REC_WIDTH).length < n := by rw [List.length_drop]; omega
      have hnl : NEWLINE ∉ t.drop DF_REC_WIDTH := fun e => h (List.mem_of_mem_drop e)
      have hb : NEWLINE ∉ t.take DF_REC_WIDTH ++ fmtStar DF_ADDR_WIDTH (((p + 1 : Nat) : Int) + 1) := by
        intro e
        rcases List.mem_append.mp e with e | e
        · exact h (List.mem_of_mem_take e)
        · exact fmtStar_no_newline _ _ e
      rw [List.append_assoc (List.take _ _ ++ _), List.singleton_append, splitLines_line _ _ hb,
        ih _ hd (p + 1) _ hnl rfl]
      simp
    · simp only [hl, if_false, List.flatten_cons, List.flatten_nil, List.append_nil, List.map_cons,
        List.map_nil]
      have hb : NEWLINE ∉ t ++ fmtStar (((DF_REC_WIDTH : Int) - (t.length : Int)) + (DF_ADDR_WIDTH : Int))
          DF_REC_END := by
        intro e
        rcases List.mem_append.mp e with e | e
        · exact h e
        · exact fmtStar_no_newline _ _ e
      unfold dff_WriteBlocks.last
      have := splitLines_line _ [] hb
      simp only [splitLines] at this
      rw [this]
      simp

theorem last_payload (t : List Nat) (h : t.length ≤ DF_REC_WIDTH) :
    (dff_WriteBlocks.last t).dropLast.take DF_REC_WIDTH =
      t ++ List.replicate (DF_REC_WIDTH - t.length) SPACE := by
  rw [last_eq t h, List.dropLast_concat]
  have hw := rec_width
  rw [List.append_assoc, List.take_append_eq_append_take, List.take_of_length_le h,
    List.take_append_eq_append_take, List.take_replicate]
  simp

theorem chain_payload (p : Nat) (t : List Nat) :
    ((dff_WriteBlocks.chain p t).map (fun b => b.dropLast.take DF_REC_WIDTH)).flatten =
      t ++ List.replicate (DF_REC_WIDTH * (dff_WriteBlocks.chain p t).length - t.length) SPACE := by
  generalize hn : t.length = n
  induction n using Nat.strong_induction_on generalizing t p with
  | _ n ih =>
    rw [chain_unfold]
    have hw := rec_width
    by_cases hl : t.length > DF_REC_WIDTH
    · simp only [hl, if_true, List.flatten_cons, List.map_cons, List.length_cons]
      have hd : (t.drop DF_REC_WIDTH).length < n := by rw [List.length_drop]; omega
      rw [ih _ hd (p + 1) _ rfl]
      have htk : (t.take DF_REC_WIDTH).length = DF_REC_WIDTH := by
        rw [List.length_take]; omega
      rw [List.dropLast_concat, List.take_append_eq_append_take, htk, Nat.sub_self,
        List.take_zero, List.append_nil, List.take_of_length_le (le_of_eq htk),
        ← List.append_assoc, List.take_append_drop, List.length_drop]
      congr 2
      rw [hw] at *
      have := chain_length (p + 1) (t.drop 70)
      omega
    · simp only [hl, if_false, List.flatten_cons, List.flatten_nil, List.append_nil, List.map_cons,
        List.map_nil, List.length_singleton, Nat.mul_one]
      rw [last_payload t (by omega), hn]

/-- C2: round trip of `dff_WriteBlocks`. When the text that is split into blocks
holds no newline, the block lines the call appends, cut to their first 70
characters and concatenated in chain order, are the text followed by spaces
only, all of them the padding of the last block (at most 70 of them). -/
theorem dff_WriteBlocks_round_trip (d : DF_INFO) (ptr : List Nat) (which : Nat)
    (h : NEWLINE ∉ dff_WriteBlocks.text ptr which) :
    ∃ blocks : List (List Nat),
      storeOf (dff_WriteBlocks d ptr which) = storeOf (dff_WriteBlocks.opened d) ++ blocks ∧
      ((splitLines blocks.flatten).map (List.take DF_REC_WIDTH)).flatten =
        dff_WriteBlocks.text ptr which ++
          List.replicate (DF_REC_WIDTH * blocks.length - (dff_WriteBlocks.text ptr which).length)
            SPACE ∧
      DF_REC_WIDTH * blocks.length - (dff_WriteBlocks.text ptr which).length ≤ DF_REC_WIDTH ∧
      (splitLines blocks.flatten).length = blocks.length := by
  refine ⟨_, dff_WriteBlocks_store d ptr which, ?_, ?_, ?_⟩
  · rw [chain_lines _ _ h, List.map_map]
    exact chain_payload _ _
  · rw [chain_length]
    have hw := rec_width
    rw [hw]
    omega
  · rw [chain_lines _ _ h, List.length_map]

/-- C2 at a concrete input: the text "hi" written as a record to a fresh partition. -/
theorem dff_WriteBlocks_round_trip_witness :
    NEWLINE ∉ dff_WriteBlocks.text [104, 105] DF_WRITING_RECORD ∧
    ∃ blocks : List (List Nat),
      storeOf (dff_WriteBlocks (dff_Init DF_INFO.blank) [104, 105] DF_WRITING_RECORD) =
        storeOf (dff_WriteBlocks.opened (dff_Init DF_INFO.blank)) ++ blocks ∧
      ((splitLines blocks.flatten).map (List.take DF_REC_WIDTH)).flatten =
        dff_WriteBlocks.text [104, 105] DF_WRITING_RECORD ++
          List.replicate (DF_REC_WIDTH * blocks.length -
            (dff_WriteBlocks.text [104, 105] DF_WRITING_RECORD).length) SPACE ∧
      DF_REC_WIDTH * blocks.length - (dff_WriteBlocks.text [104, 105] DF_WRITING_RECORD).length
        ≤ DF_REC_WIDTH ∧
      (splitLines blocks.flatten).length = blocks.length :=
  ⟨by decide, dff_WriteBlocks_round_trip (dff_Init DF_INFO.blank) [104, 105] DF_WRITING_RECORD
    (by decide)⟩

/-! ## Reading a printed pointer back -/

theorem atolDigits_decDigits (f : Nat) : ∀ (n acc : Nat) (r : List Nat), n < f →
    atolDigits acc (decDigits f n ++ r) =
      atolDigits (acc * 10 ^ (decDigits f n).length + n) r := by
  induction f with
  | zero => intro n acc r h; omega
  | succ f ih =>
    intro n acc r h
    simp only [decDigits]
    by_cases h10 : n < 10
    · simp only [h10, if_true, List.singleton_append, atolDigits, List.length_singleton, pow_one]
      have h1 : 48 ≤ 48 + n ∧ 48 + n ≤ 57 := by omega
      rw [if_pos h1]
      congr 1
      omega
    · simp only [h10, if_false, List.append_assoc, List.singleton_append, List.length_append,
        List.length_singleton]
      have hlt : n / 10 < f := by omega
      rw [ih (n / 10) acc _ hlt]
      simp only [atolDigits]
      have h1 : 48 ≤ 48 + n % 10 ∧ 48 + n % 10 ≤ 57 := by omega
      rw [if_pos h1]
      congr 1
      rw [pow_succ]
      generalize 10 ^ (decDigits f (n / 10)).length = X
      have := Nat.div_add_mod n 10
      have h3 : acc * (X * 10) = 10 * (acc * X) := by ring
      rw [h3]
      omega

theorem atolDigits_stop (acc : Nat) (r : List Nat)
    (h : ∀ c, r.head? = some c → ¬ (48 ≤ c ∧ c ≤ 57)) : atolDigits acc r = acc := by
  cases r with
  | nil => rfl
  | cons c cs =>
    simp only [atolDigits]
    rw [if_neg (h c rfl)]

theorem atol_digit_head (c : Nat) (cs : List Nat) (h : 48 ≤ c ∧ c ≤ 57) :
    atol (c :: cs) = (atolDigits 0 (c :: cs) : Int) := by
  unfold atol
  have hs : isspace c = false := by
    unfold isspace
    simp
    omega
  simp only [List.dropWhile, hs]
  split
  · rename_i h1; injection h1 with h1 _; omega
  · rename_i h1; injection h1 with h1 _; omega
  · rfl

theorem atol_spaces (m : Nat) (s : List Nat) :
    atol (List.replicate m SPACE ++ s) = atol s := by
  unfold atol
  induction m with
  | zero => simp
  | succ m ih =>
    rw [List.replicate_succ, List.cons_append, List.dropWhile]
    have : isspace SPACE = true := by decide
    simp only [this]
    exact ih

theorem decimal_head (n : Nat) : ∃ c cs, decimal n = c :: cs ∧ 48 ≤ c ∧ c ≤ 57 := by
  have h1 := decDigits_length_pos n n
  have h2 := decDigits_range (n + 1) n
  unfold decimal
  cases h : decDigits (n + 1) n with
  | nil => rw [h] at h1; simp at h1
  | cons c cs => exact ⟨c, cs, rfl, h2 c (by rw [h]; simp)⟩

theorem atol_fmtStar_nat (w : Nat) (n : Nat) :
    atol (fmtStar (w : Int) (n : Int) ++ [NEWLINE]) = (n : Int) := by
  have hl : fmtLong (n : Int) = decimal n := by
    unfold fmtLong
    simp
  unfold fmtStar
  rw [if_pos (by omega), hl, List.append_assoc, atol_spaces]
  obtain ⟨c, cs, hd, hc⟩ := decimal_head n
  have key := atolDigits_decDigits (n + 1) n 0 [NEWLINE] (by omega)
  rw [atolDigits_stop _ [NEWLINE] (by intro c hc; simp at hc; subst hc; decide)] at key
  simp only [Nat.zero_mul, Nat.zero_add] at key
  have hd2 : decDigits (n + 1) n = c :: cs := hd
  rw [hd, List.cons_append, atol_digit_head c _ hc, ← List.cons_append, ← hd2, key]

theorem atol_sentinel : atol (fmtStar (DF_ADDR_WIDTH : Int) DF_REC_END ++ [NEWLINE]) = -1 := by
  decide

/-! ## The blocks of a chain by position -/

theorem chain_get_inner (k : Nat) : ∀ (p : Nat) (t : List Nat),
    k + 1 < (dff_WriteBlocks.chain p t).length →
    (dff_WriteBlocks.chain p t)[k]? =
      some ((t.drop (DF_REC_WIDTH * k)).take DF_REC_WIDTH ++
        fmtStar DF_ADDR_WIDTH (((p + (k + 1) : Nat) : Int) + 1) ++ [NEWLINE]) ∧
    ((t.drop (DF_REC_WIDTH * k)).take DF_REC_WIDTH).length = DF_REC_WIDTH := by
  have hw := rec_width
  induction k with
  | zero =>
    intro p t h
    rw [chain_unfold] at h ⊢
    by_cases hl : t.length > DF_REC_WIDTH
    · simp only [hl, if_true]
      simp
      omega
    · simp [hl] at h
  | succ k ih =>
    intro p t h
    rw [chain_unfold] at h ⊢
    by_cases hl : t.length > DF_REC_WIDTH
    · simp only [hl, if_true, List.length_cons] at h ⊢
      have := ih (p + 1) (t.drop DF_REC_WIDTH) (by omega)
      rw [List.getElem?_cons_succ, this.1]
      have e1 : DF_REC_WIDTH * (k + 1) = DF_REC_WIDTH + DF_REC_WIDTH * k := by ring
      have e2 : p + 1 + (k + 1) = p + (k + 1 + 1) := by ring
      rw [List.drop_drop] at this
      rw [List.drop_drop, e1, e2]
      exact ⟨rfl, this.2⟩
    · simp [hl] at h

theorem chain_get_last (k : Nat) : ∀ (p : Nat) (t : List Nat),
    k + 1 = (dff_WriteBlocks.chain p t).length →
    (dff_WriteBlocks.chain p t)[k]? = some (dff_WriteBlocks.last (t.drop (DF_REC_WIDTH * k))) ∧
    (t.drop (DF_REC_WIDTH * k)).length ≤ DF_REC_WIDTH ∧
    (0 < t.length → 0 < (t.drop (DF_REC_WIDTH * k)).length) := by
  have hw := rec_width
  induction k with
  | zero =>
    intro p t h
    rw [chain_unfold] at h ⊢
    by_cases hl : t.length > DF_REC_WIDTH
    · simp only [hl, if_true, List.length_cons] at h
      have : 0 < (dff_WriteBlocks.chain (p + 1) (t.drop DF_REC_WIDTH)).length := by
        rw [chain_length]; exact Nat.succ_pos _
      omega
    · simp only [hl, if_false]
      simp
      omega
  | succ k ih =>
    intro p t h
    rw [chain_unfold] at h ⊢
    by_cases hl : t.length > DF_REC_WIDTH
    · simp only [hl, if_true, List.length_cons] at h ⊢
      have := ih (p + 1) (t.drop DF_REC_WIDTH) (by omega)
      have e1 : DF_REC_WIDTH * (k + 1) = DF_REC_WIDTH + DF_REC_WIDTH * k := by ring
      rw [List.drop_drop] at this
      rw [List.getElem?_cons_succ, this.1, e1]
      refine ⟨rfl, this.2.1, fun _ => this.2.2 ?_⟩
      rw [List.length_drop]; omega
    · simp [hl] at h

theorem last_pointer (t : List Nat) (h : t.length ≤ DF_REC_WIDTH) :
    (dff_WriteBlocks.last t).drop DF_REC_WIDTH =
      fmtStar (DF_ADDR_WIDTH : Int) DF_REC_END ++ [NEWLINE] := by
  rw [last_eq t h]
  have hw := rec_width
  have e : fmtStar (DF_ADDR_WIDTH : Int) DF_REC_END ++ [NEWLINE] =
      List.replicate 6 SPACE ++ [45, 49] ++ [NEWLINE] := by decide
  rw [e, List.append_assoc, List.append_assoc, List.drop_append_eq_append_drop,
    List.drop_of_length_le (by omega), List.nil_append, List.drop_append_eq_append_drop,
    List.drop_replicate]
  simp

theorem dff_WriteBlocks_row (d : DF_INFO) (ptr : List Nat) (k : Nat)
    (h : (dff_WriteBlocks.opened d).dfa = some k) :
    (dff_WriteBlocks d ptr DF_WRITING_RECORD).dftFile k =
      some (((dff_WriteBlocks.opened d).dftFile k).getD [] ++
        [{ mark := if d.protect_recs then 45 else 32
           logical := d.logical d.indx + 1
           addr := d.physical d.indx + 1 }]) := by
  have h2 := opened_indx d
  have h3 := opened_physical d
  have h4 := opened_logical d
  have h5 : (dff_WriteBlocks.opened d).protect_recs = d.protect_recs := by
    unfold dff_WriteBlocks.opened
    split
    · simp only [dff_Open]; split <;> rfl
    · rfl
  unfold dff_WriteBlocks
  simp [h, h2, h3, h4, h5, fappend]

/-- The pointer structure of a chain. A call of `dff_WriteBlocks` made when
`physical[indx]` is `p` appends `n > 0` blocks; when the file holds the header
and `p` blocks, the `k`-th of them is block number `p + k` of the file; the
pointer field of every block but the last is the decimal `p + k + 1`, that of the
last block is `-1`; the row a record write appends to the .dft file carries the
start address `p + 1`, which is `1` when the counters are as `dff_Init` leaves them. -/
theorem dff_WriteBlocks_pointer_structure (d : DF_INFO) (ptr : List Nat) (which : Nat) :
    ∃ blocks : List (List Nat),
      storeOf (dff_WriteBlocks d ptr which) = storeOf (dff_WriteBlocks.opened d) ++ blocks ∧
      0 < blocks.length ∧
      (∀ k, k < blocks.length →
        (storeOf (dff_WriteBlocks.opened d)).length = d.physical d.indx + 1 →
        (storeOf (dff_WriteBlocks d ptr which))[d.physical d.indx + (k + 1)]? = blocks[k]?) ∧
      (∀ k b, k + 1 < blocks.length → blocks[k]? = some b →
        b.drop DF_REC_WIDTH =
          fmtStar DF_ADDR_WIDTH ((d.physical d.indx + (k + 1) + 1 : Nat) : Int) ++ [NEWLINE] ∧
        atol (b.drop DF_REC_WIDTH) = ((d.physical d.indx + (k + 1) + 1 : Nat) : Int)) ∧
      (∀ b, blocks[blocks.length - 1]? = some b →
        b.drop DF_REC_WIDTH = fmtStar DF_ADDR_WIDTH DF_REC_END ++ [NEWLINE] ∧
        atol (b.drop DF_REC_WIDTH) = DF_REC_END) ∧
      (which = DF_WRITING_RECORD → ∀ k, (dff_WriteBlocks.opened d).dfa = some k →
        (dff_WriteBlocks d ptr which).dftFile k =
          some (((dff_WriteBlocks.opened d).dftFile k).getD [] ++
            [{ mark := if d.protect_recs then 45 else 32
               logical := d.logical d.indx + 1
               addr := d.physical d.indx + 1 }])) ∧
      (∀ (d0 : DF_INFO) (i : Nat), (dff_Init d0).physical i + 1 = 1) := by
  have hstore := dff_WriteBlocks_store d ptr which
  refine ⟨_, hstore, ?_, ?_, ?_, ?_, ?_, ?_⟩
  · rw [chain_length]; exact Nat.succ_pos _
  · intro k hk hlen
    rw [hstore, List.getElem?_append_right (by omega)]
    congr 1
    omega
  · intro k b hk hb
    have := chain_get_inner k (d.physical d.indx) (dff_WriteBlocks.text ptr which) hk
    rw [this.1] at hb
    injection hb with hb
    subst hb
    have e : (d.physical d.indx + (k + 1) + 1 : Nat) = ((d.physical d.indx + (k + 1) : Nat) : Int) + 1 := by
      push_cast; ring
    rw [List.append_assoc, List.drop_append_eq_append_drop, List.drop_of_length_le (le_of_eq this.2),
      this.2, Nat.sub_self, List.drop_zero, List.nil_append]
    refine ⟨by rw [e], ?_⟩
    rw [← e]
    exact atol_fmtStar_nat _ _
  · intro b hb
    have hpos : 0 < (dff_WriteBlocks.chain (d.physical d.indx) (dff_WriteBlocks.text ptr which)).length := by
      rw [chain_length]; exact Nat.succ_pos _
    have := chain_get_last _ (d.physical d.indx) (dff_WriteBlocks.text ptr which)
      (Nat.sub_add_cancel hpos)
    rw [this.1] at hb
    injection hb with hb
    subst hb
    rw [last_pointer _ this.2.1]
    exact ⟨rfl, atol_sentinel⟩
  · intro hw k hk
    subst hw
    exact dff_WriteBlocks_row d ptr k hk
  · intro d0 i
    rfl

/-! ### `dff_TrimText` keeps a property of characters that NUL, space and the delimiter have -/

theorem getD_mem_or_zero (buf : List Nat) (i : Nat) : buf.getD i 0 ∈ buf ∨ buf.getD i 0 = 0 := by
  by_cases h : i < buf.length
  · left
    rw [List.getD_eq_getElem _ _ h]
    exact List.getElem_mem h
  · right
    exact List.getD_eq_default _ _ (by omega)

theorem all_set (P : Nat → Prop) (buf : List Nat) (i v : Nat)
    (h : ∀ x ∈ buf, P x) (hv : P v) : ∀ x ∈ buf.set i v, P x := by
  intro x hx
  rcases List.mem_or_eq_of_mem_set hx with h1 | h1
  · exact h x h1
  · exact h1 ▸ hv

theorem all_getD (P : Nat → Prop) (buf : List Nat) (i : Nat)
    (h : ∀ x ∈ buf, P x) (h0 : P 0) : P (buf.getD i 0) := by
  rcases getD_mem_or_zero buf i with h1 | h1
  · exact h _ h1
  · rw [h1]; exact h0

theorem trail_all (P : Nat → Prop) (h0 : P 0) (len : Nat) : ∀ (buf : List Nat),
    (∀ x ∈ buf, P x) → ∀ x ∈ (dff_StripString.trail len buf).1, P x := by
  induction len with
  | zero => intro buf h; simpa [dff_StripString.trail] using h
  | succ len ih =>
    intro buf h
    simp only [dff_StripString.trail]
    split
    · exact ih _ (all_set P buf len 0 h h0)
    · exact h

theorem lead_suffix (buf : List Nat) : ∀ x ∈ dff_StripString.lead buf, x ∈ buf := by
  induction buf with
  | nil => intro x hx; simp [dff_StripString.lead] at hx
  | cons c rest ih =>
    intro x hx
    simp only [dff_StripString.lead] at hx
    split at hx
    · exact List.mem_cons_of_mem _ (ih x hx)
    · exact hx

theorem scan_all (P : Nat → Prop) (htr : ∀ c, P c → P (dff_TrimText.translate c)) (h0 : P 0)
    (fuel : Nat) : ∀ (i : Nat) (buf : List Nat),
    (∀ x ∈ buf, P x) → ∀ x ∈ (dff_TrimText.scan fuel i buf).2, P x := by
  induction fuel with
  | zero => intro i buf h; simpa [dff_TrimText.scan] using h
  | succ fuel ih =>
    intro i buf h
    simp only [dff_TrimText.scan]
    split
    · exact ih _ _ (all_set P buf i _ h (htr _ (all_getD P buf i h h0)))
    · exact h

theorem shift_all (P : Nat → Prop) (h0 : P 0) (n : Nat) : ∀ (l : Nat) (buf : List Nat),
    (∀ x ∈ buf, P x) → ∀ x ∈ dff_TrimText.shift n l buf, P x := by
  induction n with
  | zero => intro l buf h; simpa [dff_TrimText.shift] using h
  | succ n ih =>
    intro l buf h
    simp only [dff_TrimText.shift]
    exact ih _ _ (all_set P buf l _ h (all_getD P buf (l + 1) h h0))

theorem squeeze_all (P : Nat → Prop) (h0 : P 0) (fuel : Nat) : ∀ (i len : Nat) (buf : List Nat),
    (∀ x ∈ buf, P x) → ∀ x ∈ (dff_TrimText.squeeze fuel i len buf).2, P x := by
  induction fuel with
  | zero => intro i len buf h; simpa [dff_TrimText.squeeze] using h
  | succ fuel ih =>
    intro i len buf h
    simp only [dff_TrimText.squeeze]
    split
    · exact ih _ _ _ (all_set P _ len 0 (shift_all P h0 _ _ _ h) h0)
    · exact h

theorem collapse_all (P : Nat → Prop) (h0 : P 0) (fuel : Nat) : ∀ (i len : Nat) (buf : List Nat),
    (∀ x ∈ buf, P x) → ∀ x ∈ dff_TrimText.collapse fuel i len buf, P x := by
  induction fuel with
  | zero => intro i len buf h; simpa [dff_TrimText.collapse] using h
  | succ fuel ih =>
    intro i len buf h
    simp only [dff_TrimText.collapse]
    split
    · exact ih _ _ _ (squeeze_all P h0 _ _ _ _ h)
    · exact h

theorem dff_TrimText_all (P : Nat → Prop) (htr : ∀ c, P c → P (dff_TrimText.translate c))
    (h0 : P 0) (buf : List Nat) (h : ∀ x ∈ buf, P x) : ∀ x ∈ dff_TrimText buf, P x := by
  unfold dff_TrimText dff_StripString
  apply collapse_all P h0
  intro x hx
  apply trail_all P h0 _ _ _ x (lead_suffix _ x hx)
  exact all_set P _ _ 0 (scan_all P htr h0 _ _ _ h) h0

theorem translate_ne_newline (c : Nat) : dff_TrimText.translate c ≠ NEWLINE := by
  unfold dff_TrimText.translate
  split
  · decide
  · split
    · decide
    · rename_i h1 h2
      intro e
      rw [e] at h1
      exact h1 (Or.inl rfl)

theorem cstr_subset (buf : List Nat) : ∀ x ∈ cstr buf, x ∈ buf := by
  intro x hx
  exact (List.takeWhile_sublist _).subset hx

theorem text_no_newline (ptr : List Nat) (which : Nat) (h : NEWLINE ∉ ptr) :
    NEWLINE ∉ dff_WriteBlocks.text ptr which := by
  unfold dff_WriteBlocks.text
  split
  · exact fun e => h (cstr_subset _ _ e)
  · intro e
    exact dff_TrimText_all (fun x => x ≠ NEWLINE) (fun c _ => translate_ne_newline c) (by decide)
      ptr (fun x hx e2 => h (e2 ▸ hx)) _ (cstr_subset _ _ e) rfl

/-! ## The allocation counter -/

theorem loop_phys (fuel : Nat) : ∀ (t : List Nat) (p : Nat),
    (dff_WriteBlocks.loop fuel t p).2.2 = p + (dff_WriteBlocks.loop fuel t p).1.length := by
  induction fuel with
  | zero => intro t p; simp [dff_WriteBlocks.loop]
  | succ fuel ih =>
    intro t p
    simp only [dff_WriteBlocks.loop]
    split
    · simp only [List.length_cons]
      rw [ih]
      omega
    · simp

theorem dff_WriteBlocks_physical (d : DF_INFO) (ptr : List Nat) (which : Nat) :
    (dff_WriteBlocks d ptr which).physical =
      Function.update d.physical d.indx
        (d.physical d.indx +
          (dff_WriteBlocks.chain (d.physical d.indx) (dff_WriteBlocks.text ptr which)).length) := by
  have h2 := opened_indx d
  have h3 := opened_physical d
  unfold dff_WriteBlocks dff_WriteBlocks.chain
  by_cases hw : which = DF_WRITING_RECORD
  · simp only [hw, if_true, h2, h3, List.length_append, List.length_singleton]
    rw [loop_phys]
    simp [Nat.add_assoc]
  · simp only [hw, if_false, h2, h3, List.length_append, List.length_singleton]
    rw [loop_phys]
    simp [Nat.add_assoc]

theorem dff_WriteBlocks_indx (d : DF_INFO) (ptr : List Nat) (which : Nat) :
    (dff_WriteBlocks d ptr which).indx = d.indx := by
  have h2 := opened_indx d
  unfold dff_WriteBlocks
  by_cases hw : which = DF_WRITING_RECORD
  · simp only [hw, if_true, h2]
  · simp only [hw, if_false, h2]

theorem chain_mem (p : Nat) (t b : List Nat) (hb : b ∈ dff_WriteBlocks.chain p t) :
    (∃ k, k + 1 < (dff_WriteBlocks.chain p t).length ∧
      b = (t.drop (DF_REC_WIDTH * k)).take DF_REC_WIDTH ++
        fmtStar DF_ADDR_WIDTH (((p + (k + 1) : Nat) : Int) + 1) ++ [NEWLINE] ∧
      ((t.drop (DF_REC_WIDTH * k)).take DF_REC_WIDTH).length = DF_REC_WIDTH) ∨
    (b = dff_WriteBlocks.last (t.drop (DF_REC_WIDTH * ((dff_WriteBlocks.chain p t).length - 1))) ∧
      (t.drop (DF_REC_WIDTH * ((dff_WriteBlocks.chain p t).length - 1))).length ≤ DF_REC_WIDTH) := by
  obtain ⟨k, hk, hbk⟩ := List.getElem_of_mem hb
  have hbk2 : (dff_WriteBlocks.chain p t)[k]? = some b := by
    rw [List.getElem?_eq_getElem hk, hbk]
  by_cases hlast : k + 1 < (dff_WriteBlocks.chain p t).length
  · left
    have := chain_get_inner k p t hlast
    rw [this.1] at hbk2
    injection hbk2 with hbk2
    exact ⟨k, hlast, hbk2.symm, this.2⟩
  · right
    have hk1 : k + 1 = (dff_WriteBlocks.chain p t).length := by omega
    have := chain_get_last k p t hk1
    rw [this.1] at hbk2
    injection hbk2 with hbk2
    have e : (dff_WriteBlocks.chain p t).length - 1 = k := by omega
    rw [e]
    exact ⟨hbk2.symm, this.2.1⟩

theorem fmtLong_nat_length (n : Nat) (h : n < 10 ^ 8) : (fmtLong (n : Int)).length ≤ 8 := by
  have hl : fmtLong (n : Int) = decimal n := by
    unfold fmtLong
    simp
  rw [hl]
  exact decDigits_length_le _ _ 8 (by decide) h

/-- C8: fixed block width. When the text `dff_WriteBlocks` splits into blocks
(the string at `ptr`, after `dff_TrimText` for a memo) holds no newline and the
counter the call leaves has at most 8 digits, every block the call appends is
78 characters without a newline followed by a newline (79 in all): a payload
area of 70 characters, then the decimal pointer (`-1` or the number of the next
block) right-justified with spaces in 8 columns. -/
theorem dff_WriteBlocks_block_width (d : DF_INFO) (ptr : List Nat) (which : Nat)
    (hnl : NEWLINE ∉ dff_WriteBlocks.text ptr which)
    (hp : (dff_WriteBlocks d ptr which).physical d.indx < 10 ^ 8) :
    ∃ blocks : List (List Nat),
      storeOf (dff_WriteBlocks d ptr which) = storeOf (dff_WriteBlocks.opened d) ++ blocks ∧
      ∀ b ∈ blocks, b.length = DF_BLOCK_LEN ∧
        ∃ (payload : List Nat) (v : Int),
          b = payload ++
            (List.replicate (DF_ADDR_WIDTH - (fmtLong v).length) SPACE ++ fmtLong v) ++ [NEWLINE] ∧
          payload.length = DF_REC_WIDTH ∧ NEWLINE ∉ payload ∧
          (fmtLong v).length ≤ DF_ADDR_WIDTH ∧
          NEWLINE ∉ List.replicate (DF_ADDR_WIDTH - (fmtLong v).length) SPACE ++ fmtLong v ∧
          (v = DF_REC_END ∨
            ∃ k, k + 1 < blocks.length ∧ v = ((d.physical d.indx + (k + 1) + 1 : Nat) : Int)) := by
  have hw := rec_width
  have ha : DF_ADDR_WIDTH = 8 := rfl
  have hbl : DF_BLOCK_LEN = 79 := rfl
  have htext := hnl
  rw [dff_WriteBlocks_physical, Function.update_same] at hp
  refine ⟨_, dff_WriteBlocks_store d ptr which, ?_⟩
  intro b hb
  have hfield : ∀ v : Int, (fmtLong v).length ≤ DF_ADDR_WIDTH →
      fmtStar (DF_ADDR_WIDTH : Int) v =
        List.replicate (DF_ADDR_WIDTH - (fmtLong v).length) SPACE ++ fmtLong v := by
    intro v _
    unfold fmtStar
    rw [if_pos (by omega)]
    rfl
  rcases chain_mem _ _ _ hb with ⟨k, hk, hbk, hlen⟩ | ⟨hbk, hlen⟩
  · have e : (((d.physical d.indx + (k + 1) : Nat) : Int) + 1) =
        ((d.physical d.indx + (k + 1) + 1 : Nat) : Int) := by push_cast; ring
    have hv : (fmtLong ((d.physical d.indx + (k + 1) + 1 : Nat) : Int)).length ≤ DF_ADDR_WIDTH := by
      rw [ha]
      exact fmtLong_nat_length _ (by omega)
    have hb2 : b = (List.take DF_REC_WIDTH
          (List.drop (DF_REC_WIDTH * k) (dff_WriteBlocks.text ptr which))) ++
        (List.replicate (DF_ADDR_WIDTH -
          (fmtLong ((d.physical d.indx + (k + 1) + 1 : Nat) : Int)).length) SPACE ++
          fmtLong ((d.physical d.indx + (k + 1) + 1 : Nat) : Int)) ++ [NEWLINE] := by
      rw [hbk, e, hfield _ hv]
    have hnf : NEWLINE ∉ List.replicate (DF_ADDR_WIDTH -
          (fmtLong ((d.physical d.indx + (k + 1) + 1 : Nat) : Int)).length) SPACE ++
          fmtLong ((d.physical d.indx + (k + 1) + 1 : Nat) : Int) := by
      rw [← hfield _ hv]; exact fmtStar_no_newline _ _
    refine ⟨?_, _, _, hb2, hlen, ?_, hv, hnf, Or.inr ⟨k, hk, rfl⟩⟩
    · rw [hb2]
      simp only [List.length_append, hlen, List.length_replicate, List.length_singleton]
      omega
    · exact fun h => htext (List.mem_of_mem_drop (List.mem_of_mem_take h))
  · have hv : (fmtLong DF_REC_END).length ≤ DF_ADDR_WIDTH := by decide
    have hfs : List.replicate (DF_ADDR_WIDTH - (fmtLong DF_REC_END).length) SPACE ++
        fmtLong DF_REC_END = List.replicate 6 SPACE ++ [45, 49] := by decide
    have hb2 : b = (List.drop (DF_REC_WIDTH * ((dff_WriteBlocks.chain (d.physical d.indx)
            (dff_WriteBlocks.text ptr which)).length - 1)) (dff_WriteBlocks.text ptr which) ++
          List.replicate (DF_REC_WIDTH - (List.drop (DF_REC_WIDTH *
            ((dff_WriteBlocks.chain (d.physical d.indx)
            (dff_WriteBlocks.text ptr which)).length - 1))
            (dff_WriteBlocks.text ptr which)).length) SPACE) ++
        (List.replicate (DF_ADDR_WIDTH - (fmtLong DF_REC_END).length) SPACE ++
          fmtLong DF_REC_END) ++ [NEWLINE] := by
      rw [hbk, last_eq _ hlen, hfs, List.replicate_add]
      simp only [List.append_assoc]
    have hnf : NEWLINE ∉ List.replicate (DF_ADDR_WIDTH - (fmtLong DF_REC_END).length) SPACE ++
        fmtLong DF_REC_END := by decide
    refine ⟨?_, _, _, hb2, ?_, ?_, hv, hnf, Or.inl rfl⟩
    · rw [hb2, hfs]
      simp only [List.length_append, List.length_replicate, List.length_singleton,
        List.length_cons, List.length_nil]
      omega
    · simp only [List.length_append, List.length_replicate]
      omega
    · intro h
      rcases List.mem_append.mp h with h | h
      · exact htext (List.mem_of_mem_drop h)
      · exact absurd (List.eq_of_mem_replicate h) (by decide)

set_option maxRecDepth 100000 in
/-- C8 at a concrete input: a memo of 75 characters, a line feed and one more
character, written to a fresh partition; the buffer holds a line feed, the text
`dff_TrimText` leaves of it does not. -/
theorem dff_WriteBlocks_block_width_witness :
    NEWLINE ∈ List.replicate 75 97 ++ [10, 98, 0] ∧
    NEWLINE ∉ dff_WriteBlocks.text (List.replicate 75 97 ++ [10, 98, 0]) DF_WRITING_MEMO ∧
    (dff_WriteBlocks (dff_Init DF_INFO.blank) (List.replicate 75 97 ++ [10, 98, 0])
      DF_WRITING_MEMO).physical (dff_Init DF_INFO.blank).indx < 10 ^ 8 ∧
    ∃ blocks : List (List Nat),
      storeOf (dff_WriteBlocks (dff_Init DF_INFO.blank) (List.replicate 75 97 ++ [10, 98, 0])
          DF_WRITING_MEMO) =
        storeOf (dff_WriteBlocks.opened (dff_Init DF_INFO.blank)) ++ blocks ∧
      ∀ b ∈ blocks, b.length = DF_BLOCK_LEN ∧
        ∃ (payload : List Nat) (v : Int),
          b = payload ++
            (List.replicate (DF_ADDR_WIDTH - (fmtLong v).length) SPACE ++ fmtLong v) ++ [NEWLINE] ∧
          payload.length = DF_REC_WIDTH ∧ NEWLINE ∉ payload ∧
          (fmtLong v).length ≤ DF_ADDR_WIDTH ∧
          NEWLINE ∉ List.replicate (DF_ADDR_WIDTH - (fmtLong v).length) SPACE ++ fmtLong v ∧
          (v = DF_REC_END ∨
            ∃ k, k + 1 < blocks.length ∧
              v = (((dff_Init DF_INFO.blank).physical (dff_Init DF_INFO.blank).indx +
                (k + 1) + 1 : Nat) : Int)) :=
  ⟨by decide, by decide, by decide,
    dff_WriteBlocks_block_width (dff_Init DF_INFO.blank) (List.replicate 75 97 ++ [10, 98, 0])
      DF_WRITING_MEMO (by decide) (by decide)⟩

/-- C7, as stated, fails for a text of exactly 70 characters: the call appends a
single block, the final one, and it is not the rendering of any piece of text
shorter than 70 characters: it carries all 70 characters with the sentinel. -/
theorem dff_WriteBlocks_final_block_full :
    storeOf (dff_WriteBlocks (dff_Init DF_INFO.blank) (List.replicate 70 97) DF_WRITING_RECORD) =
      storeOf (dff_WriteBlocks.opened (dff_Init DF_INFO.blank)) ++
        [List.replicate 70 97 ++ fmtStar DF_ADDR_WIDTH DF_REC_END ++ [NEWLINE]] ∧
    ¬ ∃ piece : List Nat, piece.length < DF_REC_WIDTH ∧
        dff_WriteBlocks.last piece =
          List.replicate 70 97 ++ fmtStar DF_ADDR_WIDTH DF_REC_END ++ [NEWLINE] := by
  refine ⟨by decide, ?_⟩
  rintro ⟨piece, hlen, heq⟩
  have hw := rec_width
  rw [last_eq piece (by omega)] at heq
  have h1 := congrArg (fun l => l[piece.length]?) heq
  simp only [List.append_assoc] at h1
  rw [List.getElem?_append_right (le_refl _), Nat.sub_self] at h1
  rw [List.getElem?_append_left (by simp)] at h1
  rw [List.getElem?_append_left (by simp; omega)] at h1
  rw [List.getElem?_replicate, List.getElem?_replicate] at h1
  rw [if_pos (by omega), if_pos (by omega)] at h1
  revert h1
  decide

/-- C7 (amended): every block of a chain but the last carries exactly 70
characters of the text followed by a pointer; the last block carries the rest of
the text, at most 70 characters (at least one when the text is not empty),
followed by the sentinel `-1` right-justified up to column 78. -/
theorem dff_WriteBlocks_payload_width (d : DF_INFO) (ptr : List Nat) (which : Nat) :
    ∃ blocks : List (List Nat),
      storeOf (dff_WriteBlocks d ptr which) = storeOf (dff_WriteBlocks.opened d) ++ blocks ∧
      0 < blocks.length ∧
      (∀ k, k + 1 < blocks.length →
        ∃ piece : List Nat,
          piece = ((dff_WriteBlocks.text ptr which).drop (DF_REC_WIDTH * k)).take DF_REC_WIDTH ∧
          piece.length = DF_REC_WIDTH ∧
          blocks[k]? = some (piece ++
            fmtStar DF_ADDR_WIDTH ((d.physical d.indx + (k + 1) + 1 : Nat) : Int) ++ [NEWLINE])) ∧
      (∃ piece : List Nat,
          piece = (dff_WriteBlocks.text ptr which).drop (DF_REC_WIDTH * (blocks.length - 1)) ∧
          piece.length ≤ DF_REC_WIDTH ∧
          (0 < (dff_WriteBlocks.text ptr which).length → 0 < piece.length) ∧
          blocks[blocks.length - 1]? = some (piece ++
            fmtStar (((DF_REC_WIDTH : Int) - (piece.length : Int)) + (DF_ADDR_WIDTH : Int))
              DF_REC_END ++ [NEWLINE])) := by
  have hpos : 0 < (dff_WriteBlocks.chain (d.physical d.indx)
      (dff_WriteBlocks.text ptr which)).length := by
    rw [chain_length]; exact Nat.succ_pos _
  refine ⟨_, dff_WriteBlocks_store d ptr which, hpos, ?_, ?_⟩
  · intro k hk
    have := chain_get_inner k (d.physical d.indx) (dff_WriteBlocks.text ptr which) hk
    have e : (((d.physical d.indx + (k + 1) : Nat) : Int) + 1) =
        ((d.physical d.indx + (k + 1) + 1 : Nat) : Int) := by push_cast; ring
    exact ⟨_, rfl, this.2, by rw [this.1, e]⟩
  · have := chain_get_last _ (d.physical d.indx) (dff_WriteBlocks.text ptr which)
      (Nat.sub_add_cancel hpos)
    exact ⟨_, rfl, this.2.1, this.2.2, this.1⟩

theorem dff_WriteBlocks_dff (d : DF_INFO) (ptr : List Nat) (which : Nat) :
    (dff_WriteBlocks d ptr which).dff = some (d.dff.getD d.indx) := by
  have h1 := opened_dff d
  unfold dff_WriteBlocks
  by_cases hw : which = DF_WRITING_RECORD
  · simp only [hw, if_true, h1]
  · simp only [hw, if_false, h1]

theorem dff_WriteBlocks_dfa (d : DF_INFO) (ptr : List Nat) (which : Nat) :
    (dff_WriteBlocks d ptr which).dfa = (dff_WriteBlocks.opened d).dfa := by
  unfold dff_WriteBlocks
  by_cases hw : which = DF_WRITING_RECORD
  · simp only [hw, if_true]
  · simp only [hw, if_false]

theorem dff_WriteBlocks_logical (d : DF_INFO) (ptr : List Nat) (which : Nat) :
    (dff_WriteBlocks d ptr which).logical =
      if which = DF_WRITING_RECORD then Function.update d.logical d.indx (d.logical d.indx + 1)
      else d.logical := by
  have h2 := opened_indx d
  have h4 := opened_logical d
  unfold dff_WriteBlocks
  by_cases hw : which = DF_WRITING_RECORD
  · simp only [hw, if_true, h2, h4]
  · simp only [hw, if_false, h4]

theorem dff_WriteBlocks_dffFile_eq (d : DF_INFO) (ptr : List Nat) (which : Nat) :
    (dff_WriteBlocks d ptr which).dffFile =
      fappend (dff_WriteBlocks.opened d).dff (dff_WriteBlocks.opened d).dffFile
        (dff_WriteBlocks.chain (d.physical d.indx) (dff_WriteBlocks.text ptr which)) := by
  have h2 := opened_indx d
  have h3 := opened_physical d
  unfold dff_WriteBlocks dff_WriteBlocks.chain
  by_cases hw : which = DF_WRITING_RECORD
  · simp only [hw, if_true, h2, h3]
  · simp only [hw, if_false, h2, h3]

theorem dff_WriteBlocks_dftFile_eq (d : DF_INFO) (ptr : List Nat) (which : Nat) :
    (dff_WriteBlocks d ptr which).dftFile =
      if which = DF_WRITING_RECORD then
        fappend (dff_WriteBlocks.opened d).dfa (dff_WriteBlocks.opened d).dftFile
          [{ mark := if (dff_WriteBlocks.opened d).protect_recs then 45 else 32
             logical := d.logical d.indx + 1
             addr := d.physical d.indx + 1 }]
      else (dff_WriteBlocks.opened d).dftFile := by
  have h2 := opened_indx d
  have h3 := opened_physical d
  have h4 := opened_logical d
  unfold dff_WriteBlocks
  by_cases hw : which = DF_WRITING_RECORD
  · simp only [hw, if_true, h2, h3, h4]
  · simp only [hw, if_false]

theorem opened_of_none (d : DF_INFO) (h : d.dff = none) :
    dff_WriteBlocks.opened d = dff_Open d := by
  unfold dff_WriteBlocks.opened
  rw [if_pos h]

theorem opened_of_some (d : DF_INFO) (k : Nat) (h : d.dff = some k) :
    dff_WriteBlocks.opened d = d := by
  unfold dff_WriteBlocks.opened
  rw [if_neg (by rw [h]; simp)]

theorem writeAll_counter (i : Nat) (hdr : List Nat) (calls : List (List Nat × Nat)) :
    ∀ (d : DF_INFO), d.indx = i → d.dff = some i →
      (∃ blocks, d.dffFile i = some (hdr :: blocks) ∧ blocks.length = d.physical i) →
      ∃ blocks, (writeAll d calls).dffFile i = some (hdr :: blocks) ∧
        blocks.length = (writeAll d calls).physical i := by
  induction calls with
  | nil => intro d _ _ h; exact h
  | cons c cs ih =>
    intro d hi hd ⟨blocks, hf, hl⟩
    have e : writeAll d (c :: cs) = writeAll (dff_WriteBlocks d c.1 c.2) cs := rfl
    rw [e]
    apply ih
    · rw [dff_WriteBlocks_indx, hi]
    · rw [dff_WriteBlocks_dff, hd]; rfl
    · refine ⟨blocks ++ dff_WriteBlocks.chain (d.physical d.indx) (dff_WriteBlocks.text c.1 c.2),
        ?_, ?_⟩
      · rw [dff_WriteBlocks_dffFile_eq, opened_of_some d i hd, hd]
        simp [fappend, hf]
      · rw [dff_WriteBlocks_physical, hi, Function.update_same, List.length_append, hl]

/-- C9: allocation counter. Every call of `dff_WriteBlocks` raises
`physical[indx]` by exactly the number of blocks it appends to the .dff file and
leaves the counters of the other partitions alone; and from a state whose
counters and handles are as `dff_Init` leaves them, after any non-empty sequence
of calls the .dff file of the partition is the header line followed by exactly
`physical[indx]` block lines. -/
theorem dff_WriteBlocks_allocation_counter (d : DF_INFO) (calls : List (List Nat × Nat))
    (hp : d.physical d.indx = 0) (hl : d.logical d.indx = 0) (hd : d.dff = none)
    (hc : calls ≠ []) :
    (∃ blocks : List (List Nat),
      (writeAll d calls).dffFile d.indx = some (dff_Open.header d.model :: blocks) ∧
      blocks.length = (writeAll d calls).physical d.indx) ∧
    (∀ (d1 : DF_INFO) (ptr : List Nat) (which : Nat), ∃ blocks : List (List Nat),
      storeOf (dff_WriteBlocks d1 ptr which) = storeOf (dff_WriteBlocks.opened d1) ++ blocks ∧
      (dff_WriteBlocks d1 ptr which).physical d1.indx = d1.physical d1.indx + blocks.length ∧
      ∀ j, j ≠ d1.indx → (dff_WriteBlocks d1 ptr which).physical j = d1.physical j) := by
  constructor
  · cases calls with
    | nil => exact absurd rfl hc
    | cons c cs =>
      have e : writeAll d (c :: cs) = writeAll (dff_WriteBlocks d c.1 c.2) cs := rfl
      rw [e]
      apply writeAll_counter
      · exact dff_WriteBlocks_indx _ _ _
      · rw [dff_WriteBlocks_dff, hd]; rfl
      · refine ⟨dff_WriteBlocks.chain (d.physical d.indx) (dff_WriteBlocks.text c.1 c.2), ?_, ?_⟩
        · rw [dff_WriteBlocks_dffFile_eq, opened_of_none d hd, dff_Open_dff, dff_Open_dffFile]
          simp [fappend, hl]
        · rw [dff_WriteBlocks_physical, Function.update_same, hp, Nat.zero_add]
  · intro d1 ptr which
    refine ⟨_, dff_WriteBlocks_store d1 ptr which, ?_, ?_⟩
    · rw [dff_WriteBlocks_physical, Function.update_same]
    · intro j hj
      rw [dff_WriteBlocks_physical, Function.update_noteq hj]

/-- C9 at a concrete input: a record of 75 characters and a memo written to
partition 3 of a state set up by `dff_Init`. -/
theorem dff_WriteBlocks_allocation_counter_witness :
    ({ dff_Init DF_INFO.blank with indx := 3 } : DF_INFO).physical 3 = 0 ∧
    ({ dff_Init DF_INFO.blank with indx := 3 } : DF_INFO).logical 3 = 0 ∧
    ({ dff_Init DF_INFO.blank with indx := 3 } : DF_INFO).dff = none ∧
    [(List.replicate 75 97, DF_WRITING_RECORD), ([98, 0], DF_WRITING_MEMO)] ≠ [] ∧
    (∃ blocks : List (List Nat),
      (writeAll { dff_Init DF_INFO.blank with indx := 3 }
          [(List.replicate 75 97, DF_WRITING_RECORD), ([98, 0], DF_WRITING_MEMO)]).dffFile 3 =
        some (dff_Open.header [] :: blocks) ∧
      blocks.length = (writeAll { dff_Init DF_INFO.blank with indx := 3 }
        [(List.replicate 75 97, DF_WRITING_RECORD), ([98, 0], DF_WRITING_MEMO)]).physical 3) ∧
    (∀ (d1 : DF_INFO) (ptr : List Nat) (which : Nat), ∃ blocks : List (List Nat),
      storeOf (dff_WriteBlocks d1 ptr which) = storeOf (dff_WriteBlocks.opened d1) ++ blocks ∧
      (dff_WriteBlocks d1 ptr which).physical d1.indx = d1.physical d1.indx + blocks.length ∧
      ∀ j, j ≠ d1.indx → (dff_WriteBlocks d1 ptr which).physical j = d1.physical j) :=
  ⟨rfl, rfl, rfl, by decide,
    dff_WriteBlocks_allocation_counter { dff_Init DF_INFO.blank with indx := 3 }
      [(List.replicate 75 97, DF_WRITING_RECORD), ([98, 0], DF_WRITING_MEMO)]
      rfl rfl rfl (by decide)⟩

/-! ## Properties every step of the record loop keeps -/

theorem dBase_ProcessMemo_cases (d : DF_INFO) (addr : Int) :
    dBase_ProcessMemo d addr = d ∨
      ∃ ptr, dBase_ProcessMemo d addr = dff_WriteBlocks d ptr DF_WRITING_MEMO := by
  unfold dBase_ProcessMemo
  split
  · exact Or.inl rfl
  · split
    · exact Or.inl rfl
    · exact Or.inr ⟨_, rfl⟩

theorem fields_preserves (Inv : DF_INFO → Prop)
    (hM : ∀ d ptr, Inv d → Inv (dff_WriteBlocks d ptr DF_WRITING_MEMO))
    (hI : ∀ (d : DF_INFO) (i : Nat), Inv d → d.dff = none → Inv { d with indx := i })
    (hC : ∀ (d : DF_INFO) (i : Nat) (rn : Int) (pos : Nat), Inv d →
      Inv { d with indx := i, rec_num := rn, dbf_pos := pos, dff := none, dfa := none })
    (L : Libc) (r : List Nat) (rec_start : Nat) (n : Nat) :
    ∀ (i : Nat) (d : DF_INFO) (off : Nat) (out : List Nat), Inv d →
      Sum.elim Inv (fun p => Inv p.1) (dBase_ProcessRecord.fields L r rec_start n i d off out) := by
  induction n with
  | zero => intro i d off out h; simpa [dBase_ProcessRecord.fields] using h
  | succ n ih =>
    intro i d off out h
    simp only [dBase_ProcessRecord.fields]
    split
    · exact ih _ _ _ _ h
    · split
      · apply ih
        rcases dBase_ProcessMemo_cases d (atol (cstr (strncpy (List.drop off r)
          (d.fld_len.getD i 0) ++ [0]))) with e | ⟨ptr, e⟩
        · rw [e]; exact h
        · rw [e]; exact hM _ _ h
      · split
        · split
          · exact hC d _ _ _ h
          · rename_i hne
            apply ih
            by_cases hd : d.dff = none
            · exact hI d _ h hd
            · have hlast : d.indx = dBase_ProcessRecord.route
                  ((dff_TrimText (strncpy (List.drop off r) (d.fld_len.getD i 0) ++ [0])).getD 0 0) := by
                by_contra hc
                exact hne ⟨hc, hd⟩
              rw [← hlast]
              exact h
        · exact ih _ _ _ _ h

theorem dBase_ProcessRecord_preserves (Inv : DF_INFO → Prop)
    (hW : ∀ d ptr which, Inv d → Inv (dff_WriteBlocks d ptr which))
    (hI : ∀ (d : DF_INFO) (i : Nat), Inv d → d.dff = none → Inv { d with indx := i })
    (hC : ∀ (d : DF_INFO) (i : Nat) (rn : Int) (pos : Nat), Inv d →
      Inv { d with indx := i, rec_num := rn, dbf_pos := pos, dff := none, dfa := none })
    (hP : ∀ (d : DF_INFO) (pos : Nat), Inv d → Inv { d with dbf_pos := pos })
    (L : Libc) (d : DF_INFO) (h : Inv d) : Inv (dBase_ProcessRecord L d).state := by
  unfold dBase_ProcessRecord
  simp only []
  split
  · exact hP d _ h
  · split
    · exact hP d _ h
    · have := fields_preserves Inv (fun d ptr => hW d ptr _) hI hC L
        (List.take d.bytes (List.drop d.dbf_pos d.dbf) ++ [0]) d.dbf_pos d.num_flds 0
        { d with dbf_pos := d.dbf_pos + (List.take d.bytes (List.drop d.dbf_pos d.dbf)).length }
        1 [] (hP d _ h)
      split
      · rename_i d2 heq
        rw [heq] at this
        exact this
      · rename_i d2 out heq
        rw [heq] at this
        exact hW _ _ _ this

theorem main_steps_preserves (Inv : DF_INFO → Prop)
    (hW : ∀ d ptr which, Inv d → Inv (dff_WriteBlocks d ptr which))
    (hI : ∀ (d : DF_INFO) (i : Nat), Inv d → d.dff = none → Inv { d with indx := i })
    (hC : ∀ (d : DF_INFO) (i : Nat) (rn : Int) (pos : Nat), Inv d →
      Inv { d with indx := i, rec_num := rn, dbf_pos := pos, dff := none, dfa := none })
    (hP : ∀ (d : DF_INFO) (pos : Nat), Inv d → Inv { d with dbf_pos := pos })
    (hR : ∀ (d : DF_INFO) (rn : Int), Inv d → Inv { d with rec_num := rn })
    (L : Libc) (k : Nat) : ∀ (d : DF_INFO), Inv d → Inv (main.steps L k d) := by
  induction k with
  | zero => intro d h; exact h
  | succ k ih =>
    intro d h
    simp only [main.steps]
    split
    · have hp := dBase_ProcessRecord_preserves Inv hW hI hC hP L d h
      split
      · rename_i d1 heq
        rw [heq] at hp
        exact ih _ (hR _ _ hp)
      · rename_i s d1 heq
        rw [heq] at hp
        exact hp
    · exact h

theorem main_loop_eq_steps (L : Libc) (fuel : Nat) : ∀ (d : DF_INFO) (status : Nat)
    (final : DF_INFO), main.loop L fuel d = some (status, final) → final = main.steps L fuel d := by
  induction fuel with
  | zero => intro d status final h; simp [main.loop] at h
  | succ fuel ih =>
    intro d status final h
    simp only [main.loop] at h
    simp only [main.steps]
    split at h
    · rename_i hlt
      rw [if_pos hlt]
      split at h
      · exact ih _ _ _ h
      · injection h with h
        injection h with h1 h2
        exact h2.symm
    · rename_i hlt
      rw [if_neg hlt]
      injection h with h
      injection h with h1 h2
      exact h2.symm

theorem opened_IndexInv (d : DF_INFO) (h : IndexInv d) :
    IndexInv (dff_WriteBlocks.opened d) ∧ (dff_WriteBlocks.opened d).dff = some d.indx ∧
      (dff_WriteBlocks.opened d).dfa = some d.indx := by
  obtain ⟨hA, hB, hC⟩ := h
  cases hd : d.dff with
  | none =>
    rw [opened_of_none d hd]
    refine ⟨⟨?_, ?_, ?_⟩, dff_Open_dff d, dff_Open_dfa d⟩
    · rw [dff_Open_dff, dff_Open_dfa]
    · intro k hk
      rw [dff_Open_dff] at hk
      injection hk with hk
      subst hk
      rw [dff_Open_indx, dff_Open_logical, dff_Open_dftFile]
      refine ⟨rfl, fun h0 => ?_⟩
      rw [Function.update_same, if_pos h0]
    · intro k hk
      rw [dff_Open_logical] at hk
      rw [dff_Open_logical, dff_Open_physical, dff_Open_dftFile]
      obtain ⟨rows, h1, h2⟩ := hC k hk
      refine ⟨rows, ?_, h2⟩
      by_cases hki : k = d.indx
      · subst hki
        rw [Function.update_same, if_neg (by omega), h1]
        rfl
      · rw [Function.update_noteq hki, h1]
  | some k =>
    rw [opened_of_some d k hd]
    have hk := (hB k hd).1
    subst hk
    exact ⟨⟨hA, hB, hC⟩, hd, by rw [hA, hd]⟩

theorem chain_length_pos (p : Nat) (t : List Nat) : 0 < (dff_WriteBlocks.chain p t).length := by
  rw [chain_length]; exact Nat.succ_pos _

theorem dff_WriteBlocks_IndexInv (d : DF_INFO) (ptr : List Nat) (which : Nat) (h : IndexInv d) :
    IndexInv (dff_WriteBlocks d ptr which) := by
  obtain ⟨⟨hA, hB, hC⟩, hdff, hdfa⟩ := opened_IndexInv d h
  have hi := opened_indx d
  have hlg := opened_logical d
  have hph := opened_physical d
  have hn := chain_length_pos (d.physical d.indx) (dff_WriteBlocks.text ptr which)
  refine ⟨?_, ?_, ?_⟩
  · rw [dff_WriteBlocks_dfa, dff_WriteBlocks_dff, hdfa]
    cases hd : d.dff with
    | none => rfl
    | some k => rw [(h.2.1 k hd).1]; rfl
  · intro k hk
    have hk2 : k = d.indx := by
      have := dff_WriteBlocks_dff d ptr which
      rw [← opened_dff, hdff, hk] at this
      injection this
    subst hk2
    refine ⟨(dff_WriteBlocks_indx d ptr which).symm, ?_⟩
    rw [dff_WriteBlocks_logical, dff_WriteBlocks_dftFile_eq]
    by_cases hw : which = DF_WRITING_RECORD
    · simp only [hw, if_true, Function.update_same]
      intro h0
      omega
    · simp only [hw, if_false]
      intro h0
      exact (hB d.indx hdff).2 (by rw [hlg]; exact h0)
  · intro k hk
    rw [dff_WriteBlocks_logical] at hk
    rw [dff_WriteBlocks_logical, dff_WriteBlocks_dftFile_eq, dff_WriteBlocks_physical]
    by_cases hki : k = d.indx
    · subst hki
      by_cases hw : which = DF_WRITING_RECORD
      · subst hw
        simp only [if_true, Function.update_same, hdfa, fappend]
        by_cases h0 : d.logical d.indx = 0
        · have hf := (hB d.indx hdff).2 (by rw [hlg]; exact h0)
          rw [hf, h0]
          refine ⟨_, rfl, ?_, ?_, ?_⟩
          · rfl
          · simp
          · intro r hr
            simp at hr
            subst hr
            simp only []
            omega
        · obtain ⟨rows, h1, h2, h3, h4⟩ := hC d.indx (by rw [hlg]; omega)
          rw [hlg] at h2
          rw [hph] at h4
          rw [h1]
          refine ⟨_, rfl, ?_, ?_, ?_⟩
          · simp only [Option.getD_some, List.map_append, List.map_cons, List.map_nil, h2]
            rw [List.range'_concat]
            simp [Nat.add_comm]
          · simp only [Option.getD_some]
            rw [List.pairwise_append]
            refine ⟨h3, by simp, ?_⟩
            intro a ha b hb
            simp at hb
            subst hb
            have := h4 a ha
            simp only []
            omega
          · intro r hr
            simp only [Option.getD_some] at hr
            rcases List.mem_append.mp hr with hr | hr
            · have := h4 r hr
              omega
            · simp at hr
              subst hr
              simp only []
              omega
      · simp only [hw, if_false, Function.update_same] at hk ⊢
        obtain ⟨rows, h1, h2, h3, h4⟩ := hC d.indx (by rw [hlg]; exact hk)
        rw [hlg] at h2
        rw [hph] at h4
        refine ⟨rows, h1, h2, h3, fun r hr => ?_⟩
        have := h4 r hr
        omega
    · have hk' : 0 < d.logical k := by
        by_cases hw : which = DF_WRITING_RECORD
        · simpa [hw, Function.update_noteq hki] using hk
        · simpa [hw] using hk
      obtain ⟨rows, h1, h2, h3, h4⟩ := hC k (by rw [hlg]; exact hk')
      rw [hlg] at h2
      rw [hph] at h4
      rw [Function.update_noteq hki]
      refine ⟨rows, ?_, ?_, h3, h4⟩
      · by_cases hw : which = DF_WRITING_RECORD
        · simp only [hw, if_true, hdfa, fappend]
          rw [Function.update_noteq hki, h1]
        · simp only [hw, if_false, h1]
      · by_cases hw : which = DF_WRITING_RECORD
        · simp only [hw, if_true, Function.update_noteq hki, h2]
        · simp only [hw, if_false, h2]

theorem IndexInv_of_fresh (d : DF_INFO) (hl : ∀ k, d.logical k = 0) (hd : d.dff = none)
    (ha : d.dfa = none) : IndexInv d := by
  refine ⟨by rw [hd, ha], ?_, ?_⟩
  · intro h hh; rw [hd] at hh; cases hh
  · intro k hk; rw [hl k] at hk; omega

theorem IndexInv_set_indx (d : DF_INFO) (i : Nat) (h : IndexInv d) (hd : d.dff = none) :
    IndexInv { d with indx := i } := by
  obtain ⟨hA, _, hC⟩ := h
  refine ⟨hA, ?_, hC⟩
  intro h hh
  have : d.dff = some h := hh
  rw [hd] at this
  cases this

theorem IndexInv_close (d : DF_INFO) (i : Nat) (rn : Int) (pos : Nat) (h : IndexInv d) :
    IndexInv { d with indx := i, rec_num := rn, dbf_pos := pos, dff := none, dfa := none } := by
  obtain ⟨_, _, hC⟩ := h
  refine ⟨rfl, ?_, hC⟩
  intro h hh
  cases hh

theorem main_steps_IndexInv (L : Libc) (k : Nat) (d : DF_INFO) (h : IndexInv d) :
    IndexInv (main.steps L k d) :=
  main_steps_preserves IndexInv (fun d ptr which => dff_WriteBlocks_IndexInv d ptr which)
    IndexInv_set_indx IndexInv_close (fun _ _ h => h) (fun _ _ h => h) L k d h

theorem main_loop_IndexInv (L : Libc) (fuel : Nat) (d : DF_INFO) (status : Nat) (final : DF_INFO)
    (h : IndexInv d) (hrun : main.loop L fuel d = some (status, final)) : IndexInv final := by
  rw [main_loop_eq_steps L fuel d status final hrun]
  exact main_steps_IndexInv L fuel d h

/-- C10: chain start addresses are strictly increasing within a partition. The
chain a call of `dff_WriteBlocks` writes starts at `physical[indx] + 1`; for two
successive calls on a partition the second start address is the first plus the
number of blocks the first call appends, hence strictly greater; and in a run
that starts with the counters and handles as `dff_Init` leaves them, after any
number of iterations of the record loop, and so in the state the loop ends
with, the rows of every partition with records carry strictly increasing
addresses in row order. -/
theorem chain_start_addresses_increase (L : Libc) (d : DF_INFO)
    (hl : ∀ k, d.logical k = 0) (hd : d.dff = none) (ha : d.dfa = none) :
    (∀ (d1 : DF_INFO) (ptr : List Nat) (which : Nat), ∃ blocks : List (List Nat),
      storeOf (dff_WriteBlocks d1 ptr which) = storeOf (dff_WriteBlocks.opened d1) ++ blocks ∧
      (dff_WriteBlocks d1 ptr which).indx = d1.indx ∧
      (dff_WriteBlocks d1 ptr which).physical (dff_WriteBlocks d1 ptr which).indx + 1 =
        (d1.physical d1.indx + 1) + blocks.length ∧
      d1.physical d1.indx + 1 <
        (dff_WriteBlocks d1 ptr which).physical (dff_WriteBlocks d1 ptr which).indx + 1) ∧
    (∀ (n k : Nat), 0 < (main.steps L n d).logical k → ∃ rows : List Row,
      (main.steps L n d).dftFile k = some rows ∧
      rows.length = (main.steps L n d).logical k ∧
      rows.Pairwise (fun a b => a.addr < b.addr)) ∧
    (∀ (fuel status : Nat) (final : DF_INFO), main.loop L fuel d = some (status, final) →
      ∀ k, 0 < final.logical k → ∃ rows : List Row, final.dftFile k = some rows ∧
        rows.length = final.logical k ∧ rows.Pairwise (fun a b => a.addr < b.addr)) := by
  have hsteps : ∀ (n k : Nat), 0 < (main.steps L n d).logical k → ∃ rows : List Row,
      (main.steps L n d).dftFile k = some rows ∧
      rows.length = (main.steps L n d).logical k ∧
      rows.Pairwise (fun a b => a.addr < b.addr) := by
    intro n k hk
    have hinv := main_steps_IndexInv L n d (IndexInv_of_fresh d hl hd ha)
    obtain ⟨rows, h1, h2, h3, _⟩ := hinv.2.2 k hk
    refine ⟨rows, h1, ?_, h3⟩
    have := congrArg List.length h2
    simpa using this
  refine ⟨?_, hsteps, ?_⟩
  · intro d1 ptr which
    have hn := chain_length_pos (d1.physical d1.indx) (dff_WriteBlocks.text ptr which)
    refine ⟨_, dff_WriteBlocks_store d1 ptr which, dff_WriteBlocks_indx d1 ptr which, ?_, ?_⟩
    · rw [dff_WriteBlocks_indx, dff_WriteBlocks_physical, Function.update_same]
      omega
    · rw [dff_WriteBlocks_indx, dff_WriteBlocks_physical, Function.update_same]
      omega
  · intro fuel status final hrun k hk
    rw [main_loop_eq_steps L fuel d status final hrun] at hk ⊢
    exact hsteps fuel k hk

set_option maxRecDepth 100000 in
/-- C10 at a concrete input: the example input `DF_INFO.sample`, on which four
iterations of the record loop leave a row in partition `a` and one in partition `b`. -/
theorem chain_start_addresses_increase_witness :
    (∀ k, DF_INFO.sample.logical k = 0) ∧ DF_INFO.sample.dff = none ∧
    DF_INFO.sample.dfa = none ∧
    0 < (main.steps Libc.zero 4 DF_INFO.sample).logical 0 ∧
    0 < (main.steps Libc.zero 4 DF_INFO.sample).logical 1 ∧
    (∀ (d1 : DF_INFO) (ptr : List Nat) (which : Nat), ∃ blocks : List (List Nat),
      storeOf (dff_WriteBlocks d1 ptr which) = storeOf (dff_WriteBlocks.opened d1) ++ blocks ∧
      (dff_WriteBlocks d1 ptr which).indx = d1.indx ∧
      (dff_WriteBlocks d1 ptr which).physical (dff_WriteBlocks d1 ptr which).indx + 1 =
        (d1.physical d1.indx + 1) + blocks.length ∧
      d1.physical d1.indx + 1 <
        (dff_WriteBlocks d1 ptr which).physical (dff_WriteBlocks d1 ptr which).indx + 1) ∧
    (∀ (n k : Nat), 0 < (main.steps Libc.zero n DF_INFO.sample).logical k → ∃ rows : List Row,
      (main.steps Libc.zero n DF_INFO.sample).dftFile k = some rows ∧
      rows.length = (main.steps Libc.zero n DF_INFO.sample).logical k ∧
      rows.Pairwise (fun a b => a.addr < b.addr)) ∧
    (∀ (fuel status : Nat) (final : DF_INFO),
      main.loop Libc.zero fuel DF_INFO.sample = some (status, final) →
      ∀ k, 0 < final.logical k → ∃ rows : List Row, final.dftFile k = some rows ∧
        rows.length = final.logical k ∧ rows.Pairwise (fun a b => a.addr < b.addr)) :=
  ⟨fun _ => rfl, rfl, rfl, by decide, by decide,
    chain_start_addresses_increase Libc.zero DF_INFO.sample (fun _ => rfl) rfl rfl⟩

set_option maxRecDepth 100000 in
/-- C4 fails on the code. On the example input `DF_INFO.sample` the run ends with
success; the index of partition `a` holds the row (1, 3), but the .dff file of
the partition holds the header and two block lines only: there is no third
block line, and the chain of the record is the second one. -/
theorem index_row_past_end_of_store :
    ∃ final : DF_INFO, main.loop Libc.zero 10 DF_INFO.sample = some (DF_SUCCESS, final) ∧
      final.dftFile 0 = some [{ mark := 32, logical := 1, addr := 3 }] ∧
      final.dffFile 0 = some [dff_Open.header [109],
        [120] ++ List.replicate 75 32 ++ [45, 49, 10],
        [50, 92, 97] ++ List.replicate 73 32 ++ [45, 49, 10]] ∧
      ((final.dffFile 0).getD [])[3]? = none ∧
      final.physical 0 = 3 := by
  refine ⟨((main.loop Libc.zero 10 DF_INFO.sample).getD (0, DF_INFO.blank)).2, rfl, ?_, ?_, ?_, ?_⟩
  · decide
  · decide
  · decide
  · decide

set_option maxRecDepth 100000 in
/-- C5 fails on the code. On the example input `DF_INFO.sample`, after the second
call of `dBase_ProcessRecord` record 1 is written to partition `b`, which stays
open; the third call reads record 2, whose routing field selects partition `a`:
it returns with the input rewound and partition `a` selected, and the .dff file
of partition `b` has grown by the memo chain of record 2. -/
theorem memo_chain_left_in_old_partition :
    ∃ s1 s2 s3 : DF_INFO,
      s1 = (dBase_ProcessRecord Libc.zero DF_INFO.sample).state ∧
      s2 = (dBase_ProcessRecord Libc.zero { s1 with rec_num := s1.rec_num + 1 }).state ∧
      s3 = (dBase_ProcessRecord Libc.zero { s2 with rec_num := s2.rec_num + 1 }).state ∧
      s2.indx = 1 ∧ s2.dff = some 1 ∧ s2.rec_num + 1 = 1 ∧ s2.dbf_pos = 12 ∧
      s2.dffFile 1 = some [dff_Open.header [109],
        [120] ++ List.replicate 75 32 ++ [45, 49, 10],
        [49, 92, 98] ++ List.replicate 73 32 ++ [45, 49, 10]] ∧
      routeOf DF_INFO.sample (recordAt DF_INFO.sample 1) = 0 ∧
      s3.indx = 0 ∧ s3.dff = none ∧ s3.rec_num + 1 = 1 ∧ s3.dbf_pos = 12 ∧
      s3.logical 1 = s2.logical 1 ∧
      s3.dffFile 1 = some [dff_Open.header [109],
        [120] ++ List.replicate 75 32 ++ [45, 49, 10],
        [49, 92, 98] ++ List.replicate 73 32 ++ [45, 49, 10],
        [120] ++ List.replicate 75 32 ++ [45, 49, 10]] := by
  refine ⟨_, _, _, rfl, rfl, rfl, ?_, ?_, ?_, ?_, ?_, ?_, ?_, ?_, ?_, ?_, ?_, ?_⟩ <;> decide

/-! ## Runs in split mode -/

theorem dff_Open_frame (d : DF_INFO) :
    (dff_Open d).config = d.config ∧ (dff_Open d).rec_num = d.rec_num ∧
      (dff_Open d).dbf_pos = d.dbf_pos := by
  simp only [dff_Open]; split <;> exact ⟨rfl, rfl, rfl⟩

theorem opened_frame (d : DF_INFO) :
    (dff_WriteBlocks.opened d).config = d.config ∧ (dff_WriteBlocks.opened d).rec_num = d.rec_num ∧
      (dff_WriteBlocks.opened d).dbf_pos = d.dbf_pos := by
  unfold dff_WriteBlocks.opened
  split
  · exact dff_Open_frame d
  · exact ⟨rfl, rfl, rfl⟩

theorem dff_WriteBlocks_frame (d : DF_INFO) (ptr : List Nat) (which : Nat) :
    (dff_WriteBlocks d ptr which).config = d.config ∧
      (dff_WriteBlocks d ptr which).rec_num = d.rec_num ∧
      (dff_WriteBlocks d ptr which).dbf_pos = d.dbf_pos := by
  obtain ⟨h1, h2, h3⟩ := opened_frame d
  unfold dff_WriteBlocks
  by_cases hw : which = DF_WRITING_RECORD
  · simp only [hw, if_true]
    exact ⟨h1, h2, h3⟩
  · simp only [hw, if_false]
    exact ⟨h1, h2, h3⟩

theorem dBase_ProcessMemo_frame (d : DF_INFO) (addr : Int) :
    (dBase_ProcessMemo d addr).config = d.config ∧
      (dBase_ProcessMemo d addr).rec_num = d.rec_num ∧
      (dBase_ProcessMemo d addr).dbf_pos = d.dbf_pos ∧
      (dBase_ProcessMemo d addr).indx = d.indx ∧
      (dBase_ProcessMemo d addr).logical = d.logical := by
  rcases dBase_ProcessMemo_cases d addr with e | ⟨ptr, e⟩
  · rw [e]; exact ⟨rfl, rfl, rfl, rfl, rfl⟩
  · rw [e]
    obtain ⟨h1, h2, h3⟩ := dff_WriteBlocks_frame d ptr DF_WRITING_MEMO
    refine ⟨h1, h2, h3, dff_WriteBlocks_indx _ _ _, ?_⟩
    rw [dff_WriteBlocks_logical]
    rfl

theorem route_lt (c : Nat) : dBase_ProcessRecord.route c < DF_MAX_SPLIT := by
  unfold dBase_ProcessRecord.route
  have h1 : DF_MAX_SPLIT = 28 := rfl
  have h2 : DF_NUMBER_FILE = 27 := rfl
  have h3 : DF_OTHER_FILE = 26 := rfl
  split
  · omega
  · split
    · omega
    · rename_i h
      rw [h1] at h ⊢
      push_cast at h
      omega

theorem config_fields (d1 d : DF_INFO) (h : d1.config = d.config) :
    d1.split = d.split ∧ d1.num_flds = d.num_flds ∧ d1.fld_type = d.fld_type ∧
    d1.fld_len = d.fld_len ∧ d1.bytes = d.bytes ∧ d1.undel = d.undel ∧
    d1.num_records = d.num_records ∧ d1.rec_buffer = d.rec_buffer ∧ d1.dbf = d.dbf := by
  simp only [DF_INFO.config, Prod.mk.injEq] at h
  obtain ⟨h1, h2, h3, h4, h5, _, h7, h8, h9, h10, _⟩ := h
  exact ⟨h1, h2, h3, h4, h5, h7, h8, h9, h10⟩

theorem fields_route (L : Libc) (r : List Nat) (rec_start : Nat) (fl ft : List Nat)
    (nf s i0 key : Nat) (hs : s < nf) (htype : ft.getD s 0 = DBASE_CHARACTER_FLD)
    (hkey : dBase_ProcessRecord.route
      ((dff_TrimText (strncpy (r.drop (fieldOffset fl s)) (fl.getD s 0) ++ [0])).getD 0 0) = key)
    (n : Nat) :
    ∀ (i : Nat) (d : DF_INFO) (off : Nat) (out : List Nat),
      d.fld_len = fl → d.fld_type = ft → d.num_flds = nf → d.split = (s : Int) →
      i + n = nf → off = fieldOffset fl i →
      (i ≤ s → d.indx = i0) → (s < i → d.indx = key) →
      Sum.elim
        (fun d1 : DF_INFO =>
          i0 ≠ key ∧ d1.indx = key ∧ d1.dff = none ∧ d1.dfa = none ∧ d1.logical = d.logical ∧
          d1.config = d.config ∧ d1.rec_num = d.rec_num - 1 ∧ d1.dbf_pos = rec_start)
        (fun p : DF_INFO × List Nat =>
          p.1.indx = key ∧ p.1.logical = d.logical ∧ p.1.config = d.config ∧
          p.1.rec_num = d.rec_num ∧ p.1.dbf_pos = d.dbf_pos)
        (dBase_ProcessRecord.fields L r rec_start n i d off out) := by
  have hC : DBASE_CHARACTER_FLD ≠ DBASE_NUMERIC_FLD := by decide
  have hC2 : DBASE_CHARACTER_FLD ≠ DBASE_MEMO_FLD := by decide
  induction n with
  | zero =>
    intro i d off out _ _ _ _ hin _ _ hP2
    simp only [dBase_ProcessRecord.fields]
    exact ⟨hP2 (by omega), rfl, rfl, rfl, rfl⟩
  | succ n ih =>
    intro i d off out hfl hft hnf hsp hin hoff hP1 hP2
    simp only [dBase_ProcessRecord.fields]
    have hoff' : off + d.fld_len.getD i 0 = fieldOffset fl (i + 1) := by
      rw [hoff, hfl]; rfl
    by_cases hnum : d.fld_type.getD i 0 = DBASE_NUMERIC_FLD
    · rw [if_pos hnum]
      have hne : i ≠ s := by
        intro e; rw [e, hft, htype] at hnum; exact hC hnum
      exact ih (i + 1) d _ _ hfl hft hnf hsp (by omega) hoff' (fun h => hP1 (by omega))
        (fun h => hP2 (by omega))
    · rw [if_neg hnum]
      by_cases hmemo : d.fld_type.getD i 0 = DBASE_MEMO_FLD
      · rw [if_pos hmemo]
        have hne : i ≠ s := by
          intro e; rw [e, hft, htype] at hmemo; exact hC2 hmemo
        generalize hm : dBase_ProcessMemo d
          (atol (cstr (strncpy (List.drop off r) (d.fld_len.getD i 0) ++ [0]))) = dm
        obtain ⟨f1, f2, f3, f4, f5⟩ := dBase_ProcessMemo_frame d
          (atol (cstr (strncpy (List.drop off r) (d.fld_len.getD i 0) ++ [0])))
        rw [hm] at f1 f2 f3 f4 f5
        obtain ⟨g1, g2, g3, g4, _⟩ := config_fields _ _ f1
        have := ih (i + 1) dm (off + d.fld_len.getD i 0)
          ((out ++ fmtLong (if dm.physical dm.indx = d.physical d.indx then DF_FREELIST
            else ((d.physical d.indx + 1 : Nat) : Int))) ++
            if i + 1 < d.num_flds then [DF_DELIM] else [])
          (by rw [g4, hfl]) (by rw [g3, hft]) (by rw [g2, hnf]) (by rw [g1, hsp]) (by omega) hoff'
          (fun h => by rw [f4]; exact hP1 (by omega))
          (fun h => by rw [f4]; exact hP2 (by omega))
        rw [f5, f1, f2, f3] at this
        exact this
      · rw [if_neg hmemo]
        by_cases hsplit : (i : Int) = d.split
        · rw [if_pos hsplit]
          have his : i = s := by rw [hsp] at hsplit; exact_mod_cast hsplit
          have hkey2 : dBase_ProcessRecord.route
              ((dff_TrimText (strncpy (List.drop off r) (d.fld_len.getD i 0) ++ [0])).getD 0 0) =
              key := by
            rw [hoff, hfl, his]; exact hkey
          simp only [hkey2]
          by_cases hrew : d.indx ≠ key ∧ d.dff ≠ none
          · rw [if_pos hrew]
            refine ⟨?_, rfl, rfl, rfl, rfl, rfl, rfl, rfl⟩
            rw [← hP1 (by omega)]
            exact hrew.1
          · rw [if_neg hrew]
            exact ih (i + 1) { d with indx := key } _ _ hfl hft hnf hsp (by omega) hoff'
              (fun h => by omega) (fun _ => rfl)
        · rw [if_neg hsplit]
          have hne : i ≠ s := by
            intro e; apply hsplit; rw [hsp, e]
          exact ih (i + 1) d _ _ hfl hft hnf hsp (by omega) hoff' (fun h => hP1 (by omega))
            (fun h => hP2 (by omega))

theorem dBase_ProcessRecord_split (L : Libc) (d : DF_INFO) (s j : Nat)
    (hsp : d.split = (s : Int)) (hs : s < d.num_flds)
    (htype : d.fld_type.getD s 0 = DBASE_CHARACTER_FLD)
    (hpos : d.dbf_pos = j * d.bytes) (hin : (j + 1) * d.bytes ≤ d.dbf.length)
    (hdel : d.rec_buffer ≠ (DBASE_DELETED : Int) ∨ d.undel = true) :
    ∃ d1 : DF_INFO, dBase_ProcessRecord L d = Outcome.ret d1 ∧ d1.config = d.config ∧
      d1.indx = routeOf d (recordAt d j) ∧
      ((d.indx ≠ routeOf d (recordAt d j) ∧ d1.dff = none ∧ d1.logical = d.logical ∧
          d1.rec_num = d.rec_num - 1 ∧ d1.dbf_pos = d.dbf_pos) ∨
        (d1.logical = Function.update d.logical (routeOf d (recordAt d j))
            (d.logical (routeOf d (recordAt d j)) + 1) ∧
          d1.rec_num = d.rec_num ∧ d1.dbf_pos = d.dbf_pos + d.bytes)) := by
  have hgot : List.take d.bytes (List.drop d.dbf_pos d.dbf) = recordAt d j := by
    unfold recordAt; rw [hpos]
  have hlen : (recordAt d j).length = d.bytes := by
    unfold recordAt
    rw [List.length_take, List.length_drop]
    have : (j + 1) * d.bytes = j * d.bytes + d.bytes := by ring
    omega
  have hkey : dBase_ProcessRecord.route
      ((dff_TrimText (strncpy ((recordAt d j ++ [0]).drop (fieldOffset d.fld_len s))
        (d.fld_len.getD s 0) ++ [0])).getD 0 0) = routeOf d (recordAt d j) := by
    unfold routeOf routingField
    rw [hsp]
    rfl
  generalize routeOf d (recordAt d j) = key at hkey ⊢
  unfold dBase_ProcessRecord
  simp only [hgot, hlen]
  rw [if_neg (by simp)]
  have hnd : ¬ (d.rec_buffer = (DBASE_DELETED : Int) ∧ d.undel = false) := by
    rintro ⟨h1, h2⟩
    rcases hdel with h | h
    · exact h h1
    · rw [h] at h2; cases h2
  rw [if_neg hnd]
  have hf := fields_route L (recordAt d j ++ [0]) d.dbf_pos d.fld_len d.fld_type d.num_flds s
    d.indx key hs htype hkey d.num_flds 0 { d with dbf_pos := d.dbf_pos + d.bytes } 1 []
    rfl rfl rfl hsp (by omega) rfl (fun _ => rfl) (fun h => by omega)
  generalize dBase_ProcessRecord.fields L (recordAt d j ++ [0]) d.dbf_pos d.num_flds 0
    { d with dbf_pos := d.dbf_pos + d.bytes } 1 [] = res at hf ⊢
  cases res with
  | inl d2 =>
    obtain ⟨h1, h2, h3, _, h5, h6, h7, h8⟩ := hf
    exact ⟨d2, rfl, h6, h2, Or.inl ⟨h1, h3, h5, h7, h8⟩⟩
  | inr p =>
    obtain ⟨d2, out⟩ := p
    obtain ⟨h1, h2, h3, h4, h5⟩ := hf
    simp only at h1 h2 h3 h4 h5
    obtain ⟨f1, f2, f3⟩ := dff_WriteBlocks_frame d2 out DF_WRITING_RECORD
    refine ⟨_, rfl, by rw [f1, h3]; rfl, by rw [dff_WriteBlocks_indx, h1], Or.inr ⟨?_, ?_, ?_⟩⟩
    · rw [dff_WriteBlocks_logical, if_pos rfl, h1, h2]
    · rw [f2, h4]
    · rw [f3, h5]

theorem main_loop_step (L : Libc) (f : Nat) (d d1 : DF_INFO) (h : d.rec_num < d.num_records)
    (hr : dBase_ProcessRecord L d = Outcome.ret d1) :
    main.loop L (f + 1) d = main.loop L f { d1 with rec_num := d1.rec_num + 1 } := by
  simp only [main.loop]
  rw [if_pos h, hr]

theorem routeOf_congr (d d0 : DF_INFO) (h : d.config = d0.config) (j : Nat) :
    routeOf d (recordAt d j) = routeOf d0 (recordAt d0 j) := by
  obtain ⟨g1, _, _, g4, g5, _, _, _, g9⟩ := config_fields _ _ h
  unfold routeOf routingField recordAt
  rw [g1, g4, g5, g9]

theorem main_loop_split (L : Libc) (d0 : DF_INFO) (s n : Nat)
    (hsp : d0.split = (s : Int)) (hs : s < d0.num_flds)
    (htype : d0.fld_type.getD s 0 = DBASE_CHARACTER_FLD)
    (hn : d0.num_records = (n : Int)) (hin : n * d0.bytes ≤ d0.dbf.length)
    (hdel : d0.rec_buffer ≠ (DBASE_DELETED : Int) ∨ d0.undel = true) (m : Nat) :
    ∀ (j : Nat) (d : DF_INFO) (fuel : Nat), j + m = n → d.config = d0.config →
      d.rec_num = (j : Int) → d.dbf_pos = j * d0.bytes → 2 * m + 1 ≤ fuel →
      ∃ final : DF_INFO, main.loop L fuel d = some (DF_SUCCESS, final) ∧
        ∀ k, final.logical k = d.logical k +
          (List.range' j m).countP (fun j1 => decide (routeOf d0 (recordAt d0 j1) = k)) := by
  induction m with
  | zero =>
    intro j d fuel hj hc hr _ hf
    obtain ⟨f, rfl⟩ : ∃ f, fuel = f + 1 := ⟨fuel - 1, by omega⟩
    obtain ⟨_, _, _, _, _, _, g7, _, _⟩ := config_fields _ _ hc
    refine ⟨d, ?_, fun k => by simp⟩
    simp only [main.loop]
    rw [if_neg (by rw [hr, g7, hn]; have : j = n := by omega
                   rw [this]; exact lt_irrefl _)]
  | succ m ih =>
    intro j d fuel hj hc hr hp hf
    have hcount : ∀ k, (List.range' j (m + 1)).countP
        (fun j1 => decide (routeOf d0 (recordAt d0 j1) = k)) =
        (if routeOf d0 (recordAt d0 j) = k then 1 else 0) +
          (List.range' (j + 1) m).countP (fun j1 => decide (routeOf d0 (recordAt d0 j1) = k)) := by
      intro k
      rw [List.range'_succ, List.countP_cons]
      simp only [decide_eq_true_eq]
      omega
    -- one call of `dBase_ProcessRecord` on a state that stands at record `j`
    have hcall : ∀ d : DF_INFO, d.config = d0.config → d.rec_num = (j : Int) →
        d.dbf_pos = j * d0.bytes →
        d.rec_num < d.num_records ∧
        ∃ d1 : DF_INFO, dBase_ProcessRecord L d = Outcome.ret d1 ∧ d1.config = d0.config ∧
          d1.indx = routeOf d0 (recordAt d0 j) ∧
          ((d.indx ≠ routeOf d0 (recordAt d0 j) ∧ d1.logical = d.logical ∧
              d1.rec_num = d.rec_num - 1 ∧ d1.dbf_pos = d.dbf_pos) ∨
            (d1.logical = Function.update d.logical (routeOf d0 (recordAt d0 j))
                (d.logical (routeOf d0 (recordAt d0 j)) + 1) ∧
              d1.rec_num = d.rec_num ∧ d1.dbf_pos = d.dbf_pos + d0.bytes)) := by
      intro d hc hr hp
      obtain ⟨g1, g2, g3, g4, g5, g6, g7, g8, g9⟩ := config_fields _ _ hc
      have hlt : d.rec_num < d.num_records := by
        rw [hr, g7, hn]; exact_mod_cast (by omega : j < n)
      have hin2 : (j + 1) * d.bytes ≤ d.dbf.length := by
        rw [g5, g9]
        calc (j + 1) * d0.bytes ≤ n * d0.bytes := Nat.mul_le_mul_right _ (by omega)
          _ ≤ d0.dbf.length := hin
      obtain ⟨d1, hret, hc1, hi1, hcase⟩ := dBase_ProcessRecord_split L d s j (by rw [g1, hsp])
        (by rw [g2]; exact hs) (by rw [g3]; exact htype) (by rw [hp, g5]) hin2
        (by rw [g8, g6]; exact hdel)
      rw [routeOf_congr d d0 hc j] at hi1 hcase
      refine ⟨hlt, d1, hret, by rw [hc1, hc], hi1, ?_⟩
      rcases hcase with ⟨h1, _, h3, h4, h5⟩ | ⟨h3, h4, h5⟩
      · exact Or.inl ⟨h1, h3, h4, h5⟩
      · exact Or.inr ⟨h3, h4, by rw [h5, g5]⟩
    -- the rest of the run after the call that writes record `j`
    have hwrite : ∀ (d d1 : DF_INFO) (f : Nat), d.rec_num = (j : Int) → d.dbf_pos = j * d0.bytes →
        d1.config = d0.config →
        d1.logical = Function.update d.logical (routeOf d0 (recordAt d0 j))
          (d.logical (routeOf d0 (recordAt d0 j)) + 1) →
        d1.rec_num = d.rec_num → d1.dbf_pos = d.dbf_pos + d0.bytes → 2 * m + 1 ≤ f →
        ∃ final : DF_INFO,
          main.loop L f { d1 with rec_num := d1.rec_num + 1 } = some (DF_SUCCESS, final) ∧
          ∀ k, final.logical k = d.logical k +
            (List.range' j (m + 1)).countP
              (fun j1 => decide (routeOf d0 (recordAt d0 j1) = k)) := by
      intro d d1 f hr hp hc1 hlg hrn hpos hf
      obtain ⟨final, hfin, hlog⟩ := ih (j + 1) { d1 with rec_num := d1.rec_num + 1 } f (by omega)
        hc1
        (by show d1.rec_num + 1 = ((j + 1 : Nat) : Int); rw [hrn, hr]; push_cast; rfl)
        (by show d1.dbf_pos = (j + 1) * d0.bytes; rw [hpos, hp]; ring) hf
      refine ⟨final, hfin, fun k => ?_⟩
      rw [hlog k, hcount k]
      show d1.logical k + _ = _
      rw [hlg]
      by_cases hk : routeOf d0 (recordAt d0 j) = k
      · subst hk
        rw [Function.update_same, if_pos rfl]
        omega
      · rw [Function.update_noteq (Ne.symm hk), if_neg hk]
        omega
    obtain ⟨f, rfl⟩ : ∃ f, fuel = f + 1 := ⟨fuel - 1, by omega⟩
    obtain ⟨hlt, d1, hret, hc1, hi1, hcase⟩ := hcall d hc hr hp
    rw [main_loop_step L f d d1 hlt hret]
    rcases hcase with ⟨hne, hlg, hrn, hpos⟩ | ⟨hlg, hrn, hpos⟩
    · -- the record was rewound: the next call writes it
      obtain ⟨f2, rfl⟩ : ∃ f2, f = f2 + 1 := ⟨f - 1, by omega⟩
      have hr2 : ({ d1 with rec_num := d1.rec_num + 1 } : DF_INFO).rec_num = (j : Int) := by
        show d1.rec_num + 1 = (j : Int); rw [hrn, hr]; ring
      have hp2 : ({ d1 with rec_num := d1.rec_num + 1 } : DF_INFO).dbf_pos = j * d0.bytes := by
        show d1.dbf_pos = j * d0.bytes; rw [hpos, hp]
      obtain ⟨hlt2, d2, hret2, hc2, _, hcase2⟩ :=
        hcall { d1 with rec_num := d1.rec_num + 1 } hc1 hr2 hp2
      rw [main_loop_step L f2 _ d2 hlt2 hret2]
      rcases hcase2 with ⟨hne2, _⟩ | ⟨hlg2, hrn2, hpos2⟩
      · exact absurd hi1 hne2
      · obtain ⟨final, hfin, hlog⟩ := hwrite { d1 with rec_num := d1.rec_num + 1 } d2 f2 hr2 hp2
          hc2 hlg2 hrn2 hpos2 (by omega)
        refine ⟨final, hfin, fun k => ?_⟩
        rw [hlog k]
        show d1.logical k + _ = _
        rw [hlg]
    · exact hwrite d d1 f hr hp hc1 hlg hrn hpos (by omega)

theorem count_by_partition (f : Nat → Nat) (N : Nat) (hf : ∀ j, f j < N) (l : List Nat) :
    Finset.sum (Finset.range N) (fun k => l.countP (fun j => decide (f j = k))) = l.length := by
  induction l with
  | nil => simp
  | cons a l ih =>
    simp only [List.countP_cons, List.length_cons, decide_eq_true_eq]
    rw [Finset.sum_add_distrib, ih, Finset.sum_ite_eq]
    simp [hf a]

/-! ## Logical numbers of the index rows -/

theorem dff_WriteBlocks_untouched (d : DF_INFO) (ptr : List Nat) (which : Nat) (h : IndexInv d)
    (k : Nat) (hk : (dff_WriteBlocks d ptr which).logical k = 0)
    (hf : d.dftFile k = none ∨ d.dftFile k = some []) :
    (dff_WriteBlocks d ptr which).dftFile k = none ∨
      (dff_WriteBlocks d ptr which).dftFile k = some [] := by
  obtain ⟨⟨_, hB, _⟩, hdff, hdfa⟩ := opened_IndexInv d h
  have hlg := opened_logical d
  rw [dff_WriteBlocks_logical] at hk
  rw [dff_WriteBlocks_dftFile_eq]
  have hopen : (dff_WriteBlocks.opened d).dftFile k = none ∨
      (dff_WriteBlocks.opened d).dftFile k = some [] := by
    by_cases hki : k = d.indx
    · subst hki
      by_cases hw : which = DF_WRITING_RECORD
      · simp [hw] at hk
      · right
        simp only [hw, if_false] at hk
        exact (hB d.indx hdff).2 (by rw [hlg]; exact hk)
    · cases hd : d.dff with
      | none =>
        rw [opened_of_none d hd, dff_Open_dftFile, Function.update_noteq hki]
        exact hf
      | some j =>
        rw [opened_of_some d j hd]
        exact hf
  by_cases hw : which = DF_WRITING_RECORD
  · simp only [hw, if_true] at hk ⊢
    have hki : k ≠ d.indx := by
      intro e
      subst e
      simp at hk
    rw [hdfa]
    simp only [fappend]
    rw [Function.update_noteq hki]
    exact hopen
  · simp only [hw, if_false]
    exact hopen

theorem main_steps_untouched (L : Libc) (n : Nat) (d : DF_INFO) (h : IndexInv d)
    (hf : ∀ k, d.logical k = 0 → d.dftFile k = none ∨ d.dftFile k = some []) :
    ∀ k, (main.steps L n d).logical k = 0 →
      (main.steps L n d).dftFile k = none ∨ (main.steps L n d).dftFile k = some [] := by
  have := main_steps_preserves
    (fun d => IndexInv d ∧ ∀ k, d.logical k = 0 → d.dftFile k = none ∨ d.dftFile k = some [])
    (fun d ptr which ⟨h1, h2⟩ => ⟨dff_WriteBlocks_IndexInv d ptr which h1, fun k hk => by
      apply dff_WriteBlocks_untouched d ptr which h1 k hk
      apply h2
      rw [dff_WriteBlocks_logical] at hk
      by_cases hw : which = DF_WRITING_RECORD
      · simp only [hw, if_true] at hk
        by_cases hki : k = d.indx
        · subst hki; simp at hk
        · rw [Function.update_noteq hki] at hk; exact hk
      · simp only [hw, if_false] at hk; exact hk⟩)
    (fun d i ⟨h1, h2⟩ hd => ⟨IndexInv_set_indx d i h1 hd, h2⟩)
    (fun d i rn pos ⟨h1, h2⟩ => ⟨IndexInv_close d i rn pos h1, h2⟩)
    (fun d pos h => h) (fun d rn h => h) L n d ⟨h, hf⟩
  exact this.2

/-- C11: index logical ids. A record write appends one row, whose logical id is
the counter `logical[indx]` raised by one. In a run that starts with the
counters and handles as `dff_Init` leaves them, after any number of iterations
of the record loop, and so in the state the loop ends with, the rows of a
partition with `n > 0` records carry the logical ids 1, 2, ..., `n` in that
order; when no .dft file exists at the start, every .dft file holds rows with
the ids 1, 2, ... up to its number of rows. Files closed and opened again are
covered: the record loop does both. -/
theorem index_logical_ids (L : Libc) (d : DF_INFO)
    (hl : ∀ k, d.logical k = 0) (hd : d.dff = none) (ha : d.dfa = none) :
    (∀ (d1 : DF_INFO) (ptr : List Nat) (k : Nat), (dff_WriteBlocks.opened d1).dfa = some k →
      (dff_WriteBlocks d1 ptr DF_WRITING_RECORD).logical d1.indx = d1.logical d1.indx + 1 ∧
      ∃ row : Row, row.logical = d1.logical d1.indx + 1 ∧
        (dff_WriteBlocks d1 ptr DF_WRITING_RECORD).dftFile k =
          some (((dff_WriteBlocks.opened d1).dftFile k).getD [] ++ [row])) ∧
    (∀ (n k : Nat), 0 < (main.steps L n d).logical k → ∃ rows : List Row,
      (main.steps L n d).dftFile k = some rows ∧
      rows.map Row.logical = List.range' 1 ((main.steps L n d).logical k)) ∧
    (∀ (fuel status : Nat) (final : DF_INFO), main.loop L fuel d = some (status, final) →
      ∀ k, 0 < final.logical k → ∃ rows : List Row, final.dftFile k = some rows ∧
        rows.map Row.logical = List.range' 1 (final.logical k)) ∧
    ((∀ k, d.dftFile k = none) → ∀ (n k : Nat) (rows : List Row),
      (main.steps L n d).dftFile k = some rows →
      rows.map Row.logical = List.range' 1 rows.length) := by
  have hinv0 := IndexInv_of_fresh d hl hd ha
  have hsteps : ∀ (n k : Nat), 0 < (main.steps L n d).logical k → ∃ rows : List Row,
      (main.steps L n d).dftFile k = some rows ∧
      rows.map Row.logical = List.range' 1 ((main.steps L n d).logical k) := by
    intro n k hk
    obtain ⟨rows, h1, h2, _⟩ := (main_steps_IndexInv L n d hinv0).2.2 k hk
    exact ⟨rows, h1, h2⟩
  refine ⟨?_, hsteps, ?_, ?_⟩
  · intro d1 ptr k hk
    refine ⟨?_, _, rfl, dff_WriteBlocks_row d1 ptr k hk⟩
    rw [dff_WriteBlocks_logical, if_pos rfl, Function.update_same]
  · intro fuel status final hrun k hk
    rw [main_loop_eq_steps L fuel d status final hrun] at hk ⊢
    exact hsteps fuel k hk
  · intro hnone n k rows hrows
    by_cases h0 : (main.steps L n d).logical k = 0
    · rcases main_steps_untouched L n d hinv0 (fun k _ => Or.inl (hnone k)) k h0 with h | h
      · rw [h] at hrows; cases hrows
      · rw [h] at hrows
        injection hrows with hrows
        subst hrows
        rfl
    · obtain ⟨rows2, h1, h2⟩ := hsteps n k (Nat.pos_of_ne_zero h0)
      rw [h1] at hrows
      injection hrows with hrows
      subst hrows
      have hlen := congrArg List.length h2
      simp only [List.length_map, List.length_range'] at hlen
      rw [hlen]
      exact h2

set_option maxRecDepth 100000 in
/-- C11 at a concrete input: the example input `DF_INFO.sampleReopen`, where
partition `b` is closed after record 1 and opened again for record 3, and ends
with the rows 1 and 2. -/
theorem index_logical_ids_witness :
    (∀ k, DF_INFO.sampleReopen.logical k = 0) ∧ DF_INFO.sampleReopen.dff = none ∧
    DF_INFO.sampleReopen.dfa = none ∧
    ((main.steps Libc.zero 6 DF_INFO.sampleReopen).dftFile 1).map (List.map Row.logical) =
      some [1, 2] ∧
    (∀ (d1 : DF_INFO) (ptr : List Nat) (k : Nat), (dff_WriteBlocks.opened d1).dfa = some k →
      (dff_WriteBlocks d1 ptr DF_WRITING_RECORD).logical d1.indx = d1.logical d1.indx + 1 ∧
      ∃ row : Row, row.logical = d1.logical d1.indx + 1 ∧
        (dff_WriteBlocks d1 ptr DF_WRITING_RECORD).dftFile k =
          some (((dff_WriteBlocks.opened d1).dftFile k).getD [] ++ [row])) ∧
    (∀ (n k : Nat), 0 < (main.steps Libc.zero n DF_INFO.sampleReopen).logical k →
      ∃ rows : List Row, (main.steps Libc.zero n DF_INFO.sampleReopen).dftFile k = some rows ∧
      rows.map Row.logical =
        List.range' 1 ((main.steps Libc.zero n DF_INFO.sampleReopen).logical k)) ∧
    (∀ (fuel status : Nat) (final : DF_INFO),
      main.loop Libc.zero fuel DF_INFO.sampleReopen = some (status, final) →
      ∀ k, 0 < final.logical k → ∃ rows : List Row, final.dftFile k = some rows ∧
        rows.map Row.logical = List.range' 1 (final.logical k)) ∧
    ((∀ k, DF_INFO.sampleReopen.dftFile k = none) → ∀ (n k : Nat) (rows : List Row),
      (main.steps Libc.zero n DF_INFO.sampleReopen).dftFile k = some rows →
      rows.map Row.logical = List.range' 1 rows.length) :=
  ⟨fun _ => rfl, rfl, rfl, by decide,
    index_logical_ids Libc.zero DF_INFO.sampleReopen (fun _ => rfl) rfl rfl⟩

/-! ## The partition a routing field selects -/

theorem route_digit (c : Nat) (h1 : 48 ≤ c) (h2 : c ≤ 57) :
    dBase_ProcessRecord.route c = DF_NUMBER_FILE := by
  unfold dBase_ProcessRecord.route isdigit
  rw [if_pos (by simp [h1, h2])]

theorem route_lower (c : Nat) (h1 : 97 ≤ c) (h2 : c ≤ 122) :
    dBase_ProcessRecord.route c = c - 97 := by
  have ht : tolower c = c := by unfold tolower; rw [if_neg (by omega)]
  have hM : DF_MAX_SPLIT = 28 := rfl
  unfold dBase_ProcessRecord.route isdigit
  rw [ht, hM, if_neg (by simp; omega), if_neg (by push_cast; omega)]
  omega

theorem route_upper (c : Nat) (h1 : 65 ≤ c) (h2 : c ≤ 90) :
    dBase_ProcessRecord.route c = c - 65 := by
  have ht : tolower c = c + 32 := by unfold tolower; rw [if_pos (by omega)]
  have hM : DF_MAX_SPLIT = 28 := rfl
  unfold dBase_ProcessRecord.route isdigit
  rw [ht, hM, if_neg (by simp; omega), if_neg (by push_cast; omega)]
  omega

theorem route_other (c : Nat) (hd : ¬ (48 ≤ c ∧ c ≤ 57)) (hl : ¬ (97 ≤ c ∧ c ≤ 122))
    (hu : ¬ (65 ≤ c ∧ c ≤ 90)) (hb : c ≠ 123) (hb2 : c ≠ 124) :
    dBase_ProcessRecord.route c = DF_OTHER_FILE := by
  have ht : tolower c = c := by unfold tolower; rw [if_neg hu]
  have hM : DF_MAX_SPLIT = 28 := rfl
  unfold dBase_ProcessRecord.route isdigit
  rw [ht, hM, if_neg (by simp; omega), if_pos (by push_cast; omega)]

/-- C17: routing of digits and lowercase letters. A call of `dBase_ProcessRecord`
in split mode on record `j` returns with `indx` set from `c`, the first character
of the transcoded routing field: to `DF_NUMBER_FILE` = 27 when `c` is a digit,
and then the file names are "numbers" with the extension; to `c - 'a'` when `c`
is a lowercase letter, and then the file names are the letter with the
extension. Two different lowercase letters give different partitions. -/
theorem route_digit_or_lowercase (L : Libc) (d : DF_INFO) (s j c : Nat)
    (hsp : d.split = (s : Int)) (hs : s < d.num_flds)
    (htype : d.fld_type.getD s 0 = DBASE_CHARACTER_FLD)
    (hpos : d.dbf_pos = j * d.bytes) (hin : (j + 1) * d.bytes ≤ d.dbf.length)
    (hdel : d.rec_buffer ≠ (DBASE_DELETED : Int) ∨ d.undel = true)
    (hc : (routingField d (recordAt d j)).getD 0 0 = c) :
    ∃ d1 : DF_INFO, dBase_ProcessRecord L d = Outcome.ret d1 ∧
      d1.indx = dBase_ProcessRecord.route c ∧
      (48 ≤ c ∧ c ≤ 57 → d1.indx = DF_NUMBER_FILE ∧ d1.indx = 27 ∧
        ∀ ext, dff_GenDfilename d1 ext = txt ("numbers") ++ [46] ++ ext) ∧
      (97 ≤ c ∧ c ≤ 122 → d1.indx = c - 97 ∧
        ∀ ext, dff_GenDfilename d1 ext = [c] ++ [46] ++ ext) ∧
      (∀ c2, 97 ≤ c ∧ c ≤ 122 → 97 ≤ c2 ∧ c2 ≤ 122 → c ≠ c2 →
        dBase_ProcessRecord.route c ≠ dBase_ProcessRecord.route c2 ∧
        ∀ ext, [c] ++ [46] ++ ext ≠ [c2] ++ [46] ++ ext) := by
  obtain ⟨d1, hret, hcfg, hidx, _⟩ := dBase_ProcessRecord_split L d s j hsp hs htype hpos hin hdel
  have hidx2 : d1.indx = dBase_ProcessRecord.route c := by rw [hidx, routeOf, hc]
  have hsplit : d1.split ≠ DF_NOT_SPLIT := by
    rw [(config_fields _ _ hcfg).1, hsp]
    have : DF_NOT_SPLIT = -1 := rfl
    omega
  refine ⟨d1, hret, hidx2, ?_, ?_, ?_⟩
  · rintro ⟨h1, h2⟩
    have h27 : d1.indx = DF_NUMBER_FILE := by rw [hidx2, route_digit c h1 h2]
    refine ⟨h27, h27, fun ext => ?_⟩
    unfold dff_GenDfilename
    rw [if_neg hsplit, if_pos h27]
    rfl
  · rintro ⟨h1, h2⟩
    have hk : d1.indx = c - 97 := by rw [hidx2, route_lower c h1 h2]
    refine ⟨hk, fun ext => ?_⟩
    unfold dff_GenDfilename
    have hN : DF_NUMBER_FILE = 27 := rfl
    have hO : DF_OTHER_FILE = 26 := rfl
    rw [if_neg hsplit, if_neg (by rw [hk, hN]; omega), if_neg (by rw [hk, hO]; omega), hk]
    have : (c - 97 + 97) % 256 = c := by omega
    rw [this]
  · rintro c2 ⟨h1, h2⟩ ⟨h3, h4⟩ hne
    rw [route_lower c h1 h2, route_lower c2 h3 h4]
    refine ⟨by omega, fun ext h => ?_⟩
    simp at h
    exact hne h

set_option maxRecDepth 100000 in
/-- C17 at a concrete input: the first record of `DF_INFO.sampleReopen`, whose
routing field is "b". -/
theorem route_digit_or_lowercase_witness :
    DF_INFO.sampleReopen.split = ((0 : Nat) : Int) ∧ 0 < DF_INFO.sampleReopen.num_flds ∧
    DF_INFO.sampleReopen.fld_type.getD 0 0 = DBASE_CHARACTER_FLD ∧
    DF_INFO.sampleReopen.dbf_pos = 0 * DF_INFO.sampleReopen.bytes ∧
    (0 + 1) * DF_INFO.sampleReopen.bytes ≤ DF_INFO.sampleReopen.dbf.length ∧
    (routingField DF_INFO.sampleReopen (recordAt DF_INFO.sampleReopen 0)).getD 0 0 = 98 ∧
    ∃ d1 : DF_INFO, dBase_ProcessRecord Libc.zero DF_INFO.sampleReopen = Outcome.ret d1 ∧
      d1.indx = dBase_ProcessRecord.route 98 ∧
      (48 ≤ 98 ∧ 98 ≤ 57 → d1.indx = DF_NUMBER_FILE ∧ d1.indx = 27 ∧
        ∀ ext, dff_GenDfilename d1 ext = txt ("numbers") ++ [46] ++ ext) ∧
      (97 ≤ 98 ∧ 98 ≤ 122 → d1.indx = 98 - 97 ∧
        ∀ ext, dff_GenDfilename d1 ext = [98] ++ [46] ++ ext) ∧
      (∀ c2, 97 ≤ 98 ∧ 98 ≤ 122 → 97 ≤ c2 ∧ c2 ≤ 122 → 98 ≠ c2 →
        dBase_ProcessRecord.route 98 ≠ dBase_ProcessRecord.route c2 ∧
        ∀ ext, [98] ++ [46] ++ ext ≠ [c2] ++ [46] ++ ext) :=
  ⟨rfl, by decide, rfl, rfl, by decide, by decide,
    route_digit_or_lowercase Libc.zero DF_INFO.sampleReopen 0 0 98 rfl (by decide) rfl rfl
      (by decide) (Or.inl (by decide)) (by decide)⟩

/-- C18 as it stands fails on the code: an uppercase letter is neither a digit
nor a lowercase letter, and `A` selects partition 0, the bucket of the letter
`a`, not `DF_OTHER_FILE`. -/
theorem route_uppercase_not_other :
    isdigit 65 = false ∧ ¬ (97 ≤ 65 ∧ 65 ≤ 122) ∧
    dBase_ProcessRecord.route 65 = 0 ∧ dBase_ProcessRecord.route 65 ≠ DF_OTHER_FILE ∧
    dBase_ProcessRecord.route 65 = dBase_ProcessRecord.route 97 := by decide

/-- C18, amended: routing of everything else. A call of `dBase_ProcessRecord` in
split mode on record `j` returns with `indx` set from `c`, the first character
of the transcoded routing field: to `DF_OTHER_FILE` = 26 when `c` is not a
digit, not a letter of either case and not the character 124, which covers the
empty field (`c` = 0) and the character 123; and to the bucket of the lowercase
letter when `c` is an uppercase letter. -/
theorem route_everything_else (L : Libc) (d : DF_INFO) (s j c : Nat)
    (hsp : d.split = (s : Int)) (hs : s < d.num_flds)
    (htype : d.fld_type.getD s 0 = DBASE_CHARACTER_FLD)
    (hpos : d.dbf_pos = j * d.bytes) (hin : (j + 1) * d.bytes ≤ d.dbf.length)
    (hdel : d.rec_buffer ≠ (DBASE_DELETED : Int) ∨ d.undel = true)
    (hc : (routingField d (recordAt d j)).getD 0 0 = c) :
    ∃ d1 : DF_INFO, dBase_ProcessRecord L d = Outcome.ret d1 ∧
      d1.indx = dBase_ProcessRecord.route c ∧
      (¬ (48 ≤ c ∧ c ≤ 57) → ¬ (97 ≤ c ∧ c ≤ 122) → ¬ (65 ≤ c ∧ c ≤ 90) → c ≠ 124 →
        d1.indx = DF_OTHER_FILE ∧ d1.indx = 26 ∧
        ∀ ext, dff_GenDfilename d1 ext = txt ("other") ++ [46] ++ ext) ∧
      (65 ≤ c ∧ c ≤ 90 → d1.indx = c + 32 - 97 ∧
        d1.indx = dBase_ProcessRecord.route (c + 32)) ∧
      dBase_ProcessRecord.route 0 = DF_OTHER_FILE ∧
      dBase_ProcessRecord.route 123 = DF_OTHER_FILE := by
  obtain ⟨d1, hret, hcfg, hidx, _⟩ := dBase_ProcessRecord_split L d s j hsp hs htype hpos hin hdel
  have hidx2 : d1.indx = dBase_ProcessRecord.route c := by rw [hidx, routeOf, hc]
  have hsplit : d1.split ≠ DF_NOT_SPLIT := by
    rw [(config_fields _ _ hcfg).1, hsp]
    have : DF_NOT_SPLIT = -1 := rfl
    omega
  refine ⟨d1, hret, hidx2, ?_, ?_, by decide, by decide⟩
  · intro h1 h2 h3 h4
    have h26 : d1.indx = DF_OTHER_FILE := by
      by_cases h5 : c = 123
      · rw [hidx2, h5]; decide
      · rw [hidx2, route_other c h1 h2 h3 h5 h4]
    refine ⟨h26, h26, fun ext => ?_⟩
    unfold dff_GenDfilename
    rw [if_neg hsplit, if_neg (by rw [h26]; decide), if_pos h26]
    rfl
  · rintro ⟨h1, h2⟩
    rw [hidx2, route_upper c h1 h2, route_lower (c + 32) (by omega) (by omega)]
    omega

set_option maxRecDepth 100000 in
/-- C18, amended, at a concrete input: `DF_INFO.sampleReopen` with the routing
field of the first record replaced by the character 123. -/
theorem route_everything_else_witness :
    DF_INFO.sampleReopen.split = ((0 : Nat) : Int) ∧ 0 < DF_INFO.sampleReopen.num_flds ∧
    DF_INFO.sampleReopen.fld_type.getD 0 0 = DBASE_CHARACTER_FLD ∧
    (routingField { DF_INFO.sampleReopen with dbf := [32, 123, 32, 97, 32, 98] }
      (recordAt { DF_INFO.sampleReopen with dbf := [32, 123, 32, 97, 32, 98] } 0)).getD 0 0 = 123 ∧
    ∃ d1 : DF_INFO,
      dBase_ProcessRecord Libc.zero { DF_INFO.sampleReopen with dbf := [32, 123, 32, 97, 32, 98] } =
        Outcome.ret d1 ∧
      d1.indx = dBase_ProcessRecord.route 123 ∧
      (¬ (48 ≤ 123 ∧ 123 ≤ 57) → ¬ (97 ≤ 123 ∧ 123 ≤ 122) → ¬ (65 ≤ 123 ∧ 123 ≤ 90) → 123 ≠ 124 →
        d1.indx = DF_OTHER_FILE ∧ d1.indx = 26 ∧
        ∀ ext, dff_GenDfilename d1 ext = txt ("other") ++ [46] ++ ext) ∧
      (65 ≤ 123 ∧ 123 ≤ 90 → d1.indx = 123 + 32 - 97 ∧
        d1.indx = dBase_ProcessRecord.route (123 + 32)) ∧
      dBase_ProcessRecord.route 0 = DF_OTHER_FILE ∧
      dBase_ProcessRecord.route 123 = DF_OTHER_FILE :=
  ⟨rfl, by decide, rfl, by decide,
    route_everything_else Libc.zero { DF_INFO.sampleReopen with dbf := [32, 123, 32, 97, 32, 98] }
      0 0 123 rfl (by decide) rfl rfl (by decide) (Or.inl (by decide)) (by decide)⟩

/-! ## `dff_DFTtoDFA` and `dff_CleanUp` -/

theorem dff_CleanUp_loop_failure (adr_fails : Nat → Bool) (n : Nat) :
    ∀ (d : DF_INFO) (num : Nat), ∃ (d1 : DF_INFO) (c : Nat),
      dff_CleanUp.loop adr_fails DF_FAILURE n d num = Sum.inr (d1, c) ∧
      d1.dfaFile = d.dfaFile ∧
      ∀ k, (d.indx ≤ k → k < d.indx + n → d1.dftFile k = none ∧ d1.dffFile k = none) ∧
        (k < d.indx → d1.dftFile k = d.dftFile k ∧ d1.dffFile k = d.dffFile k) := by
  induction n with
  | zero =>
    intro d num
    exact ⟨d, num, rfl, rfl, fun k => ⟨fun h1 h2 => by omega, fun _ => ⟨rfl, rfl⟩⟩⟩
  | succ n ih =>
    intro d num
    have hstep : dff_DFTtoDFA adr_fails d DF_FAILURE =
        Sum.inr ({ d with
          dftFile := Function.update d.dftFile d.indx none
          dffFile := Function.update d.dffFile d.indx none }, d.logical d.indx) := by
      unfold dff_DFTtoDFA
      rw [if_neg (by intro h; exact absurd h.1 (by decide))]
    obtain ⟨d1, c, h1, h2, h3⟩ := ih
      { d with
        dftFile := Function.update d.dftFile d.indx none
        dffFile := Function.update d.dffFile d.indx none
        indx := d.indx + 1 } (num + d.logical d.indx)
    refine ⟨d1, c, ?_, h2, fun k => ⟨fun g1 g2 => ?_, fun g1 => ?_⟩⟩
    · simp only [dff_CleanUp.loop, hstep]
      exact h1
    · by_cases hk : k = d.indx
      · have := (h3 k).2 (by show k < d.indx + 1; omega)
        simp only at this
        rw [this.1, this.2, hk, Function.update_same, Function.update_same]
        exact ⟨rfl, rfl⟩
      · exact (h3 k).1 (by show d.indx + 1 ≤ k; omega) (by show k < d.indx + 1 + n; omega)
    · have := (h3 k).2 (by show k < d.indx + 1; omega)
      simp only at this
      rw [this.1, this.2, Function.update_noteq (by omega), Function.update_noteq (by omega)]
      exact ⟨rfl, rfl⟩

theorem dff_CleanUp_failure (adr_fails : Nat → Bool) (d : DF_INFO) :
    (dff_CleanUp adr_fails d DF_FAILURE).1 = DF_FAILURE ∧
    (dff_CleanUp adr_fails d DF_FAILURE).2.dfaFile = d.dfaFile ∧
    ∀ k, k < dff_CleanUp.partitions d →
      (dff_CleanUp adr_fails d DF_FAILURE).2.dftFile k = none ∧
      (dff_CleanUp adr_fails d DF_FAILURE).2.dffFile k = none := by
  obtain ⟨d1, c, h1, h2, h3⟩ :=
    dff_CleanUp_loop_failure adr_fails (dff_CleanUp.partitions d) { d with indx := 0 } 0
  unfold dff_CleanUp
  rw [h1]
  exact ⟨rfl, h2, fun k hk => (h3 k).1 (Nat.zero_le k) (by simpa using hk)⟩

theorem fmtLong_nat (n : Nat) : fmtLong (n : Int) = decimal n := by
  unfold fmtLong
  rw [if_neg (by omega)]
  rfl

/-- C20: successful finalization with rows. When `dff_DFTtoDFA` is called with
`DF_SUCCESS` for a partition whose .dft file holds `n > 0` rows, `n` being the
value of its record counter, and the .dfa file can be opened, it returns `n` and
the .dfa file is the eight header entries (version `Dfile01`, model name,
`FileProtected` yes or no, `NumRecords n`, `RecordAddresses[2n]`) followed by
the text of the `n` rows in the same order; the .dft file is removed, the .dff
files are as before, and no file of another partition changes. The counter
equals the number of rows in every state a run started from fresh counters ends
with. -/
theorem dff_DFTtoDFA_success (adr_fails : Nat → Bool) (d : DF_INFO) (rows : List Row)
    (hrows : d.dftFile d.indx = some rows) (hn : 0 < rows.length)
    (hlen : d.logical d.indx = rows.length) (hok : adr_fails d.indx = false) :
    (∃ d1 : DF_INFO, dff_DFTtoDFA adr_fails d DF_SUCCESS = Sum.inr (d1, rows.length) ∧
      d1.dfaFile d.indx = some (dff_DFTtoDFA.header d ++ rows.map Row.text) ∧
      dff_DFTtoDFA.header d =
        [ txt ("#\n#\tDfile Version\n#\n"),
          txt ("char\tVersion\t\x7bDfile01\x7d\n"),
          txt ("#\n#\tDfile Model name\n#\n"),
          txt ("char\tModel\t\x7b") ++ d.model ++ txt ("\x7d\n"),
          txt ("char\tFileProtected\t\x7b") ++ (if d.protect_file then txt ("yes") else txt ("no")) ++
            txt ("\x7d\n"),
          txt ("long\tNumRecords\t") ++ decimal rows.length ++ txt ("\n"),
          txt ("#\n#\ta \x60-\x27 marks a record as protected\n#\n"),
          txt ("long\tRecordAddresses[") ++ decimal (rows.length * 2) ++ txt ("]\n") ] ∧
      d1.dftFile d.indx = none ∧ d1.dffFile = d.dffFile ∧
      (∀ k, k ≠ d.indx → d1.dfaFile k = d.dfaFile k ∧ d1.dftFile k = d.dftFile k) ∧
      d1.logical = d.logical ∧ d1.indx = d.indx) ∧
    (∀ (L : Libc) (d0 : DF_INFO) (fuel status : Nat) (final : DF_INFO),
      (∀ k, d0.logical k = 0) → d0.dff = none → d0.dfa = none →
      main.loop L fuel d0 = some (status, final) →
      ∀ k, 0 < final.logical k → ∃ rs : List Row,
        final.dftFile k = some rs ∧ final.logical k = rs.length) := by
  constructor
  · refine ⟨{ d with
        dfa := some d.indx
        dfaFile := Function.update d.dfaFile d.indx
          (some (dff_DFTtoDFA.header d ++ ((d.dftFile d.indx).getD []).map Row.text))
        dftFile := Function.update d.dftFile d.indx none }, ?_, ?_, ?_, ?_, rfl, ?_, rfl, rfl⟩
    · unfold dff_DFTtoDFA
      rw [if_pos ⟨rfl, by rw [hlen]; exact hn⟩, hok, hlen]
      rfl
    · simp only [Function.update_same, hrows, Option.getD_some]
    · unfold dff_DFTtoDFA.header
      rw [hlen, fmtLong_nat]
      rw [fmtLong_nat]
      rfl
    · simp only [Function.update_same]
    · intro k hk
      simp only [Function.update_noteq hk]
      exact ⟨trivial, trivial⟩
  · intro L d0 fuel status final hl hd ha hrun k hk
    obtain ⟨rs, h1, h2, _⟩ :=
      (main_loop_IndexInv L fuel d0 status final (IndexInv_of_fresh d0 hl hd ha) hrun).2.2 k hk
    refine ⟨rs, h1, ?_⟩
    have := congrArg List.length h2
    simp only [List.length_map, List.length_range'] at this
    exact this.symm

set_option maxRecDepth 100000 in
/-- C20 at a concrete input: partition `b` at the end of the run on
`DF_INFO.sampleReopen`, whose .dft file holds two rows. -/
theorem dff_DFTtoDFA_success_witness :
    ({ main.steps Libc.zero 6 DF_INFO.sampleReopen with indx := 1 } : DF_INFO).dftFile 1 =
      some [⟨32, 1, 1⟩, ⟨32, 2, 2⟩] ∧
    (main.steps Libc.zero 6 DF_INFO.sampleReopen).logical 1 = 2 ∧
    ∃ d1 : DF_INFO,
      dff_DFTtoDFA (fun _ => false) { main.steps Libc.zero 6 DF_INFO.sampleReopen with indx := 1 }
        DF_SUCCESS = Sum.inr (d1, 2) ∧
      d1.dfaFile 1 = some
        [ txt ("#\n#\tDfile Version\n#\n"),
          txt ("char\tVersion\t\x7bDfile01\x7d\n"),
          txt ("#\n#\tDfile Model name\n#\n"),
          txt ("char\tModel\t\x7bm\x7d\n"),
          txt ("char\tFileProtected\t\x7bno\x7d\n"),
          txt ("long\tNumRecords\t2\n"),
          txt ("#\n#\ta \x60-\x27 marks a record as protected\n#\n"),
          txt ("long\tRecordAddresses[4]\n"),
          txt (" 1\t1\n"),
          txt (" 2\t2\n") ] ∧
      d1.dftFile 1 = none ∧
      d1.dffFile = (main.steps Libc.zero 6 DF_INFO.sampleReopen).dffFile := by
  have h := (dff_DFTtoDFA_success (fun _ => false)
    { main.steps Libc.zero 6 DF_INFO.sampleReopen with indx := 1 }
    [⟨32, 1, 1⟩, ⟨32, 2, 2⟩] (by decide) (by decide) (by decide) rfl).1
  obtain ⟨d1, h1, h2, h3, h4, h5, _⟩ := h
  refine ⟨by decide, by decide, d1, h1, ?_, h4, h5⟩
  rw [h2, h3]
  decide

set_option maxRecDepth 100000 in
/-- C19 fails on the code. The run on `DF_INFO.sampleReopen` ends its record loop
with success, with one record in partition `a` and two in partition `b`. When
`fopen` of `b.dfa` fails in `dff_DFTtoDFA`, after `a.dfa` was written,
`dff_OutOfSpace` ends the run with status `DF_FAILURE`: the .dff and .dft files
of both partitions are removed, and the file `a.dfa` this run wrote remains.
When `dff_CleanUp` is entered with `DF_FAILURE`, as after an error in the record
loop, it does remove the .dff and .dft files of every partition and writes no
.dfa file. -/
theorem index_file_left_after_failure :
    (∀ (adr_fails : Nat → Bool) (d : DF_INFO),
      (dff_CleanUp adr_fails d DF_FAILURE).1 = DF_FAILURE ∧
      (dff_CleanUp adr_fails d DF_FAILURE).2.dfaFile = d.dfaFile ∧
      ∀ k, k < dff_CleanUp.partitions d →
        (dff_CleanUp adr_fails d DF_FAILURE).2.dftFile k = none ∧
        (dff_CleanUp adr_fails d DF_FAILURE).2.dffFile k = none) ∧
    (main.loop Libc.zero 7 DF_INFO.sampleReopen).map (fun r => r.1) = some DF_SUCCESS ∧
    (∀ k, DF_INFO.sampleReopen.dfaFile k = none) ∧
    (main.run (fun k => k == 1) Libc.zero 7 DF_INFO.sampleReopen).map
      (fun r => (r.1, (r.2.dfaFile 0).isSome, (r.2.dffFile 0).isSome, (r.2.dftFile 0).isSome,
        (r.2.dfaFile 1).isSome, (r.2.dffFile 1).isSome, (r.2.dftFile 1).isSome)) =
      some (DF_FAILURE, true, false, false, false, false, false) ∧
    (main.run (fun k => k == 1) Libc.zero 7 DF_INFO.sampleReopen).map (fun r => r.2.dfaFile 0) =
      some (some
        [ txt ("#\n#\tDfile Version\n#\n"),
          txt ("char\tVersion\t\x7bDfile01\x7d\n"),
          txt ("#\n#\tDfile Model name\n#\n"),
          txt ("char\tModel\t\x7bm\x7d\n"),
          txt ("char\tFileProtected\t\x7bno\x7d\n"),
          txt ("long\tNumRecords\t1\n"),
          txt ("#\n#\ta \x60-\x27 marks a record as protected\n#\n"),
          txt ("long\tRecordAddresses[2]\n"),
          txt (" 1\t1\n") ]) := by
  refine ⟨dff_CleanUp_failure, by decide, fun _ => rfl, rfl, by decide⟩

/-! ## `dff_TrimText` position by position -/

theorem getD_set_eq (b : List Nat) (i v j : Nat) (h : i < b.length ∨ v = 0) :
    (b.set i v).getD j 0 = if j = i then v else b.getD j 0 := by
  induction b generalizing i j with
  | nil =>
    rcases h with h | h
    · simp at h
    · subst h; simp
  | cons c r ih =>
    cases i with
    | zero =>
      cases j with
      | zero => simp
      | succ j => simp
    | succ i =>
      cases j with
      | zero => simp
      | succ j =>
        have := ih i j (by rcases h with h | h; exact Or.inl (by simpa using h); exact Or.inr h)
        simpa using this

theorem getD_ne_zero_lt (b : List Nat) (i : Nat) (h : b.getD i 0 ≠ 0) : i < b.length := by
  by_contra hc
  exact h (List.getD_eq_default _ _ (not_lt.mp hc))

theorem shift_getD (n : Nat) : ∀ (l : Nat) (b : List Nat) (j : Nat),
    (dff_TrimText.shift n l b).getD j 0 =
      if l ≤ j ∧ j < l + n then b.getD (j + 1) 0 else b.getD j 0 := by
  induction n with
  | zero =>
    intro l b j
    simp only [dff_TrimText.shift]
    rw [if_neg (by omega)]
  | succ n ih =>
    intro l b j
    simp only [dff_TrimText.shift]
    rw [ih]
    have hs : ∀ k, (b.set l (b.getD (l + 1) 0)).getD k 0 =
        if k = l then b.getD (l + 1) 0 else b.getD k 0 := by
      intro k
      apply getD_set_eq
      by_cases hl : l < b.length
      · exact Or.inl hl
      · exact Or.inr (List.getD_eq_default _ _ (by omega))
    rw [hs, hs]
    by_cases h1 : l + 1 ≤ j ∧ j < l + 1 + n
    · rw [if_pos h1, if_neg (by omega), if_pos (by omega)]
    · rw [if_neg h1]
      by_cases h2 : j = l
      · rw [if_pos h2, if_pos (by omega), h2]
      · rw [if_neg h2, if_neg (by omega)]

theorem delete_getD (b : List Nat) (i len j : Nat) :
    ((dff_TrimText.shift (len - i) i b).set len 0).getD j 0 =
      if j = len then 0 else if i ≤ j ∧ j < len then b.getD (j + 1) 0 else b.getD j 0 := by
  rw [getD_set_eq _ _ _ _ (Or.inr rfl), shift_getD]
  by_cases h : j = len
  · rw [if_pos h, if_pos h]
  · rw [if_neg h, if_neg h]
    by_cases h2 : i ≤ j ∧ j < len
    · rw [if_pos h2, if_pos (by omega)]
    · rw [if_neg h2, if_neg (by omega)]

theorem cstr_length_le (b : List Nat) : ∀ (p : Nat), b.getD p 0 = 0 → (cstr b).length ≤ p := by
  induction b with
  | nil => intro p _; simp [cstr]
  | cons c r ih =>
    intro p hp
    unfold cstr
    rw [List.takeWhile_cons]
    by_cases hc : c = 0
    · simp [hc]
    · cases p with
      | zero => simp at hp; exact absurd hp hc
      | succ p =>
        have := ih p (by simpa using hp)
        simp only [bne_iff_ne, ne_eq, hc, not_false_eq_true, decide_True, if_true,
          List.length_cons]
        unfold cstr at this
        omega

theorem cstr_getD (b : List Nat) : ∀ (j : Nat), j < (cstr b).length →
    (cstr b).getD j 0 = b.getD j 0 := by
  induction b with
  | nil => intro j h; simp [cstr] at h
  | cons c r ih =>
    intro j h
    unfold cstr at h ⊢
    rw [List.takeWhile_cons] at h ⊢
    by_cases hc : c = 0
    · simp [hc] at h
    · simp only [bne_iff_ne, ne_eq, hc, not_false_eq_true, decide_True, if_true,
        List.length_cons] at h ⊢
      cases j with
      | zero => simp
      | succ j =>
        have := ih j (by unfold cstr; omega)
        unfold cstr at this
        simpa using this

theorem cstr_getD_ne_zero (b : List Nat) (j : Nat) (h : j < (cstr b).length) :
    b.getD j 0 ≠ 0 := by
  rw [← cstr_getD b j h]
  have hm : (cstr b).getD j 0 ∈ cstr b := by
    rw [List.getD_eq_getElem _ _ h]
    exact List.getElem_mem _
  have := List.mem_takeWhile_imp hm
  simpa using this

theorem squeeze_inv (i : Nat) (fuel : Nat) : ∀ (len : Nat) (b : List Nat),
    len ≤ i + fuel → i ≤ len → (i = len → b.getD (i + 1) 0 = 0) →
    (∀ j, j < i → ¬ (isDelimOrSpace (b.getD j 0) = true ∧
      isDelimOrSpace (b.getD (j + 1) 0) = true)) →
    (∃ p, p ≤ len + 1 ∧ b.getD p 0 = 0) →
    (∀ j, j < i + 1 → ¬ (isDelimOrSpace ((dff_TrimText.squeeze fuel i len b).2.getD j 0) = true ∧
      isDelimOrSpace ((dff_TrimText.squeeze fuel i len b).2.getD (j + 1) 0) = true)) ∧
    (∃ p, p ≤ (dff_TrimText.squeeze fuel i len b).1 + 1 ∧
      (dff_TrimText.squeeze fuel i len b).2.getD p 0 = 0) ∧
    (dff_TrimText.squeeze fuel i len b).1 ≤ len := by
  have hz : isDelimOrSpace 0 = false := by decide
  induction fuel with
  | zero =>
    intro len b h1 h2 h3 h4 h5
    simp only [dff_TrimText.squeeze]
    refine ⟨fun j hj => ?_, h5, le_refl _⟩
    by_cases hji : j < i
    · exact h4 j hji
    · have : j = i := by omega
      subst this
      rw [h3 (by omega), hz]
      simp
  | succ fuel ih =>
    intro len b h1 h2 h3 h4 h5
    simp only [dff_TrimText.squeeze]
    by_cases hc : i < len ∧ isDelimOrSpace (b.getD i 0) = true ∧
        isDelimOrSpace (b.getD (i + 1) 0) = true
    · rw [if_pos hc]
      have hd := delete_getD b i len
      obtain ⟨g1, g2, g3⟩ := ih (len - 1) ((dff_TrimText.shift (len - i) i b).set len 0)
        (by omega) (by omega)
        (fun e => by rw [hd, if_pos (by omega)])
        (fun j hj => by
          rw [hd, hd, if_neg (by omega), if_neg (by omega), if_neg (by omega)]
          by_cases hj1 : j + 1 = i
          · rw [if_pos (by omega)]
            intro hh
            exact h4 j hj ⟨hh.1, by rw [hj1]; exact hc.2.1⟩
          · rw [if_neg (by omega)]
            exact h4 j hj)
        ⟨len, by omega, by rw [hd, if_pos rfl]⟩
      exact ⟨g1, g2, by omega⟩
    · rw [if_neg hc]
      refine ⟨fun j hj => ?_, h5, le_refl _⟩
      by_cases hji : j < i
      · exact h4 j hji
      · have : j = i := by omega
        subst this
        by_cases hl : j < len
        · exact fun hh => hc ⟨hl, hh⟩
        · rw [h3 (by omega), hz]
          simp

theorem collapse_inv (fuel : Nat) : ∀ (i len : Nat) (b : List Nat),
    len ≤ i + fuel →
    (∀ j, j < i → ¬ (isDelimOrSpace (b.getD j 0) = true ∧
      isDelimOrSpace (b.getD (j + 1) 0) = true)) →
    (∃ p, p ≤ len + 1 ∧ b.getD p 0 = 0) →
    ∃ m p, p ≤ m + 1 ∧ (dff_TrimText.collapse fuel i len b).getD p 0 = 0 ∧
      ∀ j, j < m → ¬ (isDelimOrSpace ((dff_TrimText.collapse fuel i len b).getD j 0) = true ∧
        isDelimOrSpace ((dff_TrimText.collapse fuel i len b).getD (j + 1) 0) = true) := by
  induction fuel with
  | zero =>
    intro i len b h1 h2 h3
    obtain ⟨p, hp1, hp2⟩ := h3
    simp only [dff_TrimText.collapse]
    exact ⟨i, p, by omega, hp2, h2⟩
  | succ fuel ih =>
    intro i len b h1 h2 h3
    simp only [dff_TrimText.collapse]
    by_cases hc : i < len
    · rw [if_pos hc]
      obtain ⟨g1, g2, g3⟩ := squeeze_inv i len len b (by omega) (by omega) (fun e => by omega) h2 h3
      exact ih (i + 1) _ _ (by omega) g1 g2
    · rw [if_neg hc]
      obtain ⟨p, hp1, hp2⟩ := h3
      exact ⟨i, p, by omega, hp2, h2⟩

theorem trail_nul (len : Nat) : ∀ (b : List Nat), (∃ p, p ≤ len + 1 ∧ b.getD p 0 = 0) →
    ∃ p, p ≤ (dff_StripString.trail len b).2 + 1 ∧ (dff_StripString.trail len b).1.getD p 0 = 0 := by
  induction len with
  | zero => intro b h; simpa [dff_StripString.trail] using h
  | succ len ih =>
    intro b h
    simp only [dff_StripString.trail]
    split
    · exact ih _ ⟨len, by omega, by rw [getD_set_eq _ _ _ _ (Or.inr rfl), if_pos rfl]⟩
    · exact h

theorem lead_nul (b : List Nat) : ∀ (m : Nat), (∃ p, p ≤ m ∧ b.getD p 0 = 0) →
    ∃ p, p ≤ m ∧ (dff_StripString.lead b).getD p 0 = 0 := by
  induction b with
  | nil => intro m _; exact ⟨0, by omega, rfl⟩
  | cons c r ih =>
    intro m h
    simp only [dff_StripString.lead]
    split
    · rename_i hc
      obtain ⟨p, hp1, hp2⟩ := h
      cases p with
      | zero =>
        simp at hp2
        rw [hp2] at hc
        exact absurd hc (by decide)
      | succ p =>
        obtain ⟨q, hq1, hq2⟩ := ih m ⟨p, by omega, by simpa using hp2⟩
        exact ⟨q, hq1, hq2⟩
    · exact h

theorem dff_TrimText_pairs (buf : List Nat) :
    ∃ m p, p ≤ m + 1 ∧ (dff_TrimText buf).getD p 0 = 0 ∧
      ∀ j, j < m → ¬ (isDelimOrSpace ((dff_TrimText buf).getD j 0) = true ∧
        isDelimOrSpace ((dff_TrimText buf).getD (j + 1) 0) = true) := by
  unfold dff_TrimText dff_StripString
  apply collapse_inv
  · omega
  · intro j hj; omega
  · apply lead_nul
    apply trail_nul
    exact ⟨_, le_refl _, by rw [getD_set_eq _ _ _ _ (Or.inr rfl), if_pos rfl]⟩

/-- C15: no run of delimiters and spaces. For every buffer, in the string
`dff_TrimText` leaves no two adjacent characters are both a space or a
backslash. -/
theorem dff_TrimText_no_adjacent_delimiters (buf : List Nat) :
    List.Chain' (fun a b => ¬ ((a = SPACE ∨ a = DF_DELIM) ∧ (b = SPACE ∨ b = DF_DELIM)))
      (cstr (dff_TrimText buf)) := by
  obtain ⟨m, p, hp1, hp2, hm⟩ := dff_TrimText_pairs buf
  have hlen := cstr_length_le _ p hp2
  rw [List.chain'_iff_get]
  intro j hj
  have h1 := cstr_getD (dff_TrimText buf) j (by omega)
  have h2 := cstr_getD (dff_TrimText buf) (j + 1) (by omega)
  rw [List.getD_eq_getElem _ _ (by omega)] at h1 h2
  simp only [List.get_eq_getElem]
  rw [h1, h2]
  intro hh
  apply hm j (by omega)
  unfold isDelimOrSpace
  rcases hh with ⟨ha | ha, hb | hb⟩ <;> rw [ha, hb] <;> decide

/-! ### Strings without the end marker -/

theorem scan_spec (z : Nat) (fuel : Nat) : ∀ (i : Nat) (b : List Nat),
    i ≤ z → z - i < fuel →
    (∀ j, i ≤ j → j < z → b.getD j 0 ≠ 0 ∧ b.getD j 0 ≠ DBASE_MEMO_END) → b.getD z 0 = 0 →
    (dff_TrimText.scan fuel i b).1 = z ∧
    ∀ j, (dff_TrimText.scan fuel i b).2.getD j 0 =
      if i ≤ j ∧ j < z then dff_TrimText.translate (b.getD j 0) else b.getD j 0 := by
  induction fuel with
  | zero => intro i b _ h; omega
  | succ fuel ih =>
    intro i b h1 h2 h3 h4
    simp only [dff_TrimText.scan]
    by_cases hi : i = z
    · subst hi
      rw [if_neg (by rw [h4]; simp)]
      exact ⟨rfl, fun j => by rw [if_neg (by omega)]⟩
    · have hlt : i < z := by omega
      have hg : b.getD i 0 ≠ 0 ∧ b.getD i 0 ≠ DBASE_MEMO_END ∧
          b.getD (i + 1) 0 ≠ DBASE_MEMO_END := by
        refine ⟨(h3 i (le_refl _) hlt).1, (h3 i (le_refl _) hlt).2, ?_⟩
        by_cases hi1 : i + 1 = z
        · rw [hi1, h4]; decide
        · exact (h3 (i + 1) (by omega) (by omega)).2
      rw [if_pos hg]
      have hs : ∀ k, (b.set i (dff_TrimText.translate (b.getD i 0))).getD k 0 =
          if k = i then dff_TrimText.translate (b.getD i 0) else b.getD k 0 :=
        fun k => getD_set_eq _ _ _ _ (Or.inl (getD_ne_zero_lt b i hg.1))
      obtain ⟨g1, g2⟩ := ih (i + 1) (b.set i (dff_TrimText.translate (b.getD i 0)))
        (by omega) (by omega)
        (fun j hj1 hj2 => by rw [hs, if_neg (by omega)]; exact h3 j (by omega) hj2)
        (by rw [hs, if_neg (by omega)]; exact h4)
      refine ⟨g1, fun j => ?_⟩
      rw [g2, hs]
      by_cases hj : j = i
      · rw [if_neg (by omega), if_pos hj, if_pos (by omega), hj]
      · rw [if_neg hj]
        by_cases hj2 : i + 1 ≤ j ∧ j < z
        · rw [if_pos hj2, if_pos (by omega)]
        · rw [if_neg hj2, if_neg (by omega)]

theorem trail_id (len : Nat) (b : List Nat)
    (h : len = 0 ∨ isDelimOrSpace (b.getD (len - 1) 0) = false) :
    dff_StripString.trail len b = (b, len) := by
  cases len with
  | zero => rfl
  | succ len =>
    simp only [dff_StripString.trail]
    rcases h with h | h
    · omega
    · rw [if_neg]
      simp only [Nat.add_sub_cancel] at h
      intro hc
      unfold isDelimOrSpace at h
      rcases hc with hc | hc <;> rw [hc] at h <;> exact absurd h (by decide)

theorem lead_id (b : List Nat) (h : b.getD 0 0 ≠ SPACE) : dff_StripString.lead b = b := by
  cases b with
  | nil => rfl
  | cons c r =>
    simp only [dff_StripString.lead]
    rw [if_neg (by simpa using h)]

theorem squeeze_id (fuel i len : Nat) (b : List Nat)
    (h : ¬ (i < len ∧ isDelimOrSpace (b.getD i 0) = true ∧
      isDelimOrSpace (b.getD (i + 1) 0) = true)) :
    dff_TrimText.squeeze fuel i len b = (len, b) := by
  cases fuel with
  | zero => rfl
  | succ fuel =>
    simp only [dff_TrimText.squeeze]
    rw [if_neg h]

theorem collapse_id (fuel : Nat) : ∀ (i len : Nat) (b : List Nat),
    (∀ j, i ≤ j → j < len → ¬ (isDelimOrSpace (b.getD j 0) = true ∧
      isDelimOrSpace (b.getD (j + 1) 0) = true)) →
    dff_TrimText.collapse fuel i len b = b := by
  induction fuel with
  | zero => intro i len b _; rfl
  | succ fuel ih =>
    intro i len b h
    simp only [dff_TrimText.collapse]
    by_cases hc : i < len
    · rw [if_pos hc, squeeze_id len i len b (fun hh => h i (le_refl _) hc hh.2)]
      exact ih (i + 1) len b (fun j hj1 hj2 => h j (by omega) hj2)
    · rw [if_neg hc]

theorem collapse_skip (len : Nat) (b : List Nat) (n : Nat) : ∀ (fuel i : Nat),
    (∀ j, i ≤ j → j < i + n → ¬ (isDelimOrSpace (b.getD j 0) = true ∧
      isDelimOrSpace (b.getD (j + 1) 0) = true)) → i + n ≤ len →
    dff_TrimText.collapse (fuel + n) i len b = dff_TrimText.collapse fuel (i + n) len b := by
  induction n with
  | zero => intro fuel i _ _; rfl
  | succ n ih =>
    intro fuel i h hl
    have : fuel + (n + 1) = (fuel + n) + 1 := by omega
    rw [this]
    simp only [dff_TrimText.collapse]
    rw [if_pos (by omega), squeeze_id len i len b (fun hh => h i (le_refl _) (by omega) hh.2)]
    have := ih fuel (i + 1) (fun j hj1 hj2 => h j (by omega) (by omega)) (by omega)
    rw [this]
    congr 1
    omega

theorem cstr_eq_of_getD (w : List Nat) : ∀ (out : List Nat),
    (∀ j, j < w.length → out.getD j 0 = w.getD j 0) → (∀ c ∈ w, c ≠ 0) →
    out.getD w.length 0 = 0 → cstr out = w := by
  induction w with
  | nil =>
    intro out _ _ h
    cases out with
    | nil => rfl
    | cons c r =>
      simp at h
      simp [cstr, h]
  | cons x w ih =>
    intro out h1 h2 h3
    cases out with
    | nil =>
      have := h1 0 (by simp)
      simp at this
      exact absurd this.symm (h2 x (by simp))
    | cons c r =>
      have hc : c = x := by simpa using h1 0 (by simp)
      subst hc
      have hr := ih r (fun j hj => by simpa using h1 (j + 1) (by simpa using hj))
        (fun c hc => h2 c (List.mem_cons_of_mem _ hc)) (by simpa using h3)
      unfold cstr at hr ⊢
      rw [List.takeWhile_cons]
      have : c ≠ 0 := h2 c (by simp)
      simp [this, hr]

theorem dff_TrimText_prep (buf : List Nat) (z : Nat) (hz : 0 < z)
    (hs : ∀ j, j < z → buf.getD j 0 ≠ 0 ∧ buf.getD j 0 ≠ DBASE_MEMO_END)
    (hnul : buf.getD z 0 = 0)
    (hhead : dff_TrimText.translate (buf.getD 0 0) ≠ SPACE)
    (hlast : isDelimOrSpace (dff_TrimText.translate (buf.getD (z - 1) 0)) = false) :
    ∃ b1 : List Nat, dff_TrimText buf = dff_TrimText.collapse z 0 z b1 ∧
      (∀ j, j < z → b1.getD j 0 = dff_TrimText.translate (buf.getD j 0)) ∧
      b1.getD z 0 = 0 := by
  have hzl : z ≤ buf.length := by
    have := getD_ne_zero_lt buf (z - 1) (hs (z - 1) (by omega)).1
    omega
  obtain ⟨g1, g2⟩ := scan_spec z (buf.length + 1) 0 buf (by omega) (by omega)
    (fun j _ hj => hs j hj) hnul
  have hb : ∀ j, (((dff_TrimText.scan (buf.length + 1) 0 buf).2).set (z + 1) 0).getD j 0 =
      if j = z + 1 then 0 else
        if j < z then dff_TrimText.translate (buf.getD j 0) else buf.getD j 0 := by
    intro j
    rw [getD_set_eq _ _ _ _ (Or.inr rfl), g2]
    by_cases h1 : j = z + 1
    · rw [if_pos h1, if_pos h1]
    · rw [if_neg h1, if_neg h1]
      by_cases h2 : j < z
      · rw [if_pos ⟨by omega, h2⟩, if_pos h2]
      · rw [if_neg (by omega), if_neg h2]
  refine ⟨((dff_TrimText.scan (buf.length + 1) 0 buf).2).set (z + 1) 0, ?_, ?_, ?_⟩
  · unfold dff_TrimText dff_StripString
    simp only [g1]
    rw [trail_id z _ (Or.inr (by rw [hb, if_neg (by omega), if_pos (by omega)]; exact hlast))]
    simp only
    rw [lead_id _ (by rw [hb, if_neg (by omega), if_pos hz]; exact hhead)]
  · intro j hj
    rw [hb, if_neg (by omega), if_pos hj]
  · rw [hb, if_neg (by omega), if_neg (by omega)]
    exact hnul

theorem translate_ne_zero (c : Nat) (h : c ≠ 0) : dff_TrimText.translate c ≠ 0 := by
  unfold dff_TrimText.translate
  split
  · decide
  · split
    · decide
    · exact h

theorem dff_TrimText_clean (buf t : List Nat) (ht0 : 0 < t.length)
    (hs : ∀ j, j < t.length → buf.getD j 0 ≠ 0 ∧ buf.getD j 0 ≠ DBASE_MEMO_END)
    (hnul : buf.getD t.length 0 = 0)
    (ht : ∀ j, j < t.length → dff_TrimText.translate (buf.getD j 0) = t.getD j 0)
    (hhead : t.getD 0 0 ≠ SPACE)
    (hlast : isDelimOrSpace (t.getD (t.length - 1) 0) = false)
    (hpair : ∀ j, j + 1 < t.length → ¬ (isDelimOrSpace (t.getD j 0) = true ∧
      isDelimOrSpace (t.getD (j + 1) 0) = true)) :
    cstr (dff_TrimText buf) = t := by
  obtain ⟨b1, h1, h2, h3⟩ := dff_TrimText_prep buf t.length ht0 hs hnul
    (by rw [ht 0 ht0]; exact hhead) (by rw [ht _ (by omega)]; exact hlast)
  have hz : isDelimOrSpace 0 = false := by decide
  rw [h1, collapse_id]
  · apply cstr_eq_of_getD t b1 (fun j hj => by rw [h2 j hj, ht j hj]) ?_ h3
    intro c hc
    obtain ⟨j, hj, rfl⟩ := List.mem_iff_getElem.mp hc
    have := ht j hj
    rw [List.getD_eq_getElem _ _ hj] at this
    rw [← this]
    exact translate_ne_zero _ (hs j hj).1
  · intro j _ hj
    by_cases hj1 : j + 1 < t.length
    · rw [h2 j hj, h2 (j + 1) hj1, ht j hj, ht (j + 1) hj1]
      exact hpair j hj1
    · have : j + 1 = t.length := by omega
      rw [this, h3, hz]
      simp

theorem dff_TrimText_one_pair (buf t w : List Nat) (k : Nat) (hk : k + 2 < t.length)
    (hs : ∀ j, j < t.length → buf.getD j 0 ≠ 0 ∧ buf.getD j 0 ≠ DBASE_MEMO_END)
    (hnul : buf.getD t.length 0 = 0)
    (ht : ∀ j, j < t.length → dff_TrimText.translate (buf.getD j 0) = t.getD j 0)
    (hhead : t.getD 0 0 ≠ SPACE)
    (hk1 : isDelimOrSpace (t.getD k 0) = true) (hk2 : isDelimOrSpace (t.getD (k + 1) 0) = true)
    (hrest : ∀ j, j < t.length → j ≠ k → j ≠ k + 1 → isDelimOrSpace (t.getD j 0) = false)
    (hwl : w.length + 1 = t.length)
    (hw : ∀ j, j < w.length → w.getD j 0 = if j < k then t.getD j 0 else t.getD (j + 1) 0) :
    cstr (dff_TrimText buf) = w := by
  obtain ⟨b1, h1, h2, h3⟩ := dff_TrimText_prep buf t.length (by omega) hs hnul
    (by rw [ht 0 (by omega)]; exact hhead)
    (by rw [ht _ (by omega)]; exact hrest _ (by omega) (by omega) (by omega))
  have hz : isDelimOrSpace 0 = false := by decide
  have hb : ∀ j, j < t.length → b1.getD j 0 = t.getD j 0 := fun j hj => by rw [h2 j hj, ht j hj]
  have hd := delete_getD b1 k t.length
  have hfuel : t.length = (t.length - k - 1) + 1 + k := by omega
  have hstep : dff_TrimText.collapse t.length 0 t.length b1 =
      (dff_TrimText.shift (t.length - k) k b1).set t.length 0 := by
    rw [show dff_TrimText.collapse t.length 0 t.length b1 =
      dff_TrimText.collapse ((t.length - k - 1) + 1 + k) 0 t.length b1 from by rw [← hfuel]]
    rw [collapse_skip t.length b1 k _ 0 (fun j _ hj hh => by
      rw [hb j (by omega), hrest j (by omega) (by omega) (by omega)] at hh
      exact absurd hh.1 (by simp)) (by omega)]
    simp only [dff_TrimText.collapse, Nat.zero_add]
    rw [if_pos (by omega)]
    obtain ⟨n, hn⟩ : ∃ n, t.length = n + 1 := ⟨t.length - 1, by omega⟩
    have hsq : dff_TrimText.squeeze t.length k t.length b1 =
        (t.length - 1, (dff_TrimText.shift (t.length - k) k b1).set t.length 0) := by
      rw [show dff_TrimText.squeeze t.length k t.length b1 =
        dff_TrimText.squeeze (n + 1) k t.length b1 from by rw [hn]]
      simp only [dff_TrimText.squeeze]
      rw [if_pos ⟨by omega, by rw [hb k (by omega)]; exact hk1,
        by rw [hb (k + 1) (by omega)]; exact hk2⟩]
      apply squeeze_id
      intro hh
      rw [hd, if_neg (by omega), if_pos (by omega), hd, if_neg (by omega), if_pos (by omega),
        hb (k + 1 + 1) (by omega), hrest (k + 1 + 1) (by omega) (by omega) (by omega)] at hh
      exact absurd hh.2.2 (by simp)
    rw [hsq]
    apply collapse_id
    intro j hj1 hj2 hh
    simp only at hj2
    rw [hd, if_neg (by omega), if_pos (by omega), hb (j + 1) (by omega),
      hrest (j + 1) (by omega) (by omega) (by omega)] at hh
    exact absurd hh.1 (by simp)
  rw [h1, hstep]
  apply cstr_eq_of_getD w
  · intro j hj
    rw [hd, if_neg (by omega), hw j hj]
    by_cases hjk : j < k
    · rw [if_neg (by omega), if_pos hjk, hb j (by omega)]
    · rw [if_pos (by omega), if_neg hjk, hb (j + 1) (by omega)]
  · intro c hc
    obtain ⟨j, hj, rfl⟩ := List.mem_iff_getElem.mp hc
    have h5 := hw j hj
    rw [List.getD_eq_getElem _ _ hj] at h5
    rw [h5]
    by_cases hjk : j < k
    · rw [if_pos hjk, ← ht j (by omega)]
      exact translate_ne_zero _ (hs j (by omega)).1
    · rw [if_neg hjk, ← ht (j + 1) (by omega)]
      exact translate_ne_zero _ (hs (j + 1) (by omega)).1
  · rw [hd, if_neg (by omega), if_pos (by omega), show w.length + 1 = t.length from hwl, h3]

theorem translate_plain (c : Nat) (h : isprint c = true) (hs : c ≠ SPACE) :
    dff_TrimText.translate c = c := by
  unfold isprint at h
  simp only [Bool.and_eq_true, decide_eq_true_eq] at h
  have hS : SPACE = 32 := rfl
  rw [hS] at hs
  unfold dff_TrimText.translate
  have h1 : ¬ (c = DBASE_LINE_FEED ∨ c = DBASE_CARRIAGE) := by
    have : DBASE_LINE_FEED = 10 := rfl
    have : DBASE_CARRIAGE = 13 := rfl
    omega
  rw [if_neg h1, if_neg]
  unfold isascii isspace isprint
  simp
  omega

theorem getD_mem (l : List Nat) (j : Nat) (h : j < l.length) : l.getD j 0 ∈ l := by
  rw [List.getD_eq_getElem _ _ h]
  exact List.getElem_mem _

theorem getD_string (s rest : List Nat) :
    (∀ j, j < s.length → (s ++ 0 :: rest).getD j 0 = s.getD j 0) ∧
    (s ++ 0 :: rest).getD s.length 0 = 0 := by
  refine ⟨fun j hj => List.getD_append _ _ _ _ hj, ?_⟩
  rw [List.getD_append_right _ _ _ _ (le_refl _), Nat.sub_self]
  rfl

theorem getD_map_translate (s : List Nat) (j : Nat) (h : j < s.length) :
    (s.map dff_TrimText.translate).getD j 0 = dff_TrimText.translate (s.getD j 0) := by
  rw [List.getD_eq_getElem _ _ (by simpa using h), List.getD_eq_getElem _ _ h, List.getElem_map]

theorem getD_outside (u m v : List Nat) (P : Nat → Prop) (hu : ∀ c ∈ u, P c) (hv : ∀ c ∈ v, P c)
    (j : Nat) (hj : j < (u ++ m ++ v).length) (ho : j < u.length ∨ u.length + m.length ≤ j) :
    P ((u ++ m ++ v).getD j 0) := by
  rw [List.append_assoc]
  simp only [List.length_append] at hj
  rcases ho with ho | ho
  · rw [List.getD_append _ _ _ _ ho]
    exact hu _ (getD_mem u j ho)
  · rw [List.getD_append_right _ _ _ _ (by omega), List.getD_append_right _ _ _ _ (by omega)]
    exact hv _ (getD_mem v _ (by omega))

theorem getD_inside (u m v : List Nat) (i : Nat) (hi : i < m.length) :
    (u ++ m ++ v).getD (u.length + i) 0 = m.getD i 0 := by
  rw [List.append_assoc, List.getD_append_right _ _ _ _ (by omega), Nat.add_sub_cancel_left,
    List.getD_append _ _ _ _ hi]

theorem dff_TrimText_string_clean (s rest : List Nat) (hne : s ≠ [])
    (hs : ∀ c ∈ s, c ≠ 0 ∧ c ≠ DBASE_MEMO_END)
    (hhead : (s.map dff_TrimText.translate).getD 0 0 ≠ SPACE)
    (hlast : isDelimOrSpace ((s.map dff_TrimText.translate).getD (s.length - 1) 0) = false)
    (hpair : ∀ j, j + 1 < s.length →
      ¬ (isDelimOrSpace ((s.map dff_TrimText.translate).getD j 0) = true ∧
        isDelimOrSpace ((s.map dff_TrimText.translate).getD (j + 1) 0) = true)) :
    cstr (dff_TrimText (s ++ 0 :: rest)) = s.map dff_TrimText.translate := by
  obtain ⟨g1, g2⟩ := getD_string s rest
  have hl : (s.map dff_TrimText.translate).length = s.length := List.length_map _ _
  apply dff_TrimText_clean
  · rw [hl]; exact List.length_pos.mpr hne
  · intro j hj
    rw [hl] at hj
    rw [g1 j hj]
    exact hs _ (getD_mem s j hj)
  · rw [hl]; exact g2
  · intro j hj
    rw [hl] at hj
    rw [g1 j hj, getD_map_translate s j hj]
  · exact hhead
  · rw [hl]; exact hlast
  · intro j hj
    rw [hl] at hj
    exact hpair j hj

theorem plain_not_delim (c : Nat) (h : isprint c = true ∧ c ≠ SPACE ∧ c ≠ DF_DELIM) :
    isDelimOrSpace c = false := by
  unfold isDelimOrSpace
  simp [h.2.1, h.2.2]

theorem plain_ne (c : Nat) (h : isprint c = true ∧ c ≠ SPACE ∧ c ≠ DF_DELIM) :
    c ≠ 0 ∧ c ≠ DBASE_MEMO_END := by
  have h1 := h.1
  unfold isprint at h1
  simp only [Bool.and_eq_true, decide_eq_true_eq] at h1
  have : DBASE_MEMO_END = 26 := rfl
  omega

theorem map_translate_plain (u : List Nat)
    (hu : ∀ c ∈ u, isprint c = true ∧ c ≠ SPACE ∧ c ≠ DF_DELIM) :
    u.map dff_TrimText.translate = u := by
  rw [List.map_congr_left (fun c hc => translate_plain c (hu c hc).1 (hu c hc).2.1), List.map_id']

theorem dff_TrimText_single_break (u v rest : List Nat) (x : Nat)
    (hx : dff_TrimText.translate x = DF_DELIM) (hx0 : x ≠ 0 ∧ x ≠ DBASE_MEMO_END)
    (hu : u ≠ []) (hv : v ≠ [])
    (hpu : ∀ c ∈ u, isprint c = true ∧ c ≠ SPACE ∧ c ≠ DF_DELIM)
    (hpv : ∀ c ∈ v, isprint c = true ∧ c ≠ SPACE ∧ c ≠ DF_DELIM) :
    cstr (dff_TrimText (u ++ [x] ++ v ++ 0 :: rest)) = u ++ [DF_DELIM] ++ v := by
  have hmap : (u ++ [x] ++ v).map dff_TrimText.translate = u ++ [DF_DELIM] ++ v := by
    rw [List.map_append, List.map_append, map_translate_plain u hpu, map_translate_plain v hpv]
    simp [hx]
  have hul : 0 < u.length := List.length_pos.mpr hu
  have hvl : 0 < v.length := List.length_pos.mpr hv
  have hlen : (u ++ [x] ++ v).length = u.length + 1 + v.length := by
    simp only [List.length_append, List.length_cons, List.length_nil]
  have hlen2 : (u ++ [DF_DELIM] ++ v).length = u.length + 1 + v.length := by
    simp only [List.length_append, List.length_cons, List.length_nil]
  have hout := getD_outside u [DF_DELIM] v (fun c => isDelimOrSpace c = false)
    (fun c hc => plain_not_delim c (hpu c hc)) (fun c hc => plain_not_delim c (hpv c hc))
  rw [← hmap]
  apply dff_TrimText_string_clean
  · simp
  · intro c hc
    simp only [List.mem_append, List.mem_singleton] at hc
    rcases hc with (hc | hc) | hc
    · exact plain_ne c (hpu c hc)
    · rw [hc]; exact hx0
    · exact plain_ne c (hpv c hc)
  · rw [hmap]
    intro e
    have := hout 0 (by rw [hlen2]; omega) (Or.inl hul)
    rw [e] at this
    exact absurd this (by decide)
  · rw [hmap, hlen]
    exact hout _ (by rw [hlen2]; omega) (Or.inr (by simp; omega))
  · intro j hj
    rw [hlen] at hj
    rw [hmap]
    intro hh
    by_cases hju : j < u.length
    · have := hout j (by rw [hlen2]; omega) (Or.inl hju)
      rw [this] at hh
      exact absurd hh.1 (by simp)
    · have := hout (j + 1) (by rw [hlen2]; omega) (Or.inr (by simp; omega))
      rw [this] at hh
      exact absurd hh.2 (by simp)

theorem dff_TrimText_double_break (u v rest : List Nat)
    (hu : u ≠ []) (hv : v ≠ [])
    (hpu : ∀ c ∈ u, isprint c = true ∧ c ≠ SPACE ∧ c ≠ DF_DELIM)
    (hpv : ∀ c ∈ v, isprint c = true ∧ c ≠ SPACE ∧ c ≠ DF_DELIM) :
    cstr (dff_TrimText (u ++ [DBASE_CARRIAGE, DBASE_LINE_FEED] ++ v ++ 0 :: rest)) =
      u ++ [DF_DELIM] ++ v := by
  have hmap : (u ++ [DBASE_CARRIAGE, DBASE_LINE_FEED] ++ v).map dff_TrimText.translate =
      u ++ [DF_DELIM, DF_DELIM] ++ v := by
    rw [List.map_append, List.map_append, map_translate_plain u hpu, map_translate_plain v hpv]
    rfl
  have hul : 0 < u.length := List.length_pos.mpr hu
  have hvl : 0 < v.length := List.length_pos.mpr hv
  have hlen : (u ++ [DBASE_CARRIAGE, DBASE_LINE_FEED] ++ v).length = u.length + 2 + v.length := by
    simp only [List.length_append, List.length_cons, List.length_nil]
  have hlen2 : (u ++ [DF_DELIM, DF_DELIM] ++ v).length = u.length + 2 + v.length := by
    simp only [List.length_append, List.length_cons, List.length_nil]
  have hlen3 : (u ++ [DF_DELIM] ++ v).length = u.length + 1 + v.length := by
    simp only [List.length_append, List.length_cons, List.length_nil]
  have hout := getD_outside u [DF_DELIM, DF_DELIM] v (fun c => isDelimOrSpace c = false)
    (fun c hc => plain_not_delim c (hpu c hc)) (fun c hc => plain_not_delim c (hpv c hc))
  obtain ⟨g1, g2⟩ := getD_string (u ++ [DBASE_CARRIAGE, DBASE_LINE_FEED] ++ v) rest
  rw [hlen] at g1 g2
  apply dff_TrimText_one_pair _ (u ++ [DF_DELIM, DF_DELIM] ++ v) (u ++ [DF_DELIM] ++ v) u.length
  · rw [hlen2]; omega
  · intro j hj
    rw [hlen2] at hj
    rw [g1 j hj]
    have hm := getD_mem (u ++ [DBASE_CARRIAGE, DBASE_LINE_FEED] ++ v) j (by rw [hlen]; exact hj)
    simp only [List.mem_append, List.mem_cons, List.mem_singleton, List.not_mem_nil,
      or_false] at hm
    rcases hm with (hc | hc | hc) | hc
    · exact plain_ne _ (hpu _ hc)
    · rw [hc]; decide
    · rw [hc]; decide
    · exact plain_ne _ (hpv _ hc)
  · rw [hlen2]; exact g2
  · intro j hj
    rw [hlen2] at hj
    rw [g1 j hj, ← hmap, getD_map_translate _ j (by rw [hlen]; exact hj)]
  · intro e
    have := hout 0 (by rw [hlen2]; omega) (Or.inl hul)
    rw [e] at this
    exact absurd this (by decide)
  · have := getD_inside u [DF_DELIM, DF_DELIM] v 0 (by simp)
    rw [Nat.add_zero] at this
    rw [this]; rfl
  · rw [getD_inside u [DF_DELIM, DF_DELIM] v 1 (by simp)]; rfl
  · intro j hj h1 h2
    exact hout j hj (by simp; omega)
  · rw [hlen2, hlen3]; omega
  · intro j hj
    rw [hlen3] at hj
    by_cases hjk : j < u.length
    · rw [if_pos hjk, List.append_assoc, List.append_assoc, List.getD_append _ _ _ _ hjk,
        List.getD_append _ _ _ _ hjk]
    · have e1 : (u ++ ([DF_DELIM] ++ v)).getD j 0 = ([DF_DELIM] ++ v).getD (j - u.length) 0 :=
        List.getD_append_right _ _ _ _ (by omega)
      have e2 : (u ++ ([DF_DELIM, DF_DELIM] ++ v)).getD (j + 1) 0 =
          ([DF_DELIM, DF_DELIM] ++ v).getD (j + 1 - u.length) 0 :=
        List.getD_append_right _ _ _ _ (by omega)
      have : j + 1 - u.length = (j - u.length) + 1 := by omega
      rw [if_neg hjk, List.append_assoc, List.append_assoc, e1, e2, this]
      rfl

theorem dff_TrimText_plain (u rest : List Nat) (hu : u ≠ [])
    (hpu : ∀ c ∈ u, isprint c = true ∧ c ≠ SPACE ∧ c ≠ DF_DELIM) :
    cstr (dff_TrimText (u ++ 0 :: rest)) = u := by
  have hmap := map_translate_plain u hpu
  have hul : 0 < u.length := List.length_pos.mpr hu
  have hout : ∀ j, j < u.length → isDelimOrSpace (u.getD j 0) = false :=
    fun j hj => plain_not_delim _ (hpu _ (getD_mem u j hj))
  have h := dff_TrimText_string_clean u rest hu (fun c hc => plain_ne c (hpu c hc))
    (by rw [hmap]; intro e; have := hout 0 hul; rw [e] at this; exact absurd this (by decide))
    (by rw [hmap]; exact hout _ (by omega))
    (by rw [hmap]; intro j hj hh; rw [hout j (by omega)] at hh; exact absurd hh.1 (by simp))
  rw [h, hmap]

/-- C16: line breaks become a single delimiter. For strings `u` and `v` that are
not empty and hold only printable characters other than the space and the
backslash, and whatever follows the terminating NUL in the buffer, the string
`dff_TrimText` leaves for `u` CR `v`, for `u` LF `v` and for `u` CR LF `v` is `u`,
one backslash, `v`; and for `u` alone it is `u`. -/
theorem dff_TrimText_line_break (u v rest : List Nat) (hu : u ≠ []) (hv : v ≠ [])
    (hpu : ∀ c ∈ u, isprint c = true ∧ c ≠ SPACE ∧ c ≠ DF_DELIM)
    (hpv : ∀ c ∈ v, isprint c = true ∧ c ≠ SPACE ∧ c ≠ DF_DELIM) :
    cstr (dff_TrimText (u ++ [DBASE_CARRIAGE] ++ v ++ 0 :: rest)) = u ++ [DF_DELIM] ++ v ∧
    cstr (dff_TrimText (u ++ [DBASE_LINE_FEED] ++ v ++ 0 :: rest)) = u ++ [DF_DELIM] ++ v ∧
    cstr (dff_TrimText (u ++ [DBASE_CARRIAGE, DBASE_LINE_FEED] ++ v ++ 0 :: rest)) =
      u ++ [DF_DELIM] ++ v ∧
    cstr (dff_TrimText (u ++ 0 :: rest)) = u :=
  ⟨dff_TrimText_single_break u v rest DBASE_CARRIAGE (by decide) (by decide) hu hv hpu hpv,
    dff_TrimText_single_break u v rest DBASE_LINE_FEED (by decide) (by decide) hu hv hpu hpv,
    dff_TrimText_double_break u v rest hu hv hpu hpv,
    dff_TrimText_plain u rest hu hpu⟩

/-- C16 at a concrete input: `u` = "ab", `v` = "c", and a buffer that ends at the NUL. -/
theorem dff_TrimText_line_break_witness :
    ([97, 98] : List Nat) ≠ [] ∧ ([99] : List Nat) ≠ [] ∧
    (∀ c ∈ ([97, 98] : List Nat), isprint c = true ∧ c ≠ SPACE ∧ c ≠ DF_DELIM) ∧
    (∀ c ∈ ([99] : List Nat), isprint c = true ∧ c ≠ SPACE ∧ c ≠ DF_DELIM) ∧
    cstr (dff_TrimText ([97, 98] ++ [DBASE_CARRIAGE] ++ [99] ++ 0 :: [])) =
      [97, 98] ++ [DF_DELIM] ++ [99] ∧
    cstr (dff_TrimText ([97, 98] ++ [DBASE_LINE_FEED] ++ [99] ++ 0 :: [])) =
      [97, 98] ++ [DF_DELIM] ++ [99] ∧
    cstr (dff_TrimText ([97, 98] ++ [DBASE_CARRIAGE, DBASE_LINE_FEED] ++ [99] ++ 0 :: [])) =
      [97, 98] ++ [DF_DELIM] ++ [99] ∧
    cstr (dff_TrimText ([97, 98] ++ 0 :: [])) = [97, 98] :=
  ⟨by decide, by decide, by decide, by decide,
    dff_TrimText_line_break [97, 98] [99] [] (by decide) (by decide) (by decide) (by decide)⟩

/-! ### What holds of the result when the string has no end marker -/

theorem translate_isprint (c : Nat) : isprint (dff_TrimText.translate c) = true := by
  unfold dff_TrimText.translate
  split
  · decide
  · split
    · decide
    · rename_i h
      simp only [Bool.or_eq_true, Bool.not_eq_true', not_or, Bool.not_eq_false] at h
      exact h.2

theorem set_zero_printable (b : List Nat) (i : Nat)
    (h : ∃ p, b.getD p 0 = 0 ∧ ∀ j, j < p → isprint (b.getD j 0) = true ∨ b.getD j 0 = 0) :
    ∃ p, (b.set i 0).getD p 0 = 0 ∧
      ∀ j, j < p → isprint ((b.set i 0).getD j 0) = true ∨ (b.set i 0).getD j 0 = 0 := by
  obtain ⟨p, h1, h2⟩ := h
  have hs : ∀ j, (b.set i 0).getD j 0 = if j = i then 0 else b.getD j 0 :=
    fun j => getD_set_eq b i 0 j (Or.inr rfl)
  refine ⟨p, ?_, fun j hj => ?_⟩
  · rw [hs]; split
    · rfl
    · exact h1
  · rw [hs]; split
    · exact Or.inr rfl
    · exact h2 j hj

theorem trail_printable (len : Nat) : ∀ (b : List Nat),
    (∃ p, b.getD p 0 = 0 ∧ ∀ j, j < p → isprint (b.getD j 0) = true ∨ b.getD j 0 = 0) →
    ∃ p, (dff_StripString.trail len b).1.getD p 0 = 0 ∧
      ∀ j, j < p → isprint ((dff_StripString.trail len b).1.getD j 0) = true ∨
        (dff_StripString.trail len b).1.getD j 0 = 0 := by
  induction len with
  | zero => intro b h; simpa [dff_StripString.trail] using h
  | succ len ih =>
    intro b h
    simp only [dff_StripString.trail]
    split
    · exact ih _ (set_zero_printable b len h)
    · exact h

theorem lead_printable (b : List Nat) :
    (∃ p, b.getD p 0 = 0 ∧ ∀ j, j < p → isprint (b.getD j 0) = true ∨ b.getD j 0 = 0) →
    ∃ p, (dff_StripString.lead b).getD p 0 = 0 ∧
      ∀ j, j < p → isprint ((dff_StripString.lead b).getD j 0) = true ∨
        (dff_StripString.lead b).getD j 0 = 0 := by
  induction b with
  | nil => intro _; exact ⟨0, rfl, fun j hj => by omega⟩
  | cons c r ih =>
    intro h
    simp only [dff_StripString.lead]
    split
    · rename_i hc
      obtain ⟨p, hp1, hp2⟩ := h
      cases p with
      | zero =>
        simp at hp1
        rw [hp1] at hc
        exact absurd hc (by decide)
      | succ p =>
        exact ih ⟨p, by simpa using hp1, fun j hj => by simpa using hp2 (j + 1) (by omega)⟩
    · exact h

theorem delete_printable (b : List Nat) (i len : Nat) (hi : i < len)
    (hd : isDelimOrSpace (b.getD i 0) = true)
    (h : ∃ p, b.getD p 0 = 0 ∧ ∀ j, j < p → isprint (b.getD j 0) = true ∨ b.getD j 0 = 0) :
    ∃ p, ((dff_TrimText.shift (len - i) i b).set len 0).getD p 0 = 0 ∧
      ∀ j, j < p → isprint (((dff_TrimText.shift (len - i) i b).set len 0).getD j 0) = true ∨
        ((dff_TrimText.shift (len - i) i b).set len 0).getD j 0 = 0 := by
  obtain ⟨p, h1, h2⟩ := h
  have hg := delete_getD b i len
  have hpi : p ≠ i := by
    intro e
    rw [← e, h1] at hd
    exact absurd hd (by decide)
  by_cases c1 : p < i
  · refine ⟨p, ?_, fun j hj => ?_⟩
    · rw [hg, if_neg (by omega), if_neg (by omega)]; exact h1
    · rw [hg, if_neg (by omega), if_neg (by omega)]; exact h2 j hj
  · by_cases c2 : p ≤ len
    · refine ⟨p - 1, ?_, fun j hj => ?_⟩
      · rw [hg, if_neg (by omega), if_pos (by omega)]
        have : p - 1 + 1 = p := by omega
        rw [this]; exact h1
      · rw [hg, if_neg (by omega)]
        by_cases c3 : i ≤ j ∧ j < len
        · rw [if_pos c3]; exact h2 (j + 1) (by omega)
        · rw [if_neg c3]; exact h2 j (by omega)
    · refine ⟨len, ?_, fun j hj => ?_⟩
      · rw [hg, if_pos rfl]
      · rw [hg, if_neg (by omega)]
        by_cases c3 : i ≤ j ∧ j < len
        · rw [if_pos c3]; exact h2 (j + 1) (by omega)
        · rw [if_neg c3]; exact h2 j (by omega)

theorem squeeze_printable (fuel : Nat) : ∀ (i len : Nat) (b : List Nat),
    (∃ p, b.getD p 0 = 0 ∧ ∀ j, j < p → isprint (b.getD j 0) = true ∨ b.getD j 0 = 0) →
    ∃ p, (dff_TrimText.squeeze fuel i len b).2.getD p 0 = 0 ∧
      ∀ j, j < p → isprint ((dff_TrimText.squeeze fuel i len b).2.getD j 0) = true ∨
        (dff_TrimText.squeeze fuel i len b).2.getD j 0 = 0 := by
  induction fuel with
  | zero => intro i len b h; simpa [dff_TrimText.squeeze] using h
  | succ fuel ih =>
    intro i len b h
    simp only [dff_TrimText.squeeze]
    split
    · rename_i hc
      exact ih _ _ _ (delete_printable b i len hc.1 hc.2.1 h)
    · exact h

theorem collapse_printable (fuel : Nat) : ∀ (i len : Nat) (b : List Nat),
    (∃ p, b.getD p 0 = 0 ∧ ∀ j, j < p → isprint (b.getD j 0) = true ∨ b.getD j 0 = 0) →
    ∃ p, (dff_TrimText.collapse fuel i len b).getD p 0 = 0 ∧
      ∀ j, j < p → isprint ((dff_TrimText.collapse fuel i len b).getD j 0) = true ∨
        (dff_TrimText.collapse fuel i len b).getD j 0 = 0 := by
  induction fuel with
  | zero => intro i len b h; simpa [dff_TrimText.collapse] using h
  | succ fuel ih =>
    intro i len b h
    simp only [dff_TrimText.collapse]
    split
    · exact ih _ _ _ (squeeze_printable _ _ _ _ h)
    · exact h

theorem dff_TrimText_printable (s rest : List Nat)
    (hs : ∀ c ∈ s, c ≠ 0 ∧ c ≠ DBASE_MEMO_END) :
    ∀ c ∈ cstr (dff_TrimText (s ++ 0 :: rest)), isprint c = true := by
  obtain ⟨g1, g2⟩ := getD_string s rest
  have hlen : s.length ≤ (s ++ 0 :: rest).length := by simp
  obtain ⟨e1, e2⟩ := scan_spec s.length ((s ++ 0 :: rest).length + 1) 0 (s ++ 0 :: rest)
    (by omega) (by omega)
    (fun j _ hj => by rw [g1 j hj]; exact hs _ (getD_mem s j hj)) g2
  have hq : ∃ p, (dff_TrimText (s ++ 0 :: rest)).getD p 0 = 0 ∧
      ∀ j, j < p → isprint ((dff_TrimText (s ++ 0 :: rest)).getD j 0) = true ∨
        (dff_TrimText (s ++ 0 :: rest)).getD j 0 = 0 := by
    unfold dff_TrimText dff_StripString
    apply collapse_printable
    apply lead_printable
    apply trail_printable
    apply set_zero_printable
    refine ⟨s.length, ?_, fun j hj => ?_⟩
    · rw [e2, if_neg (by omega)]; exact g2
    · rw [e2, if_pos ⟨by omega, hj⟩]; exact Or.inl (translate_isprint _)
  obtain ⟨p, hp1, hp2⟩ := hq
  intro c hc
  obtain ⟨j, hj, rfl⟩ := List.mem_iff_getElem.mp hc
  have h1 := cstr_getD _ j hj
  rw [List.getD_eq_getElem _ _ hj] at h1
  have h2 := cstr_getD_ne_zero _ j hj
  have h3 := cstr_length_le _ p hp1
  rw [h1]
  rcases hp2 j (by omega) with h | h
  · exact h
  · exact absurd h h2

theorem lead_head (b : List Nat) :
    (dff_StripString.lead b).getD 0 0 ≠ SPACE ∧
    ((dff_StripString.lead b).getD 0 0 = 0 ∨
      ∃ k, b.getD k 0 = (dff_StripString.lead b).getD 0 0 ∧ ∀ j, j < k → b.getD j 0 = SPACE) := by
  induction b with
  | nil => exact ⟨by decide, Or.inl rfl⟩
  | cons c r ih =>
    simp only [dff_StripString.lead]
    by_cases hc : c = SPACE
    · rw [if_pos hc]
      refine ⟨ih.1, ?_⟩
      rcases ih.2 with h | ⟨k, hk1, hk2⟩
      · exact Or.inl h
      · refine Or.inr ⟨k + 1, by simpa using hk1, fun j hj => ?_⟩
        cases j with
        | zero => simpa using hc
        | succ j => simpa using hk2 j (by omega)
    · rw [if_neg hc]
      exact ⟨by simpa using hc, Or.inr ⟨0, rfl, fun j hj => by omega⟩⟩

theorem trail_getD (len : Nat) : ∀ (b : List Nat) (j : Nat),
    (dff_StripString.trail len b).1.getD j 0 = b.getD j 0 ∨
      (dff_StripString.trail len b).1.getD j 0 = 0 := by
  induction len with
  | zero => intro b j; exact Or.inl rfl
  | succ len ih =>
    intro b j
    simp only [dff_StripString.trail]
    split
    · rcases ih (b.set len 0) j with h | h
      · rw [h, getD_set_eq b len 0 j (Or.inr rfl)]
        split
        · exact Or.inr rfl
        · exact Or.inl rfl
      · exact Or.inr h
    · exact Or.inl rfl

theorem squeeze_head (fuel : Nat) : ∀ (i len : Nat) (b : List Nat),
    isDelimOrSpace (b.getD 0 0) = false →
    (dff_TrimText.squeeze fuel i len b).2.getD 0 0 = b.getD 0 0 := by
  induction fuel with
  | zero => intro i len b _; rfl
  | succ fuel ih =>
    intro i len b h
    simp only [dff_TrimText.squeeze]
    split
    · rename_i hc
      have hi : i ≠ 0 := by
        intro e
        rw [e, h] at hc
        exact absurd hc.2.1 (by simp)
      have hd : ((dff_TrimText.shift (len - i) i b).set len 0).getD 0 0 = b.getD 0 0 := by
        rw [delete_getD, if_neg (by omega), if_neg (by omega)]
      rw [ih _ _ _ (by rw [hd]; exact h), hd]
    · rfl

theorem collapse_head (fuel : Nat) : ∀ (i len : Nat) (b : List Nat),
    isDelimOrSpace (b.getD 0 0) = false →
    (dff_TrimText.collapse fuel i len b).getD 0 0 = b.getD 0 0 := by
  induction fuel with
  | zero => intro i len b _; rfl
  | succ fuel ih =>
    intro i len b h
    simp only [dff_TrimText.collapse]
    split
    · have hs := squeeze_head len i len b h
      rw [ih _ _ _ (by rw [hs]; exact h), hs]
    · rfl

theorem dff_TrimText_no_leading (s rest : List Nat)
    (hs : ∀ c ∈ s, c ≠ 0 ∧ c ≠ DBASE_MEMO_END)
    (hfirst : ∀ k, k < s.length →
      (∀ j, j < k → dff_TrimText.translate (s.getD j 0) = SPACE) →
      dff_TrimText.translate (s.getD k 0) ≠ DF_DELIM) :
    ∀ c, (cstr (dff_TrimText (s ++ 0 :: rest))).head? = some c → c ≠ SPACE := by
  obtain ⟨g1, g2⟩ := getD_string s rest
  have hlen : s.length ≤ (s ++ 0 :: rest).length := by simp
  obtain ⟨e1, e2⟩ := scan_spec s.length ((s ++ 0 :: rest).length + 1) 0 (s ++ 0 :: rest)
    (by omega) (by omega)
    (fun j _ hj => by rw [g1 j hj]; exact hs _ (getD_mem s j hj)) g2
  have hb : ∀ j, j ≤ s.length →
      (((dff_TrimText.scan ((s ++ 0 :: rest).length + 1) 0 (s ++ 0 :: rest)).2).set
        (s.length + 1) 0).getD j 0 =
      if j < s.length then dff_TrimText.translate (s.getD j 0) else 0 := by
    intro j hj
    rw [getD_set_eq _ _ _ _ (Or.inr rfl), e2, if_neg (by omega)]
    by_cases h2 : j < s.length
    · rw [if_pos ⟨by omega, h2⟩, if_pos h2, g1 j h2]
    · rw [if_neg (by omega), if_neg h2]
      have : j = s.length := by omega
      rw [this]; exact g2
  have hq : isDelimOrSpace ((dff_StripString
      (((dff_TrimText.scan ((s ++ 0 :: rest).length + 1) 0 (s ++ 0 :: rest)).2).set
        (s.length + 1) 0) s.length).1.getD 0 0) = false := by
    unfold dff_StripString
    simp only
    obtain ⟨l1, l2⟩ := lead_head (dff_StripString.trail s.length
      (((dff_TrimText.scan ((s ++ 0 :: rest).length + 1) 0 (s ++ 0 :: rest)).2).set
        (s.length + 1) 0)).1
    have hne : (dff_StripString.lead (dff_StripString.trail s.length
        (((dff_TrimText.scan ((s ++ 0 :: rest).length + 1) 0 (s ++ 0 :: rest)).2).set
          (s.length + 1) 0)).1).getD 0 0 ≠ DF_DELIM := by
      intro e
      rcases l2 with h | ⟨k, hk1, hk2⟩
      · rw [h] at e; exact absurd e (by decide)
      · rw [e] at hk1
        have hval : ∀ j, j ≤ k → j ≤ s.length ∧
            (if j < s.length then dff_TrimText.translate (s.getD j 0) else 0) =
              (dff_StripString.trail s.length
                (((dff_TrimText.scan ((s ++ 0 :: rest).length + 1) 0 (s ++ 0 :: rest)).2).set
                  (s.length + 1) 0)).1.getD j 0 := by
          intro j
          induction j with
          | zero =>
            intro _
            refine ⟨by omega, ?_⟩
            rcases trail_getD s.length _ 0 with h | h
            · rw [h, hb 0 (by omega)]
            · have : (dff_StripString.trail s.length
                (((dff_TrimText.scan ((s ++ 0 :: rest).length + 1) 0 (s ++ 0 :: rest)).2).set
                  (s.length + 1) 0)).1.getD 0 0 ≠ 0 := by
                by_cases hk0 : k = 0
                · rw [hk0] at hk1; rw [hk1]; decide
                · rw [hk2 0 (by omega)]; decide
              exact absurd h this
          | succ j ihj =>
            intro hjk
            obtain ⟨q1, q2⟩ := ihj (by omega)
            have hprev : (dff_StripString.trail s.length
                (((dff_TrimText.scan ((s ++ 0 :: rest).length + 1) 0 (s ++ 0 :: rest)).2).set
                  (s.length + 1) 0)).1.getD j 0 = SPACE := hk2 j (by omega)
            have hjl : j < s.length := by
              by_contra hc
              rw [if_neg hc, hprev] at q2
              exact absurd q2 (by decide)
            refine ⟨by omega, ?_⟩
            rcases trail_getD s.length _ (j + 1) with h | h
            · rw [h, hb (j + 1) (by omega)]
            · have : (dff_StripString.trail s.length
                (((dff_TrimText.scan ((s ++ 0 :: rest).length + 1) 0 (s ++ 0 :: rest)).2).set
                  (s.length + 1) 0)).1.getD (j + 1) 0 ≠ 0 := by
                by_cases hk0 : j + 1 = k
                · rw [hk0, hk1]; decide
                · rw [hk2 (j + 1) (by omega)]; decide
              exact absurd h this
        obtain ⟨q1, q2⟩ := hval k (le_refl _)
        rw [hk1] at q2
        have hkl : k < s.length := by
          by_contra hc
          rw [if_neg hc] at q2
          exact absurd q2 (by decide)
        rw [if_pos hkl] at q2
        refine hfirst k hkl (fun j hj => ?_) q2
        obtain ⟨r1, r2⟩ := hval j (by omega)
        rw [hk2 j hj, if_pos (by omega)] at r2
        exact r2
    unfold isDelimOrSpace
    rw [Bool.or_eq_false_iff]
    exact ⟨beq_false_of_ne hne, beq_false_of_ne l1⟩
  have hout : isDelimOrSpace ((dff_TrimText (s ++ 0 :: rest)).getD 0 0) = false := by
    unfold dff_TrimText
    simp only [e1]
    rw [collapse_head _ _ _ _ hq]
    exact hq
  intro c hc e
  have hpos : 0 < (cstr (dff_TrimText (s ++ 0 :: rest))).length := by
    cases h : cstr (dff_TrimText (s ++ 0 :: rest)) with
    | nil => rw [h] at hc; cases hc
    | cons x xs => simp
  have h5 := cstr_getD (dff_TrimText (s ++ 0 :: rest)) 0 hpos
  rw [List.getD_eq_getElem?_getD, ← List.head?_eq_getElem?, hc] at h5
  simp only [Option.getD_some] at h5
  rw [← h5, e] at hout
  exact absurd hout (by decide)

theorem trail_end (len : Nat) : ∀ (b : List Nat),
    b.getD len 0 = 0 → (∀ j, j < len → b.getD j 0 ≠ 0) →
    (dff_StripString.trail len b).1.getD (dff_StripString.trail len b).2 0 = 0 ∧
    (∀ j, j < (dff_StripString.trail len b).2 → (dff_StripString.trail len b).1.getD j 0 ≠ 0) ∧
    ((dff_StripString.trail len b).2 = 0 ∨
      isDelimOrSpace ((dff_StripString.trail len b).1.getD
        ((dff_StripString.trail len b).2 - 1) 0) = false) := by
  induction len with
  | zero => intro b h1 h2; exact ⟨h1, h2, Or.inl rfl⟩
  | succ len ih =>
    intro b h1 h2
    simp only [dff_StripString.trail]
    have hs : ∀ j, (b.set len 0).getD j 0 = if j = len then 0 else b.getD j 0 :=
      fun j => getD_set_eq b len 0 j (Or.inr rfl)
    by_cases hc : b.getD len 0 = SPACE ∨ b.getD len 0 = DF_DELIM
    · rw [if_pos hc]
      exact ih _ (by rw [hs, if_pos rfl])
        (fun j hj => by rw [hs, if_neg (by omega)]; exact h2 j (by omega))
    · rw [if_neg hc]
      refine ⟨h1, h2, Or.inr ?_⟩
      simp only [Nat.add_sub_cancel]
      unfold isDelimOrSpace
      simp only [not_or] at hc
      rw [Bool.or_eq_false_iff]
      exact ⟨beq_false_of_ne hc.2, beq_false_of_ne hc.1⟩

theorem lead_end (b : List Nat) : ∀ (z : Nat),
    b.getD z 0 = 0 → (∀ j, j < z → b.getD j 0 ≠ 0) →
    (z = 0 ∨ isDelimOrSpace (b.getD (z - 1) 0) = false) →
    ∃ y, y ≤ z ∧ (dff_StripString.lead b).getD y 0 = 0 ∧
      (∀ j, j < y → (dff_StripString.lead b).getD j 0 ≠ 0) ∧
      (y = 0 ∨ isDelimOrSpace ((dff_StripString.lead b).getD (y - 1) 0) = false) := by
  induction b with
  | nil => intro z _ _ _; exact ⟨0, by omega, rfl, fun j hj => by omega, Or.inl rfl⟩
  | cons c r ih =>
    intro z h1 h2 h3
    simp only [dff_StripString.lead]
    by_cases hc : c = SPACE
    · rw [if_pos hc]
      cases z with
      | zero =>
        simp at h1
        rw [h1] at hc
        exact absurd hc (by decide)
      | succ z =>
        obtain ⟨y, hy1, hy2, hy3, hy4⟩ := ih z (by simpa using h1)
          (fun j hj => by simpa using h2 (j + 1) (by omega))
          (by
            rcases h3 with h3 | h3
            · omega
            · by_cases hz : z = 0
              · exact Or.inl hz
              · right
                obtain ⟨n, rfl⟩ : ∃ n, z = n + 1 := ⟨z - 1, by omega⟩
                simpa using h3)
        exact ⟨y, by omega, hy2, hy3, hy4⟩
    · rw [if_neg hc]
      exact ⟨z, le_refl _, h1, h2, h3⟩

theorem delete_end (b : List Nat) (i len z : Nat) (hi : i < len)
    (hd1 : isDelimOrSpace (b.getD i 0) = true) (hd2 : isDelimOrSpace (b.getD (i + 1) 0) = true)
    (hz : z ≤ len) (h1 : b.getD z 0 = 0) (h2 : ∀ j, j < z → b.getD j 0 ≠ 0)
    (h3 : z = 0 ∨ isDelimOrSpace (b.getD (z - 1) 0) = false) :
    ∃ y, y ≤ len - 1 ∧ ((dff_TrimText.shift (len - i) i b).set len 0).getD y 0 = 0 ∧
      (∀ j, j < y → ((dff_TrimText.shift (len - i) i b).set len 0).getD j 0 ≠ 0) ∧
      (y = 0 ∨ isDelimOrSpace
        (((dff_TrimText.shift (len - i) i b).set len 0).getD (y - 1) 0) = false) := by
  have hg := delete_getD b i len
  have hz0 : isDelimOrSpace 0 = false := by decide
  have hzi : z ≠ i := by
    intro e; rw [← e, h1, hz0] at hd1; exact absurd hd1 (by simp)
  have hzi1 : z ≠ i + 1 := by
    intro e; rw [← e, h1, hz0] at hd2; exact absurd hd2 (by simp)
  by_cases c1 : z < i
  · refine ⟨z, by omega, ?_, fun j hj => ?_, ?_⟩
    · rw [hg, if_neg (by omega), if_neg (by omega)]; exact h1
    · rw [hg, if_neg (by omega), if_neg (by omega)]; exact h2 j hj
    · rcases h3 with h3 | h3
      · exact Or.inl h3
      · right
        rw [hg, if_neg (by omega), if_neg (by omega)]; exact h3
  · have hlast : isDelimOrSpace (b.getD (z - 1) 0) = false := by
      rcases h3 with h3 | h3
      · omega
      · exact h3
    have hzi2 : z - 1 ≠ i + 1 := by
      intro e; rw [e, hd2] at hlast; exact absurd hlast (by simp)
    refine ⟨z - 1, by omega, ?_, fun j hj => ?_, Or.inr ?_⟩
    · rw [hg, if_neg (by omega), if_pos (by omega)]
      have : z - 1 + 1 = z := by omega
      rw [this]; exact h1
    · rw [hg, if_neg (by omega)]
      by_cases c3 : i ≤ j ∧ j < len
      · rw [if_pos c3]; exact h2 (j + 1) (by omega)
      · rw [if_neg c3]; exact h2 j (by omega)
    · rw [hg, if_neg (by omega), if_pos (by omega)]
      have : z - 1 - 1 + 1 = z - 1 := by omega
      rw [this]; exact hlast

theorem squeeze_end (fuel : Nat) : ∀ (i len : Nat) (b : List Nat),
    (∃ z, z ≤ len ∧ b.getD z 0 = 0 ∧ (∀ j, j < z → b.getD j 0 ≠ 0) ∧
      (z = 0 ∨ isDelimOrSpace (b.getD (z - 1) 0) = false)) →
    ∃ z, z ≤ (dff_TrimText.squeeze fuel i len b).1 ∧
      (dff_TrimText.squeeze fuel i len b).2.getD z 0 = 0 ∧
      (∀ j, j < z → (dff_TrimText.squeeze fuel i len b).2.getD j 0 ≠ 0) ∧
      (z = 0 ∨ isDelimOrSpace ((dff_TrimText.squeeze fuel i len b).2.getD (z - 1) 0) = false) := by
  induction fuel with
  | zero => intro i len b h; simpa [dff_TrimText.squeeze] using h
  | succ fuel ih =>
    intro i len b h
    simp only [dff_TrimText.squeeze]
    split
    · rename_i hc
      obtain ⟨z, hz, h1, h2, h3⟩ := h
      exact ih _ _ _ (delete_end b i len z hc.1 hc.2.1 hc.2.2 hz h1 h2 h3)
    · exact h

theorem collapse_end (fuel : Nat) : ∀ (i len : Nat) (b : List Nat),
    (∃ z, z ≤ len ∧ b.getD z 0 = 0 ∧ (∀ j, j < z → b.getD j 0 ≠ 0) ∧
      (z = 0 ∨ isDelimOrSpace (b.getD (z - 1) 0) = false)) →
    ∃ z, (dff_TrimText.collapse fuel i len b).getD z 0 = 0 ∧
      (∀ j, j < z → (dff_TrimText.collapse fuel i len b).getD j 0 ≠ 0) ∧
      (z = 0 ∨ isDelimOrSpace ((dff_TrimText.collapse fuel i len b).getD (z - 1) 0) = false) := by
  induction fuel with
  | zero =>
    intro i len b h
    obtain ⟨z, _, h1, h2, h3⟩ := h
    exact ⟨z, h1, h2, h3⟩
  | succ fuel ih =>
    intro i len b h
    simp only [dff_TrimText.collapse]
    split
    · exact ih _ _ _ (squeeze_end _ _ _ _ h)
    · obtain ⟨z, _, h1, h2, h3⟩ := h
      exact ⟨z, h1, h2, h3⟩

theorem cstr_length_ge (b : List Nat) : ∀ (z : Nat), (∀ j, j < z → b.getD j 0 ≠ 0) →
    z ≤ (cstr b).length := by
  induction b with
  | nil =>
    intro z h
    cases z with
    | zero => omega
    | succ z => exact absurd rfl (h 0 (by omega))
  | cons c r ih =>
    intro z h
    cases z with
    | zero => omega
    | succ z =>
      have hc : c ≠ 0 := by simpa using h 0 (by omega)
      have := ih z (fun j hj => by simpa using h (j + 1) (by omega))
      unfold cstr at this ⊢
      rw [List.takeWhile_cons]
      simp only [bne_iff_ne, ne_eq, hc, not_false_eq_true, decide_True, if_true, List.length_cons]
      omega

theorem dff_TrimText_no_trailing (s rest : List Nat)
    (hs : ∀ c ∈ s, c ≠ 0 ∧ c ≠ DBASE_MEMO_END) :
    ∀ c, (cstr (dff_TrimText (s ++ 0 :: rest))).getLast? = some c →
      isDelimOrSpace c = false := by
  obtain ⟨g1, g2⟩ := getD_string s rest
  have hlen : s.length ≤ (s ++ 0 :: rest).length := by simp
  obtain ⟨e1, e2⟩ := scan_spec s.length ((s ++ 0 :: rest).length + 1) 0 (s ++ 0 :: rest)
    (by omega) (by omega)
    (fun j _ hj => by rw [g1 j hj]; exact hs _ (getD_mem s j hj)) g2
  have hb : ∀ j, (((dff_TrimText.scan ((s ++ 0 :: rest).length + 1) 0 (s ++ 0 :: rest)).2).set
      (s.length + 1) 0).getD j 0 =
      if j = s.length + 1 then 0 else
        if j < s.length then dff_TrimText.translate ((s ++ 0 :: rest).getD j 0)
        else (s ++ 0 :: rest).getD j 0 := by
    intro j
    rw [getD_set_eq _ _ _ _ (Or.inr rfl), e2]
    by_cases h1 : j = s.length + 1
    · rw [if_pos h1, if_pos h1]
    · rw [if_neg h1, if_neg h1]
      by_cases h2 : j < s.length
      · rw [if_pos ⟨by omega, h2⟩, if_pos h2]
      · rw [if_neg (by omega), if_neg h2]
  have hq : ∃ z, (dff_TrimText (s ++ 0 :: rest)).getD z 0 = 0 ∧
      (∀ j, j < z → (dff_TrimText (s ++ 0 :: rest)).getD j 0 ≠ 0) ∧
      (z = 0 ∨ isDelimOrSpace ((dff_TrimText (s ++ 0 :: rest)).getD (z - 1) 0) = false) := by
    unfold dff_TrimText dff_StripString
    simp only [e1]
    obtain ⟨t1, t2, t3⟩ := trail_end s.length
      (((dff_TrimText.scan ((s ++ 0 :: rest).length + 1) 0 (s ++ 0 :: rest)).2).set
        (s.length + 1) 0)
      (by rw [hb, if_neg (by omega), if_neg (by omega)]; exact g2)
      (fun j hj => by
        rw [hb, if_neg (by omega), if_pos hj, g1 j hj]
        exact translate_ne_zero _ (hs _ (getD_mem s j hj)).1)
    obtain ⟨y, hy1, hy2, hy3, hy4⟩ := lead_end _ _ t1 t2 t3
    exact collapse_end _ _ _ _ ⟨y, hy1, hy2, hy3, hy4⟩
  obtain ⟨z, hz1, hz2, hz3⟩ := hq
  have hl : (cstr (dff_TrimText (s ++ 0 :: rest))).length = z :=
    le_antisymm (cstr_length_le _ z hz1) (cstr_length_ge _ z hz2)
  intro c hc
  rw [List.getLast?_eq_getElem?, hl] at hc
  have hz0 : z ≠ 0 := by
    intro e
    rw [e] at hl
    rw [List.getElem?_eq_none (by omega)] at hc
    cases hc
  have h5 := cstr_getD (dff_TrimText (s ++ 0 :: rest)) (z - 1) (by omega)
  rw [List.getD_eq_getElem?_getD, hc] at h5
  simp only [Option.getD_some] at h5
  rcases hz3 with h | h
  · exact absurd h hz0
  · rw [h5]; exact h

/-- C12 fails on the code. For the memo text "hello", a line feed and the end
marker 26 26, the first loop of `dff_TrimText` stops at the line feed, because
the next byte is the end marker, and leaves it as it is: the string that results
is "hello" followed by the line feed, which is not printable. A buffer that
starts with the end marker gives the string made of the byte 26. For a string
without the byte 26, whatever follows its NUL, every character of the result is
printable. -/
theorem dff_TrimText_keeps_control_character :
    cstr (dff_TrimText [104, 101, 108, 108, 111, 10, 26, 26, 0]) =
      [104, 101, 108, 108, 111, 10] ∧
    isprint 10 = false ∧
    cstr (dff_TrimText [26, 26, 0]) = [26] ∧ isprint 26 = false ∧
    ∀ s rest : List Nat, (∀ c ∈ s, c ≠ 0 ∧ c ≠ DBASE_MEMO_END) →
      ∀ c ∈ cstr (dff_TrimText (s ++ 0 :: rest)), isprint c = true :=
  ⟨by decide, by decide, by decide, by decide, dff_TrimText_printable⟩

/-- C13 fails on the code. For the field text line feed, space, space, "x" the
strip step finds no leading space, since the line feed has become a backslash,
and the collapse step, which deletes the first character of a pair, then leaves
a space in front: the string that results is " x". The same happens for a text
that starts with a backslash followed by a space. For a string without the byte
26 in which the first character that is not turned into a space is not turned
into a backslash either, whatever follows its NUL, the result does not start
with a space. -/
theorem dff_TrimText_leading_space :
    cstr (dff_TrimText [10, 32, 32, 120, 0]) = [32, 120] ∧
    cstr (dff_TrimText [13, 32, 120, 0]) = [32, 120] ∧
    cstr (dff_TrimText [92, 32, 97, 0]) = [32, 97] ∧
    ∀ s rest : List Nat, (∀ c ∈ s, c ≠ 0 ∧ c ≠ DBASE_MEMO_END) →
      (∀ k, k < s.length →
        (∀ j, j < k → dff_TrimText.translate (s.getD j 0) = SPACE) →
        dff_TrimText.translate (s.getD k 0) ≠ DF_DELIM) →
      ∀ c, (cstr (dff_TrimText (s ++ 0 :: rest))).head? = some c → c ≠ SPACE :=
  ⟨by decide, by decide, by decide, dff_TrimText_no_leading⟩

/-- C14 fails on the code. For the memo text "hello", a space and the end marker
26 26, the first loop of `dff_TrimText` stops at the space, because the next
byte is the end marker, and `len` does not count it, so `dff_StripString` does
not strip it: the string that results ends with the space. The same happens
with a backslash before the end marker. For a string without the byte 26,
whatever follows its NUL, the result does not end with a space or a backslash. -/
theorem dff_TrimText_trailing_space :
    cstr (dff_TrimText [104, 101, 108, 108, 111, 32, 26, 26, 0]) =
      [104, 101, 108, 108, 111, 32] ∧
    cstr (dff_TrimText [104, 101, 108, 108, 111, 92, 26, 26, 0]) =
      [104, 101, 108, 108, 111, 92] ∧
    ∀ s rest : List Nat, (∀ c ∈ s, c ≠ 0 ∧ c ≠ DBASE_MEMO_END) →
      ∀ c, (cstr (dff_TrimText (s ++ 0 :: rest))).getLast? = some c →
        c ≠ SPACE ∧ c ≠ DF_DELIM := by
  refine ⟨by decide, by decide, fun s rest hs c hc => ?_⟩
  have h := dff_TrimText_no_trailing s rest hs c hc
  unfold isDelimOrSpace at h
  rw [Bool.or_eq_false_iff] at h
  exact ⟨ne_of_beq_false h.2, ne_of_beq_false h.1⟩

/-! ## The end of the run, partition by partition -/

theorem header_congr (d d1 : DF_INFO) (h1 : d1.model = d.model)
    (h2 : d1.protect_file = d.protect_file) (h3 : d1.logical = d.logical) (h4 : d1.indx = d.indx) :
    dff_DFTtoDFA.header d1 = dff_DFTtoDFA.header d := by
  unfold dff_DFTtoDFA.header
  rw [h1, h2, h3, h4]

theorem dff_CleanUp_loop_spec (adr_fails : Nat → Bool) (status : Nat) (n : Nat) :
    ∀ (d : DF_INFO) (num : Nat) (d1 : DF_INFO) (c : Nat),
      dff_CleanUp.loop adr_fails status n d num = Sum.inr (d1, c) →
      d1.logical = d.logical ∧ d1.model = d.model ∧ d1.protect_file = d.protect_file ∧
      d1.indx = d.indx + n ∧
      ∀ k,
        ((k < d.indx ∨ d.indx + n ≤ k) →
          d1.dftFile k = d.dftFile k ∧ d1.dffFile k = d.dffFile k ∧ d1.dfaFile k = d.dfaFile k) ∧
        (d.indx ≤ k → k < d.indx + n →
          ((status = DF_SUCCESS ∧ 0 < d.logical k) →
            adr_fails k = false ∧
            d1.dfaFile k = some (dff_DFTtoDFA.header { d with indx := k } ++
              ((d.dftFile k).getD []).map Row.text) ∧
            d1.dftFile k = none ∧ d1.dffFile k = d.dffFile k) ∧
          (¬ (status = DF_SUCCESS ∧ 0 < d.logical k) →
            d1.dftFile k = none ∧ d1.dffFile k = none ∧ d1.dfaFile k = d.dfaFile k)) := by
  induction n with
  | zero =>
    intro d num d1 c h
    simp only [dff_CleanUp.loop, Sum.inr.injEq, Prod.mk.injEq] at h
    obtain ⟨rfl, _⟩ := h
    exact ⟨rfl, rfl, rfl, rfl, fun k => ⟨fun _ => ⟨rfl, rfl, rfl⟩, fun h1 h2 => by omega⟩⟩
  | succ n ih =>
    intro d num d1 c h
    simp only [dff_CleanUp.loop] at h
    by_cases hc : status = DF_SUCCESS ∧ d.logical d.indx > 0
    · by_cases hf : adr_fails d.indx = true
      · have e : dff_DFTtoDFA adr_fails d status = Sum.inl d := by
          unfold dff_DFTtoDFA; rw [if_pos hc, if_pos hf]
        rw [e] at h
        cases h
      · have e : dff_DFTtoDFA adr_fails d status = Sum.inr
            ({ d with
                dfa := some d.indx
                dfaFile := Function.update d.dfaFile d.indx
                  (some (dff_DFTtoDFA.header d ++ ((d.dftFile d.indx).getD []).map Row.text))
                dftFile := Function.update d.dftFile d.indx none },
              d.logical d.indx) := by
          unfold dff_DFTtoDFA; rw [if_pos hc, if_neg hf]
        rw [e] at h
        obtain ⟨g1, g2, g3, g4, g5⟩ := ih _ _ _ _ h
        refine ⟨g1, g2, g3, by rw [g4]; simp only; omega, fun k => ⟨fun hk => ?_, fun hk1 hk2 => ?_⟩⟩
        · have hne : k ≠ d.indx := by omega
          have := (g5 k).1 (by simp only; omega)
          simp only [Function.update_noteq hne] at this
          exact this
        · by_cases hki : k = d.indx
          · have := (g5 k).1 (Or.inl (by simp only; omega))
            rw [hki] at this ⊢
            simp only [Function.update_same] at this
            refine ⟨fun _ => ⟨by simpa using hf, ?_, this.1, this.2.1⟩, fun hn => absurd hc hn⟩
            rw [this.2.2]
          · have := (g5 k).2 (by simp only; omega) (by simp only; omega)
            simp only [Function.update_noteq hki] at this
            exact this
    · have e : dff_DFTtoDFA adr_fails d status = Sum.inr
          ({ d with
              dftFile := Function.update d.dftFile d.indx none
              dffFile := Function.update d.dffFile d.indx none },
            d.logical d.indx) := by
        unfold dff_DFTtoDFA; rw [if_neg hc]
      rw [e] at h
      obtain ⟨g1, g2, g3, g4, g5⟩ := ih _ _ _ _ h
      refine ⟨g1, g2, g3, by rw [g4]; simp only; omega, fun k => ⟨fun hk => ?_, fun hk1 hk2 => ?_⟩⟩
      · have hne : k ≠ d.indx := by omega
        have := (g5 k).1 (by simp only; omega)
        simp only [Function.update_noteq hne] at this
        exact this
      · by_cases hki : k = d.indx
        · have := (g5 k).1 (Or.inl (by simp only; omega))
          rw [hki] at this ⊢
          simp only [Function.update_same] at this
          exact ⟨fun hp => absurd hp hc, fun _ => this⟩
        · have := (g5 k).2 (by simp only; omega) (by simp only; omega)
          simp only [Function.update_noteq hki] at this
          exact this

theorem main_steps_frame (L : Libc) (n : Nat) (d : DF_INFO) :
    (main.steps L n d).config = d.config ∧ (main.steps L n d).dfaFile = d.dfaFile ∧
    (main.steps L n d).model = d.model ∧ (main.steps L n d).protect_file = d.protect_file := by
  have hO : ∀ d : DF_INFO, (dff_Open d).dfaFile = d.dfaFile ∧ (dff_Open d).model = d.model ∧
      (dff_Open d).protect_file = d.protect_file := by
    intro d; simp only [dff_Open]; split <;> exact ⟨rfl, rfl, rfl⟩
  have hOp : ∀ d : DF_INFO, (dff_WriteBlocks.opened d).dfaFile = d.dfaFile ∧
      (dff_WriteBlocks.opened d).model = d.model ∧
      (dff_WriteBlocks.opened d).protect_file = d.protect_file := by
    intro d; unfold dff_WriteBlocks.opened; split
    · exact hO d
    · exact ⟨rfl, rfl, rfl⟩
  have hW : ∀ (d : DF_INFO) ptr which, (dff_WriteBlocks d ptr which).dfaFile = d.dfaFile ∧
      (dff_WriteBlocks d ptr which).model = d.model ∧
      (dff_WriteBlocks d ptr which).protect_file = d.protect_file := by
    intro d ptr which
    obtain ⟨h1, h2, h3⟩ := hOp d
    unfold dff_WriteBlocks
    by_cases hw : which = DF_WRITING_RECORD
    · simp only [hw, if_true]; exact ⟨h1, h2, h3⟩
    · simp only [hw, if_false]; exact ⟨h1, h2, h3⟩
  exact main_steps_preserves
    (fun s => s.config = d.config ∧ s.dfaFile = d.dfaFile ∧ s.model = d.model ∧
      s.protect_file = d.protect_file)
    (fun s ptr which ⟨h1, h2, h3, h4⟩ => by
      obtain ⟨w1, w2, w3⟩ := hW s ptr which
      exact ⟨by rw [(dff_WriteBlocks_frame s ptr which).1, h1], by rw [w1, h2], by rw [w2, h3],
        by rw [w3, h4]⟩)
    (fun s i h _ => h) (fun s i rn pos h => h) (fun s pos h => h) (fun s rn h => h) L n d
    ⟨rfl, rfl, rfl, rfl⟩

theorem main_run_success (adr_fails : Nat → Bool) (L : Libc) (fuel : Nat) (d0 final : DF_INFO)
    (h : main.run adr_fails L fuel d0 = some (DF_SUCCESS, final)) :
    ∃ c, main.loop L fuel d0 = some (DF_SUCCESS, main.steps L fuel d0) ∧
      dff_CleanUp.loop adr_fails DF_SUCCESS (dff_CleanUp.partitions d0)
        { main.steps L fuel d0 with indx := 0 } 0 = Sum.inr (final, c) := by
  unfold main.run at h
  cases hl : main.loop L fuel d0 with
  | none => rw [hl] at h; cases h
  | some r =>
    obtain ⟨s, st⟩ := r
    have hst := main_loop_eq_steps L fuel d0 s st hl
    subst hst
    rw [hl] at h
    simp only [Option.map_some', Option.some.injEq] at h
    have hp : dff_CleanUp.partitions (main.steps L fuel d0) = dff_CleanUp.partitions d0 := by
      unfold dff_CleanUp.partitions
      rw [(config_fields _ _ (main_steps_frame L fuel d0).1).1]
    unfold dff_CleanUp at h
    rw [hp] at h
    cases hc : dff_CleanUp.loop adr_fails s (dff_CleanUp.partitions d0)
        { main.steps L fuel d0 with indx := 0 } 0 with
    | inl d1 =>
      rw [hc] at h
      simp only [Prod.mk.injEq] at h
      exact absurd h.1 (by decide)
    | inr p =>
      obtain ⟨d1, c⟩ := p
      rw [hc] at h
      simp only [Prod.mk.injEq] at h
      obtain ⟨rfl, rfl⟩ := h
      exact ⟨c, rfl, hc⟩

/-- C21: a partition with zero records leaves nothing behind. Called with
`DF_SUCCESS` for a partition whose counter `logical[indx]` is 0, `dff_DFTtoDFA`
returns 0, removes the .dft and the .dff file of the partition, writes no .dfa
file and leaves the files of the other partitions as they are. So in every run
that exits with `DF_SUCCESS`, whatever the record loop wrote to a partition
that ends with `logical` 0, its .dft and .dff files are gone and its .dfa file
is as it was before the run. -/
theorem zero_record_partition_removed (adr_fails : Nat → Bool) (d : DF_INFO)
    (h0 : d.logical d.indx = 0) :
    (∃ d1 : DF_INFO, dff_DFTtoDFA adr_fails d DF_SUCCESS = Sum.inr (d1, 0) ∧
      d1.dftFile d.indx = none ∧ d1.dffFile d.indx = none ∧ d1.dfaFile = d.dfaFile ∧
      ∀ k, k ≠ d.indx → d1.dftFile k = d.dftFile k ∧ d1.dffFile k = d.dffFile k) ∧
    (∀ (L : Libc) (fuel : Nat) (d0 final : DF_INFO),
      main.run adr_fails L fuel d0 = some (DF_SUCCESS, final) →
      ∀ k, k < dff_CleanUp.partitions d0 → final.logical k = 0 →
        final.dftFile k = none ∧ final.dffFile k = none ∧ final.dfaFile k = d0.dfaFile k) := by
  constructor
  · refine ⟨{ d with
        dftFile := Function.update d.dftFile d.indx none
        dffFile := Function.update d.dffFile d.indx none }, ?_, ?_, ?_, rfl, fun k hk => ?_⟩
    · unfold dff_DFTtoDFA
      rw [if_neg (by rw [h0]; intro h; exact absurd h.2 (by decide)), h0]
    · simp only [Function.update_same]
    · simp only [Function.update_same]
    · simp only [Function.update_noteq hk]
      exact ⟨trivial, trivial⟩
  · intro L fuel d0 final hrun k hk hz
    obtain ⟨c, _, hc⟩ := main_run_success adr_fails L fuel d0 final hrun
    obtain ⟨g1, _, _, _, g5⟩ := dff_CleanUp_loop_spec adr_fails DF_SUCCESS _ _ _ _ _ hc
    have hz2 : (main.steps L fuel d0).logical k = 0 := by
      rw [g1] at hz; exact hz
    have := ((g5 k).2 (Nat.zero_le k) (by simpa using hk)).2
      (by intro h; have := h.2; simp only at this; omega)
    simp only at this
    rw [(main_steps_frame L fuel d0).2.1] at this
    exact this

set_option maxRecDepth 100000 in
/-- C21 at a concrete input: `DF_INFO.sample` with its first record only, which
goes to partition `b` after its memo was written to partition `a`. The record
loop leaves a .dff file with a header and a memo block and an empty .dft file
for partition `a`; at the end of the run neither exists. -/
theorem zero_record_partition_removed_witness :
    ((main.loop Libc.zero 3 { DF_INFO.sample with num_records := 1 }).map
      (fun r => (r.1, r.2.logical 0, ((r.2.dffFile 0).getD []).length, r.2.dftFile 0))) =
      some (DF_SUCCESS, 0, 2, some []) ∧
    ({ main.steps Libc.zero 3 { DF_INFO.sample with num_records := 1 } with indx := 0 } :
      DF_INFO).logical 0 = 0 ∧
    (∃ d1 : DF_INFO, dff_DFTtoDFA (fun _ => false)
        { main.steps Libc.zero 3 { DF_INFO.sample with num_records := 1 } with indx := 0 }
        DF_SUCCESS = Sum.inr (d1, 0) ∧
      d1.dftFile 0 = none ∧ d1.dffFile 0 = none) ∧
    (main.run (fun _ => false) Libc.zero 3 { DF_INFO.sample with num_records := 1 }).map
      (fun r => (r.1, r.2.dffFile 0, r.2.dftFile 0, r.2.dfaFile 0)) =
      some (DF_SUCCESS, none, none, none) := by
  obtain ⟨d1, h1, h2, h3, _⟩ := (zero_record_partition_removed (fun _ => false)
    { main.steps Libc.zero 3 { DF_INFO.sample with num_records := 1 } with indx := 0 }
    (by decide)).1
  exact ⟨by decide, by decide, ⟨d1, h1, h2, h3⟩, rfl⟩

set_option maxRecDepth 100000 in
/-- C25 fails on the code. With `undel` not set and a first record whose first
byte is `*`, `dBase_ProcessRecord` does not skip the record: the test compares
`(int)ptr`, the address of the record buffer, with `*`, not the byte at that
address. The record is converted like any other: one block and one index row
are written to partition `b` and its counters go from 0 to 1, exactly as for
the same record with a blank first byte. The test skips a record only when the
address itself is 42, and then whatever the first byte is. -/
theorem deleted_record_is_converted :
    DF_INFO.sampleReopen.undel = false ∧
    (recordAt { DF_INFO.sampleReopen with dbf := [42, 98, 32, 97, 32, 98] } 0).getD 0 0 =
      DBASE_DELETED ∧
    ((dBase_ProcessRecord Libc.zero
        { DF_INFO.sampleReopen with dbf := [42, 98, 32, 97, 32, 98] }).state.logical 1,
      (dBase_ProcessRecord Libc.zero
        { DF_INFO.sampleReopen with dbf := [42, 98, 32, 97, 32, 98] }).state.physical 1,
      (dBase_ProcessRecord Libc.zero
        { DF_INFO.sampleReopen with dbf := [42, 98, 32, 97, 32, 98] }).state.dftFile 1,
      ((dBase_ProcessRecord Libc.zero
        { DF_INFO.sampleReopen with dbf := [42, 98, 32, 97, 32, 98] }).state.dffFile 1).map
          List.length) =
      (1, 1, some [⟨32, 1, 1⟩], some 2) ∧
    (dBase_ProcessRecord Libc.zero
        { DF_INFO.sampleReopen with dbf := [42, 98, 32, 97, 32, 98] }).state.dffFile 1 =
      (dBase_ProcessRecord Libc.zero DF_INFO.sampleReopen).state.dffFile 1 ∧
    (∀ (L : Libc) (d : DF_INFO), d.rec_buffer = (DBASE_DELETED : Int) → d.undel = false →
      ((d.dbf.drop d.dbf_pos).take d.bytes).length = d.bytes →
      dBase_ProcessRecord L d = Outcome.ret { d with dbf_pos := d.dbf_pos + d.bytes }) := by
  refine ⟨rfl, by decide, by decide, by decide, fun L d h1 h2 h3 => ?_⟩
  unfold dBase_ProcessRecord
  simp only [h3, ne_eq, not_true_eq_false, if_false, h1, h2, and_self, if_true]

/-! ## The header line of a store -/

theorem header_length (model : List Nat) :
    (dff_Open.header model).length =
      if model.length ≤ 51 then 79 else if model.length = 52 then 80
      else 2 * model.length - 25 := by
  have h0 : fmtLong DF_FREELIST = [48] := by decide
  have hR : (DF_REC_WIDTH : Int) = 70 := rfl
  have hA : (DF_ADDR_WIDTH : Int) = 8 := rfl
  unfold dff_Open.header fmtStar
  rw [h0, hR, hA]
  simp only [List.length_append, List.length_cons, List.length_nil, List.length_replicate]
  by_cases h : model.length ≤ 51
  · rw [if_pos h, if_pos (by omega)]
    simp only [List.length_append, List.length_cons, List.length_nil, List.length_replicate]
    omega
  · rw [if_neg h]
    by_cases h2 : model.length = 52
    · rw [if_pos (by omega), if_pos h2]
      simp only [List.length_append, List.length_cons, List.length_nil, List.length_replicate]
      omega
    · rw [if_neg (by omega), if_neg h2]
      have hw : ((70 : Int) - (26 + (model.length : Int)) + 8) =
          -(((model.length - 52 : Nat) : Nat) : Int) := by omega
      rw [hw, Int.natAbs_neg, Int.natAbs_ofNat]
      simp only [List.length_append, List.length_cons, List.length_nil, List.length_replicate]
      omega

theorem header_short (model : List Nat) (h : model.length ≤ 51) :
    dff_Open.header model =
      txt ("Version=\x7bDfile01\x7d Model=\x7b") ++ model ++ txt ("\x7d") ++
        List.replicate (51 - model.length) SPACE ++ txt ("0\n") := by
  have h0 : fmtLong DF_FREELIST = [48] := by decide
  have hR : (DF_REC_WIDTH : Int) = 70 := rfl
  have hA : (DF_ADDR_WIDTH : Int) = 8 := rfl
  unfold dff_Open.header fmtStar
  rw [h0, hR, hA, if_pos (by omega)]
  have : ((70 : Int) - (26 + (model.length : Int)) + 8).toNat - ([48] : List Nat).length =
      51 - model.length := by
    simp only [List.length_cons, List.length_nil]
    omega
  rw [this]
  simp [txt, NEWLINE]

set_option maxRecDepth 100000 in
/-- C26 fails on the code. For a model name of 52 characters the width handed
to `%*d` is 0, the counter takes one column all the same, and the first line of
the .dff file has 79 characters before the newline, one more than a block line;
for a longer name the width is negative and the line longer still. For a model
name of at most 51 characters the line is `Version=`, the version in braces,
` Model=`, the name in braces, and the counter 0 right-justified so that the
line has 78 characters before the newline. `dff_Open` writes this line first
whenever it creates a file. -/
theorem store_header_too_long :
    (dff_Open.header (List.replicate 52 109)).length = 80 ∧
    dff_Open.header (List.replicate 52 109) =
      txt ("Version=\x7bDfile01\x7d Model=\x7b") ++ List.replicate 52 109 ++ txt ("\x7d0\n") ∧
    (dff_Open.header (List.replicate 60 109)).length = 95 ∧
    (∀ model : List Nat, model.length ≤ 51 →
      (dff_Open.header model).length = 78 + 1 ∧
      dff_Open.header model =
        txt ("Version=\x7bDfile01\x7d Model=\x7b") ++ model ++ txt ("\x7d") ++
          List.replicate (51 - model.length) SPACE ++ txt ("0\n")) ∧
    (∀ model : List Nat, 51 < model.length → 78 + 1 < (dff_Open.header model).length) ∧
    (∀ d : DF_INFO, d.logical d.indx = 0 →
      (dff_Open d).dffFile d.indx = some [dff_Open.header d.model]) := by
  refine ⟨by decide, by decide, by decide, fun model h => ⟨?_, header_short model h⟩,
    fun model h => ?_, fun d h => ?_⟩
  · rw [header_length, if_pos h]
  · rw [header_length, if_neg (by omega)]
    split <;> omega
  · simp only [dff_Open]
    rw [if_pos h]
    simp only [fappend, Function.update_same, fopenContent]
    simp [h]

/-! ## The text of a field and of a record -/

theorem fmtLong_zero : fmtLong DF_FREELIST = [48] := by decide

/-- C22: the text of a memo field. At a memo field the field loop of
`dBase_ProcessRecord` reads the block number with `atol`. When there is no .dbt
file or the `fseek` to 512 times that number fails, the state is left as it is,
no block is written, and the text appended for the field is "0". Otherwise
`dff_WriteBlocks` writes the memo read at that offset as one chain of at least
one block to the .dff file of the partition in effect, no index row is
written, `physical[indx]` grows by the number of blocks, and the text appended
for the field is the decimal text of `physical[indx] + 1` as it was before the
call, the address of the first block of the chain. -/
theorem memo_field_text (L : Libc) (r : List Nat) (rec_start n i : Nat) (d : DF_INFO)
    (off : Nat) (out : List Nat) (hM : d.fld_type.getD i 0 = DBASE_MEMO_FLD) :
    ((d.dbt = none ∨
        atol (cstr (strncpy (r.drop off) (d.fld_len.getD i 0) ++ [0])) *
          (DBASE_MEMO_BLOCK : Int) < 0) →
      dBase_ProcessRecord.fields L r rec_start (n + 1) i d off out =
        dBase_ProcessRecord.fields L r rec_start n (i + 1) d (off + d.fld_len.getD i 0)
          (out ++ [48] ++ (if i + 1 < d.num_flds then [DF_DELIM] else []))) ∧
    (∀ dbt : List Nat, d.dbt = some dbt →
      0 ≤ atol (cstr (strncpy (r.drop off) (d.fld_len.getD i 0) ++ [0])) *
        (DBASE_MEMO_BLOCK : Int) →
      ∃ (d1 : DF_INFO) (text : List Nat),
        d1 = dff_WriteBlocks d
          ((dbt.drop (atol (cstr (strncpy (r.drop off) (d.fld_len.getD i 0) ++ [0])) *
            (DBASE_MEMO_BLOCK : Int)).toNat).take DF_MAX_MEMO_SIZE ++ [0]) DF_WRITING_MEMO ∧
        dBase_ProcessRecord.fields L r rec_start (n + 1) i d off out =
          dBase_ProcessRecord.fields L r rec_start n (i + 1) d1 (off + d.fld_len.getD i 0)
            (out ++ decimal (d.physical d.indx + 1) ++
              (if i + 1 < d.num_flds then [DF_DELIM] else [])) ∧
        storeOf d1 = storeOf (dff_WriteBlocks.opened d) ++
          dff_WriteBlocks.chain (d.physical d.indx) text ∧
        0 < (dff_WriteBlocks.chain (d.physical d.indx) text).length ∧
        d1.indx = d.indx ∧
        d1.physical d.indx =
          d.physical d.indx + (dff_WriteBlocks.chain (d.physical d.indx) text).length ∧
        d1.logical = d.logical ∧ d1.dftFile = (dff_WriteBlocks.opened d).dftFile) := by
  have hne : DBASE_MEMO_FLD ≠ DBASE_NUMERIC_FLD := by decide
  constructor
  · intro h
    have hm : dBase_ProcessMemo d
        (atol (cstr (strncpy (r.drop off) (d.fld_len.getD i 0) ++ [0]))) = d := by
      unfold dBase_ProcessMemo
      rcases h with h | h
      · rw [h]
      · cases hd : d.dbt with
        | none => rfl
        | some dbt => simp only [if_pos h]
    simp only [dBase_ProcessRecord.fields]
    rw [if_neg (by rw [hM]; exact hne), if_pos hM, hm, if_pos rfl, fmtLong_zero]
  · intro dbt hd hs
    have hm : dBase_ProcessMemo d
        (atol (cstr (strncpy (r.drop off) (d.fld_len.getD i 0) ++ [0]))) =
        dff_WriteBlocks d
          ((dbt.drop (atol (cstr (strncpy (r.drop off) (d.fld_len.getD i 0) ++ [0])) *
            (DBASE_MEMO_BLOCK : Int)).toNat).take DF_MAX_MEMO_SIZE ++ [0]) DF_WRITING_MEMO := by
      unfold dBase_ProcessMemo
      rw [hd]
      simp only [if_neg (not_lt.mpr hs)]
    have hpos := chain_length_pos (d.physical d.indx) (dff_WriteBlocks.text
      ((dbt.drop (atol (cstr (strncpy (r.drop off) (d.fld_len.getD i 0) ++ [0])) *
        (DBASE_MEMO_BLOCK : Int)).toNat).take DF_MAX_MEMO_SIZE ++ [0]) DF_WRITING_MEMO)
    have hph := dff_WriteBlocks_physical d
      ((dbt.drop (atol (cstr (strncpy (r.drop off) (d.fld_len.getD i 0) ++ [0])) *
        (DBASE_MEMO_BLOCK : Int)).toNat).take DF_MAX_MEMO_SIZE ++ [0]) DF_WRITING_MEMO
    have hix := dff_WriteBlocks_indx d
      ((dbt.drop (atol (cstr (strncpy (r.drop off) (d.fld_len.getD i 0) ++ [0])) *
        (DBASE_MEMO_BLOCK : Int)).toNat).take DF_MAX_MEMO_SIZE ++ [0]) DF_WRITING_MEMO
    refine ⟨_, _, rfl, ?_, dff_WriteBlocks_store _ _ _, hpos, hix, ?_, ?_, ?_⟩
    · simp only [dBase_ProcessRecord.fields]
      rw [if_neg (by rw [hM]; exact hne), if_pos hM, hm, hix, hph, Function.update_same,
        if_neg (by omega), fmtLong_nat]
    · rw [hph, Function.update_same]
    · rw [dff_WriteBlocks_logical, if_neg (by decide)]
    · rw [dff_WriteBlocks_dftFile_eq, if_neg (by decide)]

set_option maxRecDepth 100000 in
/-- C22 at a concrete input: the memo field of the first record of
`DF_INFO.sample`, which names block 1 of the .dbt file. -/
theorem memo_field_text_witness :
    DF_INFO.sample.fld_type.getD 0 0 = DBASE_MEMO_FLD ∧
    DF_INFO.sample.dbt = some (List.replicate 512 0 ++ [120, 26, 26]) ∧
    atol (cstr (strncpy ((recordAt DF_INFO.sample 0 ++ [0]).drop 1)
      (DF_INFO.sample.fld_len.getD 0 0) ++ [0])) = 1 ∧
    ∃ (d1 : DF_INFO) (text : List Nat),
      dBase_ProcessRecord.fields Libc.zero (recordAt DF_INFO.sample 0 ++ [0]) 0 (1 + 1) 0
          DF_INFO.sample 1 [] =
        dBase_ProcessRecord.fields Libc.zero (recordAt DF_INFO.sample 0 ++ [0]) 0 1 (0 + 1) d1
          (1 + DF_INFO.sample.fld_len.getD 0 0)
          ([] ++ decimal (DF_INFO.sample.physical DF_INFO.sample.indx + 1) ++
            (if 0 + 1 < DF_INFO.sample.num_flds then [DF_DELIM] else [])) ∧
      storeOf d1 = storeOf (dff_WriteBlocks.opened DF_INFO.sample) ++
        dff_WriteBlocks.chain (DF_INFO.sample.physical DF_INFO.sample.indx) text ∧
      0 < (dff_WriteBlocks.chain (DF_INFO.sample.physical DF_INFO.sample.indx) text).length ∧
      d1.indx = DF_INFO.sample.indx ∧
      d1.logical = DF_INFO.sample.logical := by
  obtain ⟨d1, text, _, h2, h3, h4, h5, _, h7, _⟩ :=
    (memo_field_text Libc.zero (recordAt DF_INFO.sample 0 ++ [0]) 0 1 0 DF_INFO.sample 1 []
      (by decide)).2 (List.replicate 512 0 ++ [120, 26, 26]) rfl (by decide)
  exact ⟨by decide, rfl, by decide, d1, text, h2, h3, h4, h5, h7⟩

theorem intercalate_cons_cons (sep a b : List Nat) (l : List (List Nat)) :
    List.intercalate sep (a :: b :: l) = a ++ sep ++ List.intercalate sep (b :: l) := by
  simp [List.intercalate, List.intersperse]

theorem intercalate_count (texts : List (List Nat)) (h : ∀ t ∈ texts, DF_DELIM ∉ t) :
    (List.intercalate [DF_DELIM] texts).count DF_DELIM = texts.length - 1 := by
  induction texts with
  | nil => simp [List.intercalate]
  | cons a l ih =>
    cases l with
    | nil =>
      have := h a (by simp)
      simp [List.intercalate, List.intersperse, List.count_eq_zero_of_not_mem this]
    | cons b l =>
      rw [intercalate_cons_cons, List.count_append, List.count_append,
        ih (fun t ht => h t (List.mem_cons_of_mem _ ht)),
        List.count_eq_zero_of_not_mem (h a (by simp))]
      simp
      omega

theorem fields_layout (L : Libc) (r : List Nat) (rec_start : Nat) (fl ft : List Nat) (nf : Nat)
    (n : Nat) :
    ∀ (i : Nat) (d : DF_INFO) (off : Nat) (out : List Nat),
      d.fld_len = fl → d.fld_type = ft → d.num_flds = nf → i + n = nf →
      off = fieldOffset fl i →
      Sum.elim (fun _ : DF_INFO => True)
        (fun p : DF_INFO × List Nat => ∃ texts : List (List Nat), texts.length = n ∧
          p.2 = out ++ List.intercalate [DF_DELIM] texts ∧
          ∀ j, j < n → FieldText L ft fl r (i + j) (texts.getD j []))
        (dBase_ProcessRecord.fields L r rec_start n i d off out) := by
  induction n with
  | zero =>
    intro i d off out _ _ _ _ _
    simp only [dBase_ProcessRecord.fields]
    exact ⟨[], rfl, by simp [List.intercalate], fun j hj => by omega⟩
  | succ n ih =>
    intro i d off out hfl hft hnf hin hoff
    have hoff' : off + d.fld_len.getD i 0 = fieldOffset fl (i + 1) := by
      rw [hoff, hfl]; rfl
    -- what the recursive call gives, for the text `t` appended at field `i`
    have step : ∀ (d1 : DF_INFO) (t : List Nat), d1.fld_len = fl → d1.fld_type = ft →
        d1.num_flds = nf → FieldText L ft fl r i t →
        Sum.elim (fun _ : DF_INFO => True)
          (fun p : DF_INFO × List Nat => ∃ texts : List (List Nat), texts.length = n + 1 ∧
            p.2 = out ++ List.intercalate [DF_DELIM] texts ∧
            ∀ j, j < n + 1 → FieldText L ft fl r (i + j) (texts.getD j []))
          (dBase_ProcessRecord.fields L r rec_start n (i + 1) d1 (off + d.fld_len.getD i 0)
            (out ++ t ++ if i + 1 < d.num_flds then [DF_DELIM] else [])) := by
      intro d1 t h1 h2 h3 ht
      have := ih (i + 1) d1 (off + d.fld_len.getD i 0)
        (out ++ t ++ if i + 1 < d.num_flds then [DF_DELIM] else []) h1 h2 h3 (by omega) hoff'
      generalize dBase_ProcessRecord.fields L r rec_start n (i + 1) d1 (off + d.fld_len.getD i 0)
        (out ++ t ++ if i + 1 < d.num_flds then [DF_DELIM] else []) = res at this ⊢
      cases res with
      | inl _ => trivial
      | inr p =>
        obtain ⟨texts, hl, hp, hc⟩ := this
        refine ⟨t :: texts, by simp [hl], ?_, fun j hj => ?_⟩
        · show p.2 = _
          rw [hp]
          cases texts with
          | nil =>
            have : n = 0 := by simpa using hl.symm
            rw [if_neg (by omega)]
            simp [List.intercalate]
          | cons b l =>
            have : n = l.length + 1 := by simpa using hl.symm
            rw [if_pos (by omega), intercalate_cons_cons]
            simp
        · cases j with
          | zero => simpa using ht
          | succ j =>
            have := hc j (by omega)
            have e : i + (j + 1) = i + 1 + j := by omega
            rw [e]
            simpa using this
    simp only [dBase_ProcessRecord.fields]
    by_cases hnum : d.fld_type.getD i 0 = DBASE_NUMERIC_FLD
    · rw [if_pos hnum]
      apply step d _ hfl hft hnf
      unfold FieldText
      rw [← hft, if_pos hnum, hoff, hfl]
    · rw [if_neg hnum]
      by_cases hmemo : d.fld_type.getD i 0 = DBASE_MEMO_FLD
      · rw [if_pos hmemo]
        obtain ⟨f1, _, _, _, _⟩ := dBase_ProcessMemo_frame d
          (atol (cstr (strncpy (List.drop off r) (d.fld_len.getD i 0) ++ [0])))
        obtain ⟨_, g2, g3, g4, _⟩ := config_fields _ _ f1
        apply step _ _ (by rw [g4, hfl]) (by rw [g3, hft]) (by rw [g2, hnf])
        unfold FieldText
        rw [← hft, if_neg hnum, if_pos hmemo]
        split
        · exact Or.inl fmtLong_zero
        · exact Or.inr ⟨d.physical d.indx, fmtLong_nat _⟩
      · rw [if_neg hmemo]
        have hT : FieldText L ft fl r i
            (cstr (dff_TrimText (strncpy (List.drop off r) (d.fld_len.getD i 0) ++ [0]))) := by
          unfold FieldText
          rw [← hft, if_neg hnum, if_neg hmemo, hoff, hfl]
        by_cases hsplit : (i : Int) = d.split
        · rw [if_pos hsplit]
          split
          · trivial
          · exact step _ _ hfl hft hnf hT
        · rw [if_neg hsplit]
          exact step d _ hfl hft hnf hT

/-- C30: the layout of the record text. A call of `dBase_ProcessRecord` that
reads a whole record and does not skip it either returns early after a change
of partition, without a call of `dff_WriteBlocks` for the record, or hands to
`dff_WriteBlocks` the texts of the `num_flds` fields in field order with one
backslash between consecutive texts and none after the last; that text holds
`num_flds - 1` backslashes when no field text holds one. -/
theorem record_text_layout (L : Libc) (d : DF_INFO)
    (hread : ((d.dbf.drop d.dbf_pos).take d.bytes).length = d.bytes)
    (hdel : d.rec_buffer ≠ (DBASE_DELETED : Int) ∨ d.undel = true) :
    (∃ d2 : DF_INFO,
      dBase_ProcessRecord.fields L ((d.dbf.drop d.dbf_pos).take d.bytes ++ [0]) d.dbf_pos
        d.num_flds 0 { d with dbf_pos := d.dbf_pos + d.bytes } 1 [] = Sum.inl d2 ∧
      dBase_ProcessRecord L d = Outcome.ret d2) ∨
    (∃ (d2 : DF_INFO) (texts : List (List Nat)), texts.length = d.num_flds ∧
      dBase_ProcessRecord L d =
        Outcome.ret (dff_WriteBlocks d2 (List.intercalate [DF_DELIM] texts) DF_WRITING_RECORD) ∧
      (∀ j, j < d.num_flds →
        FieldText L d.fld_type d.fld_len ((d.dbf.drop d.dbf_pos).take d.bytes ++ [0]) j
          (texts.getD j [])) ∧
      ((∀ t ∈ texts, DF_DELIM ∉ t) →
        (List.intercalate [DF_DELIM] texts).count DF_DELIM = d.num_flds - 1)) := by
  have hl := fields_layout L ((d.dbf.drop d.dbf_pos).take d.bytes ++ [0]) d.dbf_pos
    d.fld_len d.fld_type d.num_flds d.num_flds 0 { d with dbf_pos := d.dbf_pos + d.bytes } 1 []
    rfl rfl rfl (by omega) rfl
  have hskip : ¬ (d.rec_buffer = (DBASE_DELETED : Int) ∧ d.undel = false) := by
    rintro ⟨h1, h2⟩
    rcases hdel with h | h
    · exact h h1
    · rw [h] at h2; cases h2
  unfold dBase_ProcessRecord
  simp only [hread, ne_eq, not_true_eq_false, if_false, hskip]
  generalize dBase_ProcessRecord.fields L ((d.dbf.drop d.dbf_pos).take d.bytes ++ [0]) d.dbf_pos
    d.num_flds 0 { d with dbf_pos := d.dbf_pos + d.bytes } 1 [] = res at hl ⊢
  cases res with
  | inl d2 => exact Or.inl ⟨d2, rfl, rfl⟩
  | inr p =>
    obtain ⟨d2, out⟩ := p
    obtain ⟨texts, h1, h2, h3⟩ := hl
    simp only at h2
    rw [List.nil_append] at h2
    subst h2
    refine Or.inr ⟨d2, texts, h1, rfl, fun j hj => ?_, fun hc => ?_⟩
    · have := h3 j hj
      rw [Nat.zero_add] at this
      exact this
    · rw [intercalate_count texts hc, h1]

set_option maxRecDepth 100000 in
/-- C30 at a concrete input: the first record of `sampleDbf`, with the fields
"hello", "  12" and "abc"; the text handed to `dff_WriteBlocks` is
"hello", a backslash, "12", a backslash, "abc". -/
theorem record_text_layout_witness :
    ((DF_INFO.sampleDefault.dbf.drop DF_INFO.sampleDefault.dbf_pos).take
      DF_INFO.sampleDefault.bytes).length = DF_INFO.sampleDefault.bytes ∧
    DF_INFO.sampleDefault.rec_buffer ≠ (DBASE_DELETED : Int) ∧
    dBase_ProcessRecord.fields Libc.integers
      ((DF_INFO.sampleDefault.dbf.drop DF_INFO.sampleDefault.dbf_pos).take
        DF_INFO.sampleDefault.bytes ++ [0]) DF_INFO.sampleDefault.dbf_pos
      DF_INFO.sampleDefault.num_flds 0
      { DF_INFO.sampleDefault with
        dbf_pos := DF_INFO.sampleDefault.dbf_pos + DF_INFO.sampleDefault.bytes } 1 [] =
      Sum.inr ({ DF_INFO.sampleDefault with
        dbf_pos := DF_INFO.sampleDefault.dbf_pos + DF_INFO.sampleDefault.bytes },
        List.intercalate [DF_DELIM] [txt ("hello"), txt ("12"), txt ("abc")]) ∧
    ((∃ d2 : DF_INFO,
      dBase_ProcessRecord.fields Libc.integers
        ((DF_INFO.sampleDefault.dbf.drop DF_INFO.sampleDefault.dbf_pos).take
          DF_INFO.sampleDefault.bytes ++ [0]) DF_INFO.sampleDefault.dbf_pos
        DF_INFO.sampleDefault.num_flds 0
        { DF_INFO.sampleDefault with
          dbf_pos := DF_INFO.sampleDefault.dbf_pos + DF_INFO.sampleDefault.bytes } 1 [] =
        Sum.inl d2 ∧
      dBase_ProcessRecord Libc.integers DF_INFO.sampleDefault = Outcome.ret d2) ∨
    (∃ (d2 : DF_INFO) (texts : List (List Nat)), texts.length = DF_INFO.sampleDefault.num_flds ∧
      dBase_ProcessRecord Libc.integers DF_INFO.sampleDefault =
        Outcome.ret (dff_WriteBlocks d2 (List.intercalate [DF_DELIM] texts) DF_WRITING_RECORD) ∧
      (∀ j, j < DF_INFO.sampleDefault.num_flds →
        FieldText Libc.integers DF_INFO.sampleDefault.fld_type DF_INFO.sampleDefault.fld_len
          ((DF_INFO.sampleDefault.dbf.drop DF_INFO.sampleDefault.dbf_pos).take
            DF_INFO.sampleDefault.bytes ++ [0]) j (texts.getD j [])) ∧
      ((∀ t ∈ texts, DF_DELIM ∉ t) →
        (List.intercalate [DF_DELIM] texts).count DF_DELIM =
          DF_INFO.sampleDefault.num_flds - 1))) :=
  ⟨by decide, by decide, rfl,
    record_text_layout Libc.integers DF_INFO.sampleDefault (by decide) (Or.inl (by decide))⟩

theorem isdigit_iff (c : Nat) : isdigit c = true ↔ 48 ≤ c ∧ c ≤ 57 := by
  unfold isdigit
  simp

theorem atolDigits_all (ds : List Nat) (h : ∀ c ∈ ds, isdigit c = true) :
    ds.takeWhile isdigit = ds ∧ ds.dropWhile isdigit = [] := by
  induction ds with
  | nil => exact ⟨rfl, rfl⟩
  | cons c cs ih =>
    have hc := h c (by simp)
    obtain ⟨h1, h2⟩ := ih (fun x hx => h x (List.mem_cons_of_mem _ hx))
    rw [List.takeWhile_cons, List.dropWhile_cons, hc]
    simp only [if_true]
    exact ⟨by rw [h1], h2⟩

theorem strtod_digits (ds : List Nat) (hne : ds ≠ []) (h : ∀ c ∈ ds, isdigit c = true) :
    strtod ds = (atolDigits 0 ds, 0) := by
  obtain ⟨c, cs, rfl⟩ : ∃ c cs, ds = c :: cs := by
    cases ds with
    | nil => exact absurd rfl hne
    | cons c cs => exact ⟨c, cs, rfl⟩
  have hc := (isdigit_iff c).mp (h c (by simp))
  have hs : isspace c = false := by
    unfold isspace
    simp
    omega
  obtain ⟨h1, h2⟩ := atolDigits_all (c :: cs) h
  have hd : (c :: cs).dropWhile isspace = c :: cs := by
    rw [List.dropWhile_cons, hs]
    rfl
  obtain ⟨hc1, hc2⟩ := hc
  interval_cases c <;>
  · unfold strtod
    simp only [hd]
    simp only [h1, h2]
    rw [if_neg (by simp)]
    simp [strtod.exponent]
theorem strtod_integer (k : Nat) (ds : List Nat) (hne : ds ≠ [])
    (h : ∀ c ∈ ds, isdigit c = true) :
    strtod (List.replicate k SPACE ++ ds) = (atolDigits 0 ds, 0) := by
  have hd : (List.replicate k SPACE ++ ds).dropWhile isspace = ds.dropWhile isspace := by
    induction k with
    | zero => simp
    | succ k ih =>
      rw [List.replicate_succ, List.cons_append, List.dropWhile_cons]
      have : isspace SPACE = true := by decide
      simp only [this, if_true]
      exact ih
  have e : strtod (List.replicate k SPACE ++ ds) = strtod ds := by
    unfold strtod
    rw [hd]
  rw [e, strtod_digits ds hne h]

theorem strtod_decimal (v : Nat) : strtod (decimal v) = (v, 0) := by
  have hd : ∀ c ∈ decimal v, isdigit c = true :=
    fun c hc => (isdigit_iff c).mpr (decDigits_range (v + 1) v c hc)
  obtain ⟨c, cs, hcs, _⟩ := decimal_head v
  rw [strtod_digits (decimal v) (by rw [hcs]; simp) hd]
  have := atolDigits_decDigits (v + 1) v 0 [] (by omega)
  simp only [List.append_nil, Nat.zero_mul, Nat.zero_add] at this
  unfold decimal
  rw [this]
  rfl

theorem toFloat_small (v : Nat) (h : v < 2 ^ 24) : toFloat v = v := by
  unfold toFloat roundBits
  have h2 : v < 2 ^ 53 := lt_of_lt_of_le h (by norm_num)
  rw [if_pos h2, if_pos h]

theorem integers_exact (k : Nat) (ds : List Nat) (hne : ds ≠ [])
    (h : ∀ c ∈ ds, isdigit c = true) (hv : atolDigits 0 ds < 10 ^ 6) :
    Libc.integers.atof_zero (List.replicate k SPACE ++ ds) = decide (atolDigits 0 ds = 0) ∧
    Libc.integers.fmt_g (List.replicate k SPACE ++ ds) = decimal (atolDigits 0 ds) := by
  have hf := toFloat_small (atolDigits 0 ds) (lt_trans hv (by norm_num))
  simp only [Libc.integers, strtod_integer k ds hne h, hf]
  refine ⟨trivial, ?_⟩
  rw [if_pos (lt_trans hv (by norm_num))]
  unfold printf_g
  rw [if_pos hv]

/-! ## `dBase_Init` and the split field -/

theorem GetByte_pos (file : List Nat) (s : Reader) (h : s.pos ≤ file.length) :
    (GetByte file s).2.pos = min (s.pos + 1) file.length := by
  unfold GetByte
  by_cases hlt : s.pos < file.length
  · rw [List.getElem?_eq_getElem hlt]
    simp only
    omega
  · rw [List.getElem?_eq_none (by omega)]
    simp only
    omega

theorem GetBytes_pos (n : Nat) (file : List Nat) (s : Reader) (h : s.pos ≤ file.length) :
    (GetBytes n file s).2.pos = min (s.pos + n) file.length := by
  unfold GetBytes
  simp only [List.length_take, List.length_drop]
  omega

theorem GetBytes_val (n : Nat) (file : List Nat) (s : Reader) (h : s.pos + n ≤ file.length) :
    (GetBytes n file s).1 = dff_BytesToLong ((file.drop s.pos).take n) := by
  unfold GetBytes
  simp only
  have hl : ((file.drop s.pos).take n).length = n := by
    simp only [List.length_take, List.length_drop]
    omega
  rw [List.take_append_of_le_length (by omega), List.take_of_length_le (by omega)]

theorem GetByte_val (file : List Nat) (s : Reader) :
    (GetByte file s).1 ≠ (DBASE_CHARACTER_FLD : Int) ↔ file[s.pos]? ≠ some DBASE_CHARACTER_FLD := by
  unfold GetByte
  cases h : file[s.pos]? with
  | none => simp [DBASE_CHARACTER_FLD]
  | some b =>
    simp only [ne_eq, Option.some.injEq]
    exact not_congr Nat.cast_inj

theorem dBase_Init_fields_wrong_type (file : List Nat) (k : Nat) :
    ∀ (n i : Nat) (s : Reader) (ty ln : List Nat), i ≤ k → k < i + n → s.pos ≤ file.length →
      file[s.pos + 32 * (k - i) + 11]? ≠ some DBASE_CHARACTER_FLD →
      dBase_Init.fields file (k : Int) n i s ty ln = none := by
  intro n
  induction n with
  | zero => intro i s ty ln h1 h2; omega
  | succ n ih =>
    intro i s ty ln h1 h2 hs hty
    simp only [dBase_Init.fields]
    by_cases hname : ((file.drop s.pos).take DBASE_FLD_NAME_LEN).length ≠ DBASE_FLD_NAME_LEN
    · rw [if_pos hname]
    · rw [if_neg hname]
      have hn : ((file.drop s.pos).take DBASE_FLD_NAME_LEN).length = 11 := by
        have := not_not.mp hname
        rw [this]; rfl
      have hlen : s.pos + 11 ≤ file.length := by
        simp only [List.length_take, List.length_drop, DBASE_FLD_NAME_LEN] at hn
        omega
      by_cases hik : i = k
      · subst hik
        rw [if_pos]
        refine ⟨rfl, by unfold DF_NOT_SPLIT; omega, ?_⟩
        rw [GetByte_val]
        simp only [hn]
        simpa using hty
      · rw [if_neg (by intro h; exact hik (by exact_mod_cast h.1))]
        have p0 : (⟨s.pos + ((file.drop s.pos).take DBASE_FLD_NAME_LEN).length, s.tmp⟩ : Reader).pos =
            s.pos + 11 := by rw [hn]
        have q1 := GetByte_pos file { s with pos := s.pos + ((file.drop s.pos).take DBASE_FLD_NAME_LEN).length }
          (by rw [p0]; exact hlen)
        rw [p0] at q1
        generalize GetByte file { s with pos := s.pos + ((file.drop s.pos).take DBASE_FLD_NAME_LEN).length } = t at q1 ⊢
        have q2 := GetBytes_pos 4 file t.2 (by omega)
        have e2 : GetLong file t.2 = GetBytes 4 file t.2 := rfl
        rw [e2]
        generalize GetBytes 4 file t.2 = a at q2 ⊢
        have q3 := GetByte_pos file a.2 (by omega)
        generalize GetByte file a.2 = l at q3 ⊢
        have q4 := GetByte_pos file l.2 (by omega)
        generalize GetByte file l.2 = c at q4 ⊢
        have q5 := GetBytes_pos 4 file c.2 (by omega)
        have e5 : GetLong file c.2 = GetBytes 4 file c.2 := rfl
        rw [e5]
        generalize GetBytes 4 file c.2 = r1 at q5 ⊢
        have q6 := GetBytes_pos 4 file r1.2 (by omega)
        have e6 : GetLong file r1.2 = GetBytes 4 file r1.2 := rfl
        rw [e6]
        generalize GetBytes 4 file r1.2 = r2 at q6 ⊢
        have q7 := GetBytes_pos 4 file r2.2 (by omega)
        have e7 : GetLong file r2.2 = GetBytes 4 file r2.2 := rfl
        rw [e7]
        generalize GetBytes 4 file r2.2 = r3 at q7 ⊢
        have q8 := GetBytes_pos 2 file r3.2 (by omega)
        have e8 : GetInt file r3.2 = GetBytes 2 file r3.2 := rfl
        rw [e8]
        generalize GetBytes 2 file r3.2 = r4 at q8 ⊢
        have hq : r4.2.pos = min (s.pos + 32) file.length := by omega
        by_cases hfull : s.pos + 32 ≤ file.length
        · refine ih (i + 1) r4.2 _ _ (by omega) (by omega) (by omega) ?_
          have e : r4.2.pos + 32 * (k - (i + 1)) + 11 = s.pos + 32 * (k - i) + 11 := by omega
          rw [e]
          exact hty
        · have hpos : r4.2.pos = file.length := by omega
          obtain ⟨m, rfl⟩ : ∃ m, n = m + 1 := ⟨n - 1, by omega⟩
          simp only [dBase_Init.fields]
          rw [if_pos]
          simp only [hpos, List.drop_length, List.take_nil, List.length_nil, DBASE_FLD_NAME_LEN]
          decide

theorem dBase_Init_wrong_type (d : DF_INFO) (buf : Int) (file : List Nat)
    (dbtFile : Option (List Nat)) (k : Nat)
    (hsplit : d.split = (k : Int) + 1)
    (hlen : 10 ≤ file.length)
    (hcount : 32 * (k + 2) ≤ dff_BytesToLong ((file.drop 8).take 2))
    (hty : file[32 + 32 * k + 11]? ≠ some DBASE_CHARACTER_FLD) :
    ∃ d1, dBase_Init d buf (some file) dbtFile = Outcome.exit DF_FAILURE d1 ∧
      0 ≤ d1.split ∧
      d1.logical = d.logical ∧ d1.physical = d.physical ∧ d1.dffFile = d.dffFile ∧
      d1.dftFile = d.dftFile ∧ d1.dfaFile = d.dfaFile := by
  unfold dBase_Init
  simp only
  have q0 := GetByte_pos file { pos := 0, tmp := [0, 0, 0, 0] } (Nat.zero_le _)
  generalize GetByte file { pos := 0, tmp := [0, 0, 0, 0] } = c at q0 ⊢
  simp only at q0
  have q1 := GetByte_pos file c.2 (by omega)
  generalize GetByte file c.2 = c1 at q1 ⊢
  have q2 := GetByte_pos file c1.2 (by omega)
  generalize GetByte file c1.2 = c2 at q2 ⊢
  have q3 := GetByte_pos file c2.2 (by omega)
  generalize GetByte file c2.2 = c3 at q3 ⊢
  have q4 := GetBytes_pos 4 file c3.2 (by omega)
  have e4 : GetLong file c3.2 = GetBytes 4 file c3.2 := rfl
  rw [e4]
  generalize GetBytes 4 file c3.2 = nr at q4 ⊢
  have p8 : nr.2.pos = 8 := by omega
  have q5 := GetBytes_pos 2 file nr.2 (by omega)
  have v5 := GetBytes_val 2 file nr.2 (by omega)
  rw [p8] at v5
  have e5 : GetInt file nr.2 = GetBytes 2 file nr.2 := rfl
  rw [e5]
  generalize GetBytes 2 file nr.2 = hs at q5 v5 ⊢
  have q6 := GetBytes_pos 2 file hs.2 (by omega)
  have e6 : GetInt file hs.2 = GetBytes 2 file hs.2 := rfl
  rw [e6]
  generalize GetBytes 2 file hs.2 = bt at q6 ⊢
  have q7 := GetBytes_pos 4 file bt.2 (by omega)
  have e7 : GetLong file bt.2 = GetBytes 4 file bt.2 := rfl
  rw [e7]
  generalize GetBytes 4 file bt.2 = g1 at q7 ⊢
  have q8 := GetBytes_pos 4 file g1.2 (by omega)
  have e8 : GetLong file g1.2 = GetBytes 4 file g1.2 := rfl
  rw [e8]
  generalize GetBytes 4 file g1.2 = g2 at q8 ⊢
  have q9 := GetBytes_pos 4 file g2.2 (by omega)
  have e9 : GetLong file g2.2 = GetBytes 4 file g2.2 := rfl
  rw [e9]
  generalize GetBytes 4 file g2.2 = g3 at q9 ⊢
  have q10 := GetBytes_pos 4 file g3.2 (by omega)
  have e10 : GetLong file g3.2 = GetBytes 4 file g3.2 := rfl
  rw [e10]
  generalize GetBytes 4 file g3.2 = g4 at q10 ⊢
  have q11 := GetBytes_pos 4 file g4.2 (by omega)
  have e11 : GetLong file g4.2 = GetBytes 4 file g4.2 := rfl
  rw [e11]
  generalize GetBytes 4 file g4.2 = g5 at q11 ⊢
  have hpos : g5.2.pos = min 32 file.length := by omega
  have hnf : (k : Int) + 1 ≤
      Int.tdiv ((hs.1 : Int) - (DBASE_HEADER_SIZE : Int)) (DBASE_HEADER_SIZE : Int) := by
    rw [v5]
    have hh : (0 : Int) ≤
        ((dff_BytesToLong ((file.drop 8).take 2) : Nat) : Int) - (DBASE_HEADER_SIZE : Int) := by
      unfold DBASE_HEADER_SIZE; omega
    rw [Int.tdiv_eq_ediv hh (by decide)]
    unfold DBASE_HEADER_SIZE
    omega
  have hns : d.split ≠ DF_NOT_SPLIT := by rw [hsplit]; unfold DF_NOT_SPLIT; omega
  have hsp : d.split - 1 = (k : Int) := by rw [hsplit]; omega
  have hf := dBase_Init_fields_wrong_type file k
    (Int.tdiv ((hs.1 : Int) - (DBASE_HEADER_SIZE : Int)) (DBASE_HEADER_SIZE : Int)).toNat 0 g5.2 [] []
    (Nat.zero_le _) (by omega) (by omega)
    (by
      by_cases hfull : 32 ≤ file.length
      · have : g5.2.pos + 32 * (k - 0) + 11 = 32 + 32 * k + 11 := by omega
        rw [this]; exact hty
      · rw [List.getElem?_eq_none (by omega)]
        simp)
  simp only [hns, ne_eq, not_false_eq_true, if_true, true_and, hsp]
  by_cases h1 : c.1 % 256 = (DBASE_MEMO_COOKIE : Int) ∧ dbtFile = none
  · rw [if_pos h1]
    exact ⟨_, rfl, by rw [hsplit]; omega, rfl, rfl, rfl, rfl, rfl⟩
  · rw [if_neg h1]
    by_cases h2 : ¬ c.1 % 256 = (DBASE_MEMO_COOKIE : Int) ∧ ¬ c.1 % 256 = (DBASE_COOKIE : Int)
    · rw [if_pos h2]
      exact ⟨_, rfl, by rw [hsplit]; omega, rfl, rfl, rfl, rfl, rfl⟩
    · rw [if_neg h2, if_neg (by intro h; omega), hf]
      exact ⟨_, rfl, Int.natCast_nonneg k, rfl, rfl, rfl, rfl, rfl⟩

/-- C28: a routing field of the wrong type is fatal. When `-s` gives the number
`k + 1` of a field the header announces (the header size at bytes 8 and 9 is
at least `32 * (k + 2)`) and the type byte of that field descriptor (byte 11 of
the descriptor at `32 + 32 * k`) is not `C`, `dBase_Init` calls
`dff_CleanUp(d, DF_FAILURE)` in a state whose counters and output files are
those it was given, and `main` goes from there to exit with status
`DF_FAILURE`, with no index file written and no store file left, whatever the
records are. -/
theorem split_field_not_character (adr_fails : Nat → Bool) (L : Libc) (fuel : Nat)
    (d : DF_INFO) (buf : Int) (file : List Nat) (dbtFile : Option (List Nat)) (k : Nat)
    (hsplit : d.split = (k : Int) + 1)
    (hlen : 10 ≤ file.length)
    (hcount : 32 * (k + 2) ≤ dff_BytesToLong ((file.drop 8).take 2))
    (hty : file[32 + 32 * k + 11]? ≠ some DBASE_CHARACTER_FLD) :
    ∃ d1 final, dBase_Init d buf (some file) dbtFile = Outcome.exit DF_FAILURE d1 ∧
      d1.logical = d.logical ∧ d1.physical = d.physical ∧ d1.dffFile = d.dffFile ∧
      d1.dftFile = d.dftFile ∧ d1.dfaFile = d.dfaFile ∧
      main.fromInit adr_fails L fuel d buf (some file) dbtFile = some (DF_FAILURE, final) ∧
      final = (dff_CleanUp adr_fails d1 DF_FAILURE).2 ∧
      final.dfaFile = d.dfaFile ∧
      ∀ p, p < DF_MAX_SPLIT → final.dffFile p = none ∧ final.dftFile p = none := by
  obtain ⟨d1, h1, h0, h2, h3, h4, h5, h6⟩ :=
    dBase_Init_wrong_type d buf file dbtFile k hsplit hlen hcount hty
  obtain ⟨c1, c2, c3⟩ := dff_CleanUp_failure adr_fails d1
  have hsp : d1.split ≠ DF_NOT_SPLIT := by
    unfold DF_NOT_SPLIT; omega
  refine ⟨d1, (dff_CleanUp adr_fails d1 DF_FAILURE).2, h1, h2, h3, h4, h5, h6, ?_, rfl,
    c2.trans h6, ?_⟩
  · unfold main.fromInit
    rw [h1]
    exact congrArg some (Prod.ext c1 rfl)
  · intro p hp
    have hpart : dff_CleanUp.partitions d1 = DF_MAX_SPLIT := by
      unfold dff_CleanUp.partitions
      rw [if_neg hsp]
    obtain ⟨a, b⟩ := c3 p (by rw [hpart]; exact hp)
    exact ⟨b, a⟩

set_option maxRecDepth 100000 in
/-- C28 at a concrete input: `dbf2dff -s 2 m` on `sampleDbf`, whose second field
is numeric. -/
theorem split_field_not_character_witness :
    (DF_INFO.args 2).split = ((1 : Nat) : Int) + 1 ∧ 10 ≤ sampleDbf.length ∧
    32 * (1 + 2) ≤ dff_BytesToLong ((sampleDbf.drop 8).take 2) ∧
    sampleDbf[32 + 32 * 1 + 11]? = some DBASE_NUMERIC_FLD ∧
    ∃ d1 final, dBase_Init (DF_INFO.args 2) 4096 (some sampleDbf) none =
        Outcome.exit DF_FAILURE d1 ∧
      d1.logical = (DF_INFO.args 2).logical ∧ d1.physical = (DF_INFO.args 2).physical ∧
      d1.dffFile = (DF_INFO.args 2).dffFile ∧
      d1.dftFile = (DF_INFO.args 2).dftFile ∧ d1.dfaFile = (DF_INFO.args 2).dfaFile ∧
      main.fromInit (fun _ => false) Libc.integers 3 (DF_INFO.args 2) 4096 (some sampleDbf) none =
        some (DF_FAILURE, final) ∧
      final = (dff_CleanUp (fun _ => false) d1 DF_FAILURE).2 ∧
      final.dfaFile = (DF_INFO.args 2).dfaFile ∧
      ∀ p, p < DF_MAX_SPLIT → final.dffFile p = none ∧ final.dftFile p = none :=
  ⟨by decide, by decide, by decide, by decide,
    split_field_not_character (fun _ => false) Libc.integers 3 (DF_INFO.args 2) 4096 sampleDbf
      none 1 (by decide) (by decide) (by decide) (by decide)⟩

theorem dBase_Init_split_range (d : DF_INFO) (buf : Int) (file : List Nat)
    (dbtFile : Option (List Nat)) (d1 : DF_INFO)
    (h : dBase_Init d buf (some file) dbtFile = Outcome.ret d1) (hs : d.split ≠ DF_NOT_SPLIT) :
    d1.split = d.split - 1 ∧ 0 ≤ d1.split ∧ d1.split ≤ (d1.num_flds : Int) := by
  unfold dBase_Init at h
  simp only [hs, ne_eq, not_false_eq_true, if_true, true_and] at h
  split_ifs at h with h1 h2 h3 h4 <;>
  · split at h
    · cases h
    · injection h with h
      subst h
      have : 0 ≤ d.split - 1 ∧ d.split - 1 ≤ Int.tdiv
          (((GetInt file (GetLong file (GetByte file (GetByte file (GetByte file
            (GetByte file { pos := 0, tmp := [0, 0, 0, 0] }).2).2).2).2).2).1 : Int) -
            (DBASE_HEADER_SIZE : Int)) (DBASE_HEADER_SIZE : Int) := by
        constructor
        · by_contra hc; exact h3 (Or.inl (by omega))
        · by_contra hc; exact h3 (Or.inr (by omega))
      exact ⟨rfl, this.1,
        le_of_le_of_eq this.2 (Int.toNat_of_nonneg (le_trans this.1 this.2)).symm⟩

set_option maxRecDepth 100000 in
/-- C29 fails on the code: the range test of `dBase_Init` lets the number
`num_flds + 1` through. On `sampleDbf`, which has three fields, `dbf2dff -s 4 m`
is not refused: `dBase_Init` returns with `split` = 3 = `num_flds`, an index
that names none of the fields 0, 1, 2, and the run ends with success, both
records in the files of partition 0. The numbers 0, -2, 5 and 6 are refused,
the numbers 1 and 3 are accepted, and `-s -1` leaves `DF_NOT_SPLIT` in `split`,
so the run goes on as one without `-s`. In general a call with a split number
that returns has `0 <= split <= num_flds` afterwards. -/
theorem split_number_past_last_field :
    (∃ d1, dBase_Init (DF_INFO.args 4) 4096 (some sampleDbf) none = Outcome.ret d1 ∧
      d1.num_flds = 3 ∧ d1.split = 3 ∧ d1.fld_type.length = 3 ∧ d1.fld_len.length = 3) ∧
    (main.fromInit (fun _ => false) Libc.integers 3 (DF_INFO.args 4) 4096
        (some sampleDbf) none).map
      (fun r => (r.1, r.2.logical 0, (r.2.dffFile 0).map List.length,
        (r.2.dfaFile 0).map List.length)) = some (DF_SUCCESS, 2, some 3, some 10) ∧
    (∀ n ∈ [(0 : Int), -2, 5, 6], ∃ d1,
      dBase_Init (DF_INFO.args n) 4096 (some sampleDbf) none = Outcome.exit DF_FAILURE d1) ∧
    (∀ n ∈ [(1 : Int), 3], ∃ d1,
      dBase_Init (DF_INFO.args n) 4096 (some sampleDbf) none = Outcome.ret d1 ∧
      d1.split = n - 1) ∧
    dBase_Init (DF_INFO.args (-1)) 4096 (some sampleDbf) none =
      Outcome.ret DF_INFO.sampleDefault ∧
    DF_INFO.sampleDefault.split = DF_NOT_SPLIT ∧
    (∀ (d : DF_INFO) (buf : Int) (file : List Nat) (dbtFile : Option (List Nat)) (d1 : DF_INFO),
      dBase_Init d buf (some file) dbtFile = Outcome.ret d1 → d.split ≠ DF_NOT_SPLIT →
      d1.split = d.split - 1 ∧ 0 ≤ d1.split ∧ d1.split ≤ (d1.num_flds : Int)) := by
  refine ⟨⟨_, rfl, by decide, by decide, by decide, by decide⟩, rfl, ?_, ?_, rfl, by decide,
    dBase_Init_split_range⟩
  · intro n hn
    simp only [List.mem_cons, List.mem_singleton, List.not_mem_nil, or_false] at hn
    rcases hn with rfl | rfl | rfl | rfl <;> exact ⟨_, rfl⟩
  · intro n hn
    simp only [List.mem_cons, List.mem_singleton, List.not_mem_nil, or_false] at hn
    rcases hn with rfl | rfl <;> exact ⟨_, rfl, by decide⟩

/-! ## Runs without a split field -/

theorem dff_WriteBlocks_names (d : DF_INFO) (ptr : List Nat) (which : Nat) :
    (dff_WriteBlocks d ptr which).model = d.model ∧
    (dff_WriteBlocks d ptr which).protect_file = d.protect_file := by
  have hO : (dff_Open d).model = d.model ∧ (dff_Open d).protect_file = d.protect_file := by
    simp only [dff_Open]; split <;> exact ⟨rfl, rfl⟩
  have hOp : (dff_WriteBlocks.opened d).model = d.model ∧
      (dff_WriteBlocks.opened d).protect_file = d.protect_file := by
    unfold dff_WriteBlocks.opened; split
    · exact hO
    · exact ⟨rfl, rfl⟩
  unfold dff_WriteBlocks
  by_cases hw : which = DF_WRITING_RECORD
  · simp only [hw, if_true]; exact hOp
  · simp only [hw, if_false]; exact hOp

theorem fields_plain (L : Libc) (r : List Nat) (rec_start : Nat) (d : DF_INFO)
    (hsplit : d.split = DF_NOT_SPLIT) (n : Nat) :
    ∀ (i off : Nat) (out : List Nat),
      (∀ j, i ≤ j → j < i + n → d.fld_type.getD j 0 ≠ DBASE_MEMO_FLD) →
      ∃ out1, dBase_ProcessRecord.fields L r rec_start n i d off out = Sum.inr (d, out1) := by
  induction n with
  | zero => intro i off out _; exact ⟨out, rfl⟩
  | succ n ih =>
    intro i off out hm
    have hrest : ∀ j, i + 1 ≤ j → j < i + 1 + n → d.fld_type.getD j 0 ≠ DBASE_MEMO_FLD :=
      fun j h1 h2 => hm j (by omega) (by omega)
    simp only [dBase_ProcessRecord.fields]
    by_cases hnum : d.fld_type.getD i 0 = DBASE_NUMERIC_FLD
    · rw [if_pos hnum]
      exact ih _ _ _ hrest
    · rw [if_neg hnum, if_neg (hm i (le_refl _) (by omega)),
        if_neg (by rw [hsplit]; unfold DF_NOT_SPLIT; omega)]
      exact ih _ _ _ hrest

theorem dBase_ProcessRecord_plain (L : Libc) (s : DF_INFO)
    (hsplit : s.split = DF_NOT_SPLIT)
    (hmemo : ∀ i, i < s.num_flds → s.fld_type.getD i 0 ≠ DBASE_MEMO_FLD)
    (hread : ((s.dbf.drop s.dbf_pos).take s.bytes).length = s.bytes)
    (hdel : ¬ (s.rec_buffer = (DBASE_DELETED : Int) ∧ s.undel = false)) :
    ∃ out, dBase_ProcessRecord L s =
      Outcome.ret (dff_WriteBlocks { s with dbf_pos := s.dbf_pos + s.bytes } out
        DF_WRITING_RECORD) := by
  obtain ⟨out, ho⟩ := fields_plain L ((s.dbf.drop s.dbf_pos).take s.bytes ++ [0]) s.dbf_pos
    { s with dbf_pos := s.dbf_pos + s.bytes } hsplit s.num_flds 0 1 []
    (fun j _ h2 => hmemo j (by omega))
  unfold dBase_ProcessRecord
  simp only [hread, ne_eq, not_true_eq_false, if_false, hdel]
  rw [ho]
  exact ⟨out, rfl⟩

theorem main_loop_plain (L : Libc) (d : DF_INFO) (n : Nat)
    (hrecs : d.num_records = (n : Int)) (hdbf : n * d.bytes ≤ d.dbf.length)
    (hsplit : d.split = DF_NOT_SPLIT)
    (hmemo : ∀ i, i < d.num_flds → d.fld_type.getD i 0 ≠ DBASE_MEMO_FLD)
    (hdel : ¬ (d.rec_buffer = (DBASE_DELETED : Int) ∧ d.undel = false)) (m : Nat) :
    ∀ (j : Nat) (s : DF_INFO) (chains : List (List (List Nat))) (rows : List Row),
      j + m = n → s.config = d.config → s.indx = 0 → s.model = d.model →
      s.protect_file = d.protect_file →
      s.rec_num = (j : Int) → s.dbf_pos = j * d.bytes → s.logical 0 = j → IndexInv s →
      s.physical 0 = d.physical 0 + chains.flatten.length →
      chains.length = j → (∀ c ∈ chains, ∃ phys text, c = dff_WriteBlocks.chain phys text) →
      rows.map Row.logical = List.range' 1 j →
      (∀ i, i < j →
        (rows.map Row.addr).getD i 0 = d.physical 0 + (chains.take i).flatten.length + 1) →
      (j = 0 → s.dff = none) →
      (0 < j → s.dff = some 0 ∧ s.dffFile 0 = some (dff_Open.header d.model :: chains.flatten) ∧
        s.dftFile 0 = some rows) →
      ∀ fuel, m < fuel →
      ∃ (final : DF_INFO) (chains1 : List (List (List Nat))) (rows1 : List Row),
        main.loop L fuel s = some (DF_SUCCESS, final) ∧ final.indx = 0 ∧ final.logical 0 = n ∧
        IndexInv final ∧ final.config = d.config ∧ final.model = d.model ∧
        final.protect_file = d.protect_file ∧
        chains1.length = n ∧
        (∀ c ∈ chains1, ∃ phys text, c = dff_WriteBlocks.chain phys text) ∧
        rows1.map Row.logical = List.range' 1 n ∧
        (∀ i, i < n →
          (rows1.map Row.addr).getD i 0 = d.physical 0 + (chains1.take i).flatten.length + 1) ∧
        (0 < n → final.dffFile 0 = some (dff_Open.header d.model :: chains1.flatten) ∧
          final.dftFile 0 = some rows1) := by
  induction m with
  | zero =>
    intro j s chains rows hj hcfg hindx hmodel hprot hrn hpos hlog hinv hphys hcl hch hrl hra hd0 hd1
      fuel hfuel
    obtain ⟨f, rfl⟩ : ∃ f, fuel = f + 1 := ⟨fuel - 1, by omega⟩
    have hjn : j = n := by omega
    subst hjn
    obtain ⟨_, _, _, _, _, _, hnr, _, _⟩ := config_fields s d hcfg
    refine ⟨s, chains, rows, ?_, hindx, hlog, hinv, hcfg, hmodel, hprot, hcl, hch, hrl, hra,
      fun h => (hd1 h).2⟩
    simp only [main.loop]
    rw [if_neg (by rw [hrn, hnr, hrecs]; omega)]
  | succ m ih =>
    intro j s chains rows hj hcfg hindx hmodel hprot hrn hpos hlog hinv hphys hcl hch hrl hra hd0 hd1
      fuel hfuel
    obtain ⟨f, rfl⟩ : ∃ f, fuel = f + 1 := ⟨fuel - 1, by omega⟩
    obtain ⟨c1, c2, c3, c4, c5, c6, c7, c8, c9⟩ := config_fields s d hcfg
    have hb : (j + 1) * d.bytes ≤ n * d.bytes := Nat.mul_le_mul_right _ (by omega)
    have hsm : (j + 1) * d.bytes = j * d.bytes + d.bytes := Nat.succ_mul _ _
    have hread : ((s.dbf.drop s.dbf_pos).take s.bytes).length = s.bytes := by
      rw [List.length_take, List.length_drop, c9, c5, hpos]
      omega
    obtain ⟨out, hrec⟩ := dBase_ProcessRecord_plain L s (by rw [c1, hsplit])
      (by rw [c2, c3]; exact hmemo) hread (by rw [c8, c6]; exact hdel)
    rw [main_loop_step L f s _ (by rw [hrn, c7, hrecs]; omega) hrec]
    -- the state the record is written in
    generalize hs1 : ({ s with dbf_pos := s.dbf_pos + s.bytes } : DF_INFO) = s1 at hrec ⊢
    have e_indx : s1.indx = 0 := by rw [← hs1]; exact hindx
    have e_dff : s1.dff = s.dff := by rw [← hs1]
    have e_dffFile : s1.dffFile = s.dffFile := by rw [← hs1]
    have e_dftFile : s1.dftFile = s.dftFile := by rw [← hs1]
    have e_log : s1.logical = s.logical := by rw [← hs1]
    have e_phys : s1.physical = s.physical := by rw [← hs1]
    have e_model : s1.model = s.model := by rw [← hs1]
    have e_prot : s1.protect_file = s.protect_file := by rw [← hs1]
    have e_cfg : s1.config = s.config := by rw [← hs1]; rfl
    have e_rn : s1.rec_num = s.rec_num := by rw [← hs1]
    have e_pos : s1.dbf_pos = s.dbf_pos + s.bytes := by rw [← hs1]
    have hinv1 : IndexInv s1 := by rw [← hs1]; exact hinv
    obtain ⟨_, hodff, hodfa⟩ := opened_IndexInv s1 hinv1
    rw [e_indx] at hodff hodfa
    obtain ⟨w1, w2, w3⟩ := dff_WriteBlocks_frame s1 out DF_WRITING_RECORD
    obtain ⟨w4, w5⟩ := dff_WriteBlocks_names s1 out DF_WRITING_RECORD
    -- the files the handles are open on, before the record is written
    have hfiles : (dff_WriteBlocks.opened s1).dffFile 0 =
          some (dff_Open.header d.model :: chains.flatten) ∧
        (dff_WriteBlocks.opened s1).dftFile 0 = some rows := by
      by_cases hj0 : j = 0
      · have hnone := hd0 hj0
        have hc0 : chains = [] := List.length_eq_zero.mp (by rw [hcl, hj0])
        have hr0 : rows = [] := by
          have : (rows.map Row.logical).length = 0 := by rw [hrl, hj0]; rfl
          rw [List.length_map] at this
          exact List.length_eq_zero.mp this
        have hl0 : s1.logical s1.indx = 0 := by rw [e_indx, e_log, hlog, hj0]
        rw [opened_of_none s1 (by rw [e_dff]; exact hnone), dff_Open_dffFile, dff_Open_dftFile,
          e_indx, Function.update_same, Function.update_same]
        rw [e_indx] at hl0
        rw [if_pos hl0, if_pos hl0, hc0, hr0, e_model, hmodel]
        exact ⟨rfl, rfl⟩
      · obtain ⟨h1, h2, h3⟩ := hd1 (Nat.pos_of_ne_zero hj0)
        rw [opened_of_some s1 0 (by rw [e_dff]; exact h1), e_dffFile, e_dftFile]
        exact ⟨h2, h3⟩
    refine ih (j + 1) _
      (chains ++ [dff_WriteBlocks.chain (s1.physical s1.indx)
        (dff_WriteBlocks.text out DF_WRITING_RECORD)])
      (rows ++ [{ mark := if (dff_WriteBlocks.opened s1).protect_recs then 45 else 32
                  logical := s1.logical s1.indx + 1
                  addr := s1.physical s1.indx + 1 }])
      (by omega) ?_ ?_ ?_ ?_ ?_ ?_ ?_ ?_ ?_ ?_ ?_ ?_ ?_ ?_ ?_ f (by omega)
    · exact (w1.trans e_cfg).trans hcfg
    · show (dff_WriteBlocks s1 out DF_WRITING_RECORD).indx = 0
      rw [dff_WriteBlocks_indx, e_indx]
    · exact (w4.trans e_model).trans hmodel
    · exact (w5.trans e_prot).trans hprot
    · show (dff_WriteBlocks s1 out DF_WRITING_RECORD).rec_num + 1 = ((j + 1 : Nat) : Int)
      rw [w2, e_rn, hrn]
      omega
    · show (dff_WriteBlocks s1 out DF_WRITING_RECORD).dbf_pos = (j + 1) * d.bytes
      rw [w3, e_pos, hpos, c5]
      omega
    · show (dff_WriteBlocks s1 out DF_WRITING_RECORD).logical 0 = j + 1
      rw [dff_WriteBlocks_logical, if_pos rfl, e_indx, Function.update_same, e_log, hlog]
    · exact dff_WriteBlocks_IndexInv s1 out DF_WRITING_RECORD hinv1
    · show (dff_WriteBlocks s1 out DF_WRITING_RECORD).physical 0 = _
      rw [dff_WriteBlocks_physical, e_indx, Function.update_same, e_phys, hphys,
        List.flatten_append, List.length_append]
      simp only [List.flatten_cons, List.flatten_nil, List.append_nil]
      omega
    · rw [List.length_append, hcl]; rfl
    · intro c hc
      rcases List.mem_append.mp hc with h | h
      · exact hch c h
      · rw [List.mem_singleton] at h
        exact ⟨_, _, h⟩
    · rw [List.map_append, hrl, List.map_singleton, e_indx, e_log, hlog, List.range'_concat]
      simp [Nat.add_comm]
    · intro i hi
      rw [List.map_append, List.map_singleton]
      have hrlen : (rows.map Row.addr).length = j := by
        have : (rows.map Row.logical).length = j := by rw [hrl, List.length_range']
        rw [List.length_map] at this ⊢
        exact this
      by_cases hij : i < j
      · rw [List.getD_append _ _ _ _ (by rw [hrlen]; exact hij), hra i hij,
          List.take_append_of_le_length (by rw [hcl]; omega)]
      · have hieq : i = j := by omega
        subst hieq
        rw [List.getD_append_right _ _ _ _ (by rw [hrlen]), hrlen, Nat.sub_self]
        have ht : (chains ++ [dff_WriteBlocks.chain (s1.physical s1.indx)
            (dff_WriteBlocks.text out DF_WRITING_RECORD)]).take i = chains := by
          rw [List.take_append_of_le_length (by rw [hcl]), List.take_of_length_le (by rw [hcl])]
        rw [ht, e_indx, e_phys, hphys]
        rfl
    · intro h; omega
    · intro _
      refine ⟨?_, ?_, ?_⟩
      · show (dff_WriteBlocks s1 out DF_WRITING_RECORD).dff = some 0
        rw [dff_WriteBlocks_dff, e_indx, e_dff]
        by_cases hj0 : j = 0
        · rw [hd0 hj0]; rfl
        · rw [(hd1 (Nat.pos_of_ne_zero hj0)).1]; rfl
      · show (dff_WriteBlocks s1 out DF_WRITING_RECORD).dffFile 0 = _
        rw [dff_WriteBlocks_dffFile_eq, hodff]
        simp only [fappend]
        rw [Function.update_same, hfiles.1]
        simp
      · show (dff_WriteBlocks s1 out DF_WRITING_RECORD).dftFile 0 = _
        rw [dff_WriteBlocks_dftFile_eq, if_pos rfl, hodfa]
        simp only [fappend]
        rw [Function.update_same, hfiles.2]
        rfl

/-- C27: end to end on the default partition. Take a state as `dff_Init` and
`dBase_Init` leave it for a run without `-s` (no split field, partition 0, all
counters zero, no file open) on a source of `n >= 1` records that are all
there, with no memo field; let the address test for a deleted record fail, as
it does for every buffer `malloc` returns, and let the .dfa file be writable.
Then with fuel for more than `n` iterations `main` ends with `DF_SUCCESS`; the
.dff file of partition 0 holds the header line followed by exactly `n` chains,
each one the blocks `dff_WriteBlocks` writes for a text; the .dfa file holds
its header entries for `n` records followed by `n` rows, with the logical
numbers 1, ..., `n` in order and strictly increasing addresses, the address of
row `i` being the block after the chains of the records before it; and the
.dft file is removed. -/
theorem default_partition_run (adr_fails : Nat → Bool) (L : Libc) (d : DF_INFO) (n fuel : Nat)
    (hn : 1 ≤ n) (hrecs : d.num_records = (n : Int)) (hrn : d.rec_num = 0)
    (hpos : d.dbf_pos = 0) (hdbf : n * d.bytes ≤ d.dbf.length)
    (hsplit : d.split = DF_NOT_SPLIT) (hindx : d.indx = 0)
    (hlog : ∀ k, d.logical k = 0) (hdff : d.dff = none) (hdfa : d.dfa = none)
    (hmemo : ∀ i, i < d.num_flds → d.fld_type.getD i 0 ≠ DBASE_MEMO_FLD)
    (hdel : ¬ (d.rec_buffer = (DBASE_DELETED : Int) ∧ d.undel = false))
    (hadr : adr_fails 0 = false) (hfuel : n < fuel) :
    ∃ (final : DF_INFO) (chains : List (List (List Nat))) (rows : List Row),
      main.run adr_fails L fuel d = some (DF_SUCCESS, final) ∧
      final.dffFile 0 = some (dff_Open.header d.model :: chains.flatten) ∧
      chains.length = n ∧
      (∀ c ∈ chains, ∃ phys text, c = dff_WriteBlocks.chain phys text) ∧
      final.dfaFile 0 =
        some (dff_DFTtoDFA.header { d with logical := fun _ => n } ++ rows.map Row.text) ∧
      rows.length = n ∧
      rows.map Row.logical = List.range' 1 n ∧
      rows.Pairwise (fun a b => a.addr < b.addr) ∧
      (∀ i, i < n →
        (rows.map Row.addr).getD i 0 = d.physical 0 + (chains.take i).flatten.length + 1) ∧
      final.dftFile 0 = none := by
  obtain ⟨s, chains, rows, hloop, sindx, slog, sinv, scfg, smodel, sprot, hcl, hch, hrl, hra, hf⟩ :=
    main_loop_plain L d n hrecs hdbf hsplit hmemo hdel n 0 d [] [] (by omega) rfl hindx rfl rfl
      (by rw [hrn]; rfl) (by rw [hpos, Nat.zero_mul]) (hlog 0) (IndexInv_of_fresh d hlog hdff hdfa)
      (by simp) rfl (fun c hc => by cases hc) rfl (fun i hi => by omega) (fun _ => hdff)
      (fun h => by omega) fuel hfuel
  obtain ⟨hstore, hrows⟩ := hf (by omega)
  obtain ⟨rows1, hr1, _, hpair, _⟩ := sinv.2.2 0 (by rw [slog]; omega)
  have hrr : rows1 = rows := by
    rw [hrows] at hr1
    exact (Option.some.inj hr1).symm
  subst hrr
  have hpart : dff_CleanUp.partitions s = 1 := by
    unfold dff_CleanUp.partitions
    rw [(config_fields s d scfg).1, if_pos hsplit]
  have hhead : dff_DFTtoDFA.header { s with indx := 0 } =
      dff_DFTtoDFA.header { d with logical := fun _ => n } := by
    unfold dff_DFTtoDFA.header
    simp only [smodel, sprot, slog, hindx]
  have hstep : dff_DFTtoDFA adr_fails { s with indx := 0 } DF_SUCCESS =
      Sum.inr ({ s with
          indx := 0
          dfa := some 0
          dfaFile := Function.update s.dfaFile 0
            (some (dff_DFTtoDFA.header { s with indx := 0 } ++
              ((s.dftFile 0).getD []).map Row.text))
          dftFile := Function.update s.dftFile 0 none }, s.logical 0) := by
    have hc : DF_SUCCESS = DF_SUCCESS ∧
        ({ s with indx := 0 } : DF_INFO).logical ({ s with indx := 0 } : DF_INFO).indx > 0 :=
      ⟨rfl, by show s.logical 0 > 0; rw [slog]; omega⟩
    have ha : adr_fails ({ s with indx := 0 } : DF_INFO).indx = false := hadr
    unfold dff_DFTtoDFA
    rw [if_pos hc, ha]
    rfl
  have hrun : main.run adr_fails L fuel d = some (DF_SUCCESS,
      ({ s with
          indx := 0 + 1
          dfa := some 0
          dfaFile := Function.update s.dfaFile 0
            (some (dff_DFTtoDFA.header { s with indx := 0 } ++
              ((s.dftFile 0).getD []).map Row.text))
          dftFile := Function.update s.dftFile 0 none } : DF_INFO)) := by
    unfold main.run
    rw [hloop]
    simp only [Option.map_some', dff_CleanUp, hpart, dff_CleanUp.loop, hstep]
  refine ⟨_, chains, rows1, hrun, ?_, hcl, hch, ?_, ?_, hrl, hpair, hra, ?_⟩
  · exact hstore
  · show Function.update s.dfaFile 0 _ 0 = _
    rw [Function.update_same, hhead, hrows]
    rfl
  · have : (rows1.map Row.logical).length = n := by rw [hrl, List.length_range']
    rw [List.length_map] at this
    exact this
  · show Function.update s.dftFile 0 none 0 = none
    rw [Function.update_same]

set_option maxRecDepth 100000 in
/-- C27 at a concrete input: `dbf2dff m` on `sampleDbf`, two
records with a character field of width 5, a numeric field of width 4 and a
character field of width 3. The store holds the header line and one block for
each record, the index two rows with the numbers 1, 2 and the addresses 1, 2. -/
theorem default_partition_run_witness :
    main.fromInit (fun _ => false) Libc.integers 3 (DF_INFO.args DF_NOT_SPLIT) 4096
        (some sampleDbf) none =
      main.run (fun _ => false) Libc.integers 3 DF_INFO.sampleDefault ∧
    (main.run (fun _ => false) Libc.integers 3 DF_INFO.sampleDefault).map
        (fun r => (r.1, r.2.dffFile 0, r.2.dfaFile 0)) =
      some (DF_SUCCESS,
        some [dff_Open.header (txt ("m")), dff_WriteBlocks.last (txt ("hello\\12\\abc")),
          dff_WriteBlocks.last (txt ("wor d\\\\xyz"))],
        some (dff_DFTtoDFA.header { DF_INFO.sampleDefault with logical := fun _ => 2 } ++
          [txt (" 1\t1\n"), txt (" 2\t2\n")])) ∧
    DF_INFO.sampleDefault.num_flds = 3 ∧
    DF_INFO.sampleDefault.fld_type =
      [DBASE_CHARACTER_FLD, DBASE_NUMERIC_FLD, DBASE_CHARACTER_FLD] ∧
    DF_INFO.sampleDefault.fld_len = [5, 4, 3] ∧
    ∃ (final : DF_INFO) (chains : List (List (List Nat))) (rows : List Row),
      main.run (fun _ => false) Libc.integers 3 DF_INFO.sampleDefault =
        some (DF_SUCCESS, final) ∧
      final.dffFile 0 =
        some (dff_Open.header DF_INFO.sampleDefault.model :: chains.flatten) ∧
      chains.length = 2 ∧
      (∀ c ∈ chains, ∃ phys text, c = dff_WriteBlocks.chain phys text) ∧
      final.dfaFile 0 =
        some (dff_DFTtoDFA.header { DF_INFO.sampleDefault with logical := fun _ => 2 } ++
          rows.map Row.text) ∧
      rows.length = 2 ∧
      rows.map Row.logical = List.range' 1 2 ∧
      rows.Pairwise (fun a b => a.addr < b.addr) ∧
      (∀ i, i < 2 →
        (rows.map Row.addr).getD i 0 =
          DF_INFO.sampleDefault.physical 0 + (chains.take i).flatten.length + 1) ∧
      final.dftFile 0 = none :=
  ⟨rfl, rfl, by decide, by decide, by decide,
    default_partition_run (fun _ => false) Libc.integers DF_INFO.sampleDefault 2 3
      (by decide) (by decide) (by decide) (by decide) (by decide) (by decide) (by decide)
      (fun _ => rfl) rfl rfl
      (fun i hi => by
        have h3 : i < 3 := hi
        interval_cases i <;> decide)
      (by decide) rfl (by decide)⟩

/-! ## The partition index -/

theorem fields_indx_lt (L : Libc) (r : List Nat) (rec_start : Nat) (n : Nat) :
    ∀ (i : Nat) (d : DF_INFO) (off : Nat) (out : List Nat), d.indx < DF_MAX_SPLIT →
      Sum.elim (fun d1 : DF_INFO => d1.indx < DF_MAX_SPLIT)
        (fun p : DF_INFO × List Nat => p.1.indx < DF_MAX_SPLIT)
        (dBase_ProcessRecord.fields L r rec_start n i d off out) := by
  induction n with
  | zero => intro i d off out h; simpa [dBase_ProcessRecord.fields] using h
  | succ n ih =>
    intro i d off out h
    simp only [dBase_ProcessRecord.fields]
    split
    · exact ih _ _ _ _ h
    · split
      · apply ih
        rw [(dBase_ProcessMemo_frame d _).2.2.2.1]
        exact h
      · split
        · split
          · exact route_lt _
          · exact ih _ _ _ _ (route_lt _)
        · exact ih _ _ _ _ h

theorem dBase_ProcessRecord_indx_lt (L : Libc) (d : DF_INFO) (h : d.indx < DF_MAX_SPLIT) :
    (dBase_ProcessRecord L d).state.indx < DF_MAX_SPLIT := by
  unfold dBase_ProcessRecord
  simp only []
  split
  · exact h
  · split
    · exact h
    · have := fields_indx_lt L (List.take d.bytes (List.drop d.dbf_pos d.dbf) ++ [0]) d.dbf_pos
        d.num_flds 0
        { d with dbf_pos := d.dbf_pos + (List.take d.bytes (List.drop d.dbf_pos d.dbf)).length }
        1 [] h
      split
      · rename_i d2 heq
        rw [heq] at this
        exact this
      · rename_i d2 out heq
        rw [heq] at this
        show (dff_WriteBlocks d2 out DF_WRITING_RECORD).indx < DF_MAX_SPLIT
        rw [dff_WriteBlocks_indx]
        exact this

theorem main_steps_indx_lt (L : Libc) (k : Nat) :
    ∀ d : DF_INFO, d.indx < DF_MAX_SPLIT → (main.steps L k d).indx < DF_MAX_SPLIT := by
  induction k with
  | zero => intro d h; exact h
  | succ k ih =>
    intro d h
    simp only [main.steps]
    split
    · have hp := dBase_ProcessRecord_indx_lt L d h
      split
      · rename_i d1 heq
        rw [heq] at hp
        exact ih _ hp
      · rename_i s d1 heq
        rw [heq] at hp
        exact hp
    · exact h

/-- C31: the partition index stays in range. For every character `c`,
`dBase_ProcessRecord.route c`, the value the routing step stores in `d->indx`
for a routing field that starts with `c`, is below `DF_MAX_SPLIT` = 28; for an
empty routing field (`fld[0]` is the end of the string) it is `DF_OTHER_FILE`.
So from a state whose index is in range (it is 0 after `dff_Init`) a call of
`dBase_ProcessRecord` leaves the index in range, however it leaves, and so does
every number of iterations of the record loop; and when the split field is a
character field of the record, the index after the call is the route of that
field. -/
theorem partition_index_in_range (L : Libc) (d : DF_INFO) (h : d.indx < DF_MAX_SPLIT) :
    (∀ c, dBase_ProcessRecord.route c < DF_MAX_SPLIT) ∧
    dBase_ProcessRecord.route 0 = DF_OTHER_FILE ∧
    (dff_Init d).indx = 0 ∧
    (dBase_ProcessRecord L d).state.indx < DF_MAX_SPLIT ∧
    (∀ k, (main.steps L k d).indx < DF_MAX_SPLIT) ∧
    (∀ (fuel status : Nat) (final : DF_INFO), main.loop L fuel d = some (status, final) →
      final.indx < DF_MAX_SPLIT) ∧
    (∀ s j : Nat, d.split = (s : Int) → s < d.num_flds →
      d.fld_type.getD s 0 = DBASE_CHARACTER_FLD → d.dbf_pos = j * d.bytes →
      (j + 1) * d.bytes ≤ d.dbf.length →
      (d.rec_buffer ≠ (DBASE_DELETED : Int) ∨ d.undel = true) →
      (dBase_ProcessRecord L d).state.indx = routeOf d (recordAt d j) ∧
      routeOf d (recordAt d j) < DF_MAX_SPLIT) := by
  refine ⟨route_lt, by decide, rfl, dBase_ProcessRecord_indx_lt L d h,
    fun k => main_steps_indx_lt L k d h, fun fuel status final hrun => ?_,
    fun s j hsp hs htype hpos hin hdel => ?_⟩
  · rw [main_loop_eq_steps L fuel d status final hrun]
    exact main_steps_indx_lt L fuel d h
  · obtain ⟨d1, h1, _, h3, _⟩ := dBase_ProcessRecord_split L d s j hsp hs htype hpos hin hdel
    rw [h1]
    exact ⟨h3, route_lt _⟩

set_option maxRecDepth 100000 in
/-- C31 at a concrete input: `DF_INFO.sampleReopen`, split on its only field,
whose first record holds "b": the index is 0 before the call and 1 after it. -/
theorem partition_index_in_range_witness :
    DF_INFO.sampleReopen.indx < DF_MAX_SPLIT ∧
    (dBase_ProcessRecord Libc.zero DF_INFO.sampleReopen).state.indx = 1 ∧
    routeOf DF_INFO.sampleReopen (recordAt DF_INFO.sampleReopen 0) = 1 ∧
    ((∀ c, dBase_ProcessRecord.route c < DF_MAX_SPLIT) ∧
    dBase_ProcessRecord.route 0 = DF_OTHER_FILE ∧
    (dff_Init DF_INFO.sampleReopen).indx = 0 ∧
    (dBase_ProcessRecord Libc.zero DF_INFO.sampleReopen).state.indx < DF_MAX_SPLIT ∧
    (∀ k, (main.steps Libc.zero k DF_INFO.sampleReopen).indx < DF_MAX_SPLIT) ∧
    (∀ (fuel status : Nat) (final : DF_INFO),
      main.loop Libc.zero fuel DF_INFO.sampleReopen = some (status, final) →
      final.indx < DF_MAX_SPLIT) ∧
    (∀ s j : Nat, DF_INFO.sampleReopen.split = (s : Int) → s < DF_INFO.sampleReopen.num_flds →
      DF_INFO.sampleReopen.fld_type.getD s 0 = DBASE_CHARACTER_FLD →
      DF_INFO.sampleReopen.dbf_pos = j * DF_INFO.sampleReopen.bytes →
      (j + 1) * DF_INFO.sampleReopen.bytes ≤ DF_INFO.sampleReopen.dbf.length →
      (DF_INFO.sampleReopen.rec_buffer ≠ (DBASE_DELETED : Int) ∨
        DF_INFO.sampleReopen.undel = true) →
      (dBase_ProcessRecord Libc.zero DF_INFO.sampleReopen).state.indx =
        routeOf DF_INFO.sampleReopen (recordAt DF_INFO.sampleReopen j) ∧
      routeOf DF_INFO.sampleReopen (recordAt DF_INFO.sampleReopen j) < DF_MAX_SPLIT)) :=
  ⟨by decide, by decide, by decide,
    partition_index_in_range Libc.zero DF_INFO.sampleReopen (by decide)⟩

/-! ## Termination of the record loop -/

theorem fields_rewind (L : Libc) (r : List Nat) (rec_start : Nat) (fl : List Nat) (sp : Int)
    (i0 key : Nat)
    (hkey : dBase_ProcessRecord.route
      ((dff_TrimText (strncpy (r.drop (fieldOffset fl sp.toNat)) (fl.getD sp.toNat 0) ++
        [0])).getD 0 0) = key)
    (n : Nat) :
    ∀ (i : Nat) (d : DF_INFO) (off : Nat) (out : List Nat),
      d.fld_len = fl → d.split = sp → off = fieldOffset fl i →
      ((i : Int) ≤ sp → d.indx = i0) →
      Sum.elim
        (fun d1 : DF_INFO =>
          i0 ≠ key ∧ d1.indx = key ∧ d1.config = d.config ∧ d1.rec_num = d.rec_num - 1 ∧
          d1.dbf_pos = rec_start)
        (fun p : DF_INFO × List Nat =>
          p.1.config = d.config ∧ p.1.rec_num = d.rec_num ∧ p.1.dbf_pos = d.dbf_pos)
        (dBase_ProcessRecord.fields L r rec_start n i d off out) := by
  induction n with
  | zero =>
    intro i d off out _ _ _ _
    simp only [dBase_ProcessRecord.fields]
    exact ⟨rfl, rfl, rfl⟩
  | succ n ih =>
    intro i d off out hfl hsp hoff hP
    simp only [dBase_ProcessRecord.fields]
    have hoff' : off + d.fld_len.getD i 0 = fieldOffset fl (i + 1) := by
      rw [hoff, hfl]; rfl
    by_cases hnum : d.fld_type.getD i 0 = DBASE_NUMERIC_FLD
    · rw [if_pos hnum]
      exact ih (i + 1) d _ _ hfl hsp hoff' (fun h => hP (by omega))
    · rw [if_neg hnum]
      by_cases hmemo : d.fld_type.getD i 0 = DBASE_MEMO_FLD
      · rw [if_pos hmemo]
        generalize hm : dBase_ProcessMemo d
          (atol (cstr (strncpy (List.drop off r) (d.fld_len.getD i 0) ++ [0]))) = dm
        obtain ⟨f1, f2, f3, f4, _⟩ := dBase_ProcessMemo_frame d
          (atol (cstr (strncpy (List.drop off r) (d.fld_len.getD i 0) ++ [0])))
        rw [hm] at f1 f2 f3 f4
        obtain ⟨g1, _, _, g4, _⟩ := config_fields _ _ f1
        have := ih (i + 1) dm (off + d.fld_len.getD i 0)
          ((out ++ fmtLong (if dm.physical dm.indx = d.physical d.indx then DF_FREELIST
            else ((d.physical d.indx + 1 : Nat) : Int))) ++
            if i + 1 < d.num_flds then [DF_DELIM] else [])
          (by rw [g4, hfl]) (by rw [g1, hsp]) hoff'
          (fun h => by rw [f4]; exact hP (by omega))
        rw [f1, f2, f3] at this
        exact this
      · rw [if_neg hmemo]
        by_cases hsplit : (i : Int) = d.split
        · rw [if_pos hsplit]
          have his : sp.toNat = i := by rw [← hsp, ← hsplit]; rfl
          have hkey2 : dBase_ProcessRecord.route
              ((dff_TrimText (strncpy (List.drop off r) (d.fld_len.getD i 0) ++ [0])).getD 0 0) =
              key := by
            rw [hoff, hfl, ← his]; exact hkey
          simp only [hkey2]
          by_cases hrew : d.indx ≠ key ∧ d.dff ≠ none
          · rw [if_pos hrew]
            refine ⟨?_, rfl, rfl, rfl, rfl⟩
            rw [← hP (by rw [← hsp, ← hsplit])]
            exact hrew.1
          · rw [if_neg hrew]
            exact ih (i + 1) { d with indx := key } _ _ hfl hsp hoff'
              (fun h => by rw [← hsp, ← hsplit] at h; omega)
        · rw [if_neg hsplit]
          exact ih (i + 1) d _ _ hfl hsp hoff' (fun h => hP (by omega))

theorem dBase_ProcessRecord_cases (L : Libc) (d : DF_INFO) :
    (((d.dbf.drop d.dbf_pos).take d.bytes).length ≠ d.bytes ∧
      ∃ d1, dBase_ProcessRecord L d = Outcome.exit DF_FAILURE d1) ∨
    (((d.dbf.drop d.dbf_pos).take d.bytes).length = d.bytes ∧
      ∃ d1, dBase_ProcessRecord L d = Outcome.ret d1 ∧ d1.config = d.config ∧
      ((d1.rec_num = d.rec_num ∧ d1.dbf_pos = d.dbf_pos + d.bytes) ∨
        (d.indx ≠ routeOf d ((d.dbf.drop d.dbf_pos).take d.bytes) ∧
          d1.indx = routeOf d ((d.dbf.drop d.dbf_pos).take d.bytes) ∧
          d1.rec_num = d.rec_num - 1 ∧ d1.dbf_pos = d.dbf_pos))) := by
  by_cases hlen : ((d.dbf.drop d.dbf_pos).take d.bytes).length ≠ d.bytes
  · left
    refine ⟨hlen,
      { d with dbf_pos := d.dbf_pos + ((d.dbf.drop d.dbf_pos).take d.bytes).length }, ?_⟩
    unfold dBase_ProcessRecord
    simp only
    rw [if_pos hlen]
  · right
    have hlen' := not_not.mp hlen
    refine ⟨hlen', ?_⟩
    unfold dBase_ProcessRecord
    simp only
    rw [if_neg hlen]
    by_cases hdel : d.rec_buffer = (DBASE_DELETED : Int) ∧ d.undel = false
    · rw [if_pos hdel]
      exact ⟨_, rfl, rfl, Or.inl ⟨rfl, by simp only [hlen']⟩⟩
    · rw [if_neg hdel]
      have hf := fields_rewind L ((d.dbf.drop d.dbf_pos).take d.bytes ++ [0]) d.dbf_pos
        d.fld_len d.split d.indx (routeOf d ((d.dbf.drop d.dbf_pos).take d.bytes)) rfl
        d.num_flds 0
        { d with dbf_pos := d.dbf_pos + ((d.dbf.drop d.dbf_pos).take d.bytes).length } 1 []
        rfl rfl rfl (fun _ => rfl)
      generalize dBase_ProcessRecord.fields L ((d.dbf.drop d.dbf_pos).take d.bytes ++ [0])
        d.dbf_pos d.num_flds 0
        { d with dbf_pos := d.dbf_pos + ((d.dbf.drop d.dbf_pos).take d.bytes).length } 1 [] =
        res at hf ⊢
      cases res with
      | inl d2 =>
        obtain ⟨h1, h2, h3, h4, h5⟩ := hf
        exact ⟨d2, rfl, h3, Or.inr ⟨h1, h2, h4, h5⟩⟩
      | inr p =>
        obtain ⟨d2, out⟩ := p
        obtain ⟨h3, h4, h5⟩ := hf
        simp only at h3 h4 h5
        obtain ⟨f1, f2, f3⟩ := dff_WriteBlocks_frame d2 out DF_WRITING_RECORD
        refine ⟨_, rfl, by rw [f1, h3]; rfl, Or.inl ⟨by rw [f2, h4], ?_⟩⟩
        rw [f3, h5, hlen']

theorem routeOf_config (a b : DF_INFO) (h : a.config = b.config) (r : List Nat) :
    routeOf a r = routeOf b r := by
  obtain ⟨g1, _, _, g4, _⟩ := config_fields _ _ h
  unfold routeOf routingField
  rw [g1, g4]

theorem main_loop_done (L : Libc) (m : Nat) (d : DF_INFO) (h : d.num_records = d.rec_num) :
    (∀ fuel, main.calls L fuel d ≤ m) ∧
    ∃ status final, main.loop L (m + 1) d = some (status, final) ∧
      (status = DF_SUCCESS → final.rec_num = d.num_records) ∧
      (d.dbf_pos + 0 * d.bytes ≤ d.dbf.length → status = DF_SUCCESS) := by
  have hlt : ¬ d.rec_num < d.num_records := by omega
  refine ⟨fun fuel => ?_, DF_SUCCESS, d, ?_, fun _ => h.symm, fun _ => rfl⟩
  · cases fuel with
    | zero => exact Nat.zero_le _
    | succ k =>
      simp only [main.calls]
      rw [if_neg hlt]
      exact Nat.zero_le _
  · simp only [main.loop]
    rw [if_neg hlt]

theorem main_loop_bound (L : Libc) (m : Nat) :
    ∀ (r : Nat) (d : DF_INFO), d.num_records = d.rec_num + (r : Int) →
      (2 * r ≤ m ∨
        (d.indx = routeOf d ((d.dbf.drop d.dbf_pos).take d.bytes) ∧ 2 * r ≤ m + 1)) →
      (∀ fuel, main.calls L fuel d ≤ m) ∧
      ∃ status final, main.loop L (m + 1) d = some (status, final) ∧
        (status = DF_SUCCESS → final.rec_num = d.num_records) ∧
        (d.dbf_pos + r * d.bytes ≤ d.dbf.length → status = DF_SUCCESS) := by
  induction m with
  | zero =>
    intro r d hr hphi
    have hr0 : r = 0 := by omega
    subst hr0
    exact main_loop_done L 0 d (by omega)
  | succ m ih =>
    intro r d hr hphi
    by_cases hr0 : r = 0
    · subst hr0
      exact main_loop_done L (m + 1) d (by omega)
    obtain ⟨r1, rfl⟩ : ∃ r1, r = r1 + 1 := ⟨r - 1, by omega⟩
    have hlt : d.rec_num < d.num_records := by omega
    have hmul : (r1 + 1) * d.bytes = r1 * d.bytes + d.bytes := Nat.succ_mul _ _
    rcases dBase_ProcessRecord_cases L d with ⟨hlen, d1, he⟩ | ⟨hlen, d1, he, hcfg, hcase⟩
    · refine ⟨fun fuel => ?_, DF_FAILURE, d1, ?_, fun h => absurd h (by decide), fun hI => ?_⟩
      · cases fuel with
        | zero => exact Nat.zero_le _
        | succ k =>
          simp only [main.calls]
          rw [if_pos hlt, he]
          show 1 ≤ m + 1
          omega
      · simp only [main.loop]
        rw [if_pos hlt, he]
      · exfalso
        apply hlen
        rw [List.length_take, List.length_drop]
        omega
    · obtain ⟨c1, _, _, c4, c5, _, c7, _, c9⟩ := config_fields d1 d hcfg
      generalize hd2 : ({ d1 with rec_num := d1.rec_num + 1 } : DF_INFO) = d2
      have e_cfg : d2.config = d1.config := by rw [← hd2]; rfl
      have e_rn : d2.rec_num = d1.rec_num + 1 := by rw [← hd2]
      have e_pos : d2.dbf_pos = d1.dbf_pos := by rw [← hd2]
      have e_indx : d2.indx = d1.indx := by rw [← hd2]
      obtain ⟨b1, _, _, _, b5, _, b7, _, b9⟩ := config_fields d2 d (e_cfg.trans hcfg)
      have hcalls : ∀ fuel, main.calls L (fuel + 1) d = main.calls L fuel d2 + 1 := by
        intro fuel
        simp only [main.calls]
        rw [if_pos hlt, he]
        show main.calls L fuel { d1 with rec_num := d1.rec_num + 1 } + 1 = _
        rw [hd2]
      have hloop : main.loop L (m + 1 + 1) d = main.loop L (m + 1) d2 := by
        rw [main_loop_step L (m + 1) d d1 hlt he, hd2]
      have key : ∀ r2 : Nat, d2.num_records = d2.rec_num + (r2 : Int) →
          (2 * r2 ≤ m ∨
            (d2.indx = routeOf d2 ((d2.dbf.drop d2.dbf_pos).take d2.bytes) ∧ 2 * r2 ≤ m + 1)) →
          (d.dbf_pos + (r1 + 1) * d.bytes ≤ d.dbf.length →
            d2.dbf_pos + r2 * d2.bytes ≤ d2.dbf.length) →
          (∀ fuel, main.calls L fuel d ≤ m + 1) ∧
          ∃ status final, main.loop L (m + 1 + 1) d = some (status, final) ∧
            (status = DF_SUCCESS → final.rec_num = d.num_records) ∧
            (d.dbf_pos + (r1 + 1) * d.bytes ≤ d.dbf.length → status = DF_SUCCESS) := by
        intro r2 h1 h2 h3
        obtain ⟨k1, status, final, k2, k3, k4⟩ := ih r2 d2 h1 h2
        refine ⟨fun fuel => ?_, status, final, by rw [hloop]; exact k2,
          fun h => by rw [k3 h, b7], fun hI => k4 (h3 hI)⟩
        cases fuel with
        | zero => exact Nat.zero_le _
        | succ k =>
          rw [hcalls]
          have := k1 k
          omega
      rcases hcase with ⟨p1, p2⟩ | ⟨q1, q2, q3, q4⟩
      · refine key r1 (by rw [b7, e_rn, p1]; omega) (Or.inl ?_) (fun hI => ?_)
        · rcases hphi with h | ⟨_, h⟩ <;> omega
        · rw [e_pos, p2, b5, b9]
          omega
      · have hphi1 : 2 * (r1 + 1) ≤ m + 1 := by
          rcases hphi with h | ⟨hs, _⟩
          · exact h
          · exact absurd hs q1
        refine key (r1 + 1) (by rw [b7, e_rn, q3]; omega) (Or.inr ⟨?_, hphi1⟩) (fun hI => ?_)
        · rw [e_indx, q2, routeOf_config d2 d (e_cfg.trans hcfg), b5, b9, e_pos, q4]
        · rw [e_pos, q4, b5, b9]
          exact hI

/-- C32: the conversion loop terminates. From a state with `rec_num` 0 and `n`
records to convert, whatever the fields, the split field and the input bytes
are, the record loop of `main` makes at most `2 * n` calls of
`dBase_ProcessRecord`, and `2 * n + 1` iterations end it; when it ends with
`DF_SUCCESS`, `rec_num` has reached `num_records`, and it does end with
`DF_SUCCESS` when the `n` records are all in the file. A call that rewinds (it
returns with `rec_num` one lower) was made with an index that is not the route
of the record, returns with the index that is, at the start of the record, and
the next call, on the same record, does not rewind: it returns past the record
with `rec_num` as it was. -/
theorem conversion_loop_terminates (L : Libc) (d : DF_INFO) (n : Nat)
    (hn : d.num_records = (n : Int)) (hr : d.rec_num = 0) :
    (∀ fuel, main.calls L fuel d ≤ 2 * n) ∧
    (∃ status final, main.loop L (2 * n + 1) d = some (status, final) ∧
      (status = DF_SUCCESS → final.rec_num = d.num_records) ∧
      (d.dbf_pos + n * d.bytes ≤ d.dbf.length → status = DF_SUCCESS)) ∧
    (∀ s s1 : DF_INFO, dBase_ProcessRecord L s = Outcome.ret s1 →
      s1.rec_num = s.rec_num - 1 →
      s.indx ≠ routeOf s ((s.dbf.drop s.dbf_pos).take s.bytes) ∧
      s1.indx = routeOf s ((s.dbf.drop s.dbf_pos).take s.bytes) ∧
      s1.dbf_pos = s.dbf_pos ∧
      ∃ s2, dBase_ProcessRecord L { s1 with rec_num := s1.rec_num + 1 } = Outcome.ret s2 ∧
        s2.rec_num = s.rec_num ∧ s2.dbf_pos = s.dbf_pos + s.bytes) := by
  obtain ⟨h1, h2⟩ := main_loop_bound L (2 * n) n d (by rw [hn, hr]; omega) (Or.inl (le_refl _))
  refine ⟨h1, h2, fun s s1 hret hrn => ?_⟩
  rcases dBase_ProcessRecord_cases L s with ⟨_, d1, he⟩ | ⟨hlen, d1, he, hcfg, hcase⟩
  · rw [he] at hret; cases hret
  · rw [he] at hret
    injection hret with hret
    subst hret
    rcases hcase with ⟨p1, _⟩ | ⟨q1, q2, q3, q4⟩
    · omega
    · refine ⟨q1, q2, q4, ?_⟩
      obtain ⟨_, _, _, _, c5, _, _, _, c9⟩ := config_fields d1 s hcfg
      generalize hd2 : ({ d1 with rec_num := d1.rec_num + 1 } : DF_INFO) = d2
      have e_cfg : d2.config = s.config := by rw [← hd2]; exact hcfg
      have e_rn : d2.rec_num = d1.rec_num + 1 := by rw [← hd2]
      have e_pos : d2.dbf_pos = d1.dbf_pos := by rw [← hd2]
      have e_indx : d2.indx = d1.indx := by rw [← hd2]
      obtain ⟨_, _, _, _, b5, _, _, _, b9⟩ := config_fields d2 s e_cfg
      have hgot : (d2.dbf.drop d2.dbf_pos).take d2.bytes = (s.dbf.drop s.dbf_pos).take s.bytes := by
        rw [b5, b9, e_pos, q4]
      rcases dBase_ProcessRecord_cases L d2 with ⟨hl2, _⟩ | ⟨_, s2, he2, _, hc2⟩
      · rw [hgot, b5] at hl2
        exact absurd hlen hl2
      · rcases hc2 with ⟨p1, p2⟩ | ⟨r1, _⟩
        · exact ⟨s2, he2, by rw [p1, e_rn, q3]; omega, by rw [p2, e_pos, q4, b5]⟩
        · exfalso
          apply r1
          rw [e_indx, q2, routeOf_config d2 s e_cfg, hgot]

set_option maxRecDepth 100000 in
/-- C32 at a concrete input: `DF_INFO.sampleReopen`, three records that go to
the partitions b, a, b. The second and the third record are rewound once each,
so the loop makes five calls: five iterations do not end it, six do. -/
theorem conversion_loop_terminates_witness :
    DF_INFO.sampleReopen.num_records = ((3 : Nat) : Int) ∧ DF_INFO.sampleReopen.rec_num = 0 ∧
    main.calls Libc.zero 7 DF_INFO.sampleReopen = 5 ∧
    (main.loop Libc.zero 5 DF_INFO.sampleReopen).isNone = true ∧
    (main.loop Libc.zero 6 DF_INFO.sampleReopen).map (fun r => (r.1, r.2.rec_num)) =
      some (DF_SUCCESS, 3) ∧
    ((∀ fuel, main.calls Libc.zero fuel DF_INFO.sampleReopen ≤ 2 * 3) ∧
    (∃ status final, main.loop Libc.zero (2 * 3 + 1) DF_INFO.sampleReopen =
        some (status, final) ∧
      (status = DF_SUCCESS → final.rec_num = DF_INFO.sampleReopen.num_records) ∧
      (DF_INFO.sampleReopen.dbf_pos + 3 * DF_INFO.sampleReopen.bytes ≤
        DF_INFO.sampleReopen.dbf.length → status = DF_SUCCESS)) ∧
    (∀ s s1 : DF_INFO, dBase_ProcessRecord Libc.zero s = Outcome.ret s1 →
      s1.rec_num = s.rec_num - 1 →
      s.indx ≠ routeOf s ((s.dbf.drop s.dbf_pos).take s.bytes) ∧
      s1.indx = routeOf s ((s.dbf.drop s.dbf_pos).take s.bytes) ∧
      s1.dbf_pos = s.dbf_pos ∧
      ∃ s2, dBase_ProcessRecord Libc.zero { s1 with rec_num := s1.rec_num + 1 } =
          Outcome.ret s2 ∧
        s2.rec_num = s.rec_num ∧ s2.dbf_pos = s.dbf_pos + s.bytes)) :=
  ⟨by decide, by decide, by decide, by decide, by decide,
    conversion_loop_terminates Libc.zero DF_INFO.sampleReopen 3 (by decide) (by decide)⟩

/-! ## The place of a chain in the store -/

set_option maxRecDepth 100000 in
/-- C3 fails on the code. On the example input `DF_INFO.sampleLongMemo` the
fourth call of `dBase_ProcessRecord` starts with partition `a` selected and
closed and `physical[a]` = 2, left by the memo chain the first call wrote there
before the record was routed to `b`; since `logical[a]` is 0, `dff_Open` creates
`a.dff` anew, with the header only. The memo chain of the call is then numbered
from `p + 1` = 3: its first block carries the pointer 4, but the two blocks are
lines 1 and 2 of the file, and at the end of the run the file has no line 4.
What holds in every state is the rest: a call appends at least one block, the
pointer of every block but the last is the decimal `p + k + 1` and that of the
last is `-1`, the row of a record carries `p + 1`, and block `k` is line
`p + k` of the file when the file holds the header and `p` blocks. -/
theorem chain_pointer_past_end_of_store :
    (∃ s final : DF_INFO,
      s = main.steps Libc.zero 3 DF_INFO.sampleLongMemo ∧
      s.indx = 0 ∧ s.dff = none ∧ s.logical 0 = 0 ∧ s.physical 0 = 2 ∧
      storeOf (dff_WriteBlocks.opened s) = [dff_Open.header [109]] ∧
      main.loop Libc.zero 10 DF_INFO.sampleLongMemo = some (DF_SUCCESS, final) ∧
      final.dffFile 0 = some [dff_Open.header [109],
        List.replicate 70 120 ++ List.replicate 7 32 ++ [52, 10],
        [120] ++ List.replicate 75 32 ++ [45, 49, 10],
        [51, 92, 97] ++ List.replicate 73 32 ++ [45, 49, 10]] ∧
      atol ((List.replicate 70 120 ++ List.replicate 7 32 ++ [52, 10]).drop DF_REC_WIDTH) = 4 ∧
      ((final.dffFile 0).getD [])[4]? = none) ∧
    (∀ (d : DF_INFO) (ptr : List Nat) (which : Nat), ∃ blocks : List (List Nat),
      storeOf (dff_WriteBlocks d ptr which) = storeOf (dff_WriteBlocks.opened d) ++ blocks ∧
      0 < blocks.length ∧
      (∀ k, k < blocks.length →
        (storeOf (dff_WriteBlocks.opened d)).length = d.physical d.indx + 1 →
        (storeOf (dff_WriteBlocks d ptr which))[d.physical d.indx + (k + 1)]? = blocks[k]?) ∧
      (∀ k b, k + 1 < blocks.length → blocks[k]? = some b →
        b.drop DF_REC_WIDTH =
          fmtStar DF_ADDR_WIDTH ((d.physical d.indx + (k + 1) + 1 : Nat) : Int) ++ [NEWLINE] ∧
        atol (b.drop DF_REC_WIDTH) = ((d.physical d.indx + (k + 1) + 1 : Nat) : Int)) ∧
      (∀ b, blocks[blocks.length - 1]? = some b →
        b.drop DF_REC_WIDTH = fmtStar DF_ADDR_WIDTH DF_REC_END ++ [NEWLINE] ∧
        atol (b.drop DF_REC_WIDTH) = DF_REC_END) ∧
      (which = DF_WRITING_RECORD → ∀ k, (dff_WriteBlocks.opened d).dfa = some k →
        (dff_WriteBlocks d ptr which).dftFile k =
          some (((dff_WriteBlocks.opened d).dftFile k).getD [] ++
            [{ mark := if d.protect_recs then 45 else 32
               logical := d.logical d.indx + 1
               addr := d.physical d.indx + 1 }])) ∧
      (∀ (d0 : DF_INFO) (i : Nat), (dff_Init d0).physical i + 1 = 1)) := by
  refine ⟨⟨_, ((main.loop Libc.zero 10 DF_INFO.sampleLongMemo).getD (0, DF_INFO.blank)).2,
    rfl, ?_, ?_, ?_, ?_, ?_, rfl, ?_, ?_, ?_⟩, dff_WriteBlocks_pointer_structure⟩ <;> decide

/-! ## Record chains in the stores of a split run -/

theorem HoldsChains_append (cs : List (List (List Nat))) :
    ∀ (f x : List (List Nat)), HoldsChains cs f → HoldsChains cs (f ++ x) := by
  induction cs with
  | nil => intro f x _; trivial
  | cons c cs ih =>
    intro f x h
    obtain ⟨pre, rest, h1, h2⟩ := h
    exact ⟨pre, rest ++ x, by rw [h1]; simp only [List.append_assoc], ih rest x h2⟩

theorem HoldsChains_snoc (cs : List (List (List Nat))) (c : List (List Nat)) :
    ∀ f : List (List Nat), HoldsChains cs f → HoldsChains (cs ++ [c]) (f ++ c) := by
  induction cs with
  | nil =>
    intro f _
    exact ⟨f, [], by simp, trivial⟩
  | cons c0 cs ih =>
    intro f h
    obtain ⟨pre, rest, h1, h2⟩ := h
    exact ⟨pre, rest ++ c, by rw [h1]; simp only [List.append_assoc], ih rest h2⟩

theorem opened_store (L : Libc) (d0 : DF_INFO) (j : Nat) (d : DF_INFO) (hI : IndexInv d)
    (hS : StoreInv L d0 j d) :
    (∃ rest, (dff_WriteBlocks.opened d).dffFile d.indx =
      some (dff_Open.header d0.model :: rest)) ∧
    (∀ k, k ≠ d.indx → (dff_WriteBlocks.opened d).dffFile k = d.dffFile k) ∧
    (0 < d.logical d.indx → (dff_WriteBlocks.opened d).dffFile d.indx = d.dffFile d.indx) := by
  obtain ⟨hm, ho, hk⟩ := hS
  cases hd : d.dff with
  | none =>
    rw [opened_of_none d hd, dff_Open_dffFile]
    refine ⟨?_, fun k hk => Function.update_noteq hk _ _, fun hpos => ?_⟩
    · rw [Function.update_same]
      by_cases h0 : d.logical d.indx = 0
      · rw [if_pos h0, hm]
        exact ⟨[], rfl⟩
      · rw [if_neg h0]
        obtain ⟨_, _, _, hfile⟩ := hk d.indx
        obtain ⟨rest, h1, _⟩ := hfile (Nat.pos_of_ne_zero h0)
        rw [h1]
        exact ⟨rest, rfl⟩
    · rw [Function.update_same, if_neg (by omega)]
      obtain ⟨_, _, _, hfile⟩ := hk d.indx
      obtain ⟨rest, h1, _⟩ := hfile hpos
      rw [h1]
      rfl
  | some h =>
    rw [opened_of_some d h hd]
    have hh : h = d.indx := (hI.2.1 h hd).1
    subst hh
    exact ⟨ho _ hd, fun _ _ => rfl, fun _ => rfl⟩

theorem StoreInv_write (L : Libc) (d0 : DF_INFO) (j : Nat) (d : DF_INFO) (ptr : List Nat)
    (which : Nat) (hI : IndexInv d) (hS : StoreInv L d0 j d) :
    (dff_WriteBlocks d ptr which).model = d0.model ∧
    (∀ h, (dff_WriteBlocks d ptr which).dff = some h →
      ∃ rest, (dff_WriteBlocks d ptr which).dffFile h =
        some (dff_Open.header d0.model :: rest)) ∧
    (∀ k, k ≠ d.indx → (dff_WriteBlocks d ptr which).dffFile k = d.dffFile k) ∧
    (∃ rest, (dff_WriteBlocks.opened d).dffFile d.indx =
        some (dff_Open.header d0.model :: rest) ∧
      (0 < d.logical d.indx → d.dffFile d.indx = some (dff_Open.header d0.model :: rest)) ∧
      (dff_WriteBlocks d ptr which).dffFile d.indx =
        some (dff_Open.header d0.model ::
          (rest ++ dff_WriteBlocks.chain (d.physical d.indx) (dff_WriteBlocks.text ptr which)))) := by
  obtain ⟨⟨rest, h1⟩, h2, h3⟩ := opened_store L d0 j d hI hS
  obtain ⟨_, hodff, _⟩ := opened_IndexInv d hI
  have hfile : (dff_WriteBlocks d ptr which).dffFile =
      Function.update (dff_WriteBlocks.opened d).dffFile d.indx
        (some (dff_Open.header d0.model ::
          (rest ++ dff_WriteBlocks.chain (d.physical d.indx) (dff_WriteBlocks.text ptr which)))) := by
    rw [dff_WriteBlocks_dffFile_eq, hodff]
    simp only [fappend]
    rw [h1]
    rfl
  have hhere : (dff_WriteBlocks d ptr which).dffFile d.indx =
      some (dff_Open.header d0.model ::
        (rest ++ dff_WriteBlocks.chain (d.physical d.indx) (dff_WriteBlocks.text ptr which))) := by
    rw [hfile, Function.update_same]
  refine ⟨(dff_WriteBlocks_names d ptr which).1.trans hS.1, ?_, ?_, rest, h1, ?_, hhere⟩
  · intro h hh
    rw [dff_WriteBlocks_dff] at hh
    have : h = d.indx := by
      cases hd : d.dff with
      | none => rw [hd] at hh; exact (Option.some.inj hh).symm
      | some h0 =>
        rw [hd] at hh
        have := (hI.2.1 h0 hd).1
        rw [← this]
        exact (Option.some.inj hh).symm
    rw [this]
    exact ⟨_, hhere⟩
  · intro k hk
    rw [hfile, Function.update_noteq hk, h2 k hk]
  · intro hpos
    rw [← h3 hpos, h1]

theorem StoreInv_memo (L : Libc) (d0 : DF_INFO) (j : Nat) (d : DF_INFO) (ptr : List Nat)
    (hI : IndexInv d) (hS : StoreInv L d0 j d) :
    StoreInv L d0 j (dff_WriteBlocks d ptr DF_WRITING_MEMO) := by
  obtain ⟨w1, w2, w3, rest, _, w5, w6⟩ := StoreInv_write L d0 j d ptr DF_WRITING_MEMO hI hS
  refine ⟨w1, w2, fun k => ?_⟩
  obtain ⟨chains, c1, c2, c3⟩ := hS.2.2 k
  have hlog : (dff_WriteBlocks d ptr DF_WRITING_MEMO).logical = d.logical := by
    rw [dff_WriteBlocks_logical, if_neg (by decide)]
  refine ⟨chains, c1, by rw [hlog]; exact c2, fun hpos => ?_⟩
  rw [hlog] at hpos
  by_cases hk : k = d.indx
  · subst hk
    obtain ⟨rest2, r1, r2⟩ := c3 hpos
    have e := w5 hpos
    rw [r1] at e
    have er : rest2 = rest := by
      injection e with e
      injection e
    subst er
    exact ⟨_, w6, HoldsChains_append _ _ _ r2⟩
  · rw [w3 k hk]
    exact c3 hpos

theorem StoreInv_record (L : Libc) (d0 : DF_INFO) (j : Nat) (d : DF_INFO) (ptr : List Nat)
    (hI : IndexInv d) (hS : StoreInv L d0 j d)
    (hroute : routeOf d0 (recordAt d0 j) = d.indx)
    (hchain : IsRecordChain L d0 j
      (dff_WriteBlocks.chain (d.physical d.indx) (dff_WriteBlocks.text ptr DF_WRITING_RECORD))) :
    StoreInv L d0 (j + 1) (dff_WriteBlocks d ptr DF_WRITING_RECORD) := by
  obtain ⟨w1, w2, w3, rest, _, w5, w6⟩ := StoreInv_write L d0 j d ptr DF_WRITING_RECORD hI hS
  refine ⟨w1, w2, fun k => ?_⟩
  obtain ⟨chains, c1, c2, c3⟩ := hS.2.2 k
  have hlog : (dff_WriteBlocks d ptr DF_WRITING_RECORD).logical =
      Function.update d.logical d.indx (d.logical d.indx + 1) := by
    rw [dff_WriteBlocks_logical, if_pos rfl]
  rw [List.range_succ, List.filter_append]
  by_cases hk : k = d.indx
  · subst hk
    have hf : List.filter (fun i => decide (routeOf d0 (recordAt d0 i) = d.indx)) [j] = [j] := by
      simp [hroute]
    rw [hf]
    refine ⟨chains ++ [_], List.rel_append c1 (List.Forall₂.cons hchain List.Forall₂.nil), ?_,
      fun _ => ⟨_, w6, ?_⟩⟩
    · rw [hlog, Function.update_same, List.length_append, c2]
      rfl
    · by_cases h0 : d.logical d.indx = 0
      · have : chains = [] := List.length_eq_zero.mp (by rw [c2, h0])
        rw [this]
        exact HoldsChains_snoc [] _ rest trivial
      · have hpos := Nat.pos_of_ne_zero h0
        obtain ⟨rest2, r1, r2⟩ := c3 hpos
        have e := w5 hpos
        rw [r1] at e
        have er : rest2 = rest := by
          injection e with e
          injection e
        subst er
        exact HoldsChains_snoc _ _ _ r2
  · have hf : List.filter (fun i => decide (routeOf d0 (recordAt d0 i) = k)) [j] = [] := by
      simp [hroute, Ne.symm hk]
    rw [hf, List.append_nil]
    refine ⟨chains, c1, ?_, fun hpos => ?_⟩
    · rw [hlog, Function.update_noteq hk]
      exact c2
    · rw [hlog, Function.update_noteq hk] at hpos
      rw [w3 k hk]
      exact c3 hpos

theorem StoreInv_close (L : Libc) (d0 : DF_INFO) (j : Nat) (d : DF_INFO) (i : Nat) (rn : Int)
    (pos : Nat) (h : StoreInv L d0 j d) :
    StoreInv L d0 j { d with indx := i, rec_num := rn, dbf_pos := pos, dff := none, dfa := none } := by
  obtain ⟨h1, _, h3⟩ := h
  exact And.intro h1 (And.intro (fun h0 hh => by cases hh) h3)

theorem dBase_ProcessRecord_split_store (L : Libc) (d0 d : DF_INFO) (s j : Nat)
    (hc : d.config = d0.config)
    (hsp : d0.split = (s : Int)) (hs : s < d0.num_flds)
    (htype : d0.fld_type.getD s 0 = DBASE_CHARACTER_FLD)
    (hpos : d.dbf_pos = j * d0.bytes) (hin : (j + 1) * d0.bytes ≤ d0.dbf.length)
    (hdel : d0.rec_buffer ≠ (DBASE_DELETED : Int) ∨ d0.undel = true)
    (hI : IndexInv d) (hS : StoreInv L d0 j d) :
    ∃ d1 : DF_INFO, dBase_ProcessRecord L d = Outcome.ret d1 ∧ d1.config = d0.config ∧
      IndexInv d1 ∧
      ((d1.rec_num = d.rec_num - 1 ∧ d1.dbf_pos = d.dbf_pos ∧ StoreInv L d0 j d1) ∨
        (d1.rec_num = d.rec_num ∧ d1.dbf_pos = d.dbf_pos + d0.bytes ∧
          StoreInv L d0 (j + 1) d1)) := by
  obtain ⟨g1, g2, g3, g4, g5, g6, g7, g8, g9⟩ := config_fields _ _ hc
  have hrec : recordAt d j = recordAt d0 j := by
    unfold recordAt; rw [g5, g9]
  have hgot : List.take d.bytes (List.drop d.dbf_pos d.dbf) = recordAt d j := by
    unfold recordAt; rw [hpos, g5]
  have hlen : (recordAt d j).length = d.bytes := by
    unfold recordAt
    rw [List.length_take, List.length_drop, g5, g9]
    have : (j + 1) * d0.bytes = j * d0.bytes + d0.bytes := by ring
    omega
  have hkey : dBase_ProcessRecord.route
      ((dff_TrimText (strncpy ((recordAt d j ++ [0]).drop (fieldOffset d.fld_len s))
        (d.fld_len.getD s 0) ++ [0])).getD 0 0) = routeOf d0 (recordAt d0 j) := by
    unfold routeOf routingField
    rw [hsp, hrec, g4]
    rfl
  unfold dBase_ProcessRecord
  simp only [hgot, hlen]
  rw [if_neg (by simp)]
  have hnd : ¬ (d.rec_buffer = (DBASE_DELETED : Int) ∧ d.undel = false) := by
    rw [g8, g6]
    rintro ⟨h1, h2⟩
    rcases hdel with h | h
    · exact h h1
    · rw [h] at h2; cases h2
  rw [if_neg hnd]
  have hf := fields_route L (recordAt d j ++ [0]) d.dbf_pos d.fld_len d.fld_type d.num_flds s
    d.indx (routeOf d0 (recordAt d0 j)) (by rw [g2]; exact hs) (by rw [g3]; exact htype) hkey d.num_flds 0
    { d with dbf_pos := d.dbf_pos + d.bytes } 1 []
    rfl rfl rfl (by rw [← hsp]; exact g1) (by omega) rfl (fun _ => rfl) (fun h => by omega)
  have hl := fields_layout L (recordAt d j ++ [0]) d.dbf_pos d.fld_len d.fld_type d.num_flds
    d.num_flds 0 { d with dbf_pos := d.dbf_pos + d.bytes } 1 [] rfl rfl rfl (by omega) rfl
  have hp := fields_preserves (fun x => IndexInv x ∧ StoreInv L d0 j x)
    (fun x ptr h => ⟨dff_WriteBlocks_IndexInv x ptr _ h.1, StoreInv_memo L d0 j x ptr h.1 h.2⟩)
    (fun x i h hd => ⟨IndexInv_set_indx x i h.1 hd, h.2⟩)
    (fun x i rn pos h => ⟨IndexInv_close x i rn pos h.1, StoreInv_close L d0 j x i rn pos h.2⟩)
    L (recordAt d j ++ [0]) d.dbf_pos d.num_flds 0 { d with dbf_pos := d.dbf_pos + d.bytes } 1 []
    ⟨hI, hS⟩
  generalize dBase_ProcessRecord.fields L (recordAt d j ++ [0]) d.dbf_pos d.num_flds 0
    { d with dbf_pos := d.dbf_pos + d.bytes } 1 [] = res at hf hl hp ⊢
  cases res with
  | inl d2 =>
    obtain ⟨_, _, _, _, _, h6, h7, h8⟩ := hf
    exact ⟨d2, rfl, h6.trans hc, hp.1, Or.inl ⟨h7, h8, hp.2⟩⟩
  | inr p =>
    obtain ⟨d2, out⟩ := p
    obtain ⟨h1, _, h3, h4, h5⟩ := hf
    obtain ⟨texts, t1, t2, t3⟩ := hl
    simp only at h1 h3 h4 h5 t2 hp
    obtain ⟨f1, f2, f3⟩ := dff_WriteBlocks_frame d2 out DF_WRITING_RECORD
    refine ⟨_, rfl, (f1.trans h3).trans hc, dff_WriteBlocks_IndexInv d2 out _ hp.1,
      Or.inr ⟨by rw [f2, h4], by rw [f3, h5, g5], ?_⟩⟩
    refine StoreInv_record L d0 j d2 out hp.1 hp.2 ?_ ⟨d2.physical d2.indx, texts,
      by rw [t1, g2], fun i hi => ?_, ?_⟩
    · exact h1.symm
    · have := t3 i (by rw [g2]; exact hi)
      rw [Nat.zero_add, g3, g4, hrec] at this
      exact this
    · rw [t2, List.nil_append]

theorem main_steps_store (L : Libc) (d0 : DF_INFO) (s n : Nat)
    (hsp : d0.split = (s : Int)) (hs : s < d0.num_flds)
    (htype : d0.fld_type.getD s 0 = DBASE_CHARACTER_FLD)
    (hn : d0.num_records = (n : Int)) (hin : n * d0.bytes ≤ d0.dbf.length)
    (hdel : d0.rec_buffer ≠ (DBASE_DELETED : Int) ∨ d0.undel = true) (k : Nat) :
    ∀ d : DF_INFO, d.config = d0.config → IndexInv d →
      (∃ j, j ≤ n ∧ d.rec_num = (j : Int) ∧ d.dbf_pos = j * d0.bytes ∧ StoreInv L d0 j d) →
      (main.steps L k d).config = d0.config ∧ IndexInv (main.steps L k d) ∧
      ∃ j, j ≤ n ∧ (main.steps L k d).rec_num = (j : Int) ∧
        (main.steps L k d).dbf_pos = j * d0.bytes ∧ StoreInv L d0 j (main.steps L k d) := by
  induction k with
  | zero => intro d hc hI hj; exact ⟨hc, hI, hj⟩
  | succ k ih =>
    intro d hc hI hj
    obtain ⟨j, hjn, hr, hp, hS⟩ := hj
    simp only [main.steps]
    by_cases hlt : d.rec_num < d.num_records
    · rw [if_pos hlt]
      have hnr := (config_fields d d0 hc).2.2.2.2.2.2.1
      have hj1 : j < n := by
        rw [hnr, hn, hr] at hlt
        exact_mod_cast hlt
      have hin2 : (j + 1) * d0.bytes ≤ d0.dbf.length :=
        le_trans (Nat.mul_le_mul_right _ (by omega)) hin
      obtain ⟨d1, hret, hc1, hI1, hcase⟩ :=
        dBase_ProcessRecord_split_store L d0 d s j hc hsp hs htype hp hin2 hdel hI hS
      rw [hret]
      refine ih { d1 with rec_num := d1.rec_num + 1 } hc1 hI1 ?_
      rcases hcase with ⟨h1, h2, h3⟩ | ⟨h1, h2, h3⟩
      · refine ⟨j, hjn, ?_, ?_, h3⟩
        · show d1.rec_num + 1 = (j : Int)
          rw [h1, hr]; omega
        · show d1.dbf_pos = j * d0.bytes
          rw [h2, hp]
      · refine ⟨j + 1, hj1, ?_, ?_, h3⟩
        · show d1.rec_num + 1 = ((j + 1 : Nat) : Int)
          rw [h1, hr]; omega
        · show d1.dbf_pos = (j + 1) * d0.bytes
          rw [h2, hp, Nat.succ_mul]
    · rw [if_neg hlt]
      exact ⟨hc, hI, j, hjn, hr, hp, hS⟩

theorem main_loop_success (L : Libc) (fuel : Nat) :
    ∀ (d final : DF_INFO), main.loop L fuel d = some (DF_SUCCESS, final) →
      ¬ final.rec_num < final.num_records := by
  induction fuel with
  | zero => intro d final h; simp [main.loop] at h
  | succ fuel ih =>
    intro d final h
    simp only [main.loop] at h
    by_cases hlt : d.rec_num < d.num_records
    · rw [if_pos hlt] at h
      rcases dBase_ProcessRecord_cases L d with ⟨_, d1, he⟩ | ⟨_, d1, he, _⟩
      · rw [he] at h
        simp only [Option.some.injEq, Prod.mk.injEq] at h
        exact absurd h.1 (by decide)
      · rw [he] at h
        exact ih _ final h
    · rw [if_neg hlt] at h
      simp only [Option.some.injEq, Prod.mk.injEq] at h
      rw [← h.2]
      exact hlt

theorem StoreInv_of_fresh (L : Libc) (d : DF_INFO) (hl : ∀ k, d.logical k = 0)
    (hd : d.dff = none) : StoreInv L d 0 d := by
  refine And.intro rfl (And.intro (fun h hh => by rw [hd] at hh; cases hh) (fun k => ?_))
  refine ⟨[], ?_, by rw [hl k]; rfl, fun h => by rw [hl k] at h; exact absurd h (lt_irrefl _)⟩
  simp only [List.range_zero, List.filter_nil]
  exact List.Forall₂.nil

/-- C6: in split mode every converted record lands in exactly one partition.
For a run in split mode on `n` complete records, none of them skipped, started
with the counters and handles as `dff_Init` leaves them: with `2 n + 1`
iterations of fuel or more the record loop ends with success; the number of
records written to partition `k` (`logical[k]`) is the number of input records
whose transcoded routing field selects `k`; the .dft file of a partition with
records holds exactly that many rows; the .dff file of a partition with records
is the header line followed by blocks that hold, in the order of the records,
one record chain for each record whose routing field selects the partition, the
chain of the field texts of that record, and no other record chain is counted
for it; and the counts of the 28 partitions sum to `n`. -/
theorem split_run_lands_once (L : Libc) (d : DF_INFO) (n fuel : Nat)
    (hn : d.num_records = (n : Int)) (hrec : d.rec_num = 0) (hpos : d.dbf_pos = 0)
    (hs0 : 0 ≤ d.split) (hs1 : d.split < (d.num_flds : Int))
    (htype : d.fld_type.getD d.split.toNat 0 = DBASE_CHARACTER_FLD)
    (hinput : n * d.bytes ≤ d.dbf.length)
    (hdel : d.rec_buffer ≠ (DBASE_DELETED : Int) ∨ d.undel = true)
    (hl : ∀ k, d.logical k = 0) (hd : d.dff = none) (ha : d.dfa = none)
    (hfuel : 2 * n + 1 ≤ fuel) :
    ∃ final : DF_INFO, main.loop L fuel d = some (DF_SUCCESS, final) ∧
      (∀ k, final.logical k =
        (List.range n).countP (fun j => decide (routeOf d (recordAt d j) = k))) ∧
      (∀ k, 0 < final.logical k → ∃ rows : List Row, final.dftFile k = some rows ∧
        rows.length = final.logical k) ∧
      (∀ k, 0 < final.logical k →
        ∃ (chains : List (List (List Nat))) (rest : List (List Nat)),
          final.dffFile k = some (dff_Open.header d.model :: rest) ∧
          HoldsChains chains rest ∧ chains.length = final.logical k ∧
          List.Forall₂ (IsRecordChain L d)
            ((List.range n).filter (fun j => decide (routeOf d (recordAt d j) = k))) chains) ∧
      Finset.sum (Finset.range DF_MAX_SPLIT) final.logical = n := by
  have hsp : d.split = ((d.split.toNat : Nat) : Int) := (Int.toNat_of_nonneg hs0).symm
  have hs : d.split.toNat < d.num_flds := by omega
  obtain ⟨final, hfin, hlog⟩ := main_loop_split L d d.split.toNat n hsp hs htype hn hinput hdel n 0 d
    fuel (by omega) rfl (by rw [hrec]; rfl) (by rw [hpos]; simp) hfuel
  have hlog2 : ∀ k, final.logical k =
      (List.range n).countP (fun j => decide (routeOf d (recordAt d j) = k)) := by
    intro k
    rw [hlog k, hl k, Nat.zero_add, List.range_eq_range']
  refine ⟨final, hfin, hlog2, ?_, ?_, ?_⟩
  · intro k hk
    have hinv := main_loop_IndexInv L fuel d DF_SUCCESS final (IndexInv_of_fresh d hl hd ha) hfin
    obtain ⟨rows, h1, h2, _⟩ := hinv.2.2 k hk
    refine ⟨rows, h1, ?_⟩
    have := congrArg List.length h2
    simpa using this
  · intro k hk
    have hst := main_steps_store L d d.split.toNat n hsp hs htype hn hinput hdel fuel d rfl
      (IndexInv_of_fresh d hl hd ha)
      ⟨0, Nat.zero_le _, by rw [hrec]; rfl, by rw [hpos, Nat.zero_mul], StoreInv_of_fresh L d hl hd⟩
    rw [← main_loop_eq_steps L fuel d DF_SUCCESS final hfin] at hst
    obtain ⟨hcf, _, j, hjn, hjr, _, hS⟩ := hst
    have hge := main_loop_success L fuel d final hfin
    have hjeq : j = n := by
      rw [hjr, (config_fields final d hcf).2.2.2.2.2.2.1, hn] at hge
      omega
    subst hjeq
    obtain ⟨chains, c1, c2, c3⟩ := hS.2.2 k
    obtain ⟨rest, r1, r2⟩ := c3 hk
    exact ⟨chains, rest, r1, r2, c2, c1⟩
  · have : final.logical = fun k =>
        (List.range n).countP (fun j => decide (routeOf d (recordAt d j) = k)) := funext hlog2
    rw [this, count_by_partition (fun j => routeOf d (recordAt d j)) DF_MAX_SPLIT
      (fun j => route_lt _) (List.range n), List.length_range]

set_option maxRecDepth 100000 in
/-- C6 at a concrete input: the run on the example input `DF_INFO.sample`. -/
theorem split_run_lands_once_witness :
    DF_INFO.sample.num_records = ((2 : Nat) : Int) ∧ DF_INFO.sample.rec_num = 0 ∧
    DF_INFO.sample.dbf_pos = 0 ∧ 0 ≤ DF_INFO.sample.split ∧
    DF_INFO.sample.split < (DF_INFO.sample.num_flds : Int) ∧
    DF_INFO.sample.fld_type.getD DF_INFO.sample.split.toNat 0 = DBASE_CHARACTER_FLD ∧
    2 * DF_INFO.sample.bytes ≤ DF_INFO.sample.dbf.length ∧
    (DF_INFO.sample.rec_buffer ≠ (DBASE_DELETED : Int) ∨ DF_INFO.sample.undel = true) ∧
    (∀ k, DF_INFO.sample.logical k = 0) ∧ DF_INFO.sample.dff = none ∧
    DF_INFO.sample.dfa = none ∧ 2 * 2 + 1 ≤ 5 ∧
    ∃ final : DF_INFO, main.loop Libc.zero 5 DF_INFO.sample = some (DF_SUCCESS, final) ∧
      (∀ k, final.logical k = (List.range 2).countP
        (fun j => decide (routeOf DF_INFO.sample (recordAt DF_INFO.sample j) = k))) ∧
      (∀ k, 0 < final.logical k → ∃ rows : List Row, final.dftFile k = some rows ∧
        rows.length = final.logical k) ∧
      (∀ k, 0 < final.logical k →
        ∃ (chains : List (List (List Nat))) (rest : List (List Nat)),
          final.dffFile k = some (dff_Open.header DF_INFO.sample.model :: rest) ∧
          HoldsChains chains rest ∧ chains.length = final.logical k ∧
          List.Forall₂ (IsRecordChain Libc.zero DF_INFO.sample)
            ((List.range 2).filter
              (fun j => decide (routeOf DF_INFO.sample (recordAt DF_INFO.sample j) = k)))
            chains) ∧
      Finset.sum (Finset.range DF_MAX_SPLIT) final.logical = 2 :=
  ⟨by decide, by decide, by decide, by decide, by decide, by decide, by decide,
    Or.inl (by decide), fun _ => rfl, rfl, rfl, by decide,
    split_run_lands_once Libc.zero DF_INFO.sample 2 5 (by decide) (by decide) (by decide)
      (by decide) (by decide) (by decide) (by decide) (Or.inl (by decide)) (fun _ => rfl) rfl rfl
      (by decide)⟩

/-! ## Numeric fields: rounding a fraction -/

theorem zpow_toNat (b : ℚ) (e : Int) (h : 0 ≤ e) : b ^ e = b ^ e.toNat := by
  conv_lhs => rw [← Int.toNat_of_nonneg h]
  exact zpow_natCast b _

theorem zpow_neg_toNat (b : ℚ) (e : Int) (h : e < 0) : b ^ e = (b ^ (-e).toNat)⁻¹ := by
  have h1 : e = -(((-e).toNat : Nat) : Int) := by
    rw [Int.toNat_of_nonneg (by omega)]; omega
  calc b ^ e = b ^ (-(((-e).toNat : Nat) : Int)) := by rw [← h1]
    _ = (b ^ (((-e).toNat : Nat) : Int))⁻¹ := zpow_neg _ _
    _ = (b ^ (-e).toNat)⁻¹ := by rw [zpow_natCast]

theorem floorLog_spec (B : Nat) (hB : 1 < B) : ∀ (fuel n : Nat), n ≤ fuel → 0 < n →
    B ^ floorLog B fuel n ≤ n ∧ n < B ^ (floorLog B fuel n + 1) := by
  intro fuel
  induction fuel with
  | zero => intro n h1 h2; omega
  | succ fuel ih =>
    intro n h1 h2
    simp only [floorLog]
    split
    · rename_i h
      simp only [pow_zero, zero_add, pow_one]
      exact ⟨h2, h⟩
    · rename_i h
      have hB0 : 0 < B := by omega
      have hlt : n / B < n := Nat.div_lt_self h2 hB
      have hpos : 0 < n / B := Nat.div_pos (by omega) hB0
      obtain ⟨i1, i2⟩ := ih (n / B) (by omega) hpos
      constructor
      · calc B ^ (floorLog B fuel (n / B) + 1) = B ^ floorLog B fuel (n / B) * B := pow_succ _ _
          _ ≤ n / B * B := Nat.mul_le_mul_right _ i1
          _ ≤ n := Nat.div_mul_le_self n B
      · rw [pow_succ]
        exact (Nat.div_lt_iff_lt_mul hB0).1 i2

theorem ratLog_eq (B : Nat) (hB : 0 < B) (N D : Nat) (hD : 0 < D) :
    ratLog B N D =
      if (B : ℚ) ^ ((floorLog B N N : Int) - (floorLog B D D : Int)) ≤ (N : ℚ) / D then
        (floorLog B N N : Int) - (floorLog B D D : Int)
      else (floorLog B N N : Int) - (floorLog B D D : Int) - 1 := by
  have hBq : (0 : ℚ) < B := by exact_mod_cast hB
  have hDq : (0 : ℚ) < D := by exact_mod_cast hD
  unfold ratLog
  generalize (floorLog B N N : Int) - (floorLog B D D : Int) = k
  by_cases hk : 0 ≤ k
  · rw [if_pos hk]
    have e : (D * B ^ k.toNat ≤ N) ↔ ((B : ℚ) ^ k ≤ (N : ℚ) / D) := by
      rw [zpow_toNat _ k hk, le_div_iff₀ hDq]
      constructor
      · intro h
        have : ((D * B ^ k.toNat : Nat) : ℚ) ≤ (N : ℚ) := by exact_mod_cast h
        push_cast at this
        linarith
      · intro h
        have : ((D * B ^ k.toNat : Nat) : ℚ) ≤ (N : ℚ) := by
          push_cast
          linarith
        exact_mod_cast this
    by_cases h : D * B ^ k.toNat ≤ N
    · rw [if_pos h, if_pos (e.1 h)]
    · rw [if_neg h, if_neg (fun h2 => h (e.2 h2))]
  · rw [if_neg hk]
    have hp : (0 : ℚ) < (B : ℚ) ^ (-k).toNat := pow_pos hBq _
    have e : (D ≤ N * B ^ (-k).toNat) ↔ ((B : ℚ) ^ k ≤ (N : ℚ) / D) := by
      rw [zpow_neg_toNat _ k (by omega), le_div_iff₀ hDq, inv_mul_le_iff₀ hp]
      constructor
      · intro h
        have : ((D : Nat) : ℚ) ≤ ((N * B ^ (-k).toNat : Nat) : ℚ) := by exact_mod_cast h
        push_cast at this
        linarith
      · intro h
        have : ((D : Nat) : ℚ) ≤ ((N * B ^ (-k).toNat : Nat) : ℚ) := by
          push_cast
          linarith
        exact_mod_cast this
    by_cases h : D ≤ N * B ^ (-k).toNat
    · rw [if_pos h, if_pos (e.1 h)]
    · rw [if_neg h, if_neg (fun h2 => h (e.2 h2))]

/-- The exponent computed by ratLog is the floor of the logarithm of the
fraction, for a digit count c that is the floor of the logarithm on naturals. -/
theorem ratLog_spec (B : Nat) (hB : 1 < B) (N D : Nat) (hN : 0 < N) (hD : 0 < D) :
    (B : ℚ) ^ ratLog B N D ≤ (N : ℚ) / D ∧ (N : ℚ) / D < (B : ℚ) ^ (ratLog B N D + 1) := by
  have hBq : (0 : ℚ) < B := by exact_mod_cast (by omega : 0 < B)
  have hB1 : (1 : ℚ) < B := by exact_mod_cast hB
  have hDq : (0 : ℚ) < D := by exact_mod_cast hD
  have hNq : (0 : ℚ) < N := by exact_mod_cast hN
  obtain ⟨n1, n2⟩ := floorLog_spec B hB N N (le_refl _) hN
  obtain ⟨d1, d2⟩ := floorLog_spec B hB D D (le_refl _) hD
  revert n1 n2 d1 d2
  rw [ratLog_eq B (by omega) N D hD]
  generalize floorLog B N N = cN
  generalize floorLog B D D = cD
  intro n1 n2 d1 d2
  have n1q : (B : ℚ) ^ (cN : Int) ≤ N := by rw [zpow_natCast]; exact_mod_cast n1
  have n2q : (N : ℚ) < (B : ℚ) ^ ((cN : Int) + 1) := by
    have : (N : ℚ) < (B : ℚ) ^ (cN + 1) := by exact_mod_cast n2
    rw [← zpow_natCast] at this
    exact_mod_cast this
  have d1q : (B : ℚ) ^ (cD : Int) ≤ D := by rw [zpow_natCast]; exact_mod_cast d1
  have d2q : (D : ℚ) < (B : ℚ) ^ ((cD : Int) + 1) := by
    have : (D : ℚ) < (B : ℚ) ^ (cD + 1) := by exact_mod_cast d2
    rw [← zpow_natCast] at this
    exact_mod_cast this
  have hpD : (0 : ℚ) < (B : ℚ) ^ (cD : Int) := zpow_pos hBq _
  have hpD1 : (0 : ℚ) < (B : ℚ) ^ ((cD : Int) + 1) := zpow_pos hBq _
  split
  · rename_i h
    refine ⟨h, ?_⟩
    have e : (B : ℚ) ^ ((cN : Int) - (cD : Int) + 1) =
        (B : ℚ) ^ ((cN : Int) + 1) / (B : ℚ) ^ (cD : Int) := by
      rw [← zpow_sub₀ hBq.ne.symm]; congr 1; ring
    rw [e, div_lt_div_iff₀ hDq hpD]
    calc (N : ℚ) * (B : ℚ) ^ (cD : Int) ≤ N * D := mul_le_mul_of_nonneg_left d1q hNq.le
      _ < (B : ℚ) ^ ((cN : Int) + 1) * D := mul_lt_mul_of_pos_right n2q hDq
  · rename_i h
    have e0 : (cN : Int) - (cD : Int) - 1 + 1 = (cN : Int) - (cD : Int) := by ring
    rw [e0]
    refine ⟨?_, not_le.1 h⟩
    have e : (B : ℚ) ^ ((cN : Int) - (cD : Int) - 1) =
        (B : ℚ) ^ (cN : Int) / (B : ℚ) ^ ((cD : Int) + 1) := by
      rw [← zpow_sub₀ hBq.ne.symm]; congr 1; ring
    rw [e, div_le_div_iff₀ hpD1 hDq]
    calc (B : ℚ) ^ (cN : Int) * D ≤ N * D := mul_le_mul_of_nonneg_right n1q hDq.le
      _ ≤ N * (B : ℚ) ^ ((cD : Int) + 1) := mul_le_mul_of_nonneg_left d2q.le hNq.le

/-! ## Numeric fields: the value as a `float` -/

theorem ratLog_lt (B : Nat) (hB : 1 < B) (N D : Nat) (hN : 0 < N) (hD : 0 < D) (L : Int)
    (h : (N : ℚ) / D < (B : ℚ) ^ L) : ratLog B N D < L := by
  have hB1 : (1 : ℚ) < B := by exact_mod_cast hB
  have h2 := (ratLog_spec B hB N D hN hD).1
  by_contra hc
  have h3 : L ≤ ratLog B N D := by omega
  have h4 := zpow_le_zpow_right₀ hB1.le h3
  linarith

theorem strtod_negative_minus (cs : List Nat) : strtod.negative (45 :: cs) = true := rfl

end Dbf2dff
